import Mathlib

/-!
IGC file manager (Victor 9000): panel model and file-operation engine.

A shallow embedding of `panel.c`, `util.c`, `fileops.c` and `config.c`, over a model of the
calls that `fileops.c` makes into `dosapi.c`, `dialog.c`, `keyboard.c` and `ui.c`.

Conventions used throughout:

* a C string is the list of its bytes (values `0..255`) in front of the NUL terminator;
  reading a buffer at or past the end of the list yields the terminator `0`;
* `uint16_t` values are natural numbers below `65536`, and every arithmetic expression that
  the 16-bit target evaluates in `unsigned int` is reduced modulo `65536` explicitly;
* `int` results (comparison results, `FOPS_*` codes) are integers.
-/

namespace IGC
/-! ## igc.h -/

/-- Visible file rows of a panel (`PANEL_HEIGHT`). -/
def PANEL_HEIGHT : Nat := 19

/-- Directory bit of a DOS attribute byte (`DOS_ATTR_DIRECTORY`). -/
def DOS_ATTR_DIRECTORY : Nat := 0x10

/-- Escape key code (`KEY_ESC`). -/
def KEY_ESC : Nat := 0x1B

/-- Sum of two `uint16_t` values as the 16-bit target computes it. -/
def u16add (a b : Nat) : Nat := (a + b) % 65536

/-- Difference of two `uint16_t` values as the 16-bit target computes it (wraps below zero). -/
def u16sub (a b : Nat) : Nat := (a + (65536 - b % 65536)) % 65536

/-! ## util.c -/

/-- Byte `s[i]` of a NUL-terminated buffer. -/
def chr (s : List Nat) (i : Nat) : Nat := s.getD i 0

/-- The function `char_upper`: letters `a..z` are moved to `A..Z`, other bytes are kept. -/
def char_upper (c : Nat) : Nat := if 97 ≤ c ∧ c ≤ 122 then c - 32 else c

/-- The function `str_cmp_i`: walk both strings while neither is at its terminator, return the
difference of the first pair of upper-cased bytes that differ, and at the end of either string
the difference of the upper-cased current bytes. -/
def str_cmp_i : List Nat → List Nat → Int
  | c1 :: s1, c2 :: s2 =>
    if c1 ≠ 0 ∧ c2 ≠ 0 then
      if char_upper c1 ≠ char_upper c2 then (char_upper c1 : Int) - (char_upper c2 : Int)
      else str_cmp_i s1 s2
    else (char_upper c1 : Int) - (char_upper c2 : Int)
  | [], c2 :: _ => (char_upper 0 : Int) - (char_upper c2 : Int)
  | c1 :: _, [] => (char_upper c1 : Int) - (char_upper 0 : Int)
  | [], [] => (char_upper 0 : Int) - (char_upper 0 : Int)

/-- The function `str_copy_n`: copy bytes up to the terminator, at most `maxlen - 1` of them. -/
def str_copy_n (src : List Nat) (maxlen : Nat) : List Nat :=
  (src.takeWhile (fun c => c != 0)).take (maxlen - 1)

/-- The function `path_is_root`: the empty path or a single backslash. -/
def path_is_root (path : List Nat) : Bool :=
  if chr path 0 = 0 then true
  else if chr path 0 = 92 ∧ chr path 1 = 0 then true
  else false

/-! ## panel.h -/

/-- One directory entry of a panel (`FileEntry`). -/
structure FileEntry where
  attr : Nat
  time : Nat
  date : Nat
  size : Nat
  name : List Nat
  selected : Nat
  deriving DecidableEq

/-- The dynamic file array of a panel (`FileList`). The field `entries` holds the live slots
`entries[0 .. count)`; slots at or past `count` are never read by any function of `panel.c`
(`panel_get_file` and `panel_get_cursor_file` check the index against `count`). -/
structure FileList where
  entries : List FileEntry
  capacity : Nat
  count : Nat
  truncated : Bool
  deriving DecidableEq

/-- One panel (`Panel`). -/
structure Panel where
  drive : Nat
  path : List Nat
  top : Nat
  cursor : Nat
  sel_count : Nat
  files : FileList
  deriving DecidableEq

/-- One record delivered by the DOS find-first / find-next calls (`DTA`). -/
structure DTA where
  attr : Nat
  time : Nat
  date : Nat
  size : Nat
  name : List Nat
  deriving DecidableEq

/-! ## panel.c -/

/-- The function `file_is_dir`. -/
def file_is_dir (f : FileEntry) : Bool := f.attr &&& DOS_ATTR_DIRECTORY != 0

/-- The function `file_is_parent`: the name is exactly `".."`. -/
def file_is_parent (f : FileEntry) : Bool :=
  chr f.name 0 = 46 ∧ chr f.name 1 = 46 ∧ chr f.name 2 = 0

/-- The function `file_compare`: `".."` first, then directories before files, then the
case-insensitive name order. -/
def file_compare (a b : FileEntry) : Int :=
  let a_dir : Int := if a.attr &&& DOS_ATTR_DIRECTORY != 0 then 1 else 0
  let b_dir : Int := if b.attr &&& DOS_ATTR_DIRECTORY != 0 then 1 else 0
  if chr a.name 0 = 46 ∧ chr a.name 1 = 46 ∧ chr a.name 2 = 0 then -1
  else if chr b.name 0 = 46 ∧ chr b.name 1 = 46 ∧ chr b.name 2 = 0 then 1
  else if a_dir ≠ b_dir then b_dir - a_dir
  else str_cmp_i a.name b.name

/-- Inner loop of `sort_files`: `k` compare-and-swap steps on the neighbours at positions
`j, j + 1` for `j = 0, 1, .., k - 1`; the head of the list argument is slot `j`. -/
def sort_inner : Nat → List FileEntry → List FileEntry
  | k + 1, a :: b :: rest =>
    if file_compare a b > 0 then b :: sort_inner k (a :: rest)
    else a :: sort_inner k (b :: rest)
  | _, l => l

/-- The function `sort_files`: bubble sort, pass `i` runs `count - i - 1` inner steps. -/
def sort_files (fl : FileList) : FileList :=
  if fl.count < 2 then fl
  else
    let sorted := List.foldl (fun l i => sort_inner (fl.count - i - 1) l) fl.entries
      (List.range (fl.count - 1))
    { fl with entries := sorted }

/-- The synthetic `".."` entry that `panel_read_dir` puts in slot 0 below the root. -/
def parent_entry : FileEntry :=
  { attr := DOS_ATTR_DIRECTORY, time := 0, date := 0, size := 0, name := [46, 46],
    selected := 0 }

/-- The find loop of `panel_read_dir`. The list argument is the sequence of records that
find-first / find-next still deliver (empty: the last call reported failure); `acc` holds the
slots filled so far, so `count` is `acc.length`. The result carries the filled slots and the
`truncated` flag (`result == 0` when the loop stops). -/
def read_entries (capacity : Nat) : List DTA → List FileEntry → List FileEntry × Bool
  | [], acc => (acc, false)
  | d :: rest, acc =>
    if acc.length < capacity then
      if chr d.name 0 = 46 ∧ chr d.name 1 = 0 then read_entries capacity rest acc
      else if chr d.name 0 = 46 ∧ chr d.name 1 = 46 ∧ chr d.name 2 = 0 then
        read_entries capacity rest acc
      else
        read_entries capacity rest
          (acc ++ [{ attr := d.attr, time := d.time, date := d.date, size := d.size,
                     name := str_copy_n d.name 13, selected := 0 }])
    else (acc, true)

/-- The function `panel_init` when the allocation succeeds. -/
def panel_init (capacity : Nat) : Panel :=
  { drive := 0, path := [], top := 0, cursor := 0, sel_count := 0,
    files := { entries := [], capacity := capacity, count := 0, truncated := false } }

/-- The function `panel_read_dir`; `raw` is what DOS enumerates for the panel's pattern. -/
def panel_read_dir (p : Panel) (raw : List DTA) : Panel :=
  let start : List FileEntry := if path_is_root p.path then [] else [parent_entry]
  let r := read_entries p.files.capacity raw start
  let count := r.1.length
  let fl := sort_files { entries := r.1, capacity := p.files.capacity, count := count,
                         truncated := r.2 }
  let cursor := if p.cursor ≥ count then (if count > 0 then count - 1 else 0) else p.cursor
  let top := if p.top > cursor then cursor else p.top
  { p with files := fl, cursor := cursor, top := top }

/-- The order that `sort_files` establishes: `file_compare` does not ask for a swap. -/
def file_le (a b : FileEntry) : Prop := file_compare a b ≤ 0

/-- Sample panel below the root: drive C, path `\SUB`, eight slots. -/
def sample_panel : Panel :=
  { drive := 2, path := [92, 83, 85, 66], top := 0, cursor := 0, sel_count := 0,
    files := { entries := [], capacity := 8, count := 0, truncated := false } }

/-- Sample enumeration: `.`, `..`, file `b.txt`, directory `ZED`, file `A.TXT`. -/
def sample_raw : List DTA :=
  [ { attr := 0x10, time := 0, date := 0, size := 0, name := [46] },
    { attr := 0x10, time := 0, date := 0, size := 0, name := [46, 46] },
    { attr := 0x20, time := 1, date := 2, size := 10, name := [98, 46, 116, 120, 116] },
    { attr := 0x10, time := 3, date := 4, size := 0, name := [90, 69, 68] },
    { attr := 0x20, time := 5, date := 6, size := 256, name := [65, 46, 84, 88, 84] } ]

/-- The function `panel_refresh`: re-read, then put the cursor back when it is still valid. -/
def panel_refresh (p : Panel) (raw : List DTA) : Panel :=
  let old_cursor := p.cursor
  let q := panel_read_dir p raw
  if old_cursor < q.files.count then { q with cursor := old_cursor } else q

/-- The function `panel_get_cursor_file`; `none` stands for the null pointer. -/
def panel_get_cursor_file (p : Panel) : Option FileEntry :=
  if p.cursor ≥ p.files.count then none else p.files.entries[p.cursor]?

/-- The function `panel_get_file`; `none` stands for the null pointer. -/
def panel_get_file (p : Panel) (index : Nat) : Option FileEntry :=
  if index ≥ p.files.count then none else p.files.entries[index]?

/-- The function `panel_toggle_selection`. -/
def panel_toggle_selection (p : Panel) : Panel :=
  match panel_get_cursor_file p with
  | none => p
  | some f =>
    if file_is_parent f then p
    else if f.selected ≠ 0 then
      { p with
        files := { p.files with entries := p.files.entries.set p.cursor { f with selected := 0 } },
        sel_count := if p.sel_count > 0 then u16sub p.sel_count 1 else p.sel_count }
    else
      { p with
        files := { p.files with entries := p.files.entries.set p.cursor { f with selected := 1 } },
        sel_count := u16add p.sel_count 1 }

/-- The function `panel_clear_selection`: clears the flag of the slots `0 .. count - 1`. -/
def panel_clear_selection (p : Panel) : Panel :=
  { p with
    files := { p.files with
      entries := (p.files.entries.take p.files.count).map (fun e => { e with selected := 0 })
        ++ p.files.entries.drop p.files.count },
    sel_count := 0 }

/-- The function `panel_get_sel_count`. -/
def panel_get_sel_count (p : Panel) : Nat := p.sel_count

/-- The function `panel_cursor_up`. -/
def panel_cursor_up (p : Panel) : Panel :=
  if p.cursor > 0 then
    let c := u16sub p.cursor 1
    { p with cursor := c, top := if c < p.top then c else p.top }
  else p

/-- The function `panel_cursor_down`; `count - 1` is an `unsigned int` expression. -/
def panel_cursor_down (p : Panel) : Panel :=
  if p.cursor < u16sub p.files.count 1 then
    let c := u16add p.cursor 1
    { p with cursor := c,
             top := if c ≥ u16add p.top PANEL_HEIGHT then u16add (u16sub c PANEL_HEIGHT) 1
                    else p.top }
  else p

/-- The function `panel_cursor_home`. -/
def panel_cursor_home (p : Panel) : Panel := { p with cursor := 0, top := 0 }

/-- The function `panel_cursor_end`. -/
def panel_cursor_end (p : Panel) : Panel :=
  if p.files.count > 0 then
    let c := u16sub p.files.count 1
    { p with cursor := c,
             top := if c ≥ PANEL_HEIGHT then u16add (u16sub c PANEL_HEIGHT) 1 else 0 }
  else p

/-- The function `panel_page_up`. -/
def panel_page_up (p : Panel) : Panel :=
  { p with cursor := if p.cursor ≥ PANEL_HEIGHT then u16sub p.cursor PANEL_HEIGHT else 0,
           top := if p.top ≥ PANEL_HEIGHT then u16sub p.top PANEL_HEIGHT else 0 }

/-- The function `panel_page_down`. -/
def panel_page_down (p : Panel) : Panel :=
  let max_cursor := if p.files.count > 0 then u16sub p.files.count 1 else 0
  let c1 := u16add p.cursor PANEL_HEIGHT
  let c := if c1 > max_cursor then max_cursor else c1
  let t1 := u16add p.top PANEL_HEIGHT
  let t := if u16add t1 PANEL_HEIGHT > p.files.count then
             (if p.files.count ≥ PANEL_HEIGHT then u16sub p.files.count PANEL_HEIGHT else 0)
           else t1
  { p with cursor := c, top := t }

/-- The six navigation operations of a panel. -/
inductive NavOp where
  | up
  | down
  | home
  | last
  | pageUp
  | pageDown
  deriving DecidableEq

/-- Run one navigation operation. -/
def NavOp.run : NavOp → Panel → Panel
  | .up => panel_cursor_up
  | .down => panel_cursor_down
  | .home => panel_cursor_home
  | .last => panel_cursor_end
  | .pageUp => panel_page_up
  | .pageDown => panel_page_down

/-- The function `count_selected_files` of `fileops.c`. -/
def count_selected_files (p : Panel) : Nat :=
  ((p.files.entries.take p.files.count).filter (fun f => f.selected != 0)).length

/-- A panel with an empty listing (the root of an empty disk). -/
def empty_panel : Panel := panel_init 8

/-- A panel with a listing that fills the whole `uint16_t` range, cursor near the end. -/
def wide_panel : Panel :=
  { drive := 0, path := [], top := 65510, cursor := 65520, sel_count := 0,
    files := { entries := [], capacity := 65535, count := 65535, truncated := false } }

/-! ## util.c, path helpers

Path buffers are `char[80]` and DOS paths stay below that length; the lists are unbounded. -/

/-- The function `str_find_last`: index of the last occurrence of `c`, `none` for the null
pointer. `i` is the index of the head of the list argument. -/
def str_find_last_from (c : Nat) : List Nat → Nat → Option Nat → Option Nat
  | [], _, last => last
  | x :: s, i, last => str_find_last_from c s (i + 1) (if x = c then some i else last)

/-- The function `str_find_last`. -/
def str_find_last (s : List Nat) (c : Nat) : Option Nat := str_find_last_from c s 0 none

/-- The function `path_append`: add a backslash unless the path is empty or ends in one, then
the component. -/
def path_append (path component : List Nat) : List Nat :=
  if path.length > 0 ∧ chr path (path.length - 1) ≠ 92 then path ++ [92] ++ component
  else path ++ component

/-- The function `path_get_parent`: cut at the last backslash, keep a leading one. -/
def path_get_parent (path : List Nat) : List Nat :=
  match str_find_last path 92 with
  | some 0 => path.take 1
  | some (i + 1) => path.take (i + 1)
  | none => []

/-- The function `path_get_filename`: the part behind the last backslash. -/
def path_get_filename (path : List Nat) : List Nat :=
  match str_find_last path 92 with
  | some i => path.drop (i + 1)
  | none => path

/-- The function `path_basename` (alias of `path_get_filename`). -/
def path_basename (path : List Nat) : List Nat := path_get_filename path

/-- The function `panel_change_dir`. -/
def panel_change_dir (p : Panel) (dirname : List Nat) (raw : List DTA) : Panel :=
  let newpath :=
    if chr p.path 0 = 0 ∨ (chr p.path 0 = 92 ∧ chr p.path 1 = 0) then 92 :: dirname
    else path_append p.path dirname
  panel_read_dir { p with path := newpath, cursor := 0, top := 0 } raw

/-- The function `panel_go_parent`. -/
def panel_go_parent (p : Panel) (raw : List DTA) : Panel :=
  if path_is_root p.path then p
  else panel_read_dir { p with path := path_get_parent p.path, cursor := 0, top := 0 } raw

/-- The function `panel_set_drive`. -/
def panel_set_drive (p : Panel) (drive : Nat) (raw : List DTA) : Panel :=
  panel_read_dir { p with drive := drive, path := [], cursor := 0, top := 0 } raw

/-! ## The DOS environment

The INT 21h services behind `dosapi.c`, the keyboard and the dialogs are the environment of the
program. They are modelled by a small file system (a path-indexed table of files and
directories with a handle table) and by scripts that fix, call by call, what the user and the
device answer. Every call is appended to a log. -/

/-- A key event (`KeyEvent`). -/
structure KeyEvent where
  kind : Nat
  code : Nat
  deriving DecidableEq

/-- A node of the file system: a file with attribute byte and content, or a directory. -/
inductive Node where
  | file (attr : Nat) (data : List Nat)
  | dir
  deriving DecidableEq

/-- What the device does with one write call. -/
inductive WriteOutcome where
  | full
  | short (accepted : Nat)
  | error
  deriving DecidableEq

/-- Messages of `ui_error`. -/
inductive ErrMsg where
  | cannotOpenSource
  | cannotCreateDest
  | cannotCreateDir
  | cannotDeleteFile
  | cannotRemoveDir
  | cannotRename
  deriving DecidableEq

/-- Titles of `ui_show_progress`. -/
inductive Label where
  | copying
  | moving
  | deleting
  deriving DecidableEq

/-- One call into the environment, with its result. -/
inductive Ev where
  | exist (path : List Nat) (res : Bool)
  | delete (path : List Nat) (res : Int)
  | opened (path : List Nat) (res : Int)
  | create (path : List Nat) (res : Int)
  | read (h : Int) (res : Int)
  | write (h : Int) (bytes : List Nat) (res : Int)
  | close (h : Int)
  | mkdir (path : List Nat) (res : Int)
  | rmdir (path : List Nat) (res : Int)
  | rename (old new : List Nat) (res : Int)
  | getAttr (path : List Nat) (res : Int)
  | setAttr (path : List Nat) (attr : Nat) (res : Int)
  | overwrite (name : List Nat) (res : Int)
  | ask (name : List Nat) (res : Int)
  | kbd (key : Option KeyEvent)
  | progress (label : Label) (name : List Nat) (current total : Nat)
  | hideProgress
  | uiError (msg : ErrMsg)
  deriving DecidableEq

/-- The state of the environment together with the module statics of `fileops.c`. -/
structure World where
  /-- Files and directories by full path, in directory order. -/
  fs : List (List Nat × Node)
  /-- Open handles: handle, path, file position. -/
  handles : List (Nat × List Nat × Nat)
  /-- Results of the coming keyboard polls (`kbd_check` followed by `kbd_get`). -/
  keys : List (Option KeyEvent)
  /-- Results of the coming dialogs. -/
  answers : List Int
  /-- For each coming `dos_read`: does the device fail. -/
  read_faults : List Bool
  /-- For each coming `dos_write`: what the device does. -/
  write_faults : List WriteOutcome
  /-- The calls made so far, oldest first. -/
  log : List Ev
  g_copy_buf_size : Nat
  g_overwrite_all : Int
  g_file_count : Nat
  g_file_current : Nat

/-- Conversion of a register value to `int16_t`. -/
def toInt16 (n : Nat) : Int :=
  if n % 65536 < 32768 then (n % 65536 : Nat) else ((n % 65536 : Nat) : Int) - 65536

/-- Look a path up in the file system. -/
def fs_find (fs : List (List Nat × Node)) (path : List Nat) : Option Node :=
  match fs with
  | [] => none
  | e :: rest => if e.1 = path then some e.2 else fs_find rest path

/-- Store a node under a path: replace in place, or append a new directory entry. -/
def fs_put (fs : List (List Nat × Node)) (path : List Nat) (n : Node) :
    List (List Nat × Node) :=
  match fs with
  | [] => [(path, n)]
  | e :: rest => if e.1 = path then (path, n) :: rest else e :: fs_put rest path n

/-- Remove a path. -/
def fs_del (fs : List (List Nat × Node)) (path : List Nat) : List (List Nat × Node) :=
  fs.filter (fun e => e.1 ≠ path)

/-- The directory part of a search pattern `dir\*.*`, with its closing backslash. -/
def pattern_dir (pattern : List Nat) : List Nat := pattern.take (pattern.length - 3)

/-- The search record of one node. -/
def dta_of (name : List Nat) : Node → DTA
  | .file attr data => { attr := attr, time := 0, date := 0, size := data.length, name := name }
  | .dir => { attr := DOS_ATTR_DIRECTORY, time := 0, date := 0, size := 0, name := name }

/-- The entries directly inside the directory whose path with closing backslash is `d`. -/
def fs_children (fs : List (List Nat × Node)) (d : List Nat) : List DTA :=
  fs.filterMap (fun e =>
    if d.isPrefixOf e.1 ∧ e.1.length > d.length ∧ 92 ∉ e.1.drop d.length then
      some (dta_of (e.1.drop d.length) e.2)
    else none)

/-- What find-first / find-next deliver for a pattern `dir\*.*`: nothing when the directory
does not exist; `.` and `..` first in a subdirectory; then the entries in directory order. -/
def dos_find_all (fs : List (List Nat × Node)) (pattern : List Nat) : List DTA :=
  let d := pattern_dir pattern
  if d.length ≤ 3 then fs_children fs d
  else if fs_find fs (d.take (d.length - 1)) = some Node.dir then
    dta_of [46] Node.dir :: dta_of [46, 46] Node.dir :: fs_children fs d
  else []

/-- Append a call to the log. -/
def World.emit (w : World) (e : Ev) : World := { w with log := w.log ++ [e] }

/-- INT 21h, function 43h as used by `dos_exists`. -/
def dos_exists (path : List Nat) (w : World) : Bool × World :=
  let r := (fs_find w.fs path).isSome
  (r, w.emit (.exist path r))

/-- INT 21h, function 41h (`dos_delete`): removes a file that is not read-only. -/
def dos_delete (path : List Nat) (w : World) : Int × World :=
  match fs_find w.fs path with
  | some (.file attr _) =>
    if attr &&& 1 = 0 then (0, { w with fs := fs_del w.fs path }.emit (.delete path 0))
    else (-1, w.emit (.delete path (-1)))
  | _ => (-1, w.emit (.delete path (-1)))

/-- A handle that is not in use. -/
def fresh_handle (hs : List (Nat × List Nat × Nat)) : Nat :=
  (hs.map (fun h => h.1)).foldr max 4 + 1

/-- INT 21h, function 3Dh (`dos_open`): opens an existing file at position 0. -/
def dos_open (path : List Nat) (w : World) : Int × World :=
  match fs_find w.fs path with
  | some (.file _ _) =>
    let h := fresh_handle w.handles
    (h, { w with handles := (h, path, 0) :: w.handles }.emit (.opened path h))
  | _ => (-1, w.emit (.opened path (-1)))

/-- INT 21h, function 3Ch (`dos_create`): creates or truncates a file; fails on a directory
and on a read-only file. -/
def dos_create (path : List Nat) (attr : Nat) (w : World) : Int × World :=
  let ok : Bool :=
    match fs_find w.fs path with
    | some (.file a _) => a &&& 1 = 0
    | some .dir => false
    | none => true
  if ok then
    let h := fresh_handle w.handles
    (h, { w with fs := fs_put w.fs path (.file attr []),
                 handles := (h, path, 0) :: w.handles }.emit (.create path h))
  else (-1, w.emit (.create path (-1)))

/-- INT 21h, function 3Eh (`dos_close`). -/
def dos_close (h : Int) (w : World) : World :=
  { w with handles := w.handles.filter (fun e => (e.1 : Int) ≠ h) }.emit (.close h)

/-- Look a handle up. -/
def handle_find (hs : List (Nat × List Nat × Nat)) (h : Int) : Option (List Nat × Nat) :=
  match hs with
  | [] => none
  | e :: rest => if (e.1 : Int) = h then some e.2 else handle_find rest h

/-- Move the position of a handle. -/
def handle_seek (hs : List (Nat × List Nat × Nat)) (h : Int) (pos : Nat) :
    List (Nat × List Nat × Nat) :=
  hs.map (fun e => if (e.1 : Int) = h then (e.1, e.2.1, pos) else e)

/-- INT 21h, function 3Fh (`dos_read`): the bytes from the file position on, at most `count`
(a `uint16_t`); the result is the byte count as `int16_t`, or `-1` when the device fails. The
second component is what the call leaves in the buffer. -/
def dos_read (h : Int) (count : Nat) (w : World) : Int × List Nat × World :=
  let fault := w.read_faults.headD false
  let w0 := { w with read_faults := w.read_faults.tail }
  if fault then (-1, [], w0.emit (.read h (-1)))
  else
    match handle_find w0.handles h with
    | none => (-1, [], w0.emit (.read h (-1)))
    | some (path, pos) =>
      match fs_find w0.fs path with
      | some (.file _ data) =>
        let chunk := (data.drop pos).take (count % 65536)
        (toInt16 chunk.length, chunk,
          { w0 with handles := handle_seek w0.handles h (pos + chunk.length) }.emit
            (.read h (toInt16 chunk.length)))
      | _ => (-1, [], w0.emit (.read h (-1)))

/-- INT 21h, function 40h (`dos_write`): stores the bytes the device accepts at the file
position; the result is their count as `int16_t`, or `-1`. -/
def dos_write (h : Int) (bytes : List Nat) (w : World) : Int × World :=
  let outcome := w.write_faults.headD WriteOutcome.full
  let w0 := { w with write_faults := w.write_faults.tail }
  match outcome, handle_find w0.handles h with
  | .error, _ => (-1, w0.emit (.write h bytes (-1)))
  | _, none => (-1, w0.emit (.write h bytes (-1)))
  | o, some (path, pos) =>
    match fs_find w0.fs path with
    | some (.file attr data) =>
      let acc := match o with
        | .short k => bytes.take k
        | _ => bytes
      (toInt16 acc.length,
        { w0 with fs := fs_put w0.fs path
                    (.file attr (data.take pos ++ acc ++ data.drop (pos + acc.length))),
                  handles := handle_seek w0.handles h (pos + acc.length) }.emit
          (.write h bytes (toInt16 acc.length)))
    | _ => (-1, w0.emit (.write h bytes (-1)))

/-- INT 21h, function 39h (`dos_mkdir`): fails when the path exists. -/
def dos_mkdir (path : List Nat) (w : World) : Int × World :=
  match fs_find w.fs path with
  | none => (0, { w with fs := fs_put w.fs path .dir }.emit (.mkdir path 0))
  | some _ => (-1, w.emit (.mkdir path (-1)))

/-- INT 21h, function 3Ah (`dos_rmdir`): removes an empty directory. -/
def dos_rmdir (path : List Nat) (w : World) : Int × World :=
  if fs_find w.fs path = some Node.dir ∧ fs_children w.fs (path ++ [92]) = [] then
    (0, { w with fs := fs_del w.fs path }.emit (.rmdir path 0))
  else (-1, w.emit (.rmdir path (-1)))

/-- INT 21h, function 56h (`dos_rename`) of DOS 3.1: moves a file within one drive to a path
that does not exist; directories cannot be moved to another parent. -/
def dos_rename (oldpath newpath : List Nat) (w : World) : Int × World :=
  match fs_find w.fs oldpath, fs_find w.fs newpath with
  | some (.file attr data), none =>
    if chr oldpath 0 = chr newpath 0 then
      (0, { w with fs := fs_put (fs_del w.fs oldpath) newpath (.file attr data) }.emit
            (.rename oldpath newpath 0))
    else (-1, w.emit (.rename oldpath newpath (-1)))
  | _, _ => (-1, w.emit (.rename oldpath newpath (-1)))

/-- INT 21h, function 4300h (`dos_get_attr`). -/
def dos_get_attr (path : List Nat) (w : World) : Int × World :=
  match fs_find w.fs path with
  | some (.file attr _) => (toInt16 attr, w.emit (.getAttr path (toInt16 attr)))
  | some .dir => (toInt16 DOS_ATTR_DIRECTORY, w.emit (.getAttr path (toInt16 DOS_ATTR_DIRECTORY)))
  | none => (-1, w.emit (.getAttr path (-1)))

/-- INT 21h, function 4301h (`dos_set_attr`); the attribute is a `uint8_t`. -/
def dos_set_attr (path : List Nat) (attr : Nat) (w : World) : Int × World :=
  match fs_find w.fs path with
  | some (.file _ data) =>
    (0, { w with fs := fs_put w.fs path (.file (attr % 256) data) }.emit
          (.setAttr path (attr % 256) 0))
  | _ => (-1, w.emit (.setAttr path (attr % 256) (-1)))

/-- One keyboard poll: `kbd_check`, and `kbd_get` when a key is waiting. -/
def kbd_poll (w : World) : Option KeyEvent × World :=
  let k := w.keys.headD none
  (k, { w with keys := w.keys.tail }.emit (.kbd k))

/-- The dialog `dlg_overwrite`: the next answer of the user (`DLG_NO` when none is left). -/
def dlg_overwrite (name : List Nat) (w : World) : Int × World :=
  let a := w.answers.headD 0
  (a, { w with answers := w.answers.tail }.emit (.overwrite name a))

/-- The dialogs `dlg_confirm`, `dlg_copy_or_move` and `dlg_delete_confirm`: the next answer
of the user (`0` when none is left). -/
def dlg_ask (name : List Nat) (w : World) : Int × World :=
  let a := w.answers.headD 0
  (a, { w with answers := w.answers.tail }.emit (.ask name a))

/-- The calls `ui_error(msg); kbd_wait();`. -/
def ui_error (msg : ErrMsg) (w : World) : World := w.emit (.uiError msg)

/-! ## fileops.h, dialog.h -/

def FOPS_OK : Int := 0
def FOPS_CANCEL : Int := -1
def FOPS_ERROR : Int := -2
def FOPS_SKIP : Int := -3
def DLG_YES : Int := 1
def DLG_NO : Int := 0

/-! ## fileops.c

Functions that loop or recurse take a step budget `fuel`; the result `none` says that the budget
ran out before the function returned. -/

/-- The drive-and-directory part that `build_src_path`, `build_dst_path` and `panel_read_dir`
write in front of a name: `X:\` followed by the panel path without its leading backslash. -/
def panel_base (p : Panel) : List Nat :=
  [(65 + p.drive) % 256, 58, 92] ++
    (if chr p.path 0 = 92 then p.path.drop 1 else if chr p.path 0 ≠ 0 then p.path else [])

/-- The function `build_src_path`. -/
def build_src_path (p : Panel) (f : FileEntry) : List Nat := path_append (panel_base p) f.name

/-- The function `build_dst_path`. -/
def build_dst_path (p : Panel) (filename : List Nat) : List Nat :=
  path_append (panel_base p) filename

/-- The function `panel_read_dir` on the listing that DOS produces for the panel's pattern. -/
def panel_read_dir_dos (p : Panel) (w : World) : Panel :=
  panel_read_dir p (dos_find_all w.fs (path_append (panel_base p) [42, 46, 42]))

/-- The copy loop of `fops_copy_file` (`while (1) { .. }`): read a chunk, stop on a negative
count (error) or on zero (end of file), write the chunk, stop when the count written differs,
then poll the keyboard and stop on ESC. -/
def copy_loop : Nat → Int → Int → World → Option Int × World
  | 0, _, _, w => (none, w)
  | fuel + 1, src_h, dst_h, w =>
    let rd := dos_read src_h w.g_copy_buf_size w
    let bytes_read := rd.1
    if bytes_read < 0 then (some FOPS_ERROR, rd.2.2)
    else if bytes_read = 0 then (some FOPS_OK, rd.2.2)
    else
      let wr := dos_write dst_h (rd.2.1.take (bytes_read.toNat % 65536)) rd.2.2
      let bytes_written := wr.1
      if bytes_written ≠ bytes_read then (some FOPS_ERROR, wr.2)
      else
        let kp := kbd_poll wr.2
        match kp.1 with
        | some key =>
          if key.code = KEY_ESC then (some FOPS_CANCEL, kp.2)
          else copy_loop fuel src_h dst_h kp.2
        | none => copy_loop fuel src_h dst_h kp.2

/-- Second half of `fops_copy_file`, from "Open source file" on: open, create, run the copy
loop, close both handles, and delete the destination when the result is not `FOPS_OK`. -/
def copy_file_body (fuel : Nat) (src dst : List Nat) (w : World) : Option Int × World :=
  let o := dos_open src w
  if o.1 < 0 then (some FOPS_ERROR, ui_error .cannotOpenSource o.2)
  else
    let c := dos_create dst 0 o.2
    if c.1 < 0 then (some FOPS_ERROR, ui_error .cannotCreateDest (dos_close o.1 c.2))
    else
      let l := copy_loop fuel o.1 c.1 c.2
      match l.1 with
      | none => (none, l.2)
      | some result =>
        let w4 := dos_close c.1 (dos_close o.1 l.2)
        if result ≠ FOPS_OK then (some result, (dos_delete dst w4).2)
        else (some result, w4)

/-- The function `fops_copy_file`. -/
def fops_copy_file (fuel : Nat) (src dst : List Nat) (w : World) : Option Int × World :=
  let e := dos_exists dst w
  if e.1 then
    if w.g_overwrite_all = 0 then
      let ow := dlg_overwrite (path_basename dst) e.2
      if ow.1 = DLG_NO then (some FOPS_SKIP, ow.2)
      else if ow.1 = 65 then
        copy_file_body fuel src dst (dos_delete dst { ow.2 with g_overwrite_all := 1 }).2
      else if ow.1 ≠ DLG_YES then (some FOPS_CANCEL, ow.2)
      else copy_file_body fuel src dst (dos_delete dst ow.2).2
    else copy_file_body fuel src dst (dos_delete dst e.2).2
  else copy_file_body fuel src dst e.2

/-- The test that skips `.` and `..` in the directory loops. -/
def is_dot_entry (d : DTA) : Bool :=
  chr d.name 0 = 46 ∧ (chr d.name 1 = 0 ∨ (chr d.name 1 = 46 ∧ chr d.name 2 = 0))

/-- The `do .. while` loop of `fops_copy_dir` over the records that find-first / find-next
deliver; `result` is the local variable of that name, `copy_dir` the recursive call and
`copy_file` the call of `fops_copy_file`. -/
def copy_dir_loop (copy_dir copy_file : List Nat → List Nat → World → Option Int × World)
    (src dst : List Nat) : List DTA → Int → World → Option Int × World
  | [], result, w => (some result, w)
  | d :: rest, result, w =>
    if is_dot_entry d then copy_dir_loop copy_dir copy_file src dst rest result w
    else
      let src_path := path_append src d.name
      let dst_path := path_append dst d.name
      let w1 := { w with g_file_current := u16add w.g_file_current 1 }
      let w2 := w1.emit (.progress .copying d.name w1.g_file_current w1.g_file_count)
      let r := if d.attr &&& DOS_ATTR_DIRECTORY ≠ 0 then copy_dir src_path dst_path w2
               else copy_file src_path dst_path w2
      match r.1 with
      | none => (none, r.2)
      | some res =>
        if res = FOPS_CANCEL then (some res, r.2)
        else
          copy_dir_loop copy_dir copy_file src dst rest
            (if res = FOPS_SKIP then FOPS_OK else res) r.2

/-- The function `fops_copy_dir`. -/
def fops_copy_dir : Nat → List Nat → List Nat → World → Option Int × World
  | 0, _, _, w => (none, w)
  | fuel + 1, src, dst, w =>
    let m := dos_mkdir dst w
    let e := if m.1 ≠ 0 then dos_exists dst m.2 else (true, m.2)
    if e.1 = false then (some FOPS_ERROR, ui_error .cannotCreateDir e.2)
    else
      copy_dir_loop (fops_copy_dir fuel) (fops_copy_file fuel) src dst
        (dos_find_all e.2.fs (path_append src [42, 46, 42])) FOPS_OK e.2

/-- The function `fops_delete_file`. -/
def fops_delete_file (path : List Nat) (w : World) : Int × World :=
  let a := dos_get_attr path w
  let w1 := if a.1 ≥ 0 ∧ a.1.toNat &&& 1 ≠ 0 then
              (dos_set_attr path (a.1.toNat &&& 0xFFFE) a.2).2
            else a.2
  let d := dos_delete path w1
  if d.1 ≠ 0 then (FOPS_ERROR, ui_error .cannotDeleteFile d.2) else (FOPS_OK, d.2)

/-- The `do .. while` loop of `fops_delete_dir`. -/
def delete_dir_loop (delete_dir : List Nat → World → Option Int × World) (path : List Nat) :
    List DTA → Int → World → Option Int × World
  | [], result, w => (some result, w)
  | d :: rest, result, w =>
    if is_dot_entry d then delete_dir_loop delete_dir path rest result w
    else
      let full_path := path_append path d.name
      let w1 := { w with g_file_current := u16add w.g_file_current 1 }
      let w2 := w1.emit (.progress .deleting d.name w1.g_file_current w1.g_file_count)
      let r := if d.attr &&& DOS_ATTR_DIRECTORY ≠ 0 then delete_dir full_path w2
               else (some (fops_delete_file full_path w2).1, (fops_delete_file full_path w2).2)
      match r.1 with
      | none => (none, r.2)
      | some res =>
        if res = FOPS_CANCEL then (some res, r.2)
        else
          let kp := kbd_poll r.2
          match kp.1 with
          | some key =>
            if key.code = KEY_ESC then (some FOPS_CANCEL, kp.2)
            else delete_dir_loop delete_dir path rest res kp.2
          | none => delete_dir_loop delete_dir path rest res kp.2

/-- The function `fops_delete_dir`. -/
def fops_delete_dir : Nat → List Nat → World → Option Int × World
  | 0, _, w => (none, w)
  | fuel + 1, path, w =>
    let l := delete_dir_loop (fops_delete_dir fuel) path
      (dos_find_all w.fs (path_append path [42, 46, 42])) FOPS_OK w
    match l.1 with
    | none => (none, l.2)
    | some result =>
      if result = FOPS_OK then
        let r := dos_rmdir path l.2
        if r.1 ≠ 0 then (some FOPS_ERROR, ui_error .cannotRemoveDir r.2)
        else (some result, r.2)
      else (some result, l.2)

/-- Copy one entry of the source panel: `fops_copy_dir` for a directory, `fops_copy_file`
for a file. -/
def copy_entry (fuel : Nat) (f : FileEntry) (src_path dst_path : List Nat) (w : World) :
    Option Int × World :=
  if file_is_dir f then fops_copy_dir fuel src_path dst_path w
  else fops_copy_file fuel src_path dst_path w

/-- Delete one entry of the source panel: `fops_delete_dir` for a directory,
`fops_delete_file` for a file. -/
def delete_entry (fuel : Nat) (f : FileEntry) (path : List Nat) (w : World) :
    Option Int × World :=
  if file_is_dir f then fops_delete_dir fuel path w
  else (some (fops_delete_file path w).1, (fops_delete_file path w).2)

/-- The `for` loop of `fops_copy` over the slots of the source panel. -/
def copy_batch (fuel : Nat) (src_panel dst_panel : Panel) :
    List FileEntry → Int → World → Option Int × World
  | [], result, w => (some result, w)
  | f :: rest, result, w =>
    if result = FOPS_CANCEL then (some result, w)
    else if f.selected = 0 then copy_batch fuel src_panel dst_panel rest result w
    else
      let src_path := build_src_path src_panel f
      let dst_path := build_dst_path dst_panel f.name
      let w1 := { w with g_file_current := u16add w.g_file_current 1 }
      let w2 := w1.emit (.progress .copying f.name w1.g_file_current w1.g_file_count)
      let r := copy_entry fuel f src_path dst_path w2
      match r.1 with
      | none => (none, r.2)
      | some res =>
        copy_batch fuel src_panel dst_panel rest (if res = FOPS_SKIP then FOPS_OK else res) r.2

/-- The function `fops_copy`; the result carries the refreshed destination panel. -/
def fops_copy (fuel : Nat) (src_panel dst_panel : Panel) (w : World) :
    Option Int × Panel × World :=
  let w0 := { w with g_overwrite_all := 0, g_file_current := 0 }
  let selected := count_selected_files src_panel
  if selected = 0 then
    match panel_get_cursor_file src_panel with
    | none => (some FOPS_CANCEL, dst_panel, w0)
    | some f =>
      if file_is_parent f ∨ (chr f.name 0 = 46 ∧ chr f.name 1 = 0) then
        (some FOPS_CANCEL, dst_panel, w0)
      else
        let a := dlg_ask f.name w0
        if a.1 ≠ 67 then (some FOPS_CANCEL, dst_panel, a.2)
        else
          let src_path := build_src_path src_panel f
          let dst_path := build_dst_path dst_panel f.name
          let w1 := { a.2 with g_file_count := 1 }
          let w2 := w1.emit (.progress .copying f.name 0 1)
          let r := copy_entry fuel f src_path dst_path w2
          let w3 := r.2.emit .hideProgress
          (r.1, panel_read_dir_dos dst_panel w3, w3)
  else
    let a := dlg_ask [] w0
    if a.1 ≠ DLG_YES then (some FOPS_CANCEL, dst_panel, a.2)
    else
      let w1 := { a.2 with g_file_count := selected }
      let r := copy_batch fuel src_panel dst_panel
        (src_panel.files.entries.take src_panel.files.count) FOPS_OK w1
      let w3 := r.2.emit .hideProgress
      (r.1, panel_read_dir_dos dst_panel w3, w3)

/-- The copy-then-delete fallback of `fops_move` for one entry: copy, and delete the source
when the copy returned `FOPS_OK`; the value is the result of the copy. -/
def move_fallback (fuel : Nat) (f : FileEntry) (src_path dst_path : List Nat) (w : World) :
    Option Int × World :=
  let r := copy_entry fuel f src_path dst_path w
  match r.1 with
  | none => (none, r.2)
  | some res =>
    if res = FOPS_OK then
      let d := delete_entry fuel f src_path r.2
      match d.1 with
      | none => (none, d.2)
      | some _ => (some res, d.2)
    else (some res, r.2)

/-- The `for` loop of `fops_move` over the slots of the source panel. -/
def move_batch (fuel : Nat) (src_panel dst_panel : Panel) :
    List FileEntry → Int → World → Option Int × World
  | [], result, w => (some result, w)
  | f :: rest, result, w =>
    if result = FOPS_CANCEL then (some result, w)
    else if f.selected = 0 then move_batch fuel src_panel dst_panel rest result w
    else
      let src_path := build_src_path src_panel f
      let dst_path := build_dst_path dst_panel f.name
      let w1 := { w with g_file_current := u16add w.g_file_current 1 }
      let w2 := w1.emit (.progress .moving f.name w1.g_file_current w1.g_file_count)
      let rn := if src_panel.drive = dst_panel.drive then dos_rename src_path dst_path w2
                else (-1, w2)
      if src_panel.drive = dst_panel.drive ∧ rn.1 = 0 then
        move_batch fuel src_panel dst_panel rest result rn.2
      else
        let r := move_fallback fuel f src_path dst_path rn.2
        match r.1 with
        | none => (none, r.2)
        | some res =>
          move_batch fuel src_panel dst_panel rest (if res = FOPS_SKIP then FOPS_OK else res) r.2

/-- The function `fops_move`; the result carries both refreshed panels (source, destination). -/
def fops_move (fuel : Nat) (src_panel dst_panel : Panel) (w : World) :
    Option Int × Panel × Panel × World :=
  let w0 := { w with g_overwrite_all := 0, g_file_current := 0 }
  let selected := count_selected_files src_panel
  if selected = 0 then
    match panel_get_cursor_file src_panel with
    | none => (some FOPS_CANCEL, src_panel, dst_panel, w0)
    | some f =>
      if file_is_parent f ∨ (chr f.name 0 = 46 ∧ chr f.name 1 = 0) then
        (some FOPS_CANCEL, src_panel, dst_panel, w0)
      else
        let a := dlg_ask f.name w0
        if a.1 ≠ 77 then (some FOPS_CANCEL, src_panel, dst_panel, a.2)
        else
          let src_path := build_src_path src_panel f
          let dst_path := build_dst_path dst_panel f.name
          let w1 := { a.2 with g_file_count := 1 }
          let w2 := w1.emit (.progress .moving f.name 0 1)
          let r :=
            if src_panel.drive = dst_panel.drive then
              let rn := dos_rename src_path dst_path w2
              if rn.1 = 0 then (some FOPS_OK, rn.2)
              else move_fallback fuel f src_path dst_path rn.2
            else move_fallback fuel f src_path dst_path w2
          let w3 := r.2.emit .hideProgress
          (r.1, panel_read_dir_dos src_panel w3, panel_read_dir_dos dst_panel w3, w3)
  else
    let a := dlg_ask [] w0
    if a.1 ≠ DLG_YES then (some FOPS_CANCEL, src_panel, dst_panel, a.2)
    else
      let w1 := { a.2 with g_file_count := selected }
      let r := move_batch fuel src_panel dst_panel
        (src_panel.files.entries.take src_panel.files.count) FOPS_OK w1
      let w3 := r.2.emit .hideProgress
      (r.1, panel_read_dir_dos src_panel w3, panel_read_dir_dos dst_panel w3, w3)

/-- The `for` loop of `fops_delete` over the slots of the panel. -/
def delete_batch (fuel : Nat) (panel : Panel) :
    List FileEntry → Int → World → Option Int × World
  | [], result, w => (some result, w)
  | f :: rest, result, w =>
    if result = FOPS_CANCEL then (some result, w)
    else if f.selected = 0 then delete_batch fuel panel rest result w
    else
      let path := build_src_path panel f
      let w1 := { w with g_file_current := u16add w.g_file_current 1 }
      let w2 := w1.emit (.progress .deleting f.name w1.g_file_current w1.g_file_count)
      let r := delete_entry fuel f path w2
      match r.1 with
      | none => (none, r.2)
      | some res => delete_batch fuel panel rest res r.2

/-- The function `fops_delete`; the result carries the refreshed panel. -/
def fops_delete (fuel : Nat) (panel : Panel) (w : World) : Option Int × Panel × World :=
  let w0 := { w with g_file_current := 0 }
  let selected := count_selected_files panel
  if selected = 0 then
    match panel_get_cursor_file panel with
    | none => (some FOPS_CANCEL, panel, w0)
    | some f =>
      if file_is_parent f ∨ (chr f.name 0 = 46 ∧ chr f.name 1 = 0) then
        (some FOPS_CANCEL, panel, w0)
      else
        let a := dlg_ask f.name w0
        if a.1 ≠ DLG_YES then (some FOPS_CANCEL, panel, a.2)
        else
          let path := build_src_path panel f
          let w1 := { a.2 with g_file_count := 1 }
          let w2 := w1.emit (.progress .deleting f.name 0 1)
          let r := delete_entry fuel f path w2
          let w3 := r.2.emit .hideProgress
          (r.1, panel_read_dir_dos panel w3, w3)
  else
    let a := dlg_ask [] w0
    if a.1 ≠ DLG_YES then (some FOPS_CANCEL, panel, a.2)
    else
      let w1 := { a.2 with g_file_count := selected }
      let r := delete_batch fuel panel (panel.files.entries.take panel.files.count) FOPS_OK w1
      let w3 := r.2.emit .hideProgress
      (r.1, panel_read_dir_dos panel w3, w3)

/-! ## Sample states -/

/-- The bytes of a string literal. -/
def cstr (s : String) : List Nat := s.toList.map Char.toNat

/-- A panel entry with the given name, attribute byte and selection flag. -/
def mk_entry (name : String) (attr selected : Nat) : FileEntry :=
  { attr := attr, time := 0, date := 0, size := 0, name := cstr name, selected := selected }

/-- A panel on the root of a drive with the given entries, cursor on slot 0. -/
def mk_root_panel (drive : Nat) (entries : List FileEntry) : Panel :=
  { drive := drive, path := [], top := 0, cursor := 0, sel_count := 0,
    files := { entries := entries, capacity := 8, count := entries.length,
               truncated := false } }

/-- A world without open handles, scripts or log: file system, keyboard polls, dialog answers
and buffer size are given. -/
def mk_world (fs : List (List Nat × Node)) (keys : List (Option KeyEvent))
    (answers : List Int) (buf : Nat) : World :=
  { fs := fs, handles := [], keys := keys, answers := answers, read_faults := [],
    write_faults := [], log := [], g_copy_buf_size := buf, g_overwrite_all := 0,
    g_file_count := 0, g_file_current := 0 }

/-- The path `A:\F.TXT`. -/
def path_F : List Nat := [65, 58, 92, 70, 46, 84, 88, 84]

/-- The name `F.TXT`. -/
def name_F : List Nat := [70, 46, 84, 88, 84]

/-- A panel on the root of drive A that lists the file `F.TXT`, cursor on it; this is the
state of both panels after `panels_init` and the first `panel_read_dir`. -/
def root_panel_F : Panel :=
  { drive := 0, path := [], top := 0, cursor := 0, sel_count := 0,
    files := { entries := [{ attr := 0x20, time := 0, date := 0, size := 5, name := name_F,
                             selected := 0 }],
               capacity := 8, count := 1, truncated := false } }

/-- Drive A holds `F.TXT` with five bytes; the user answers `C` (copy) and then `Y`
(overwrite). -/
def world_F : World := mk_world [(path_F, .file 0x20 [1, 2, 3, 4, 5])] [] [67, 1] 512

/-- What DOS enumerates for the root of world `world_F`: the single file `F.TXT`. -/
def raw_F : List DTA := [{ attr := 0x20, time := 0, date := 0, size := 5, name := name_F }]

/-- The panel after `panel_init`, `panel_read_dir`, `panel_toggle_selection` on `F.TXT` and a
second `panel_read_dir` of the same directory. -/
def reread_panel : Panel :=
  panel_read_dir (panel_toggle_selection (panel_read_dir (panel_init 8) raw_F)) raw_F

/-- A panel with thirty entries, cursor on slot 5, first row 0. -/
def long_panel : Panel :=
  { drive := 0, path := [], top := 0, cursor := 5, sel_count := 0,
    files := { entries := [], capacity := 256, count := 30, truncated := false } }

/-- Drive A holds the directory `D` with the files `X.TXT` (three bytes) and `Z.TXT`; the user
picks Move; the device accepts only one byte of the first write (disk full). -/
def world_move_err : World :=
  { mk_world [(cstr "A:\\D", .dir), (cstr "A:\\D\\X.TXT", .file 0x20 [1, 2, 3]),
              (cstr "A:\\D\\Z.TXT", .file 0x20 [7])] [] [77] 512 with
    write_faults := [.short 1] }

/-- Drive A holds the directory `D` with the file `X.TXT`; drive B already holds `D\X.TXT`
with other content; the user picks Move and answers the overwrite prompt with No. -/
def world_move_skip : World :=
  mk_world [(cstr "A:\\D", .dir), (cstr "A:\\D\\X.TXT", .file 0x20 [1, 2, 3]),
            (cstr "B:\\D", .dir), (cstr "B:\\D\\X.TXT", .file 0x20 [9])] [] [77, 0] 512

/-- Source panel of the two move jobs above: root of drive A, cursor on the directory `D`. -/
def panel_A_D : Panel := mk_root_panel 0 [mk_entry "D" 0x10 0]

/-- An empty panel on the root of drive B. -/
def panel_B : Panel := mk_root_panel 1 []

/-- A panel on the root of drive B that lists the directory `D`. -/
def panel_B_D : Panel := mk_root_panel 1 [mk_entry "D" 0x10 0]

/-- Drive A holds the directory `D` with the empty files `X1` and `X2`, and the empty file
`Y`; the user confirms the batch; the first keyboard poll of the job delivers ESC. -/
def world_move_esc : World :=
  mk_world [(cstr "A:\\D", .dir), (cstr "A:\\D\\X1", .file 0x20 []),
            (cstr "A:\\D\\X2", .file 0x20 []), (cstr "A:\\Y", .file 0x20 [])]
    [some { kind := 1, code := 27 }] [1] 512

/-- Source panel of the batch: `D` and `Y`, both selected. -/
def panel_A_DY : Panel := mk_root_panel 0 [mk_entry "D" 0x10 1, mk_entry "Y" 0x20 1]

/-- The path `A:\G.TXT`. -/
def path_G : List Nat := cstr "A:\\G.TXT"

/-- Drive A holds `F.TXT` with 32768 bytes; the copy buffer holds 32768 bytes; nothing is
scripted. -/
def world_big : World := mk_world [(path_F, .file 0x20 (List.replicate 32768 0))] [] [] 32768

/-- Drive A holds `F.TXT` with five bytes; the copy buffer holds two bytes; the second
keyboard poll delivers ESC. -/
def world_esc : World :=
  mk_world [(path_F, .file 0x20 [1, 2, 3, 4, 5])] [none, some { kind := 1, code := 27 }] [] 2

/-- The calls of `fops_copy_file` from `A:\F.TXT` to `A:\G.TXT` in `world_esc`. -/
def log_esc : List Ev :=
  [ .exist path_G false, .opened path_F 5, .create path_G 6,
    .read 5 2, .write 6 [1, 2] 2, .kbd none,
    .read 5 2, .write 6 [3, 4] 2, .kbd (some { kind := 1, code := 27 }),
    .close 5, .close 6, .delete path_G 0 ]

/-- Drive A holds `F.TXT` with five bytes and an older `G.TXT`; the copy buffer holds two
bytes; the user answers the overwrite prompt with Yes. -/
def world_FG : World :=
  mk_world [(path_F, .file 0x20 [1, 2, 3, 4, 5]), (path_G, .file 0x20 [9, 9])] [none] [1] 2

/-- The two jobs that copy files to the other panel. -/
inductive Job where
  | copy
  | move
  deriving DecidableEq

/-- Result and final world of a job (`fops_copy` or `fops_move`). -/
def Job.run : Job → Nat → Panel → Panel → World → Option Int × World
  | .copy, fuel, s, d, w => ((fops_copy fuel s d w).1, (fops_copy fuel s d w).2.2)
  | .move, fuel, s, d, w => ((fops_move fuel s d w).1, (fops_move fuel s d w).2.2.2)

/-- Drives A and B both hold `P` and `Q` (one byte each); the user confirms the batch and
answers the first overwrite prompt with All; the second keyboard poll delivers ESC. -/
def world_all_esc : World :=
  mk_world [(cstr "A:\\P", .file 0x20 [1]), (cstr "A:\\Q", .file 0x20 [2]),
            (cstr "B:\\P", .file 0x20 [8]), (cstr "B:\\Q", .file 0x20 [9])]
    [none, some { kind := 1, code := 27 }] [1, 65] 512

/-- The same drives and answers, and no key is pressed. -/
def world_all : World :=
  mk_world [(cstr "A:\\P", .file 0x20 [1]), (cstr "A:\\Q", .file 0x20 [2]),
            (cstr "B:\\P", .file 0x20 [8]), (cstr "B:\\Q", .file 0x20 [9])]
    [] [1, 65] 512

/-- Source panel of the batch: `P` and `Q`, both selected. -/
def panel_A_PQ : Panel := mk_root_panel 0 [mk_entry "P" 0x20 1, mk_entry "Q" 0x20 1]

/-- Destination panel of the batch: root of drive B with `P` and `Q`. -/
def panel_B_PQ : Panel := mk_root_panel 1 [mk_entry "P" 0x20 0, mk_entry "Q" 0x20 0]

/-- The calls of the batch copy in `world_all` up to the first overwrite prompt. -/
def log_all_pre : List Ev :=
  [ .ask [] 1, .progress .copying (cstr "P") 1 2, .exist (cstr "B:\\P") true ]

/-- The calls of the batch copy in `world_all` behind the overwrite prompt answered All. -/
def log_all_post : List Ev :=
  [ .delete (cstr "B:\\P") 0, .opened (cstr "A:\\P") 5, .create (cstr "B:\\P") 6,
    .read 5 1, .write 6 [1] 1, .kbd none, .read 5 0, .close 5, .close 6,
    .progress .copying (cstr "Q") 2 2, .exist (cstr "B:\\Q") true,
    .delete (cstr "B:\\Q") 0, .opened (cstr "A:\\Q") 5, .create (cstr "B:\\Q") 6,
    .read 5 1, .write 6 [2] 1, .kbd none, .read 5 0, .close 5, .close 6,
    .hideProgress ]

/-! ## Vocabulary of the theorems -/

/-- The keyboard poll delivered a key with the code of ESC. -/
def Ev.isEsc : Ev → Bool
  | .kbd (some key) => key.code = KEY_ESC
  | _ => false

/-- A read call reported failure (a negative count). -/
def Ev.isReadFail : Ev → Bool
  | .read _ n => n < 0
  | _ => false

/-- A write call returned a count different from the number of bytes handed over. -/
def Ev.isShortWrite : Ev → Bool
  | .write _ bytes n => n ≠ bytes.length
  | _ => false

/-- A call of `dlg_overwrite`. -/
def Ev.isPrompt : Ev → Bool
  | .overwrite _ _ => true
  | _ => false

/-- A call of `dlg_overwrite` that the user answered with All (`'A'`). -/
def Ev.isAll : Ev → Bool
  | .overwrite _ a => a = 65
  | _ => false

/-- The handles other than the two given ones. -/
def other_handles (hs hd : Int) (l : List (Nat × List Nat × Nat)) :
    List (Nat × List Nat × Nat) :=
  l.filter (fun e => decide ((e.1 : Int) ≠ hs) && decide ((e.1 : Int) ≠ hd))

/-- The path is free or holds a file that is not read-only: `dos_delete` leaves no node
under it. -/
def deletable (fs : List (List Nat × Node)) (path : List Nat) : Prop :=
  fs_find fs path = none ∨ ∃ a d, fs_find fs path = some (Node.file a d) ∧ a &&& 1 = 0

/-- State of a fault-free copy after `pos` bytes: the source handle and the destination handle
both stand at `pos`, the source holds `data`, the destination holds the first `pos` bytes of
it, no coming read or write is scripted to fail, no coming keyboard poll delivers ESC, and the
buffer size lies between 1 and 32767. -/
def CopyInv (hs hd : Nat) (src dst : List Nat) (attr : Nat) (data : List Nat) (pos : Nat)
    (w : World) : Prop :=
  handle_find w.handles hs = some (src, pos) ∧ handle_find w.handles hd = some (dst, pos) ∧
  fs_find w.fs src = some (Node.file attr data) ∧
  fs_find w.fs dst = some (Node.file 0 (data.take pos)) ∧
  (∀ b ∈ w.read_faults, b = false) ∧ (∀ o ∈ w.write_faults, o = WriteOutcome.full) ∧
  (∀ k ∈ w.keys, (Ev.kbd k).isEsc = false) ∧
  1 ≤ w.g_copy_buf_size ∧ w.g_copy_buf_size < 32768

/-- No coming read or write is scripted to fail and no coming keyboard poll delivers ESC. -/
def Calm (w : World) : Prop :=
  (∀ b ∈ w.read_faults, b = false) ∧ (∀ o ∈ w.write_faults, o = WriteOutcome.full) ∧
  (∀ k ∈ w.keys, (Ev.kbd k).isEsc = false)

/-- A step of the engine that neither asks the overwrite question nor touches the overwrite
policy: the log grows by calls other than `dlg_overwrite`, `g_overwrite_all` is unchanged. -/
def Silent (w w1 : World) : Prop :=
  ∃ evs, w1.log = w.log ++ evs ∧ (∀ e ∈ evs, e.isPrompt = false) ∧
    w1.g_overwrite_all = w.g_overwrite_all

/-- Among the calls, none follows an overwrite prompt that was answered with All by another
overwrite prompt. -/
def quiet_after_all : List Ev → Prop
  | [] => True
  | e :: rest => (e.isAll = true → ∀ x ∈ rest, x.isPrompt = false) ∧ quiet_after_all rest

/-- A step of the engine that respects the overwrite policy: once `g_overwrite_all` is set it
stays set and no overwrite prompt is shown; as long as it is clear no All answer has been
given; and no prompt follows an All answer. -/
def Policy (w w1 : World) : Prop :=
  ∃ evs, w1.log = w.log ++ evs ∧
    (w.g_overwrite_all ≠ 0 → w1.g_overwrite_all ≠ 0 ∧ ∀ e ∈ evs, e.isPrompt = false) ∧
    (w.g_overwrite_all = 0 → quiet_after_all evs ∧
      (w1.g_overwrite_all = 0 → ∀ e ∈ evs, e.isAll = false))

/-- A step of the engine only adds calls to the log. -/
def Grows (w w1 : World) : Prop := ∃ evs, w1.log = w.log ++ evs

/-! ## dialog.c: the key loop of `dlg_overwrite` -/

def KEY_ASCII : Nat := 1
def KEY_EXTENDED : Nat := 2
def KEY_F7 : Nat := 0x41
def KEY_F10 : Nat := 0x44

/-- One round of the loop of `dlg_overwrite` behind `kbd_wait`: the value returned for the key,
or `none` when the key is ignored and the loop waits for the next one. -/
def dlg_overwrite_key (key : KeyEvent) : Option Int :=
  if key.kind = KEY_ASCII then
    if key.code = 121 ∨ key.code = 89 then some DLG_YES
    else if key.code = 110 ∨ key.code = 78 ∨ key.code = KEY_ESC then some DLG_NO
    else if key.code = 97 ∨ key.code = 65 then some 65
    else none
  else if key.kind = KEY_EXTENDED then
    if key.code = KEY_F7 ∨ key.code = KEY_F10 then some DLG_NO else none
  else none

/-- The function `dlg_overwrite` over the keys that `kbd_wait` delivers (`opened` is the result
of `dlg_open`); `none` when the keys run out before one is accepted. -/
def dlg_overwrite_keys (opened : Bool) : List KeyEvent → Option Int
  | [] => if opened then none else some DLG_NO
  | key :: rest =>
    if opened then
      match dlg_overwrite_key key with
      | some r => some r
      | none => dlg_overwrite_keys opened rest
    else some DLG_NO

/-- The state in which `fops_copy_file` finds itself behind the existence test and the overwrite
prompt. -/
def after_prompt (dst : List Nat) (w : World) : World :=
  (dlg_overwrite (path_basename dst) (dos_exists dst w).2).2

/-! ## Further sample states -/

/-- The sample panel with the cursor on slot 2 and the first visible row 1. -/
def scrolled_panel : Panel := { sample_panel with cursor := 2, top := 1 }

/-- The slot that `panel_read_dir` fills from one search record. -/
def plain_entry (d : DTA) : FileEntry :=
  { attr := d.attr, time := d.time, date := d.date, size := d.size, name := d.name,
    selected := 0 }

/-- The entries that `panel_read_dir` has to list: the synthetic `".."` below the root and the
search records other than `.` and `..`. -/
def listing (p : Panel) (raw : List DTA) : List FileEntry :=
  (if path_is_root p.path then [] else [parent_entry]) ++
    (raw.filter (fun d => !is_dot_entry d)).map plain_entry

/-- A panel below the root with three slots. -/
def small_panel : Panel :=
  { drive := 2, path := [92, 83, 85, 66], top := 0, cursor := 0, sel_count := 0,
    files := { entries := [], capacity := 3, count := 0, truncated := false } }

/-- A directory with the files `b.txt` and `A.TXT`, enumerated in DOS order. -/
def raw_two : List DTA :=
  [ { attr := 0x10, time := 0, date := 0, size := 0, name := [46] },
    { attr := 0x10, time := 0, date := 0, size := 0, name := [46, 46] },
    { attr := 0x20, time := 1, date := 2, size := 10, name := [98, 46, 116, 120, 116] },
    { attr := 0x20, time := 5, date := 6, size := 256, name := [65, 46, 84, 88, 84] } ]

/-- The same directory with `.` and `..` enumerated last. -/
def raw_two_dots_last : List DTA :=
  [ { attr := 0x20, time := 1, date := 2, size := 10, name := [98, 46, 116, 120, 116] },
    { attr := 0x20, time := 5, date := 6, size := 256, name := [65, 46, 84, 88, 84] },
    { attr := 0x10, time := 0, date := 0, size := 0, name := [46] },
    { attr := 0x10, time := 0, date := 0, size := 0, name := [46, 46] } ]

/-! ## The three jobs over the entries of the active panel -/

/-- The jobs `fops_copy`, `fops_move` and `fops_delete`. -/
inductive Op where
  | copy
  | move
  | delete
  deriving DecidableEq

/-- The title that the job passes to `ui_show_progress`. -/
def Op.label : Op → Label
  | .copy => .copying
  | .move => .moving
  | .delete => .deleting

/-- Result and final state of the job; `fops_delete` works on the first panel only. -/
def Op.run : Op → Nat → Panel → Panel → World → Option Int × World
  | .copy, fuel, s, d, w => ((fops_copy fuel s d w).1, (fops_copy fuel s d w).2.2)
  | .move, fuel, s, d, w => ((fops_move fuel s d w).1, (fops_move fuel s d w).2.2.2)
  | .delete, fuel, s, _, w => ((fops_delete fuel s w).1, (fops_delete fuel s w).2.2)

/-- The `for` loop of the job. -/
def Op.batch : Op → Nat → Panel → Panel → List FileEntry → Int → World → Option Int × World
  | .copy, fuel, s, d => copy_batch fuel s d
  | .move, fuel, s, d => move_batch fuel s d
  | .delete, fuel, s, _ => delete_batch fuel s

/-- What the branch without selection does with the entry under the cursor, between
`ui_show_progress` and `ui_hide_progress`. -/
def Op.single : Op → Nat → Panel → Panel → FileEntry → World → Option Int × World
  | .copy, fuel, s, d, f, w =>
    copy_entry fuel f (build_src_path s f) (build_dst_path d f.name) w
  | .move, fuel, s, d, f, w =>
    if s.drive = d.drive then
      let rn := dos_rename (build_src_path s f) (build_dst_path d f.name) w
      if rn.1 = 0 then (some FOPS_OK, rn.2)
      else move_fallback fuel f (build_src_path s f) (build_dst_path d f.name) rn.2
    else move_fallback fuel f (build_src_path s f) (build_dst_path d f.name) w
  | .delete, fuel, s, _, f, w => delete_entry fuel f (build_src_path s f) w

/-- One round of the `for` loop of the job on a selected entry: count, show the progress, work
on the entry, and fold `FOPS_SKIP` into `FOPS_OK`; `result` is the value the loop variable has
when the round starts (a rename that succeeds leaves it as it is). -/
def Op.step : Op → Nat → Panel → Panel → FileEntry → Int → World → Option Int × World
  | .copy, fuel, s, d, f, _, w =>
    let w1 := { w with g_file_current := u16add w.g_file_current 1 }
    let w2 := w1.emit (.progress .copying f.name w1.g_file_current w1.g_file_count)
    let r := copy_entry fuel f (build_src_path s f) (build_dst_path d f.name) w2
    (r.1.map (fun res => if res = FOPS_SKIP then FOPS_OK else res), r.2)
  | .move, fuel, s, d, f, result, w =>
    let w1 := { w with g_file_current := u16add w.g_file_current 1 }
    let w2 := w1.emit (.progress .moving f.name w1.g_file_current w1.g_file_count)
    let rn := if s.drive = d.drive then
        dos_rename (build_src_path s f) (build_dst_path d f.name) w2
      else (-1, w2)
    if s.drive = d.drive ∧ rn.1 = 0 then (some result, rn.2)
    else
      let r := move_fallback fuel f (build_src_path s f) (build_dst_path d f.name) rn.2
      (r.1.map (fun res => if res = FOPS_SKIP then FOPS_OK else res), r.2)
  | .delete, fuel, s, _, f, _, w =>
    let w1 := { w with g_file_current := u16add w.g_file_current 1 }
    let w2 := w1.emit (.progress .deleting f.name w1.g_file_current w1.g_file_count)
    delete_entry fuel f (build_src_path s f) w2

/-- Work through a list of targets in order, one round each; only `FOPS_CANCEL` (or an
exhausted budget) ends the run early. -/
def for_each_target (step : FileEntry → Int → World → Option Int × World) :
    List FileEntry → Int → World → Option Int × World
  | [], result, w => (some result, w)
  | f :: rest, result, w =>
    if result = FOPS_CANCEL then (some result, w)
    else
      match (step f result w).1 with
      | none => (none, (step f result w).2)
      | some res => for_each_target step rest res (step f result w).2

/-- Drive A holds the files `F1` and `F2`; the user confirms the batch; ESC is waiting in the
keyboard buffer. -/
def world_del_esc : World :=
  mk_world [(cstr "A:\\F1", .file 0x20 [1]), (cstr "A:\\F2", .file 0x20 [2])]
    [some { kind := 1, code := 27 }] [1] 512

/-- The panel on the root of drive A with `F1` and `F2`, both selected. -/
def panel_A_F12 : Panel := mk_root_panel 0 [mk_entry "F1" 0x20 1, mk_entry "F2" 0x20 1]

/-- The entry `F.TXT` of `root_panel_F`. -/
def entry_F : FileEntry :=
  { attr := 0x20, time := 0, date := 0, size := 5, name := name_F, selected := 0 }

/-- A panel on the directory `A:\D`. -/
def panel_A_sub : Panel :=
  { drive := 0, path := cstr "\\D", top := 0, cursor := 0, sel_count := 0,
    files := { entries := [parent_entry], capacity := 8, count := 1, truncated := false } }

/-- Drive A holds `F.TXT` with five bytes and the empty directory `D`. -/
def world_F_D : World :=
  mk_world [(path_F, .file 0x20 [1, 2, 3, 4, 5]), (cstr "A:\\D", .dir)] [] [] 512

/-! ## Directory trees in the file system table -/

/-- The path `q` lies inside the directory `p`: it starts with `p` and a backslash. -/
def inside (p q : List Nat) : Prop := (p ++ [92]) <+: q

/-- The path `q` is `p` itself or lies inside `p`. -/
def below (p q : List Nat) : Prop := q = p ∨ inside p q

instance (p q : List Nat) : Decidable (inside p q) := by unfold inside; infer_instance

instance (p q : List Nat) : Decidable (below p q) := by unfold below; infer_instance

/-- The name is `.` or `..` (the test of `is_dot_entry` on the name alone). -/
def dot_name (n : List Nat) : Bool :=
  chr n 0 = 46 ∧ (chr n 1 = 0 ∨ (chr n 1 = 46 ∧ chr n 2 = 0))

/-- A name that a directory entry other than `.` and `..` can carry. -/
def valid_name (n : List Nat) : Prop := n ≠ [] ∧ 92 ∉ n ∧ dot_name n = false

instance (n : List Nat) : Decidable (valid_name n) := by unfold valid_name; infer_instance

/-- A path as the jobs build it for an entry: drive, colon, backslash and at least one name; it
does not end in a backslash. -/
def plain_path (p : List Nat) : Prop := 3 ≤ p.length ∧ p.getLast? ≠ some 92

instance (p : List Nat) : Decidable (plain_path p) := by unfold plain_path; infer_instance

/-- What a copy makes of a node: a file keeps its bytes and gets the attribute byte 0. -/
def Node.copied : Node → Node
  | .file _ data => .file 0 data
  | .dir => .dir

/-- Number of bytes of a file; 0 for a directory. -/
def Node.size : Node → Nat
  | .file _ data => data.length
  | .dir => 0

/-- A file node carries an attribute byte without the directory bit. -/
def Node.attr_ok : Node → Prop
  | .file attr _ => attr < 256 ∧ attr &&& DOS_ATTR_DIRECTORY = 0
  | .dir => True

instance (n : Node) : Decidable n.attr_ok := by
  cases n <;> unfold Node.attr_ok <;> infer_instance

/-- First component of a relative path. -/
def head_comp (rel : List Nat) : List Nat := rel.takeWhile (fun c => c != 92)

/-- How many directories lie between `p` and the entry `q` inside `p`. -/
def depth_below (p q : List Nat) : Nat := (q.drop (p.length + 1)).count 92

/-- The name behind the last backslash of a path. -/
def last_name (q : List Nat) : List Nat := (q.reverse.takeWhile (fun c => c != 92)).reverse

/-- The path in front of the last backslash. -/
def parent_path (q : List Nat) : List Nat := q.take (q.length - (last_name q).length - 1)

/-- The table holds a tree under the directory `p`: no path occurs twice in the table, `p` is a
directory, and every node inside `p` has a name other than `.` and `..`, lies in a directory of
the tree, and, if it is a file, carries a plain attribute byte. -/
def tree_ok (fs : List (List Nat × Node)) (p : List Nat) : Prop :=
  (fs.map Prod.fst).Nodup ∧ fs_find fs p = some Node.dir ∧ plain_path p ∧
  ∀ q node, fs_find fs q = some node → inside p q →
    (∃ par name, q = par ++ 92 :: name ∧ valid_name name ∧ below p par ∧
      fs_find fs par = some Node.dir) ∧ node.attr_ok

/-- The test of `tree_ok` entry by entry. -/
def tree_check (fs : List (List Nat × Node)) (p : List Nat) : Bool :=
  decide ((fs.map Prod.fst).Nodup) && decide (fs_find fs p = some Node.dir) &&
  decide (plain_path p) &&
  fs.all (fun e =>
    if inside p e.1 then
      decide (e.1 = parent_path e.1 ++ 92 :: last_name e.1) &&
      decide (valid_name (last_name e.1)) && decide (below p (parent_path e.1)) &&
      decide (fs_find fs (parent_path e.1) = some Node.dir) && decide e.2.attr_ok
    else true)

/-- A step budget that covers the tree under `p`: for each entry its depth and `weight`. -/
def tree_need (weight : Node → Nat) (fs : List (List Nat × Node)) (p : List Nat) : Nat :=
  (fs.map (fun e => if inside p e.1 then depth_below p e.1 + weight e.2 + 2 else 1)).foldr max 1

/-- The engine changes the table only through replacing, adding and removing entries and reads
its scripts from the front: the paths of the table stay distinct, the scripts shrink to a rest
of themselves, the buffer size stays. -/
def Tame (w w1 : World) : Prop :=
  ((w.fs.map Prod.fst).Nodup → (w1.fs.map Prod.fst).Nodup) ∧
  w1.keys <:+ w.keys ∧ w1.read_faults <:+ w.read_faults ∧
  w1.write_faults <:+ w.write_faults ∧ w1.g_copy_buf_size = w.g_copy_buf_size

/-- Drive A holds the directory `S` with the file `F` (five bytes) and the directory `T` with
the file `G` (one byte, hidden); the copy buffer holds two bytes. -/
def world_tree : World :=
  mk_world [(cstr "A:\\S", .dir), (cstr "A:\\S\\F", .file 0x20 [1, 2, 3, 4, 5]),
            (cstr "A:\\S\\T", .dir), (cstr "A:\\S\\T\\G", .file 0x22 [7])] [none] [] 2

/-- What `fops_copy_dir` needs for a faultless copy of the tree under `src` to `dst`: the tree
is well formed, `dst` is a free path outside the tree with nothing stored under it, no read or
write is scripted to fail, no poll delivers ESC, the copy buffer holds 1 to 32767 bytes, and the
budget covers the depth of the tree and the length of its files. -/
def copy_ready (src dst : List Nat) (w : World) (fuel : Nat) : Prop :=
  tree_ok w.fs src ∧ plain_path dst ∧ (∀ q, below dst q → fs_find w.fs q = none) ∧
  ¬ below src dst ∧ Calm w ∧ (1 ≤ w.g_copy_buf_size ∧ w.g_copy_buf_size < 32768) ∧
  1 ≤ fuel ∧
  ∀ q node, fs_find w.fs q = some node → inside src q →
    depth_below src q + node.size + 2 ≤ fuel

/-- The outcome of a complete copy of the tree under `src` (as it was in `w`) to `dst`: the
result is `FOPS_OK`, `dst` is a directory, under every relative path the destination holds a
copy of what the source held (and nothing where the source held nothing), and every path
outside `dst` holds what it held before. -/
def copied_tree (src dst : List Nat) (w : World) (r : Option Int × World) : Prop :=
  r.1 = some FOPS_OK ∧ fs_find r.2.fs dst = some Node.dir ∧
  (∀ rel, fs_find r.2.fs (dst ++ 92 :: rel) =
    (fs_find w.fs (src ++ 92 :: rel)).map Node.copied) ∧
  (∀ q, ¬ below dst q → fs_find r.2.fs q = fs_find w.fs q)

/-- State of a faultless `fops_copy_dir` from `src` to `dst` inside its loop, with the entries
`todo` still to come: paths outside `dst` are as in `w`, `dst` exists, and below `dst` exactly
the children handled so far are in place. -/
def copy_inv (src dst : List Nat) (w : World) (todo : List DTA) (wi : World) : Prop :=
  (wi.fs.map Prod.fst).Nodup ∧ Calm wi ∧
  (1 ≤ wi.g_copy_buf_size ∧ wi.g_copy_buf_size < 32768) ∧
  (∀ q, ¬ below dst q → fs_find wi.fs q = fs_find w.fs q) ∧
  fs_find wi.fs dst = some Node.dir ∧
  ∀ rel, fs_find wi.fs (dst ++ 92 :: rel) =
    if head_comp rel ∈ todo.map DTA.name then none
    else (fs_find w.fs (src ++ 92 :: rel)).map Node.copied

/-- The log shows that the node at `q` was removed: a `dos_delete` or a `dos_rmdir` of `q`
that reported success. -/
def removed_in (evs : List Ev) (q : List Nat) : Prop :=
  Ev.delete q 0 ∈ evs ∨ Ev.rmdir q 0 ∈ evs

instance (evs : List Ev) (q : List Nat) : Decidable (removed_in evs q) := by
  unfold removed_in; infer_instance

/-- What `fops_delete_dir` needs on the directory `path`: a well-formed tree and a budget that
covers its depth. -/
def delete_ready (path : List Nat) (w : World) (fuel : Nat) : Prop :=
  tree_ok w.fs path ∧ 1 ≤ fuel ∧
  ∀ q node, fs_find w.fs q = some node → inside path q → depth_below path q + 2 ≤ fuel

/-- The outcome of deleting the node `path` (a file, or a directory with all it holds) from
the state `w`: the function returns; the nodes that are gone are exactly those whose removal
the log shows, and they all lie at or under `path`; an ESC in the log comes from the keyboard
script; without an ESC in the log the result is `FOPS_OK` and nothing is left at or under
`path`; with an ESC in the log the result is `FOPS_CANCEL` and `path` itself is not removed. -/
def deleted_tree (path : List Nat) (w : World) (r : Option Int × World) : Prop :=
  ∃ res evs, r.1 = some res ∧ r.2.log = w.log ++ evs ∧
    (∀ q, fs_find r.2.fs q = if removed_in evs q then none else fs_find w.fs q) ∧
    (∀ q, removed_in evs q → below path q) ∧
    (∀ e ∈ evs, e.isEsc = true → ∃ k ∈ w.keys, (Ev.kbd k).isEsc = true) ∧
    ((∀ e ∈ evs, e.isEsc = false) →
      res = FOPS_OK ∧ ∀ q, below path q → fs_find r.2.fs q = none) ∧
    ((∃ e ∈ evs, e.isEsc = true) → res = FOPS_CANCEL ∧ ¬ removed_in evs path)

/-- State of `fops_delete_dir` on `path` inside its loop, with the entries `todo` still to come
and the calls `evs` made since the state `w` at the start of the loop: no ESC so far, only nodes
inside `path` were removed, the children still to come are untouched, and nothing is left of
the children handled so far. -/
def delete_inv (path : List Nat) (w : World) (todo : List DTA) (wi : World)
    (evs : List Ev) : Prop :=
  wi.log = w.log ++ evs ∧ (wi.fs.map Prod.fst).Nodup ∧ wi.keys <:+ w.keys ∧
  (∀ e ∈ evs, e.isEsc = false) ∧
  (∀ q, removed_in evs q → inside path q) ∧
  (∀ q, fs_find wi.fs q = if removed_in evs q then none else fs_find w.fs q) ∧
  (∀ rel, head_comp rel ∈ todo.map DTA.name →
    fs_find wi.fs (path ++ 92 :: rel) = fs_find w.fs (path ++ 92 :: rel)) ∧
  (∀ rel, head_comp rel ∉ todo.map DTA.name → fs_find wi.fs (path ++ 92 :: rel) = none)

/-- The calls that the log of `w1` shows behind those of `w`. -/
def calls_since (w w1 : World) : List Ev := w1.log.drop w.log.length

/-- The tree of `world_tree` with ESC waiting in the keyboard buffer. -/
def world_tree_esc : World :=
  mk_world [(cstr "A:\\S", .dir), (cstr "A:\\S\\F", .file 0x20 [1, 2, 3, 4, 5]),
            (cstr "A:\\S\\T", .dir), (cstr "A:\\S\\T\\G", .file 0x22 [7])]
    [some { kind := 1, code := 27 }] [] 2

/-- Drive A holds the directory `S` with the directory `T` (one file `G`) listed before the
file `F`; the second keyboard poll delivers ESC. -/
def world_tree_late : World :=
  mk_world [(cstr "A:\\S", .dir), (cstr "A:\\S\\T", .dir), (cstr "A:\\S\\T\\G", .file 0x20 [7]),
            (cstr "A:\\S\\F", .file 0x21 [1, 2])]
    [none, some { kind := 1, code := 27 }] [] 2

/-! ## Panel operations as a whole -/

/-- A panel on the root of drive A whose single entry `F` is selected while `sel_count`
is 0. -/
def drift_panel : Panel := mk_root_panel 0 [mk_entry "F" 0x20 1]

/-- A panel whose listing has shrunk to thirty entries under a viewport that starts at
row 15 (as after `panel_read_dir` of a directory that lost entries): the viewport reaches
past the end of the listing. -/
def shrunk_panel : Panel :=
  { drive := 0, path := [], top := 15, cursor := 20, sel_count := 0,
    files := { entries := [], capacity := 256, count := 30, truncated := false } }

/-- The operations on a panel: populate, re-read, directory change, navigation and
selection. The arguments `raw` are what DOS enumerates when the operation reads the
directory. -/
inductive PanelOp where
  | readDir (raw : List DTA)
  | refresh (raw : List DTA)
  | changeDir (dirname : List Nat) (raw : List DTA)
  | goParent (raw : List DTA)
  | setDrive (drive : Nat) (raw : List DTA)
  | nav (op : NavOp)
  | toggle
  | clear

/-- Run one panel operation. -/
def PanelOp.run : PanelOp → Panel → Panel
  | .readDir raw, p => panel_read_dir p raw
  | .refresh raw, p => panel_refresh p raw
  | .changeDir dirname raw, p => panel_change_dir p dirname raw
  | .goParent raw, p => panel_go_parent p raw
  | .setDrive drive raw, p => panel_set_drive p drive raw
  | .nav op, p => op.run p
  | .toggle, p => panel_toggle_selection p
  | .clear, p => panel_clear_selection p

/-- Run a sequence of panel operations, first to last. -/
def run_ops (ops : List PanelOp) (p : Panel) : Panel := ops.foldl (fun q op => op.run q) p

/-! ## fileops.c: `fops_mkdir`, `fops_rename`

The dialog `dlg_input` belongs to the environment; what it returns (the button and the text
left in the buffer) is the argument `inp`. -/

def DLG_OK : Int := 1

/-- The function `str_cmp`. -/
def str_cmp : List Nat → List Nat → Int
  | c1 :: s1, c2 :: s2 =>
    if c1 ≠ 0 ∧ c2 ≠ 0 ∧ c1 = c2 then str_cmp s1 s2 else (c1 : Int) - (c2 : Int)
  | [], c2 :: _ => (0 : Int) - (c2 : Int)
  | c1 :: _, [] => (c1 : Int) - (0 : Int)
  | [], [] => 0

/-- The function `fops_mkdir` on the active panel; the result carries the panel, re-read
after a successful call. -/
def fops_mkdir (panel : Panel) (inp : Int × List Nat) (w : World) : Int × Panel × World :=
  if inp.1 ≠ DLG_OK then (FOPS_CANCEL, panel, w)
  else if chr inp.2 0 = 0 then (FOPS_CANCEL, panel, w)
  else
    let path := path_append (panel_base panel) inp.2
    let m := dos_mkdir path w
    if m.1 ≠ 0 then (FOPS_ERROR, panel, ui_error .cannotCreateDir m.2)
    else (FOPS_OK, panel_read_dir_dos panel m.2, m.2)

/-- The function `fops_rename` on the active panel. -/
def fops_rename (panel : Panel) (inp : Int × List Nat) (w : World) : Int × Panel × World :=
  match panel_get_cursor_file panel with
  | none => (FOPS_CANCEL, panel, w)
  | some f =>
    if file_is_parent f ∨ (chr f.name 0 = 46 ∧ chr f.name 1 = 0) then (FOPS_CANCEL, panel, w)
    else if inp.1 ≠ DLG_OK then (FOPS_CANCEL, panel, w)
    else if chr inp.2 0 = 0 ∨ str_cmp f.name inp.2 = 0 then (FOPS_CANCEL, panel, w)
    else
      let old_path := path_append (panel_base panel) f.name
      let new_path := path_append (panel_base panel) inp.2
      let r := dos_rename old_path new_path w
      if r.1 ≠ 0 then (FOPS_ERROR, panel, ui_error .cannotRename r.2)
      else (FOPS_OK, panel_read_dir_dos panel r.2, r.2)

/-- Is the call a `dos_mkdir` or a `dos_rename`. -/
def Ev.isMkdirOrRename : Ev → Bool
  | .mkdir _ _ => true
  | .rename _ _ _ => true
  | _ => false

/-! ## Sample jobs -/

/-- A panel on the root of drive B that lists the file `F.TXT`. -/
def panel_B_F : Panel := mk_root_panel 1 [mk_entry "F.TXT" 0x20 0]

/-- Drives A and B both hold a file `F.TXT`; the user picks `choice` in the copy-or-move
dialog and answers the overwrite prompt with No. -/
def world_conflict (choice : Int) : World :=
  mk_world [(path_F, .file 0x20 [1, 2, 3, 4, 5]), (cstr "B:\\F.TXT", .file 0x20 [9])] []
    [choice, 0] 512

/-- Drive A holds the directory `D` with the files `X.TXT` and `Z.TXT`; drive B is empty; the
user picks Copy. -/
def world_dir2 : World :=
  mk_world [(cstr "A:\\D", .dir), (cstr "A:\\D\\X.TXT", .file 0x20 [1, 2, 3]),
            (cstr "A:\\D\\Z.TXT", .file 0x20 [7])] [] [67] 512

/-! ## util.c: number formatting -/

/-- The digit loop of `num_format` and `num_format_simple` (`while (num > 0)`): the decimal
digits of `num` as characters, lowest first. A 32-bit number has at most ten digits, which is
the budget `fuel` the callers below pass. -/
def rev_digits : Nat → Nat → List Nat
  | 0, _ => []
  | fuel + 1, num => if num > 0 then (48 + num % 10) :: rev_digits fuel (num / 10) else []

/-- The function `num_format_simple`. -/
def num_format_simple (num : Nat) : List Nat :=
  if num = 0 then [48] else (rev_digits 10 num).reverse

/-- The copy loop of `num_format` (`while (i > 0)`): `temp[i - 1]`, then a comma when
`i - 1 > 0` and `(digits - (i - 1)) % 3 == 0`. -/
def comma_loop (temp : List Nat) (digits : Nat) : Nat → List Nat
  | 0 => []
  | i + 1 =>
    chr temp i :: ((if i > 0 ∧ (digits - i) % 3 = 0 then [44] else []) ++
      comma_loop temp digits i)

/-- The function `num_format`. -/
def num_format (num : Nat) : List Nat :=
  if num = 0 then [48]
  else comma_loop (rev_digits 10 num) (rev_digits 10 num).length (rev_digits 10 num).length

/-! ## config.c -/

/-- The constant `MAX_PATH_LEN` of `igc.h`. -/
def MAX_PATH_LEN : Nat := 65

/-- The record `Config`. -/
structure Config where
  left_drive : Nat
  left_path : List Nat
  right_drive : Nat
  right_path : List Nat
  active_panel : Nat
  deriving DecidableEq

/-- The function `skip_whitespace`. -/
def skip_whitespace : List Nat → List Nat
  | c :: s => if c = 32 ∨ c = 9 then skip_whitespace s else c :: s
  | [] => []

/-- The scan for the `=` sign in `parse_line`: the string behind the sign, `none` when the
scan stops at the end of the string or at a line end first. -/
def after_eq : List Nat → Option (List Nat)
  | [] => none
  | c :: s =>
    if c = 0 then none
    else if c = 61 then some s
    else if c = 10 ∨ c = 13 then none
    else after_eq s

/-- The loop that strips `\n` and `\r` from the end of a path in `parse_line`. -/
def strip_eol (s : List Nat) : List Nat :=
  (s.reverse.dropWhile (fun c => c = 10 || c = 13)).reverse

/-- The function `parse_line`. -/
def parse_line (cfg : Config) (line0 : List Nat) : Config :=
  let line := skip_whitespace line0
  if chr line 0 = 59 ∨ chr line 0 = 35 ∨ chr line 0 = 0 ∨ chr line 0 = 10 ∨ chr line 0 = 13 then
    cfg
  else if chr line 0 = 91 then cfg
  else
    match after_eq line with
    | none => cfg
    | some rest =>
      let value := skip_whitespace rest
      if str_cmp_i line (cstr "LeftDrive") = 0 ∨ chr line 0 = 76 then
        if 65 ≤ chr value 0 ∧ chr value 0 ≤ 90 then { cfg with left_drive := chr value 0 - 65 }
        else if 97 ≤ chr value 0 ∧ chr value 0 ≤ 122 then
          { cfg with left_drive := chr value 0 - 97 }
        else cfg
      else if str_cmp_i line (cstr "LeftPath") = 0 ∨ (chr line 0 = 76 ∧ chr line 4 = 80) then
        { cfg with left_path := strip_eol (str_copy_n value (MAX_PATH_LEN - 1)) }
      else if str_cmp_i line (cstr "RightDrive") = 0 ∨ chr line 0 = 82 then
        if 65 ≤ chr value 0 ∧ chr value 0 ≤ 90 then { cfg with right_drive := chr value 0 - 65 }
        else if 97 ≤ chr value 0 ∧ chr value 0 ≤ 122 then
          { cfg with right_drive := chr value 0 - 97 }
        else cfg
      else if str_cmp_i line (cstr "RightPath") = 0 ∨ (chr line 0 = 82 ∧ chr line 5 = 80) then
        { cfg with right_path := strip_eol (str_copy_n value (MAX_PATH_LEN - 1)) }
      else if str_cmp_i line (cstr "ActivePanel") = 0 ∨ chr line 0 = 65 then
        if chr value 0 = 49 ∨ chr value 0 = 82 ∨ chr value 0 = 114 then
          { cfg with active_panel := 1 }
        else { cfg with active_panel := 0 }
      else cfg

/-- The line loop of `config_load` over `buf[0 .. bytes]`: a `\n` or the closing NUL ends a
line and hands it to `parse_line`, `\r` is dropped, and a line keeps at most 127 bytes. -/
def split_lines : List Nat → List Nat → Config → Config
  | [], _, cfg => cfg
  | c :: rest, line, cfg =>
    if c = 10 ∨ c = 0 then split_lines rest [] (parse_line cfg line)
    else if c ≠ 13 then split_lines rest (if line.length < 127 then line ++ [c] else line) cfg
    else split_lines rest line cfg

/-- The defaults that `config_load` sets first; `drive` is the current drive of DOS. -/
def config_defaults (drive : Nat) : Config :=
  { left_drive := drive, left_path := [92], right_drive := drive, right_path := [92],
    active_panel := 0 }

/-- The function `config_load` on a file `IGC.INI` with the content `text`: the flag it
returns and the record it fills. One `dos_read` fetches at most 511 bytes. -/
def config_load (drive : Nat) (text : List Nat) : Bool × Config :=
  let bytes := text.take 511
  if bytes.length = 0 then (false, config_defaults drive)
  else (true, split_lines (bytes ++ [0]) [] (config_defaults drive))

/-- The value of `str_len` on a buffer. -/
def buf_len (buf : List Nat) : Nat := (buf.takeWhile (fun c => c != 0)).length

/-- Store the bytes `s` in a buffer from offset `off` on. -/
def buf_put (buf : List Nat) (off : Nat) (s : List Nat) : List Nat :=
  buf.take off ++ s ++ buf.drop (off + s.length)

/-- The call `str_copy(buf + off, s)`: the bytes of the string `s` and the closing NUL. -/
def buf_copy (buf : List Nat) (off : Nat) (s : List Nat) : List Nat :=
  buf_put buf off (s.takeWhile (fun c => c != 0) ++ [0])

/-- The bytes that `dos_write(h, buf, str_len(buf))` sends. -/
def buf_text (buf : List Nat) : List Nat := buf.take (buf_len buf)

/-- The function `config_save` when every write is accepted: the content of `IGC.INI`. The
local `buf[256]` is followed through all five lines, because the code that builds the
`ActivePanel` line overwrites the closing NUL of `"ActivePanel="` with the digit and then calls
`str_len` again, which runs on into what the `RightPath` line left in `buf`. Every byte that is
read has been written before, so the start content of `buf` does not matter. -/
def config_text (cfg : Config) : List Nat :=
  let b0 := buf_copy (List.replicate 256 0) 0 (cstr "; IGC Configuration\r\n[Settings]\r\n")
  let b1 := buf_put b0 0 (cstr "LeftDrive=" ++ [(65 + cfg.left_drive) % 256, 13, 10, 0])
  let b2a := buf_copy b1 0 (cstr "LeftPath=")
  let b2b := buf_copy b2a (buf_len b2a) cfg.left_path
  let b2 := buf_copy b2b (buf_len b2b) [13, 10]
  let b3 := buf_put b2 0 (cstr "RightDrive=" ++ [(65 + cfg.right_drive) % 256, 13, 10, 0])
  let b4a := buf_copy b3 0 (cstr "RightPath=")
  let b4b := buf_copy b4a (buf_len b4a) cfg.right_path
  let b4 := buf_copy b4b (buf_len b4b) [13, 10]
  let b5a := buf_copy b4 0 (cstr "ActivePanel=")
  let b5b := buf_put b5a (buf_len b5a) [(48 + cfg.active_panel) % 256]
  let b5c := buf_put b5b (buf_len b5b + 1) [0]
  let b5 := buf_copy b5c (buf_len b5c) [13, 10]
  buf_text b0 ++ buf_text b1 ++ buf_text b2 ++ buf_text b3 ++ buf_text b4 ++ buf_text b5

/-- A configuration as `config_build` gives it at shutdown: left panel on `C:\SUB`, right
panel on the root of drive D, right panel active. -/
def sample_config : Config :=
  { left_drive := 2, left_path := cstr "\\SUB", right_drive := 3, right_path := [92],
    active_panel := 1 }

/-- A panel near the top of the 16-bit range: 65535 entries, first row 65517, cursor on
slot 65520. -/
def wrap_view_panel : Panel :=
  { drive := 0, path := [], top := 65517, cursor := 65520, sel_count := 0,
    files := { entries := [], capacity := 65535, count := 65535, truncated := false } }

/-- A panel with thirty entries that shows its last page: first row 11, cursor on slot 20. -/
def last_page_panel : Panel :=
  { drive := 0, path := [], top := 11, cursor := 20, sel_count := 0,
    files := { entries := [], capacity := 256, count := 30, truncated := false } }

/-- Is the call a progress report (`ui_show_progress`). -/
def Ev.isProgress : Ev → Bool
  | .progress _ _ _ _ => true
  | _ => false

/-- Drive A holds `F.TXT` with five bytes; the user picks Move and answers the overwrite
prompt with Yes. -/
def world_F_move : World := mk_world [(path_F, .file 0x20 [1, 2, 3, 4, 5])] [] [77, 1] 512

/-- The panel `root_panel_F` with `F.TXT` selected. -/
def root_panel_F_sel : Panel :=
  { drive := 0, path := [], top := 0, cursor := 0, sel_count := 1,
    files := { entries := [{ attr := 0x20, time := 0, date := 0, size := 5, name := name_F,
                             selected := 1 }],
               capacity := 8, count := 1, truncated := false } }

/-- Drive A holds `F.TXT` with five bytes; the user confirms the batch and answers the
overwrite prompt with Yes. -/
def world_F_batch : World := mk_world [(path_F, .file 0x20 [1, 2, 3, 4, 5])] [] [1, 1] 512

/-- An ESC that a keyboard poll delivers is the last call of the list. -/
def esc_last (evs : List Ev) : Prop :=
  ∀ pre e post, evs = pre ++ e :: post → e.isEsc = true → post = []

/-- The run from `w` to the result `r` stops at the first ESC: an ESC among its calls is the
last of them, and the result is then `FOPS_CANCEL`. -/
def stops_at_esc (w : World) (r : Option Int × World) : Prop :=
  ∃ evs, r.2.log = w.log ++ evs ∧ esc_last evs ∧
    ((∃ e ∈ evs, e.isEsc = true) → r.1 = some FOPS_CANCEL)
/-! ## Theorems: the order of `file_compare` and the bubble sort -/

theorem char_upper_eq_zero (c : Nat) : char_upper c = 0 ↔ c = 0 := by
  unfold char_upper; split_ifs <;> omega

theorem char_upper_zero : char_upper 0 = 0 := by decide

theorem str_cmp_i_antisymm : ∀ a b : List Nat, str_cmp_i b a = - str_cmp_i a b
  | [], [] => by simp [str_cmp_i]
  | [], _ :: _ => by simp [str_cmp_i]
  | _ :: _, [] => by simp [str_cmp_i]
  | x :: a, y :: b => by
    have ih := str_cmp_i_antisymm a b
    simp only [str_cmp_i]
    by_cases hx : x = 0 <;> by_cases hy : y = 0 <;> by_cases h : char_upper x = char_upper y <;>
      simp [hx, hy, h, ih, eq_comm]

theorem str_cmp_i_trans : ∀ a b c : List Nat,
    str_cmp_i a b ≤ 0 → str_cmp_i b c ≤ 0 → str_cmp_i a c ≤ 0 := by
  intro a
  induction a with
  | nil =>
    intro b c h1 h2
    cases c with
    | nil => simp [str_cmp_i]
    | cons z c => simp only [str_cmp_i, char_upper_zero]; omega
  | cons x a ih =>
    intro b c h1 h2
    have zx := char_upper_eq_zero x
    cases b with
    | nil =>
      simp only [str_cmp_i, char_upper_zero] at h1
      have hx0 : x = 0 := by omega
      subst hx0
      cases c <;> simp only [str_cmp_i, char_upper_zero] <;> omega
    | cons y b =>
      have zy := char_upper_eq_zero y
      cases c with
      | nil =>
        simp only [str_cmp_i, char_upper_zero] at h1 h2 ⊢
        have hy0 : y = 0 := by omega
        subst hy0
        simp only [char_upper_zero] at h1
        split_ifs at h1 <;> omega
      | cons z c =>
        simp only [str_cmp_i] at h1 h2 ⊢
        have zz := char_upper_eq_zero z
        have ih' := ih b c
        split_ifs at h1 h2 ⊢ <;> omega

theorem file_le_of_not (a b : FileEntry) (h : ¬ file_le a b) : file_le b a := by
  unfold file_le file_compare at *
  have hs := str_cmp_i_antisymm a.name b.name
  simp only at h ⊢
  split_ifs at h ⊢ <;> omega

theorem file_le_trans (a b c : FileEntry) (h1 : file_le a b) (h2 : file_le b c) :
    file_le a c := by
  unfold file_le file_compare at *
  have hs := str_cmp_i_trans a.name b.name c.name
  simp only at h1 h2 ⊢
  split_ifs at h1 h2 ⊢ <;> omega

theorem file_le_refl (a : FileEntry) : file_le a a := by
  by_cases h : file_le a a
  · exact h
  · exact file_le_of_not a a h

theorem sort_inner_perm : ∀ (k : Nat) (l : List FileEntry), (sort_inner k l).Perm l
  | 0, l => by simp [sort_inner]
  | k + 1, [] => by simp [sort_inner]
  | k + 1, [a] => by simp [sort_inner]
  | k + 1, a :: b :: rest => by
    simp only [sort_inner]
    split_ifs
    · exact ((sort_inner_perm k (a :: rest)).cons b).trans (List.Perm.swap a b rest)
    · exact (sort_inner_perm k (b :: rest)).cons a

theorem sort_inner_append : ∀ (k : Nat) (p s : List FileEntry), k + 1 ≤ p.length →
    sort_inner k (p ++ s) = sort_inner k p ++ s
  | 0, p, s, _ => by simp [sort_inner]
  | k + 1, [], s, h => by simp at h
  | k + 1, [a], s, h => by simp at h
  | k + 1, a :: b :: rest, s, h => by
    have h' : k + 1 ≤ (a :: rest).length := by simp at h ⊢; omega
    have h'' : k + 1 ≤ (b :: rest).length := by simp at h ⊢; omega
    have e1 := sort_inner_append k (a :: rest) s h'
    have e2 := sort_inner_append k (b :: rest) s h''
    simp only [List.cons_append] at e1 e2
    show sort_inner (k + 1) (a :: b :: (rest ++ s)) = sort_inner (k + 1) (a :: b :: rest) ++ s
    simp only [sort_inner]
    split_ifs
    · rw [e1]; rfl
    · rw [e2]; rfl

theorem sort_inner_max : ∀ (k : Nat) (p : List FileEntry), p.length = k + 1 →
    ∃ q m, sort_inner k p = q ++ [m] ∧ ∀ x ∈ p, file_le x m
  | 0, p, h => by
    match p, h with
    | [a], _ => exact ⟨[], a, by simp [sort_inner], by simp [file_le_refl]⟩
  | k + 1, p, h => by
    match p, h with
    | a :: b :: rest, h =>
      simp only [sort_inner]
      split_ifs with hc
      · obtain ⟨q, m, hq, hm⟩ := sort_inner_max k (a :: rest) (by simp at h ⊢; omega)
        refine ⟨b :: q, m, by simp [hq], ?_⟩
        intro x hx
        have hba : file_le b a := file_le_of_not a b (by unfold file_le; omega)
        have ham : file_le a m := hm a (by simp)
        simp only [List.mem_cons] at hx
        rcases hx with rfl | rfl | hx
        · exact ham
        · exact file_le_trans _ _ _ hba ham
        · exact hm x (by simp [hx])
      · obtain ⟨q, m, hq, hm⟩ := sort_inner_max k (b :: rest) (by simp at h ⊢; omega)
        refine ⟨a :: q, m, by simp [hq], ?_⟩
        intro x hx
        have hab : file_le a b := by unfold file_le; omega
        have hbm : file_le b m := hm b (by simp)
        simp only [List.mem_cons] at hx
        rcases hx with rfl | rfl | hx
        · exact file_le_trans _ _ _ hab hbm
        · exact hbm
        · exact hm x (by simp [hx])

/-- State of the array after the first `i` passes of the outer loop of `sort_files`. -/
theorem sort_passes_inv (n : Nat) (l : List FileEntry) (hn : l.length = n) :
    ∀ i, i + 1 ≤ n →
      ∃ p s, List.foldl (fun l i => sort_inner (n - i - 1) l) l (List.range i) = p ++ s ∧
        s.length = i ∧ (p ++ s).Perm l ∧ s.Pairwise file_le ∧
        ∀ x ∈ p, ∀ y ∈ s, file_le x y := by
  intro i
  induction i with
  | zero => intro _; exact ⟨l, [], by simp, rfl, by simp, by simp, by simp⟩
  | succ i ih =>
    intro hi
    obtain ⟨p, s, hfold, hlen, hperm, hsorted, hle⟩ := ih (by omega)
    rw [List.range_succ, List.foldl_append, hfold]
    simp only [List.foldl_cons, List.foldl_nil]
    have hpl : p.length = (n - i - 1) + 1 := by
      have := hperm.length_eq
      simp at this
      omega
    rw [sort_inner_append _ p s (by omega)]
    obtain ⟨q, m, hq, hm⟩ := sort_inner_max (n - i - 1) p hpl
    have hqp : (q ++ [m]).Perm p := hq ▸ sort_inner_perm (n - i - 1) p
    refine ⟨q, m :: s, by simp [hq], by simp [hlen], ?_, ?_, ?_⟩
    · have : (q ++ m :: s) = (q ++ [m]) ++ s := by simp
      rw [this]
      exact (hqp.append_right s).trans hperm
    · refine List.Pairwise.cons ?_ hsorted
      intro y hy
      exact hle m (hqp.subset (by simp)) y hy
    · intro x hx y hy
      simp only [List.mem_cons] at hy
      rcases hy with rfl | hy
      · exact hm x (hqp.subset (by simp [hx]))
      · exact hle x (hqp.subset (by simp [hx])) y hy

theorem sort_files_sorted (fl : FileList) (h : fl.count = fl.entries.length) :
    (sort_files fl).entries.Pairwise file_le ∧ (sort_files fl).entries.Perm fl.entries ∧
      (sort_files fl).count = fl.count := by
  unfold sort_files
  split_ifs with h2
  · refine ⟨?_, List.Perm.refl _, rfl⟩
    match hl : fl.entries with
    | [] => simp
    | [a] => simp
    | a :: b :: rest => rw [hl] at h; simp at h; omega
  · obtain ⟨p, s, hfold, hlen, hperm, hsorted, hle⟩ :=
      sort_passes_inv fl.count fl.entries h.symm (fl.count - 1) (by omega)
    simp only
    rw [hfold]
    refine ⟨?_, hperm, trivial⟩
    rw [List.pairwise_append]
    refine ⟨?_, hsorted, hle⟩
    have hp : p.length = 1 := by
      have := hperm.length_eq
      simp at this
      omega
    match p, hp with
    | [a], _ => simp

/-! ## Theorems: the listing built by `panel_read_dir` -/

theorem takeWhile_cons_nz (a : Nat) (l : List Nat) (h : a ≠ 0) :
    List.takeWhile (fun c => c != 0) (a :: l) = a :: List.takeWhile (fun c => c != 0) l := by
  have hb : (a != 0) = true := by simpa using h
  rw [List.takeWhile_cons, hb]; rfl

theorem takeWhile_cons_z (l : List Nat) :
    List.takeWhile (fun c => c != 0) (0 :: l) = [] := by
  simp [List.takeWhile]

theorem str_copy_n_not_parent (d : DTA)
    (h : ¬ (chr d.name 0 = 46 ∧ chr d.name 1 = 46 ∧ chr d.name 2 = 0)) :
    ¬ (chr (str_copy_n d.name 13) 0 = 46 ∧ chr (str_copy_n d.name 13) 1 = 46 ∧
        chr (str_copy_n d.name 13) 2 = 0) := by
  intro hc
  apply h
  clear h
  rcases hn : d.name with _ | ⟨a, _ | ⟨b, _ | ⟨c, rest⟩⟩⟩
  · simp [hn, str_copy_n, chr] at hc
  · by_cases ha : a = 0
    · subst ha; simp [hn, str_copy_n, chr, takeWhile_cons_z] at hc
    · simp [hn, str_copy_n, chr, takeWhile_cons_nz _ _ ha] at hc
  · by_cases ha : a = 0
    · subst ha; simp [hn, str_copy_n, chr, takeWhile_cons_z] at hc
    · by_cases hb : b = 0
      · subst hb; simp [hn, str_copy_n, chr, takeWhile_cons_nz _ _ ha, takeWhile_cons_z] at hc
      · simp [hn, str_copy_n, chr, takeWhile_cons_nz _ _ ha, takeWhile_cons_nz _ _ hb] at hc
        simp [chr, hc]
  · by_cases ha : a = 0
    · subst ha; simp [hn, str_copy_n, chr, takeWhile_cons_z] at hc
    · by_cases hb : b = 0
      · subst hb; simp [hn, str_copy_n, chr, takeWhile_cons_nz _ _ ha, takeWhile_cons_z] at hc
      · by_cases hcc : c = 0
        · subst hcc
          simp [hn, str_copy_n, chr, takeWhile_cons_nz _ _ ha, takeWhile_cons_nz _ _ hb,
            takeWhile_cons_z] at hc
          simp [chr, hc]
        · simp [hn, str_copy_n, chr, takeWhile_cons_nz _ _ ha, takeWhile_cons_nz _ _ hb,
            takeWhile_cons_nz _ _ hcc] at hc
          exact absurd hc.2.2 hcc
theorem read_entries_spec (capacity : Nat) : ∀ (raw : List DTA) (acc : List FileEntry),
    ∃ new, (read_entries capacity raw acc).1 = acc ++ new ∧
      ∀ e ∈ new, file_is_parent e = false
  | [], acc => ⟨[], by simp [read_entries], by simp⟩
  | d :: rest, acc => by
    simp only [read_entries]
    split_ifs with h1 h2 h3
    · exact read_entries_spec capacity rest acc
    · exact read_entries_spec capacity rest acc
    · obtain ⟨new, hnew, hp⟩ := read_entries_spec capacity rest
        (acc ++ [{ attr := d.attr, time := d.time, date := d.date, size := d.size,
                   name := str_copy_n d.name 13, selected := 0 }])
      refine ⟨{ attr := d.attr, time := d.time, date := d.date, size := d.size,
                name := str_copy_n d.name 13, selected := 0 } :: new, by rw [hnew]; simp, ?_⟩
      intro e he
      simp only [List.mem_cons] at he
      rcases he with rfl | he
      · have := str_copy_n_not_parent d h3
        simpa [file_is_parent] using this
      · exact hp e he
    · exact ⟨[], by simp, by simp⟩

theorem file_le_parent (a b : FileEntry) (h : file_le a b) (hb : file_is_parent b = true) :
    file_is_parent a = true := by
  unfold file_le file_compare at h
  simp only [file_is_parent, decide_eq_true_eq] at hb ⊢
  simp only at h
  split_ifs at h with h1
  · exact h1
  · omega

theorem file_le_plain (a b : FileEntry) (h : file_le a b) (ha : file_is_parent a = false)
    (hb : file_is_parent b = false) :
    (file_is_dir a = false → file_is_dir b = false) ∧
      (file_is_dir a = file_is_dir b → str_cmp_i a.name b.name ≤ 0) := by
  unfold file_le file_compare at h
  simp only [file_is_parent, decide_eq_false_iff_not] at ha hb
  simp only [file_is_dir]
  simp only [if_neg ha, if_neg hb] at h
  by_cases hda : (a.attr &&& DOS_ATTR_DIRECTORY != 0) = true <;>
    by_cases hdb : (b.attr &&& DOS_ATTR_DIRECTORY != 0) = true <;>
    simp_all

/-- Shape of the array that `panel_read_dir` leaves: sorted by `file_compare`, with the
synthetic parent entry in front exactly below the root, and no other entry named `".."`. -/
theorem panel_read_dir_shape (p : Panel) (raw : List DTA) :
    (panel_read_dir p raw).files.count = (panel_read_dir p raw).files.entries.length ∧
    (panel_read_dir p raw).files.entries.Pairwise file_le ∧
    ∃ rest, (∀ e ∈ rest, file_is_parent e = false) ∧
      (panel_read_dir p raw).files.entries =
        (if path_is_root p.path then rest else parent_entry :: rest) := by
  have key : ∀ (start : List FileEntry) (fl : FileList),
      start = (if path_is_root p.path then [] else [parent_entry]) →
      fl = sort_files { entries := (read_entries p.files.capacity raw start).1,
                        capacity := p.files.capacity,
                        count := (read_entries p.files.capacity raw start).1.length,
                        truncated := (read_entries p.files.capacity raw start).2 } →
      fl.count = fl.entries.length ∧ fl.entries.Pairwise file_le ∧
      ∃ rest, (∀ e ∈ rest, file_is_parent e = false) ∧
        fl.entries = (if path_is_root p.path then rest else parent_entry :: rest) := by
    intro start fl hstart hfl
    obtain ⟨new, hnew, hplain⟩ := read_entries_spec p.files.capacity raw start
    obtain ⟨hsorted, hperm, hcount⟩ := sort_files_sorted
      { entries := (read_entries p.files.capacity raw start).1,
        capacity := p.files.capacity,
        count := (read_entries p.files.capacity raw start).1.length,
        truncated := (read_entries p.files.capacity raw start).2 } rfl
    rw [← hfl] at hsorted hperm hcount
    simp only [] at hperm hcount
    rw [hnew] at hperm
    refine ⟨by rw [hcount, hperm.length_eq, hnew], hsorted, ?_⟩
    generalize fl.entries = es at hsorted hperm
    by_cases hroot : path_is_root p.path = true
    · simp only [hroot, if_true] at hstart ⊢
      subst hstart
      simp only [List.nil_append] at hperm
      exact ⟨es, fun e he => hplain e (hperm.subset he), rfl⟩
    · simp only [hroot, if_false, Bool.false_eq_true] at hstart ⊢
      subst hstart
      simp only [List.singleton_append] at hperm
      match es, hsorted, hperm with
      | [], _, hperm => simp at hperm
      | h :: t, hsorted, hperm =>
        have hh : h = parent_entry := by
          have hmem : parent_entry ∈ h :: t := hperm.symm.subset (by simp)
          rcases List.mem_cons.1 hmem with e | hin
          · exact e.symm
          · have hle : file_le h parent_entry := (List.pairwise_cons.1 hsorted).1 _ hin
            have hpar := file_le_parent h parent_entry hle (by decide)
            rcases List.mem_cons.1 (hperm.subset (List.mem_cons_self h t)) with e | hin'
            · exact e
            · rw [hplain h hin'] at hpar; exact absurd hpar (by decide)
        subst hh
        exact ⟨t, fun e he => hplain e ((List.Perm.cons_inv hperm).subset he), rfl⟩
  exact key _ _ rfl rfl

/-! ## C1 -/

/-- C1. After `panel_read_dir` on a panel with at least one slot: below the root, slot 0 holds
the synthetic entry named `".."`; and for all slots `i < j` behind it (all slots at the root),
a directory never follows a file, and two entries of the same kind are in non-decreasing
`str_cmp_i` order. -/
theorem read_dir_order (p : Panel) (raw : List DTA) (_hcap : 1 ≤ p.files.capacity) :
    (path_is_root p.path = false →
      (panel_read_dir p raw).files.entries[0]? = some parent_entry) ∧
    ∀ i j, (if path_is_root p.path then 0 else 1) ≤ i → i < j →
      j < (panel_read_dir p raw).files.count →
      ∃ a b, (panel_read_dir p raw).files.entries[i]? = some a ∧
        (panel_read_dir p raw).files.entries[j]? = some b ∧
        ¬ (file_is_dir a = false ∧ file_is_dir b = true) ∧
        (file_is_dir a = file_is_dir b → str_cmp_i a.name b.name ≤ 0) := by
  obtain ⟨hcount, hsorted, rest, hplain, hshape⟩ := panel_read_dir_shape p raw
  generalize (panel_read_dir p raw).files = fl at hcount hsorted hshape
  constructor
  · intro hroot
    simp [hshape, hroot]
  · intro i j hi hij hj
    have hjl : j < fl.entries.length := hcount ▸ hj
    have hil : i < fl.entries.length := by omega
    refine ⟨fl.entries[i], fl.entries[j], List.getElem?_eq_getElem hil,
      List.getElem?_eq_getElem hjl, ?_⟩
    have hle : file_le fl.entries[i] fl.entries[j] :=
      List.pairwise_iff_getElem.1 hsorted i j hil hjl hij
    have hmem : ∀ k (hk : k < fl.entries.length),
        (if path_is_root p.path then 0 else 1) ≤ k → file_is_parent fl.entries[k] = false := by
      intro k hk hstart
      by_cases hroot : path_is_root p.path = true
      · simp only [hroot, if_true] at hshape
        exact hplain _ (hshape ▸ List.getElem_mem hk)
      · simp only [hroot, if_false, Bool.false_eq_true] at hshape hstart
        have hk' : k < (parent_entry :: rest).length := hshape ▸ hk
        have e : fl.entries[k] = (parent_entry :: rest)[k] := by simp [hshape]
        rw [e]
        match k, hstart, hk' with
        | k + 1, _, hk' => exact hplain _ (List.getElem_mem (by simpa using hk'))
    have ha := hmem i hil hi
    have hb := hmem j hjl (by omega)
    obtain ⟨h1, h2⟩ := file_le_plain _ _ hle ha hb
    refine ⟨?_, h2⟩
    rintro ⟨hfa, hfb⟩
    rw [h1 hfa] at hfb
    exact absurd hfb (by decide)

theorem read_dir_order_witness :
    1 ≤ sample_panel.files.capacity ∧
    ((path_is_root sample_panel.path = false →
      (panel_read_dir sample_panel sample_raw).files.entries[0]? = some parent_entry) ∧
    ∀ i j, (if path_is_root sample_panel.path then 0 else 1) ≤ i → i < j →
      j < (panel_read_dir sample_panel sample_raw).files.count →
      ∃ a b, (panel_read_dir sample_panel sample_raw).files.entries[i]? = some a ∧
        (panel_read_dir sample_panel sample_raw).files.entries[j]? = some b ∧
        ¬ (file_is_dir a = false ∧ file_is_dir b = true) ∧
        (file_is_dir a = file_is_dir b → str_cmp_i a.name b.name ≤ 0)) :=
  ⟨by decide, read_dir_order sample_panel sample_raw (by decide)⟩

/-! ## C2 -/

/-- C2 (evaluation at the failing input). After `panel_init`, `panel_read_dir`,
`panel_toggle_selection` and another `panel_read_dir`, the counter `sel_count` is still 1
although no entry of the fresh listing is selected: `panel_read_dir` clears every `selected`
flag and leaves `sel_count` alone. -/
theorem sel_count_stale_after_read_dir :
    (panel_toggle_selection (panel_read_dir (panel_init 8) raw_F)).sel_count = 1 ∧
    count_selected_files (panel_toggle_selection (panel_read_dir (panel_init 8) raw_F)) = 1 ∧
    reread_panel.sel_count = 1 ∧ count_selected_files reread_panel = 0 := by
  decide

/-! ## C3 -/

/-- C3 (evaluation at the failing input). On an empty listing (`count = 0`, `cursor = 0`)
`panel_cursor_down` compares the cursor with `count - 1 = 65535` and moves it to 1, outside
`0 <= cursor < max(count, 1)`. -/
theorem cursor_down_empty :
    empty_panel.cursor < max empty_panel.files.count 1 ∧
    (panel_cursor_down empty_panel).files.count = 0 ∧
    (panel_cursor_down empty_panel).cursor = 1 ∧
    ¬ (panel_cursor_down empty_panel).cursor < max (panel_cursor_down empty_panel).files.count 1 := by
  decide


/-- On a non-empty listing every navigation operation keeps the cursor below `count`. -/
theorem nav_cursor_bound (op : NavOp) (p : Panel) (hcount : 0 < p.files.count)
    (hw : p.files.count < 65536) (hcur : p.cursor < p.files.count) :
    (op.run p).cursor < (op.run p).files.count := by
  cases op <;>
    simp only [NavOp.run, panel_cursor_up, panel_cursor_down, panel_cursor_home,
      panel_cursor_end, panel_page_up, panel_page_down, u16add, u16sub, PANEL_HEIGHT] <;>
    (try split_ifs) <;> (try simp only []) <;> omega


/-! ## C4 -/

/-- C4 (counterexample). With `count = 65535`, `cursor = 65520` and `top = 65510` the sums
`cursor + 19` and `top + 38` of `panel_page_down` wrap in 16 bits: the cursor lands on 3, the
first row on 65529, and the cursor is no longer inside the viewport. -/
theorem page_down_wraps :
    0 < wide_panel.files.count ∧ wide_panel.cursor < wide_panel.files.count ∧
    wide_panel.top ≤ wide_panel.cursor ∧ wide_panel.cursor ≤ wide_panel.top + PANEL_HEIGHT - 1 ∧
    ¬ ((panel_page_down wide_panel).top ≤ (panel_page_down wide_panel).cursor ∧
       (panel_page_down wide_panel).cursor ≤ (panel_page_down wide_panel).top + PANEL_HEIGHT - 1) := by
  decide

/-- C4 (amended). From a state with `0 < count`, `cursor < count` and
`top <= cursor <= top + PANEL_HEIGHT - 1`, each navigation operation leads to a state with
`top <= cursor <= top + PANEL_HEIGHT - 1` again; for `panel_page_down` this needs
`count <= 65498`, so that none of its 16-bit sums wraps. -/
theorem nav_viewport (op : NavOp) (p : Panel) (hcount : 0 < p.files.count)
    (hw : p.files.count < 65536) (hpd : op = NavOp.pageDown → p.files.count ≤ 65498)
    (hcur : p.cursor < p.files.count) (htop : p.top ≤ p.cursor)
    (hbot : p.cursor ≤ p.top + PANEL_HEIGHT - 1) :
    (op.run p).top ≤ (op.run p).cursor ∧ (op.run p).cursor ≤ (op.run p).top + PANEL_HEIGHT - 1 := by
  cases op <;>
    simp only [NavOp.run, panel_cursor_up, panel_cursor_down, panel_cursor_home,
      panel_cursor_end, panel_page_up, panel_page_down, u16add, u16sub, PANEL_HEIGHT] at * <;>
    (try simp only [forall_true_left, reduceCtorEq, false_implies] at hpd) <;>
    (try split_ifs) <;> (try simp only []) <;> omega

theorem nav_viewport_witness :
    (0 < long_panel.files.count ∧ long_panel.files.count < 65536 ∧
      (NavOp.pageDown = NavOp.pageDown → long_panel.files.count ≤ 65498) ∧
      long_panel.cursor < long_panel.files.count ∧ long_panel.top ≤ long_panel.cursor ∧
      long_panel.cursor ≤ long_panel.top + PANEL_HEIGHT - 1) ∧
    ((NavOp.pageDown.run long_panel).top ≤ (NavOp.pageDown.run long_panel).cursor ∧
      (NavOp.pageDown.run long_panel).cursor ≤
        (NavOp.pageDown.run long_panel).top + PANEL_HEIGHT - 1) :=
  ⟨by decide, nav_viewport NavOp.pageDown long_panel (by decide) (by decide) (by decide)
    (by decide) (by decide) (by decide)⟩

/-! ## C5 -/

/-- C5 (evaluation at the failing input). Both panels show the root of drive A, as after
`panels_init`, and the cursor is on `F.TXT`; source and destination path are then the same
string. The user confirms the copy and answers the overwrite prompt with Yes: `fops_copy_file`
deletes the "existing destination", which is the source, cannot open the source any more and
returns `FOPS_ERROR`; the file is gone. -/
theorem copy_same_dir_deletes_source :
    build_src_path root_panel_F
        { attr := 0x20, time := 0, date := 0, size := 5, name := name_F, selected := 0 } =
      path_F ∧
    build_dst_path root_panel_F name_F = path_F ∧
    fs_find world_F.fs path_F = some (Node.file 0x20 [1, 2, 3, 4, 5]) ∧
    (fops_copy 8 root_panel_F root_panel_F world_F).1 = some FOPS_ERROR ∧
    fs_find (fops_copy 8 root_panel_F root_panel_F world_F).2.2.fs path_F = none := by
  decide

/-! ## Theorems: the file system table and the handle table -/

theorem fs_find_put_same (fs : List (List Nat × Node)) (p : List Nat) (n : Node) :
    fs_find (fs_put fs p n) p = some n := by
  induction fs with
  | nil => simp [fs_put, fs_find]
  | cons e rest ih =>
    by_cases h : e.1 = p
    · simp [fs_put, fs_find, h]
    · simp [fs_put, fs_find, h, ih]

theorem fs_find_put_other (fs : List (List Nat × Node)) (p q : List Nat) (n : Node)
    (h : q ≠ p) : fs_find (fs_put fs p n) q = fs_find fs q := by
  induction fs with
  | nil => simp [fs_put, fs_find, h.symm]
  | cons e rest ih =>
    have hpq : ¬ p = q := fun x => h x.symm
    simp only [fs_put]
    split_ifs with h1
    · have h2 : ¬ e.1 = q := by rw [h1]; exact hpq
      simp only [fs_find, if_neg hpq, if_neg h2]
    · simp only [fs_find]
      split_ifs
      · rfl
      · exact ih

theorem fs_find_del_same (fs : List (List Nat × Node)) (p : List Nat) :
    fs_find (fs_del fs p) p = none := by
  induction fs with
  | nil => simp [fs_del, fs_find]
  | cons e rest ih =>
    unfold fs_del at ih ⊢
    by_cases h : e.1 = p
    · rw [List.filter_cons_of_neg (by simpa using h)]
      exact ih
    · rw [List.filter_cons_of_pos (by simpa using h)]
      simp only [fs_find, if_neg h]
      exact ih

theorem fs_find_del_other (fs : List (List Nat × Node)) (p q : List Nat) (h : q ≠ p) :
    fs_find (fs_del fs p) q = fs_find fs q := by
  induction fs with
  | nil => simp [fs_del, fs_find]
  | cons e rest ih =>
    unfold fs_del at ih ⊢
    by_cases h1 : e.1 = p
    · have h2 : ¬ e.1 = q := by rw [h1]; exact fun x => h x.symm
      rw [List.filter_cons_of_neg (by simpa using h1)]
      simp only [fs_find, if_neg h2]
      exact ih
    · rw [List.filter_cons_of_pos (by simpa using h1)]
      simp only [fs_find]
      split_ifs
      · rfl
      · exact ih

theorem le_foldr_max (l : List Nat) (b x : Nat) (h : x ∈ l) : x ≤ l.foldr max b := by
  induction l with
  | nil => simp at h
  | cons a rest ih =>
    simp only [List.foldr_cons]
    rcases List.mem_cons.1 h with rfl | h'
    · exact le_max_left _ _
    · exact le_trans (ih h') (le_max_right _ _)

theorem fresh_handle_gt (hs : List (Nat × List Nat × Nat)) (e : Nat × List Nat × Nat)
    (h : e ∈ hs) : e.1 < fresh_handle hs := by
  unfold fresh_handle
  have := le_foldr_max (hs.map (fun h => h.1)) 4 e.1 (List.mem_map_of_mem _ h)
  omega

theorem fresh_handle_pos (hs : List (Nat × List Nat × Nat)) : 5 ≤ fresh_handle hs := by
  unfold fresh_handle
  have : 4 ≤ (hs.map (fun h => h.1)).foldr max 4 := by
    induction hs with
    | nil => simp
    | cons a rest ih => simp only [List.map_cons, List.foldr_cons]; exact le_trans ih (le_max_right _ _)
  omega

/-! ## Theorems: effect of the environment calls -/

@[simp] theorem emit_log (w : World) (e : Ev) : (w.emit e).log = w.log ++ [e] := rfl
@[simp] theorem emit_fs (w : World) (e : Ev) : (w.emit e).fs = w.fs := rfl
@[simp] theorem emit_handles (w : World) (e : Ev) : (w.emit e).handles = w.handles := rfl
@[simp] theorem emit_keys (w : World) (e : Ev) : (w.emit e).keys = w.keys := rfl
@[simp] theorem emit_answers (w : World) (e : Ev) : (w.emit e).answers = w.answers := rfl
@[simp] theorem emit_read_faults (w : World) (e : Ev) :
    (w.emit e).read_faults = w.read_faults := rfl
@[simp] theorem emit_write_faults (w : World) (e : Ev) :
    (w.emit e).write_faults = w.write_faults := rfl
@[simp] theorem emit_buf (w : World) (e : Ev) :
    (w.emit e).g_copy_buf_size = w.g_copy_buf_size := rfl
@[simp] theorem emit_overwrite_all (w : World) (e : Ev) :
    (w.emit e).g_overwrite_all = w.g_overwrite_all := rfl
@[simp] theorem emit_file_count (w : World) (e : Ev) :
    (w.emit e).g_file_count = w.g_file_count := rfl
@[simp] theorem emit_file_current (w : World) (e : Ev) :
    (w.emit e).g_file_current = w.g_file_current := rfl

theorem dos_read_log (h : Int) (c : Nat) (w : World) :
    (dos_read h c w).2.2.log = w.log ++ [Ev.read h (dos_read h c w).1] := by
  unfold dos_read
  simp only
  split_ifs
  · rfl
  · split
    · rfl
    · split <;> rfl

theorem dos_read_fs (h : Int) (c : Nat) (w : World) : (dos_read h c w).2.2.fs = w.fs := by
  unfold dos_read
  simp only
  split_ifs
  · rfl
  · split
    · rfl
    · split <;> rfl

theorem other_handles_seek (hs hd h : Int) (pos : Nat) (l : List (Nat × List Nat × Nat))
    (hh : h = hs ∨ h = hd) :
    other_handles hs hd (handle_seek l h pos) = other_handles hs hd l := by
  unfold other_handles handle_seek
  induction l with
  | nil => rfl
  | cons e rest ih =>
    simp only [List.map_cons]
    by_cases he : (e.1 : Int) = h
    · have hout : (decide ((e.1 : Int) ≠ hs) && decide ((e.1 : Int) ≠ hd)) = false := by
        rcases hh with rfl | rfl <;> simp [he]
      rw [if_pos he, List.filter_cons_of_neg (by simpa using hout),
        List.filter_cons_of_neg (by simpa using hout)]
      exact ih
    · rw [if_neg he]
      simp only [List.filter_cons]
      split_ifs
      · rw [ih]
      · exact ih

theorem dos_read_others (hs hd h : Int) (c : Nat) (w : World) (hh : h = hs ∨ h = hd) :
    other_handles hs hd (dos_read h c w).2.2.handles = other_handles hs hd w.handles := by
  unfold dos_read
  simp only
  split_ifs
  · rfl
  · split
    · rfl
    · split
      · exact other_handles_seek hs hd h _ _ hh
      · rfl

theorem toInt16_pos (n : Nat) (h : 0 < toInt16 n) :
    n % 65536 < 32768 ∧ toInt16 n = ((n % 65536 : Nat) : Int) := by
  unfold toInt16 at h ⊢
  split_ifs at h ⊢ with h1
  · exact ⟨h1, rfl⟩
  · omega

theorem dos_read_result (h : Int) (c : Nat) (w : World) :
    ((dos_read h c w).1 = -1 ∧ (dos_read h c w).2.1 = []) ∨
    ((dos_read h c w).2.1.length < 65536 ∧
      (dos_read h c w).1 = toInt16 (dos_read h c w).2.1.length) := by
  unfold dos_read
  simp only
  split_ifs
  · exact Or.inl ⟨rfl, rfl⟩
  · split
    · exact Or.inl ⟨rfl, rfl⟩
    · split
      · refine Or.inr ⟨?_, rfl⟩
        simp only [List.length_take]
        have := Nat.mod_lt c (show 0 < 65536 by decide)
        omega
      · exact Or.inl ⟨rfl, rfl⟩

theorem dos_read_len (h : Int) (c : Nat) (w : World) (hpos : 0 < (dos_read h c w).1) :
    ((((dos_read h c w).2.1.take ((dos_read h c w).1.toNat % 65536)).length : Nat) : Int) =
      (dos_read h c w).1 := by
  rcases dos_read_result h c w with ⟨h1, _⟩ | ⟨h1, h2⟩
  · omega
  · rw [h2] at hpos ⊢
    obtain ⟨h3, h4⟩ := toInt16_pos _ hpos
    rw [h4]
    simp only [Int.toNat_ofNat, List.length_take]
    have : (dos_read h c w).2.1.length % 65536 = (dos_read h c w).2.1.length :=
      Nat.mod_eq_of_lt h1
    omega

theorem dos_write_log (h : Int) (b : List Nat) (w : World) :
    (dos_write h b w).2.log = w.log ++ [Ev.write h b (dos_write h b w).1] := by
  unfold dos_write
  simp only
  split
  · rfl
  · rfl
  · split <;> rfl

theorem dos_write_others (hs hd h : Int) (b : List Nat) (w : World) (hh : h = hs ∨ h = hd) :
    other_handles hs hd (dos_write h b w).2.handles = other_handles hs hd w.handles := by
  unfold dos_write
  simp only
  split
  · rfl
  · rfl
  · split
    · exact other_handles_seek hs hd h _ _ hh
    · rfl

theorem deletable_put (fs : List (List Nat × Node)) (p q : List Nat) (a : Nat)
    (d d' : List Nat) (hq : fs_find fs q = some (Node.file a d)) (h : deletable fs p) :
    deletable (fs_put fs q (Node.file a d')) p := by
  by_cases hpq : p = q
  · subst hpq
    rcases h with h | ⟨a', d0, h1, h2⟩
    · rw [h] at hq; exact absurd hq (by simp)
    · rw [h1] at hq
      injection hq with hq
      injection hq with ha hd
      subst ha
      exact Or.inr ⟨a', d', fs_find_put_same _ _ _, h2⟩
  · unfold deletable
    rw [fs_find_put_other _ _ _ _ hpq]
    exact h

theorem dos_write_deletable (h : Int) (b : List Nat) (w : World) (p : List Nat)
    (hp : deletable w.fs p) : deletable (dos_write h b w).2.fs p := by
  unfold dos_write
  simp only
  split
  · exact hp
  · exact hp
  · split
    · rename_i hf
      exact deletable_put _ _ _ _ _ _ hf hp
    · exact hp

theorem kbd_poll_log (w : World) : (kbd_poll w).2.log = w.log ++ [Ev.kbd (kbd_poll w).1] := rfl
theorem kbd_poll_fs (w : World) : (kbd_poll w).2.fs = w.fs := rfl
theorem kbd_poll_handles (w : World) : (kbd_poll w).2.handles = w.handles := rfl

theorem dos_delete_gone (p : List Nat) (w : World) (h : deletable w.fs p) :
    fs_find (dos_delete p w).2.fs p = none := by
  unfold dos_delete
  rcases h with h | ⟨a, d, h1, h2⟩
  · rw [h]; exact h
  · rw [h1]
    simp only [h2, if_true]
    exact fs_find_del_same _ _

theorem dos_delete_handles (p : List Nat) (w : World) :
    (dos_delete p w).2.handles = w.handles := by
  unfold dos_delete
  split
  · split_ifs <;> rfl
  · rfl

theorem dos_delete_log (p : List Nat) (w : World) :
    (dos_delete p w).2.log = w.log ++ [Ev.delete p (dos_delete p w).1] := by
  unfold dos_delete
  split
  · split_ifs <;> rfl
  · rfl


theorem copy_loop_abort (hs hd : Int) (dst : List Nat) : ∀ (fuel : Nat) (w : World),
    deletable w.fs dst →
    ∃ evs, (copy_loop fuel hs hd w).2.log = w.log ++ evs ∧
      ((∃ e ∈ evs, e.isEsc = true) → (copy_loop fuel hs hd w).1 = some FOPS_CANCEL) ∧
      ((∃ e ∈ evs, e.isReadFail = true ∨ e.isShortWrite = true) →
        (copy_loop fuel hs hd w).1 = some FOPS_ERROR) ∧
      deletable (copy_loop fuel hs hd w).2.fs dst ∧
      other_handles hs hd (copy_loop fuel hs hd w).2.handles = other_handles hs hd w.handles := by
  intro fuel
  induction fuel with
  | zero =>
    intro w hdel
    exact ⟨[], by simp [copy_loop], by simp, by simp, hdel, rfl⟩
  | succ fuel ih =>
    intro w hdel
    have hrl := dos_read_log hs w.g_copy_buf_size w
    have hrf := dos_read_fs hs w.g_copy_buf_size w
    have hro := dos_read_others hs hd hs w.g_copy_buf_size w (Or.inl rfl)
    have hlen := dos_read_len hs w.g_copy_buf_size w
    simp only [copy_loop]
    generalize dos_read hs w.g_copy_buf_size w = rd at hrl hrf hro hlen
    by_cases h1 : rd.1 < 0
    · simp only [h1, if_true]
      refine ⟨[Ev.read hs rd.1], hrl, ?_, ?_, hrf ▸ hdel, hro⟩
      · simp [Ev.isEsc]
      · intro _; trivial
    · simp only [h1, if_false]
      by_cases h2 : rd.1 = 0
      · simp only [h2, if_true]
        refine ⟨[Ev.read hs rd.1], hrl, ?_, ?_, hrf ▸ hdel, hro⟩
        · simp [Ev.isEsc]
        · simp [Ev.isReadFail, Ev.isShortWrite, h2]
      · simp only [h2, if_false]
        have hpos : 0 < rd.1 := by omega
        have hlen' := hlen hpos
        have hwl := dos_write_log hd (rd.2.1.take (rd.1.toNat % 65536)) rd.2.2
        have hwo := dos_write_others hs hd hd (rd.2.1.take (rd.1.toNat % 65536)) rd.2.2
          (Or.inr rfl)
        have hwd := dos_write_deletable hd (rd.2.1.take (rd.1.toNat % 65536)) rd.2.2 dst
          (hrf ▸ hdel)
        generalize dos_write hd (rd.2.1.take (rd.1.toNat % 65536)) rd.2.2 = wr at hwl hwo hwd
        by_cases h3 : wr.1 = rd.1
        · simp only [h3, ne_eq, not_true_eq_false, if_false]
          have hkl := kbd_poll_log wr.2
          have hkf := kbd_poll_fs wr.2
          have hkh := kbd_poll_handles wr.2
          generalize kbd_poll wr.2 = kp at hkl hkf hkh
          have hpre1 : (Ev.read hs rd.1).isReadFail = false ∧
              (Ev.read hs rd.1).isShortWrite = false := by
            refine ⟨?_, rfl⟩
            simp only [Ev.isReadFail, decide_eq_false_iff_not]
            exact h1
          have hpre2 : (Ev.write hd (rd.2.1.take (rd.1.toNat % 65536)) wr.1).isReadFail = false ∧
              (Ev.write hd (rd.2.1.take (rd.1.toNat % 65536)) wr.1).isShortWrite = false := by
            refine ⟨rfl, ?_⟩
            simp only [Ev.isShortWrite, hlen', h3, ne_eq, not_true_eq_false, decide_False]
          have hlog2 : kp.2.log = w.log ++ [Ev.read hs rd.1,
              Ev.write hd (rd.2.1.take (rd.1.toNat % 65536)) wr.1, Ev.kbd kp.1] := by
            rw [hkl, hwl, hrl]; simp
          have hdel2 : deletable kp.2.fs dst := hkf ▸ hwd
          have hoth2 : other_handles hs hd kp.2.handles = other_handles hs hd w.handles := by
            rw [hkh, hwo, hro]
          have hcont : ∀ (hne : kp.1.elim true (fun key => key.code ≠ KEY_ESC)),
              ∃ evs, (copy_loop fuel hs hd kp.2).2.log = w.log ++ evs ∧
                ((∃ e ∈ evs, e.isEsc = true) →
                  (copy_loop fuel hs hd kp.2).1 = some FOPS_CANCEL) ∧
                ((∃ e ∈ evs, e.isReadFail = true ∨ e.isShortWrite = true) →
                  (copy_loop fuel hs hd kp.2).1 = some FOPS_ERROR) ∧
                deletable (copy_loop fuel hs hd kp.2).2.fs dst ∧
                other_handles hs hd (copy_loop fuel hs hd kp.2).2.handles =
                  other_handles hs hd w.handles := by
            intro hne
            obtain ⟨evs, e1, e2, e3, e4, e5⟩ := ih kp.2 hdel2
            have hk : (Ev.kbd kp.1).isEsc = false := by
              rcases hkp : kp.1 with _ | key
              · rfl
              · rw [hkp] at hne
                simp only [Option.elim] at hne
                simp [Ev.isEsc, hne]
            refine ⟨[Ev.read hs rd.1, Ev.write hd (rd.2.1.take (rd.1.toNat % 65536)) wr.1,
              Ev.kbd kp.1] ++ evs, by rw [e1, hlog2]; simp, ?_, ?_, e4, e5.trans hoth2⟩
            · rintro ⟨e, he, hesc⟩
              apply e2
              simp only [List.cons_append, List.nil_append, List.mem_cons] at he
              rcases he with rfl | rfl | rfl | he
              · simp [Ev.isEsc] at hesc
              · simp [Ev.isEsc] at hesc
              · rw [hk] at hesc; exact absurd hesc (by simp)
              · exact ⟨e, he, hesc⟩
            · rintro ⟨e, he, hbad⟩
              apply e3
              simp only [List.cons_append, List.nil_append, List.mem_cons] at he
              rcases he with rfl | rfl | rfl | he
              · simp [hpre1] at hbad
              · simp [hpre2] at hbad
              · simp [Ev.isReadFail, Ev.isShortWrite] at hbad
              · exact ⟨e, he, hbad⟩
          rcases hkp : kp.1 with _ | key
          · simp only
            exact hcont (by rw [hkp]; trivial)
          · simp only
            by_cases hesc : key.code = KEY_ESC
            · simp only [hesc, if_true]
              refine ⟨[Ev.read hs rd.1, Ev.write hd (rd.2.1.take (rd.1.toNat % 65536)) wr.1,
                Ev.kbd kp.1], hlog2, ?_, ?_, hdel2, hoth2⟩
              · intro _; trivial
              · rintro ⟨e, he, hbad⟩
                simp only [List.mem_cons, List.mem_singleton, List.not_mem_nil, or_false] at he
                rcases he with rfl | rfl | rfl
                · simp [hpre1] at hbad
                · simp [hpre2] at hbad
                · simp [Ev.isReadFail, Ev.isShortWrite] at hbad
            · simp only [hesc, if_false]
              exact hcont (by rw [hkp]; exact hesc)
        · simp only [ne_eq, h3, not_false_eq_true, if_true]
          refine ⟨[Ev.read hs rd.1, Ev.write hd (rd.2.1.take (rd.1.toNat % 65536)) wr.1], ?_, ?_,
            ?_, hwd, hwo.trans hro⟩
          · rw [hwl, hrl]; simp
          · simp [Ev.isEsc]
          · intro _; trivial

theorem dos_open_cases (p : List Nat) (w : World) :
    ((dos_open p w).1 = -1 ∧ (dos_open p w).2 = w.emit (Ev.opened p (-1))) ∨
    ((dos_open p w).1 = (fresh_handle w.handles : Int) ∧
      (dos_open p w).2 = { w with handles := (fresh_handle w.handles, p, 0) :: w.handles }.emit
        (Ev.opened p (fresh_handle w.handles)) ∧
      ∃ a d, fs_find w.fs p = some (Node.file a d)) := by
  unfold dos_open
  split
  · rename_i a d hf
    exact Or.inr ⟨rfl, rfl, a, d, hf⟩
  · exact Or.inl ⟨rfl, rfl⟩

theorem dos_create_cases (p : List Nat) (attr : Nat) (w : World) :
    ((dos_create p attr w).1 = -1 ∧ (dos_create p attr w).2 = w.emit (Ev.create p (-1))) ∨
    ((dos_create p attr w).1 = (fresh_handle w.handles : Int) ∧
      (dos_create p attr w).2 =
        { w with fs := fs_put w.fs p (Node.file attr []),
                 handles := (fresh_handle w.handles, p, 0) :: w.handles }.emit
          (Ev.create p (fresh_handle w.handles))) := by
  unfold dos_create
  simp only
  split_ifs
  · exact Or.inr ⟨rfl, rfl⟩
  · exact Or.inl ⟨rfl, rfl⟩

theorem dos_close_log (h : Int) (w : World) : (dos_close h w).log = w.log ++ [Ev.close h] := rfl
theorem dos_close_fs (h : Int) (w : World) : (dos_close h w).fs = w.fs := rfl
theorem dos_close_handles (h : Int) (w : World) :
    (dos_close h w).handles = w.handles.filter (fun e => decide ((e.1 : Int) ≠ h)) := rfl

theorem close_both (hs hd : Int) (w : World) :
    (dos_close hd (dos_close hs w)).handles = other_handles hs hd w.handles := by
  rw [dos_close_handles, dos_close_handles, List.filter_filter]
  unfold other_handles
  congr 1
  funext e
  exact Bool.and_comm _ _

theorem other_handles_fresh (H : List (Nat × List Nat × Nat)) (p q : List Nat) (a b : Nat) :
    other_handles (fresh_handle H : Nat) (fresh_handle ((fresh_handle H, p, a) :: H) : Nat)
      ((fresh_handle ((fresh_handle H, p, a) :: H), q, b) :: (fresh_handle H, p, a) :: H) = H := by
  unfold other_handles
  rw [List.filter_cons_of_neg (by simp), List.filter_cons_of_neg (by simp)]
  rw [List.filter_eq_self]
  intro e he
  have h1 := fresh_handle_gt H e he
  have h2 := fresh_handle_gt ((fresh_handle H, p, a) :: H) e (List.mem_cons_of_mem _ he)
  simp only [ne_eq, Nat.cast_inj, Bool.and_eq_true, decide_eq_true_eq]
  omega


theorem copy_file_body_abort (fuel : Nat) (src dst : List Nat) (w : World) :
    ∃ evs, (copy_file_body fuel src dst w).2.log = w.log ++ evs ∧
      ((∃ e ∈ evs, e.isEsc = true) →
        (copy_file_body fuel src dst w).1 = some FOPS_CANCEL ∧
        (copy_file_body fuel src dst w).2.handles = w.handles ∧
        fs_find (copy_file_body fuel src dst w).2.fs dst = none) ∧
      ((∃ e ∈ evs, e.isReadFail = true ∨ e.isShortWrite = true) →
        (copy_file_body fuel src dst w).1 = some FOPS_ERROR ∧
        (copy_file_body fuel src dst w).2.handles = w.handles ∧
        fs_find (copy_file_body fuel src dst w).2.fs dst = none) := by
  unfold copy_file_body
  simp only
  rcases dos_open_cases src w with ⟨ho1, ho2⟩ | ⟨ho1, ho2, -⟩
  · rw [ho1, ho2]
    simp only [show ((-1 : Int) < 0) from by decide, if_true, ui_error]
    refine ⟨[Ev.opened src (-1), Ev.uiError ErrMsg.cannotOpenSource], by simp, ?_, ?_⟩
    · rintro ⟨e, he, h⟩
      simp only [List.mem_cons, List.mem_singleton, List.not_mem_nil, or_false] at he
      rcases he with rfl | rfl <;> simp [Ev.isEsc] at h
    · rintro ⟨e, he, h⟩
      simp only [List.mem_cons, List.mem_singleton, List.not_mem_nil, or_false] at he
      rcases he with rfl | rfl <;> simp [Ev.isReadFail, Ev.isShortWrite] at h
  · rw [ho1, ho2]
    have hs5 := fresh_handle_pos w.handles
    simp only [show ¬ ((fresh_handle w.handles : Int) < 0) from by omega, if_false]
    generalize hw1 : ({ w with handles := (fresh_handle w.handles, src, 0) :: w.handles }.emit
      (Ev.opened src (fresh_handle w.handles))) = w1
    have hw1l : w1.log = w.log ++ [Ev.opened src (fresh_handle w.handles)] := by rw [← hw1]; rfl
    have hw1h : w1.handles = (fresh_handle w.handles, src, 0) :: w.handles := by rw [← hw1]; rfl
    rcases dos_create_cases dst 0 w1 with ⟨hc1, hc2⟩ | ⟨hc1, hc2⟩
    · rw [hc1, hc2]
      simp only [show ((-1 : Int) < 0) from by decide, if_true, ui_error]
      refine ⟨[Ev.opened src (fresh_handle w.handles), Ev.create dst (-1),
        Ev.close (fresh_handle w.handles), Ev.uiError ErrMsg.cannotCreateDest],
        by simp [dos_close_log, hw1l], ?_, ?_⟩
      · rintro ⟨e, he, h⟩
        simp only [List.mem_cons, List.mem_singleton, List.not_mem_nil, or_false] at he
        rcases he with rfl | rfl | rfl | rfl <;> simp [Ev.isEsc] at h
      · rintro ⟨e, he, h⟩
        simp only [List.mem_cons, List.mem_singleton, List.not_mem_nil, or_false] at he
        rcases he with rfl | rfl | rfl | rfl <;> simp [Ev.isReadFail, Ev.isShortWrite] at h
    · rw [hc1, hc2]
      have hd5 := fresh_handle_pos w1.handles
      simp only [show ¬ ((fresh_handle w1.handles : Int) < 0) from by omega, if_false]
      generalize hw2 : ({ w1 with
          fs := fs_put w1.fs dst (Node.file 0 []),
          handles := (fresh_handle w1.handles, dst, 0) :: w1.handles }.emit
        (Ev.create dst (fresh_handle w1.handles))) = w2
      have hw2l : w2.log = w.log ++ [Ev.opened src (fresh_handle w.handles),
          Ev.create dst (fresh_handle w1.handles)] := by
        rw [← hw2]; simp [hw1l]
      have hw2h : w2.handles = (fresh_handle w1.handles, dst, 0) :: w1.handles := by
        rw [← hw2]; rfl
      have hw2d : deletable w2.fs dst := by
        rw [← hw2]
        exact Or.inr ⟨0, [], fs_find_put_same _ _ _, by decide⟩
      have hoth : other_handles (fresh_handle w.handles : Nat) (fresh_handle w1.handles : Nat)
          w2.handles = w.handles := by
        rw [hw2h, hw1h]
        exact other_handles_fresh w.handles src dst 0 0
      obtain ⟨evs, e1, e2, e3, e4, e5⟩ := copy_loop_abort (fresh_handle w.handles : Nat)
        (fresh_handle w1.handles : Nat) dst fuel w2 hw2d
      rw [hoth] at e5
      generalize copy_loop fuel (fresh_handle w.handles : Nat) (fresh_handle w1.handles : Nat) w2
        = l at e1 e2 e3 e4 e5
      rcases hl : l.1 with _ | result
      · simp only
        refine ⟨[Ev.opened src (fresh_handle w.handles),
          Ev.create dst (fresh_handle w1.handles)] ++ evs, by rw [e1, hw2l]; simp, ?_, ?_⟩
        · rintro ⟨e, he, h⟩
          simp only [List.cons_append, List.nil_append, List.mem_cons] at he
          rcases he with rfl | rfl | he
          · simp [Ev.isEsc] at h
          · simp [Ev.isEsc] at h
          · have := e2 ⟨e, he, h⟩
            rw [hl] at this; exact absurd this (by simp)
        · rintro ⟨e, he, h⟩
          simp only [List.cons_append, List.nil_append, List.mem_cons] at he
          rcases he with rfl | rfl | he
          · simp [Ev.isReadFail, Ev.isShortWrite] at h
          · simp [Ev.isReadFail, Ev.isShortWrite] at h
          · have := e3 ⟨e, he, h⟩
            rw [hl] at this; exact absurd this (by simp)
      · simp only
        have hclosed : (dos_close (fresh_handle w1.handles : Nat)
            (dos_close (fresh_handle w.handles : Nat) l.2)).handles = w.handles := by
          rw [close_both, e5]
        have hcl : (dos_close (fresh_handle w1.handles : Nat)
            (dos_close (fresh_handle w.handles : Nat) l.2)).log =
            w.log ++ ([Ev.opened src (fresh_handle w.handles),
              Ev.create dst (fresh_handle w1.handles)] ++ evs ++
              [Ev.close (fresh_handle w.handles : Nat), Ev.close (fresh_handle w1.handles : Nat)]) := by
          rw [dos_close_log, dos_close_log, e1, hw2l]; simp
        have hcd : deletable (dos_close (fresh_handle w1.handles : Nat)
            (dos_close (fresh_handle w.handles : Nat) l.2)).fs dst := by
          rw [dos_close_fs, dos_close_fs]; exact e4
        generalize (dos_close (fresh_handle w1.handles : Nat)
            (dos_close (fresh_handle w.handles : Nat) l.2)) = w4 at hclosed hcl hcd
        have hesc : ∀ e ∈ [Ev.opened src (fresh_handle w.handles),
              Ev.create dst (fresh_handle w1.handles)] ++ evs ++
              [Ev.close (fresh_handle w.handles : Nat), Ev.close (fresh_handle w1.handles : Nat)] ++
              [Ev.delete dst (dos_delete dst w4).1], e.isEsc = true → ∃ e ∈ evs, e.isEsc = true := by
          intro e he h
          simp only [List.cons_append, List.nil_append, List.mem_cons, List.mem_append,
            List.mem_singleton, List.not_mem_nil, or_false] at he
          rcases he with rfl | rfl | ((he | rfl | rfl) | rfl)
          · simp [Ev.isEsc] at h
          · simp [Ev.isEsc] at h
          · exact ⟨e, he, h⟩
          · simp [Ev.isEsc] at h
          · simp [Ev.isEsc] at h
          · simp [Ev.isEsc] at h
        have hbad : ∀ e ∈ [Ev.opened src (fresh_handle w.handles),
              Ev.create dst (fresh_handle w1.handles)] ++ evs ++
              [Ev.close (fresh_handle w.handles : Nat), Ev.close (fresh_handle w1.handles : Nat)] ++
              [Ev.delete dst (dos_delete dst w4).1],
              (e.isReadFail = true ∨ e.isShortWrite = true) →
              ∃ e ∈ evs, e.isReadFail = true ∨ e.isShortWrite = true := by
          intro e he h
          simp only [List.cons_append, List.nil_append, List.mem_cons, List.mem_append,
            List.mem_singleton, List.not_mem_nil, or_false] at he
          rcases he with rfl | rfl | ((he | rfl | rfl) | rfl)
          · simp [Ev.isReadFail, Ev.isShortWrite] at h
          · simp [Ev.isReadFail, Ev.isShortWrite] at h
          · exact ⟨e, he, h⟩
          · simp [Ev.isReadFail, Ev.isShortWrite] at h
          · simp [Ev.isReadFail, Ev.isShortWrite] at h
          · simp [Ev.isReadFail, Ev.isShortWrite] at h
        by_cases hres : result = FOPS_OK
        · simp only [hres, ne_eq, not_true_eq_false, if_false]
          refine ⟨_, hcl, ?_, ?_⟩
          · rintro ⟨e, he, h⟩
            have := e2 (hesc e (List.mem_append_left _ he) h)
            rw [hl, hres] at this
            exact absurd this (by decide)
          · rintro ⟨e, he, h⟩
            have := e3 (hbad e (List.mem_append_left _ he) h)
            rw [hl, hres] at this
            exact absurd this (by decide)
        · simp only [ne_eq, hres, not_false_eq_true, if_true]
          refine ⟨_, by rw [dos_delete_log, hcl, List.append_assoc], ?_, ?_⟩
          · rintro ⟨e, he, h⟩
            have := e2 (hesc e he h)
            rw [hl] at this
            exact ⟨this, by rw [dos_delete_handles, hclosed], dos_delete_gone dst w4 hcd⟩
          · rintro ⟨e, he, h⟩
            have := e3 (hbad e he h)
            rw [hl] at this
            exact ⟨this, by rw [dos_delete_handles, hclosed], dos_delete_gone dst w4 hcd⟩

/-- Events in front of the copy body do not change what `copy_file_body_abort` says. -/
theorem copy_file_body_abort_after (fuel : Nat) (src dst : List Nat) (w w1 : World)
    (pre : List Ev) (hl : w1.log = w.log ++ pre) (hh : w1.handles = w.handles)
    (hpre : ∀ e ∈ pre, e.isEsc = false ∧ e.isReadFail = false ∧ e.isShortWrite = false) :
    ∃ evs, (copy_file_body fuel src dst w1).2.log = w.log ++ evs ∧
      ((∃ e ∈ evs, e.isEsc = true) →
        (copy_file_body fuel src dst w1).1 = some FOPS_CANCEL ∧
        (copy_file_body fuel src dst w1).2.handles = w.handles ∧
        fs_find (copy_file_body fuel src dst w1).2.fs dst = none) ∧
      ((∃ e ∈ evs, e.isReadFail = true ∨ e.isShortWrite = true) →
        (copy_file_body fuel src dst w1).1 = some FOPS_ERROR ∧
        (copy_file_body fuel src dst w1).2.handles = w.handles ∧
        fs_find (copy_file_body fuel src dst w1).2.fs dst = none) := by
  obtain ⟨evs, e1, e2, e3⟩ := copy_file_body_abort fuel src dst w1
  rw [hh] at e2 e3
  refine ⟨pre ++ evs, by rw [e1, hl, List.append_assoc], ?_, ?_⟩
  · rintro ⟨e, he, h⟩
    rcases List.mem_append.1 he with hp | hp
    · rw [(hpre e hp).1] at h; exact absurd h (by simp)
    · exact e2 ⟨e, hp, h⟩
  · rintro ⟨e, he, h⟩
    rcases List.mem_append.1 he with hp | hp
    · rw [(hpre e hp).2.1, (hpre e hp).2.2] at h; simp at h
    · exact e3 ⟨e, hp, h⟩

theorem fops_copy_file_abort (fuel : Nat) (src dst : List Nat) (w : World) :
    ∃ evs, (fops_copy_file fuel src dst w).2.log = w.log ++ evs ∧
      ((∃ e ∈ evs, e.isEsc = true) →
        (fops_copy_file fuel src dst w).1 = some FOPS_CANCEL ∧
        (fops_copy_file fuel src dst w).2.handles = w.handles ∧
        fs_find (fops_copy_file fuel src dst w).2.fs dst = none) ∧
      ((∃ e ∈ evs, e.isReadFail = true ∨ e.isShortWrite = true) →
        (fops_copy_file fuel src dst w).1 = some FOPS_ERROR ∧
        (fops_copy_file fuel src dst w).2.handles = w.handles ∧
        fs_find (fops_copy_file fuel src dst w).2.fs dst = none) := by
  unfold fops_copy_file
  simp only
  have quiet1 : ∀ (e : Ev), e ∈ [Ev.exist dst (dos_exists dst w).1] →
      e.isEsc = false ∧ e.isReadFail = false ∧ e.isShortWrite = false := by
    intro e he
    simp only [List.mem_singleton] at he
    subst he
    exact ⟨rfl, rfl, rfl⟩
  split_ifs with h1 h2 h3 h4 h5
  · -- the user answers No
    refine ⟨[Ev.exist dst (dos_exists dst w).1,
      Ev.overwrite (path_basename dst) (dlg_overwrite (path_basename dst) (dos_exists dst w).2).1],
      by simp [dlg_overwrite, dos_exists], ?_, ?_⟩
    · rintro ⟨e, he, h⟩
      simp only [List.mem_cons, List.mem_singleton, List.not_mem_nil, or_false] at he
      rcases he with rfl | rfl <;> simp [Ev.isEsc] at h
    · rintro ⟨e, he, h⟩
      simp only [List.mem_cons, List.mem_singleton, List.not_mem_nil, or_false] at he
      rcases he with rfl | rfl <;> simp [Ev.isReadFail, Ev.isShortWrite] at h
  · -- All
    apply copy_file_body_abort_after fuel src dst w _
      [Ev.exist dst (dos_exists dst w).1,
       Ev.overwrite (path_basename dst) (dlg_overwrite (path_basename dst) (dos_exists dst w).2).1,
       Ev.delete dst (dos_delete dst
         { (dlg_overwrite (path_basename dst) (dos_exists dst w).2).2 with
           g_overwrite_all := 1 }).1]
    · rw [dos_delete_log]; simp [dlg_overwrite, dos_exists]
    · rw [dos_delete_handles]; rfl
    · intro e he
      simp only [List.mem_cons, List.mem_singleton, List.not_mem_nil, or_false] at he
      rcases he with rfl | rfl | rfl <;> exact ⟨rfl, rfl, rfl⟩
  · -- any other answer than Yes
    refine ⟨[Ev.exist dst (dos_exists dst w).1,
      Ev.overwrite (path_basename dst) (dlg_overwrite (path_basename dst) (dos_exists dst w).2).1],
      by simp [dlg_overwrite, dos_exists], ?_, ?_⟩
    · rintro ⟨e, he, h⟩
      simp only [List.mem_cons, List.mem_singleton, List.not_mem_nil, or_false] at he
      rcases he with rfl | rfl <;> simp [Ev.isEsc] at h
    · rintro ⟨e, he, h⟩
      simp only [List.mem_cons, List.mem_singleton, List.not_mem_nil, or_false] at he
      rcases he with rfl | rfl <;> simp [Ev.isReadFail, Ev.isShortWrite] at h
  · -- Yes
    apply copy_file_body_abort_after fuel src dst w _
      [Ev.exist dst (dos_exists dst w).1,
       Ev.overwrite (path_basename dst) (dlg_overwrite (path_basename dst) (dos_exists dst w).2).1,
       Ev.delete dst (dos_delete dst (dlg_overwrite (path_basename dst) (dos_exists dst w).2).2).1]
    · rw [dos_delete_log]; simp [dlg_overwrite, dos_exists]
    · rw [dos_delete_handles]; rfl
    · intro e he
      simp only [List.mem_cons, List.mem_singleton, List.not_mem_nil, or_false] at he
      rcases he with rfl | rfl | rfl <;> exact ⟨rfl, rfl, rfl⟩
  · -- overwrite-all is set
    apply copy_file_body_abort_after fuel src dst w _
      [Ev.exist dst (dos_exists dst w).1, Ev.delete dst (dos_delete dst (dos_exists dst w).2).1]
    · rw [dos_delete_log]; simp [dos_exists]
    · rw [dos_delete_handles]; rfl
    · intro e he
      simp only [List.mem_cons, List.mem_singleton, List.not_mem_nil, or_false] at he
      rcases he with rfl | rfl <;> exact ⟨rfl, rfl, rfl⟩
  · -- the destination does not exist
    exact copy_file_body_abort_after fuel src dst w _ [Ev.exist dst (dos_exists dst w).1]
      (by simp [dos_exists]) rfl quiet1

theorem handle_find_seek_same (l : List (Nat × List Nat × Nat)) (h : Int) (p : List Nat)
    (pos pos' : Nat) (hf : handle_find l h = some (p, pos)) :
    handle_find (handle_seek l h pos') h = some (p, pos') := by
  induction l with
  | nil => simp [handle_find] at hf
  | cons e rest ih =>
    unfold handle_seek at ih ⊢
    simp only [List.map_cons]
    by_cases he : (e.1 : Int) = h
    · simp only [handle_find, he, if_true] at hf ⊢
      injection hf with hf
      rw [hf]
    · simp only [handle_find, he, if_false] at hf ⊢
      exact ih hf

theorem handle_find_seek_other (l : List (Nat × List Nat × Nat)) (h h' : Int) (pos' : Nat)
    (hne : h' ≠ h) : handle_find (handle_seek l h pos') h' = handle_find l h' := by
  induction l with
  | nil => rfl
  | cons e rest ih =>
    unfold handle_seek at ih ⊢
    simp only [List.map_cons]
    by_cases he : (e.1 : Int) = h
    · have he' : ¬ (e.1 : Int) = h' := by rw [he]; exact fun x => hne x.symm
      have he'' : ¬ h = h' := fun x => hne x.symm
      rw [if_pos he]
      simp only [handle_find, he', if_false]
      exact ih
    · simp only [he, if_false, handle_find]
      split_ifs
      · rfl
      · exact ih

theorem headD_of_all {α : Type} (l : List α) (d : α) (h : ∀ x ∈ l, x = d) : l.headD d = d := by
  cases l with
  | nil => rfl
  | cons a rest => exact h a (List.mem_cons_self _ _)

theorem dos_read_ok (h : Int) (c : Nat) (w : World) (p : List Nat) (pos a : Nat)
    (data : List Nat) (hf : ∀ b ∈ w.read_faults, b = false)
    (hh : handle_find w.handles h = some (p, pos))
    (hfs : fs_find w.fs p = some (Node.file a data)) :
    (dos_read h c w).1 = toInt16 ((data.drop pos).take (c % 65536)).length ∧
    (dos_read h c w).2.1 = (data.drop pos).take (c % 65536) ∧
    (dos_read h c w).2.2.fs = w.fs ∧
    (dos_read h c w).2.2.handles =
      handle_seek w.handles h (pos + ((data.drop pos).take (c % 65536)).length) ∧
    (dos_read h c w).2.2.read_faults = w.read_faults.tail ∧
    (dos_read h c w).2.2.write_faults = w.write_faults ∧
    (dos_read h c w).2.2.keys = w.keys ∧
    (dos_read h c w).2.2.g_copy_buf_size = w.g_copy_buf_size := by
  unfold dos_read
  simp only [headD_of_all _ _ hf, Bool.false_eq_true, if_false, hh, hfs]
  simp

theorem dos_write_ok (h : Int) (bytes : List Nat) (w : World) (p : List Nat) (pos a : Nat)
    (data : List Nat) (hf : ∀ o ∈ w.write_faults, o = WriteOutcome.full)
    (hh : handle_find w.handles h = some (p, pos))
    (hfs : fs_find w.fs p = some (Node.file a data)) :
    (dos_write h bytes w).1 = toInt16 bytes.length ∧
    (dos_write h bytes w).2.fs =
      fs_put w.fs p (Node.file a (data.take pos ++ bytes ++ data.drop (pos + bytes.length))) ∧
    (dos_write h bytes w).2.handles = handle_seek w.handles h (pos + bytes.length) ∧
    (dos_write h bytes w).2.read_faults = w.read_faults ∧
    (dos_write h bytes w).2.write_faults = w.write_faults.tail ∧
    (dos_write h bytes w).2.keys = w.keys ∧
    (dos_write h bytes w).2.g_copy_buf_size = w.g_copy_buf_size := by
  unfold dos_write
  simp only [headD_of_all _ _ hf, hh, hfs]
  simp


theorem toInt16_small (n : Nat) (h : n < 32768) : toInt16 n = (n : Int) := by
  unfold toInt16
  have : n % 65536 = n := Nat.mod_eq_of_lt (by omega)
  rw [this, if_pos h]

theorem take_length_take (n : Nat) (l : List Nat) : l.take (l.take n).length = l.take n := by
  rw [List.length_take]
  rcases Nat.le_total n l.length with h | h
  · rw [Nat.min_eq_left h]
  · rw [Nat.min_eq_right h, List.take_of_length_le h, List.take_of_length_le (le_refl _)]

theorem copy_loop_ok (hs hd : Nat) (src dst : List Nat) (attr : Nat) (data : List Nat)
    (hne : hs ≠ hd) (hsd : src ≠ dst) :
    ∀ (fuel pos : Nat) (w : World), CopyInv hs hd src dst attr data pos w →
      pos ≤ data.length → data.length - pos + 1 ≤ fuel →
      (copy_loop fuel hs hd w).1 = some FOPS_OK ∧
      fs_find (copy_loop fuel hs hd w).2.fs dst = some (Node.file 0 data) ∧
      ∀ q, q ≠ dst → fs_find (copy_loop fuel hs hd w).2.fs q = fs_find w.fs q := by
  intro fuel
  induction fuel with
  | zero => intro pos w _ _ h; omega
  | succ fuel ih =>
    intro pos w hinv hpos hfuel
    obtain ⟨i1, i2, i3, i4, i5, i6, i7, i8, i9⟩ := hinv
    have hmod : w.g_copy_buf_size % 65536 = w.g_copy_buf_size := Nat.mod_eq_of_lt (by omega)
    obtain ⟨r1, r2, r3, r4, r5, r6, r7, r8⟩ :=
      dos_read_ok hs w.g_copy_buf_size w src pos attr data i5 i1 i3
    rw [hmod] at r1 r2 r4
    have hclen : ((data.drop pos).take w.g_copy_buf_size).length =
        min w.g_copy_buf_size (data.length - pos) := by
      rw [List.length_take, List.length_drop]
    simp only [copy_loop]
    generalize dos_read hs w.g_copy_buf_size w = rd at r1 r2 r3 r4 r5 r6 r7 r8
    by_cases hend : pos = data.length
    · have h0 : ((data.drop pos).take w.g_copy_buf_size).length = 0 := by rw [hclen]; omega
      have hr0 : rd.1 = 0 := by rw [r1, h0]; rfl
      simp only [hr0, lt_self_iff_false, if_false, if_true]
      refine ⟨trivial, ?_, ?_⟩
      · rw [r3, i4, hend, List.take_length]
      · intro q _; rw [r3]
    · have hn1 : 1 ≤ ((data.drop pos).take w.g_copy_buf_size).length := by rw [hclen]; omega
      have hn2 : ((data.drop pos).take w.g_copy_buf_size).length < 32768 := by rw [hclen]; omega
      have hr : rd.1 = (((data.drop pos).take w.g_copy_buf_size).length : Int) := by
        rw [r1, toInt16_small _ hn2]
      have hneg : ¬ rd.1 < 0 := by omega
      have hnz : ¬ rd.1 = 0 := by omega
      have hbytes : rd.2.1.take (rd.1.toNat % 65536) = (data.drop pos).take w.g_copy_buf_size := by
        rw [r2, hr, Int.toNat_ofNat, Nat.mod_eq_of_lt (by omega)]
        exact List.take_of_length_le (le_refl _)
      simp only [hneg, hnz, if_false]
      rw [hbytes]
      have hhd : handle_find rd.2.2.handles hd = some (dst, pos) := by
        rw [r4, handle_find_seek_other _ _ _ _ (by exact_mod_cast hne.symm)]
        exact i2
      obtain ⟨w1, w2, w3, w4, w5, w6, w7⟩ :=
        dos_write_ok hd ((data.drop pos).take w.g_copy_buf_size) rd.2.2 dst pos 0
          (data.take pos) (r6 ▸ i6) hhd (r3 ▸ i4)
      generalize dos_write hd ((data.drop pos).take w.g_copy_buf_size) rd.2.2 = wr
        at w1 w2 w3 w4 w5 w6 w7
      have hw : wr.1 = rd.1 := by rw [w1, toInt16_small _ hn2, hr]
      simp only [hw, ne_eq, not_true_eq_false, if_false]
      have hdata : data.take pos ++ (data.drop pos).take w.g_copy_buf_size =
          data.take (pos + ((data.drop pos).take w.g_copy_buf_size).length) := by
        rw [List.take_add, take_length_take]
      have hnew : (data.take pos).take pos ++ (data.drop pos).take w.g_copy_buf_size ++
          (data.take pos).drop (pos + ((data.drop pos).take w.g_copy_buf_size).length) =
          data.take (pos + ((data.drop pos).take w.g_copy_buf_size).length) := by
        have hdrop : (data.take pos).drop
            (pos + ((data.drop pos).take w.g_copy_buf_size).length) = [] :=
          List.drop_of_length_le (by rw [List.length_take]; omega)
        rw [List.take_take, Nat.min_self, hdrop, List.append_nil, hdata]
      rw [hnew] at w2
      have hinv' : CopyInv hs hd src dst attr data
          (pos + ((data.drop pos).take w.g_copy_buf_size).length) (kbd_poll wr.2).2 := by
        refine ⟨?_, ?_, ?_, ?_, ?_, ?_, ?_, ?_, ?_⟩
        · show handle_find wr.2.handles hs = _
          rw [w3, handle_find_seek_other _ _ _ _ (by exact_mod_cast hne), r4]
          exact handle_find_seek_same _ _ _ _ _ i1
        · show handle_find wr.2.handles hd = _
          rw [w3]
          exact handle_find_seek_same _ _ _ _ _ hhd
        · show fs_find wr.2.fs src = _
          rw [w2, fs_find_put_other _ _ _ _ hsd, r3]
          exact i3
        · show fs_find wr.2.fs dst = _
          rw [w2, fs_find_put_same]
        · show ∀ b ∈ wr.2.read_faults, b = false
          rw [w4, r5]
          exact fun b hb => i5 b (List.mem_of_mem_tail hb)
        · show ∀ o ∈ wr.2.write_faults, o = WriteOutcome.full
          rw [w5, r6]
          exact fun o ho => i6 o (List.mem_of_mem_tail ho)
        · show ∀ k ∈ wr.2.keys.tail, (Ev.kbd k).isEsc = false
          rw [w6, r7]
          exact fun k hk => i7 k (List.mem_of_mem_tail hk)
        · show 1 ≤ wr.2.g_copy_buf_size
          rw [w7, r8]; exact i8
        · show wr.2.g_copy_buf_size < 32768
          rw [w7, r8]; exact i9
      have hrec := ih (pos + ((data.drop pos).take w.g_copy_buf_size).length) (kbd_poll wr.2).2
        hinv' (by rw [hclen]; omega) (by omega)
      have hframe : ∀ q, q ≠ dst → fs_find (kbd_poll wr.2).2.fs q = fs_find w.fs q := by
        intro q hq
        show fs_find wr.2.fs q = _
        rw [w2, fs_find_put_other _ _ _ _ hq, r3]
      have hkey : ∀ key, (kbd_poll wr.2).1 = some key → key.code ≠ KEY_ESC := by
        intro key hk
        have hhead : wr.2.keys.headD none = some key := hk
        rw [w6, r7] at hhead
        cases hkeys : w.keys with
        | nil => rw [hkeys] at hhead; simp at hhead
        | cons k rest =>
          rw [hkeys] at hhead
          have hk' : k = some key := by simpa using hhead
          have := i7 k (by rw [hkeys]; exact List.mem_cons_self _ _)
          rw [hk'] at this
          simpa [Ev.isEsc] using this
      rcases hkp : (kbd_poll wr.2).1 with _ | key
      · simp only
        exact ⟨hrec.1, hrec.2.1, fun q hq => (hrec.2.2 q hq).trans (hframe q hq)⟩
      · simp only [hkey key hkp, if_false]
        exact ⟨hrec.1, hrec.2.1, fun q hq => (hrec.2.2 q hq).trans (hframe q hq)⟩

theorem dos_open_ok (p : List Nat) (w : World) (a : Nat) (d : List Nat)
    (h : fs_find w.fs p = some (Node.file a d)) :
    (dos_open p w).1 = (fresh_handle w.handles : Int) ∧
    (dos_open p w).2 = { w with handles := (fresh_handle w.handles, p, 0) :: w.handles }.emit
      (Ev.opened p (fresh_handle w.handles)) := by
  unfold dos_open
  rw [h]
  exact ⟨rfl, rfl⟩

theorem dos_create_ok (p : List Nat) (attr : Nat) (w : World) (h : fs_find w.fs p = none) :
    (dos_create p attr w).1 = (fresh_handle w.handles : Int) ∧
    (dos_create p attr w).2 =
      { w with
        fs := fs_put w.fs p (Node.file attr []),
        handles := (fresh_handle w.handles, p, 0) :: w.handles }.emit
        (Ev.create p (fresh_handle w.handles)) := by
  unfold dos_create
  rw [h]
  exact ⟨rfl, rfl⟩

/-- The copy body on a fault-free world with a free destination path. -/
theorem copy_file_body_ok (fuel : Nat) (src dst : List Nat) (w : World) (attr : Nat)
    (data : List Nat) (hsrc : fs_find w.fs src = some (Node.file attr data))
    (hdst : fs_find w.fs dst = none) (hcalm : Calm w)
    (hbuf : 1 ≤ w.g_copy_buf_size ∧ w.g_copy_buf_size < 32768)
    (hfuel : data.length + 1 ≤ fuel) :
    (copy_file_body fuel src dst w).1 = some FOPS_OK ∧
    fs_find (copy_file_body fuel src dst w).2.fs dst = some (Node.file 0 data) ∧
    (∀ q, q ≠ dst → fs_find (copy_file_body fuel src dst w).2.fs q = fs_find w.fs q) ∧
    (copy_file_body fuel src dst w).2.handles = w.handles := by
  have hsd : src ≠ dst := by
    intro h; rw [h, hdst] at hsrc; exact absurd hsrc (by simp)
  obtain ⟨ho1, ho2⟩ := dos_open_ok src w attr data hsrc
  unfold copy_file_body
  simp only
  rw [ho1, ho2]
  have hs5 := fresh_handle_pos w.handles
  simp only [show ¬ ((fresh_handle w.handles : Int) < 0) from by omega, if_false]
  generalize hw1 : ({ w with handles := (fresh_handle w.handles, src, 0) :: w.handles }.emit
    (Ev.opened src (fresh_handle w.handles))) = w1
  have hw1h : w1.handles = (fresh_handle w.handles, src, 0) :: w.handles := by rw [← hw1]; rfl
  have hw1f : w1.fs = w.fs := by rw [← hw1]; rfl
  obtain ⟨hc1, hc2⟩ := dos_create_ok dst 0 w1 (hw1f ▸ hdst)
  rw [hc1, hc2]
  have hd5 := fresh_handle_pos w1.handles
  simp only [show ¬ ((fresh_handle w1.handles : Int) < 0) from by omega, if_false]
  generalize hw2 : ({ w1 with
      fs := fs_put w1.fs dst (Node.file 0 []),
      handles := (fresh_handle w1.handles, dst, 0) :: w1.handles }.emit
    (Ev.create dst (fresh_handle w1.handles))) = w2
  have hw2h : w2.handles = (fresh_handle w1.handles, dst, 0) :: w1.handles := by
    rw [← hw2]; rfl
  have hw2f : w2.fs = fs_put w.fs dst (Node.file 0 []) := by rw [← hw2, ← hw1f]; rfl
  have hlt : fresh_handle w.handles < fresh_handle w1.handles := by
    rw [hw1h]
    exact fresh_handle_gt _ (fresh_handle w.handles, src, 0) (List.mem_cons_self _ _)
  have hne : fresh_handle w.handles ≠ fresh_handle w1.handles := by omega
  have hoth : other_handles (fresh_handle w.handles : Nat) (fresh_handle w1.handles : Nat)
      w2.handles = w.handles := by
    rw [hw2h, hw1h]
    exact other_handles_fresh w.handles src dst 0 0
  clear hlt hc1 hc2 ho1 ho2 hs5 hd5
  generalize fresh_handle w1.handles = hdn at *
  generalize fresh_handle w.handles = hsn at *
  have hinv : CopyInv hsn hdn src dst attr data 0
      w2 := by
    refine ⟨?_, ?_, ?_, ?_, ?_, ?_, ?_, ?_, ?_⟩
    · rw [hw2h, hw1h]
      have : ¬ ((hdn : Int) = (hsn : Int)) := by exact_mod_cast hne.symm
      simp only [handle_find, this, if_false, if_true]
    · rw [hw2h]
      simp only [handle_find, if_true]
    · rw [hw2f, fs_find_put_other _ _ _ _ hsd]; exact hsrc
    · rw [hw2f, fs_find_put_same]; rfl
    · rw [← hw2, ← hw1]; exact hcalm.1
    · rw [← hw2, ← hw1]; exact hcalm.2.1
    · rw [← hw2, ← hw1]; exact hcalm.2.2
    · rw [← hw2, ← hw1]; exact hbuf.1
    · rw [← hw2, ← hw1]; exact hbuf.2
  obtain ⟨l1, l2, l3⟩ := copy_loop_ok hsn hdn src dst
    attr data hne hsd fuel 0 w2 hinv (Nat.zero_le _) (by omega)
  obtain ⟨evs, -, -, -, -, l5⟩ := copy_loop_abort (hsn : Nat)
    (hdn : Nat) dst fuel w2
    (Or.inr ⟨0, [], by rw [hw2f, fs_find_put_same], by decide⟩)
  rw [hoth] at l5
  generalize copy_loop fuel (hsn : Nat) (hdn : Nat) w2 = l at l1 l2 l3 l5
  rw [l1]
  simp only [ne_eq, not_true_eq_false, if_false]
  refine ⟨trivial, ?_, ?_, ?_⟩
  · rw [dos_close_fs, dos_close_fs]; exact l2
  · intro q hq
    rw [dos_close_fs, dos_close_fs, l3 q hq, hw2f, fs_find_put_other _ _ _ _ hq]
  · rw [close_both, l5]


theorem dos_delete_ok (p : List Nat) (w : World) (a : Nat) (d : List Nat)
    (h : fs_find w.fs p = some (Node.file a d)) (ha : a &&& 1 = 0) :
    (dos_delete p w).2 = { w with fs := fs_del w.fs p }.emit (Ev.delete p 0) := by
  unfold dos_delete
  rw [h]
  simp only [ha, if_true]

/-- The copy body behind the deletion of an existing, writable destination. -/
theorem copy_after_delete (fuel : Nat) (src dst : List Nat) (w w1 : World) (attr a : Nat)
    (data d : List Nat) (hfs : w1.fs = w.fs) (hh : w1.handles = w.handles)
    (hrf : w1.read_faults = w.read_faults) (hwf : w1.write_faults = w.write_faults)
    (hk : w1.keys = w.keys) (hb : w1.g_copy_buf_size = w.g_copy_buf_size)
    (hsrc : fs_find w.fs src = some (Node.file attr data)) (hsd : src ≠ dst)
    (hd : fs_find w.fs dst = some (Node.file a d)) (ha : a &&& 1 = 0) (hcalm : Calm w)
    (hbuf : 1 ≤ w.g_copy_buf_size ∧ w.g_copy_buf_size < 32768)
    (hfuel : data.length + 1 ≤ fuel) :
    (copy_file_body fuel src dst (dos_delete dst w1).2).1 = some FOPS_OK ∧
    fs_find (copy_file_body fuel src dst (dos_delete dst w1).2).2.fs dst =
      some (Node.file 0 data) ∧
    (∀ q, q ≠ dst →
      fs_find (copy_file_body fuel src dst (dos_delete dst w1).2).2.fs q = fs_find w.fs q) ∧
    (copy_file_body fuel src dst (dos_delete dst w1).2).2.handles = w.handles := by
  have hdel := dos_delete_ok dst w1 a d (hfs ▸ hd) ha
  have h := copy_file_body_ok fuel src dst (dos_delete dst w1).2 attr data
    (by rw [hdel]; show fs_find (fs_del w1.fs dst) src = _
        rw [fs_find_del_other _ _ _ hsd, hfs]; exact hsrc)
    (by rw [hdel]; exact fs_find_del_same _ _)
    (by rw [hdel]
        exact ⟨by show ∀ b ∈ w1.read_faults, b = false
                  rw [hrf]; exact hcalm.1,
               by show ∀ o ∈ w1.write_faults, o = WriteOutcome.full
                  rw [hwf]; exact hcalm.2.1,
               by show ∀ k ∈ w1.keys, (Ev.kbd k).isEsc = false
                  rw [hk]; exact hcalm.2.2⟩)
    (by rw [hdel]; show 1 ≤ w1.g_copy_buf_size ∧ w1.g_copy_buf_size < 32768
        rw [hb]; exact hbuf)
    hfuel
  refine ⟨h.1, h.2.1, ?_, ?_⟩
  · intro q hq
    rw [h.2.2.1 q hq, hdel]
    show fs_find (fs_del w1.fs dst) q = _
    rw [fs_find_del_other _ _ _ hq, hfs]
  · rw [h.2.2.2, hdel]
    exact hh

/-! ## Theorems: the overwrite policy -/

theorem Silent.same (w : World) : Silent w w := ⟨[], by simp, by simp, rfl⟩

theorem Silent.seq {a b c : World} (h1 : Silent a b) (h2 : Silent b c) : Silent a c := by
  obtain ⟨e1, l1, p1, g1⟩ := h1
  obtain ⟨e2, l2, p2, g2⟩ := h2
  refine ⟨e1 ++ e2, by rw [l2, l1, List.append_assoc], ?_, g2.trans g1⟩
  intro e he
  rcases List.mem_append.1 he with h | h
  · exact p1 e h
  · exact p2 e h

theorem silent_emit (w : World) (e : Ev) (h : e.isPrompt = false) : Silent w (w.emit e) :=
  ⟨[e], rfl, by simpa using h, rfl⟩

theorem silent_of_eq (w w1 : World) (hl : w1.log = w.log)
    (hg : w1.g_overwrite_all = w.g_overwrite_all) : Silent w w1 :=
  ⟨[], by simp [hl], by simp, hg⟩

theorem silent_dos_exists (p : List Nat) (w : World) : Silent w (dos_exists p w).2 :=
  silent_emit _ _ rfl

theorem silent_dos_delete (p : List Nat) (w : World) : Silent w (dos_delete p w).2 := by
  unfold dos_delete
  split
  · split_ifs
    · exact ⟨[Ev.delete p 0], rfl, by simp [Ev.isPrompt], rfl⟩
    · exact silent_emit _ _ rfl
  · exact silent_emit _ _ rfl

theorem silent_dos_open (p : List Nat) (w : World) : Silent w (dos_open p w).2 := by
  unfold dos_open
  split
  · exact ⟨[Ev.opened p _], rfl, by simp [Ev.isPrompt], rfl⟩
  · exact silent_emit _ _ rfl

theorem silent_dos_create (p : List Nat) (a : Nat) (w : World) :
    Silent w (dos_create p a w).2 := by
  unfold dos_create
  simp only
  split_ifs
  · exact ⟨[Ev.create p _], rfl, by simp [Ev.isPrompt], rfl⟩
  · exact silent_emit _ _ rfl

theorem silent_dos_close (h : Int) (w : World) : Silent w (dos_close h w) :=
  ⟨[Ev.close h], rfl, by simp [Ev.isPrompt], rfl⟩

theorem silent_dos_read (h : Int) (c : Nat) (w : World) : Silent w (dos_read h c w).2.2 := by
  unfold dos_read
  simp only
  split_ifs
  · exact ⟨[Ev.read h _], rfl, by simp [Ev.isPrompt], rfl⟩
  · split
    · exact ⟨[Ev.read h _], rfl, by simp [Ev.isPrompt], rfl⟩
    · split
      · exact ⟨[Ev.read h _], rfl, by simp [Ev.isPrompt], rfl⟩
      · exact ⟨[Ev.read h _], rfl, by simp [Ev.isPrompt], rfl⟩

theorem silent_dos_write (h : Int) (b : List Nat) (w : World) :
    Silent w (dos_write h b w).2 := by
  unfold dos_write
  simp only
  split
  · exact ⟨[Ev.write h b _], rfl, by simp [Ev.isPrompt], rfl⟩
  · exact ⟨[Ev.write h b _], rfl, by simp [Ev.isPrompt], rfl⟩
  · split
    · exact ⟨[Ev.write h b _], rfl, by simp [Ev.isPrompt], rfl⟩
    · exact ⟨[Ev.write h b _], rfl, by simp [Ev.isPrompt], rfl⟩

theorem silent_dos_mkdir (p : List Nat) (w : World) : Silent w (dos_mkdir p w).2 := by
  unfold dos_mkdir
  split
  · exact ⟨[Ev.mkdir p _], rfl, by simp [Ev.isPrompt], rfl⟩
  · exact silent_emit _ _ rfl

theorem silent_dos_rmdir (p : List Nat) (w : World) : Silent w (dos_rmdir p w).2 := by
  unfold dos_rmdir
  split_ifs
  · exact ⟨[Ev.rmdir p _], rfl, by simp [Ev.isPrompt], rfl⟩
  · exact silent_emit _ _ rfl

theorem silent_dos_rename (p q : List Nat) (w : World) : Silent w (dos_rename p q w).2 := by
  unfold dos_rename
  split
  · split_ifs
    · exact ⟨[Ev.rename p q _], rfl, by simp [Ev.isPrompt], rfl⟩
    · exact silent_emit _ _ rfl
  · exact silent_emit _ _ rfl

theorem silent_dos_get_attr (p : List Nat) (w : World) : Silent w (dos_get_attr p w).2 := by
  unfold dos_get_attr
  split <;> exact silent_emit _ _ rfl

theorem silent_dos_set_attr (p : List Nat) (a : Nat) (w : World) :
    Silent w (dos_set_attr p a w).2 := by
  unfold dos_set_attr
  split
  · exact ⟨[Ev.setAttr p _ _], rfl, by simp [Ev.isPrompt], rfl⟩
  · exact silent_emit _ _ rfl

theorem silent_kbd_poll (w : World) : Silent w (kbd_poll w).2 :=
  ⟨[Ev.kbd _], rfl, by simp [Ev.isPrompt], rfl⟩

theorem silent_dlg_ask (n : List Nat) (w : World) : Silent w (dlg_ask n w).2 :=
  ⟨[Ev.ask n _], rfl, by simp [Ev.isPrompt], rfl⟩

theorem silent_ui_error (m : ErrMsg) (w : World) : Silent w (ui_error m w) :=
  silent_emit _ _ rfl

theorem silent_copy_loop (hs hd : Int) : ∀ (fuel : Nat) (w : World),
    Silent w (copy_loop fuel hs hd w).2 := by
  intro fuel
  induction fuel with
  | zero => intro w; exact Silent.same w
  | succ fuel ih =>
    intro w
    simp only [copy_loop]
    have hr := silent_dos_read hs w.g_copy_buf_size w
    generalize dos_read hs w.g_copy_buf_size w = rd at hr
    split_ifs
    · exact hr
    · exact hr
    · have hw := silent_dos_write hd (rd.2.1.take (rd.1.toNat % 65536)) rd.2.2
      generalize dos_write hd (rd.2.1.take (rd.1.toNat % 65536)) rd.2.2 = wr at hw
      exact hr.seq hw
    · have hw := silent_dos_write hd (rd.2.1.take (rd.1.toNat % 65536)) rd.2.2
      generalize dos_write hd (rd.2.1.take (rd.1.toNat % 65536)) rd.2.2 = wr at hw
      have hk := silent_kbd_poll wr.2
      have hrec := ih (kbd_poll wr.2).2
      generalize kbd_poll wr.2 = kp at hk hrec
      split
      · split_ifs
        · exact (hr.seq hw).seq hk
        · exact ((hr.seq hw).seq hk).seq hrec
      · exact ((hr.seq hw).seq hk).seq hrec

theorem silent_copy_file_body (fuel : Nat) (src dst : List Nat) (w : World) :
    Silent w (copy_file_body fuel src dst w).2 := by
  unfold copy_file_body
  simp only
  have ho := silent_dos_open src w
  generalize dos_open src w = o at ho
  split_ifs
  · exact ho.seq (silent_ui_error _ _)
  · have hc := silent_dos_create dst 0 o.2
    generalize dos_create dst 0 o.2 = c at hc
    exact (ho.seq hc).seq ((silent_dos_close _ _).seq (silent_ui_error _ _))
  · have hc := silent_dos_create dst 0 o.2
    generalize dos_create dst 0 o.2 = c at hc
    have hl := silent_copy_loop o.1 c.1 fuel c.2
    generalize copy_loop fuel o.1 c.1 c.2 = l at hl
    split
    · exact (ho.seq hc).seq hl
    · split_ifs
      · exact ((ho.seq hc).seq hl).seq
          (((silent_dos_close _ _).seq (silent_dos_close _ _)).seq (silent_dos_delete _ _))
      · exact ((ho.seq hc).seq hl).seq
          ((silent_dos_close _ _).seq (silent_dos_close _ _))

theorem silent_fops_delete_file (path : List Nat) (w : World) :
    Silent w (fops_delete_file path w).2 := by
  unfold fops_delete_file
  simp only
  have ha := silent_dos_get_attr path w
  generalize dos_get_attr path w = a at ha
  have h1 : Silent w (if a.1 ≥ 0 ∧ a.1.toNat &&& 1 ≠ 0 then
      (dos_set_attr path (a.1.toNat &&& 0xFFFE) a.2).2 else a.2) := by
    split_ifs
    · exact ha.seq (silent_dos_set_attr _ _ _)
    · exact ha
  generalize (if a.1 ≥ 0 ∧ a.1.toNat &&& 1 ≠ 0 then
      (dos_set_attr path (a.1.toNat &&& 0xFFFE) a.2).2 else a.2) = w1 at h1
  have hd := silent_dos_delete path w1
  generalize dos_delete path w1 = d at hd
  split_ifs
  · exact (h1.seq hd).seq (silent_ui_error _ _)
  · exact h1.seq hd

theorem silent_progress (w : World) (l : Label) (n : List Nat) (t : Nat) :
    Silent w ({ w with g_file_current := u16add w.g_file_current 1 }.emit
      (Ev.progress l n (u16add w.g_file_current 1) t)) :=
  ⟨[Ev.progress l n _ t], rfl, by simp [Ev.isPrompt], rfl⟩

theorem silent_delete_dir_loop (delete_dir : List Nat → World → Option Int × World)
    (hrec : ∀ p w, Silent w (delete_dir p w).2) (path : List Nat) :
    ∀ (entries : List DTA) (result : Int) (w : World),
      Silent w (delete_dir_loop delete_dir path entries result w).2 := by
  intro entries
  induction entries with
  | nil => intro result w; exact Silent.same w
  | cons d rest ih =>
    intro result w
    simp only [delete_dir_loop]
    split_ifs with hdot hdir
    · exact ih result w
    · have hp := silent_progress w Label.deleting d.name w.g_file_count
      generalize ({ w with g_file_current := u16add w.g_file_current 1 }.emit
        (Ev.progress Label.deleting d.name (u16add w.g_file_current 1) w.g_file_count)) = w2
        at hp
      have hr := hrec (path_append path d.name) w2
      generalize delete_dir (path_append path d.name) w2 = r at hr
      split
      · exact hp.seq hr
      · split_ifs
        · exact hp.seq hr
        · have hk := silent_kbd_poll r.2
          generalize kbd_poll r.2 = kp at hk
          split
          · split_ifs
            · exact (hp.seq hr).seq hk
            · exact ((hp.seq hr).seq hk).seq (ih _ _)
          · exact ((hp.seq hr).seq hk).seq (ih _ _)
    · have hp := silent_progress w Label.deleting d.name w.g_file_count
      generalize ({ w with g_file_current := u16add w.g_file_current 1 }.emit
        (Ev.progress Label.deleting d.name (u16add w.g_file_current 1) w.g_file_count)) = w2
        at hp
      have hr := silent_fops_delete_file (path_append path d.name) w2
      generalize fops_delete_file (path_append path d.name) w2 = r at hr
      simp only
      split_ifs
      · exact hp.seq hr
      · have hk := silent_kbd_poll r.2
        generalize kbd_poll r.2 = kp at hk
        split
        · split_ifs
          · exact (hp.seq hr).seq hk
          · exact ((hp.seq hr).seq hk).seq (ih _ _)
        · exact ((hp.seq hr).seq hk).seq (ih _ _)

theorem silent_fops_delete_dir : ∀ (fuel : Nat) (path : List Nat) (w : World),
    Silent w (fops_delete_dir fuel path w).2 := by
  intro fuel
  induction fuel with
  | zero => intro path w; exact Silent.same w
  | succ fuel ih =>
    intro path w
    simp only [fops_delete_dir]
    have hl := silent_delete_dir_loop (fops_delete_dir fuel) ih path
      (dos_find_all w.fs (path_append path [42, 46, 42])) FOPS_OK w
    generalize delete_dir_loop (fops_delete_dir fuel) path
      (dos_find_all w.fs (path_append path [42, 46, 42])) FOPS_OK w = l at hl
    split
    · exact hl
    · split_ifs
      · exact (hl.seq (silent_dos_rmdir _ _)).seq (silent_ui_error _ _)
      · exact hl.seq (silent_dos_rmdir _ _)
      · exact hl

theorem silent_delete_entry (fuel : Nat) (f : FileEntry) (path : List Nat) (w : World) :
    Silent w (delete_entry fuel f path w).2 := by
  unfold delete_entry
  split_ifs
  · exact silent_fops_delete_dir fuel path w
  · exact silent_fops_delete_file path w

theorem isAll_isPrompt (e : Ev) (h : e.isPrompt = false) : e.isAll = false := by
  cases e <;> simp [Ev.isPrompt] at h <;> rfl

theorem quiet_of_no_all : ∀ (evs : List Ev), (∀ e ∈ evs, e.isAll = false) →
    quiet_after_all evs
  | [], _ => trivial
  | e :: rest, h => by
    refine ⟨fun ha => ?_, quiet_of_no_all rest (fun x hx => h x (List.mem_cons_of_mem _ hx))⟩
    rw [h e (List.mem_cons_self _ _)] at ha
    exact absurd ha (by simp)

theorem quiet_append_no_all : ∀ (a b : List Ev), (∀ e ∈ a, e.isAll = false) →
    quiet_after_all b → quiet_after_all (a ++ b)
  | [], b, _, hb => hb
  | e :: rest, b, ha, hb => by
    refine ⟨fun h => ?_, quiet_append_no_all rest b
      (fun x hx => ha x (List.mem_cons_of_mem _ hx)) hb⟩
    rw [ha e (List.mem_cons_self _ _)] at h
    exact absurd h (by simp)

theorem quiet_append_no_prompt : ∀ (a b : List Ev), quiet_after_all a →
    (∀ e ∈ b, e.isPrompt = false) → quiet_after_all (a ++ b)
  | [], b, _, hb => quiet_of_no_all b (fun e he => isAll_isPrompt e (hb e he))
  | e :: rest, b, ha, hb => by
    refine ⟨fun h x hx => ?_, quiet_append_no_prompt rest b ha.2 hb⟩
    rcases List.mem_append.1 hx with h1 | h1
    · exact ha.1 h x h1
    · exact hb x h1

theorem Policy.refl (w : World) : Policy w w :=
  ⟨[], by simp, fun h => ⟨h, by simp⟩, fun _ => ⟨trivial, fun _ => by simp⟩⟩

theorem Policy.trans {a b c : World} (h1 : Policy a b) (h2 : Policy b c) : Policy a c := by
  obtain ⟨e1, l1, s1, q1⟩ := h1
  obtain ⟨e2, l2, s2, q2⟩ := h2
  refine ⟨e1 ++ e2, by rw [l2, l1, List.append_assoc], ?_, ?_⟩
  · intro ha
    obtain ⟨hb, p1⟩ := s1 ha
    obtain ⟨hc, p2⟩ := s2 hb
    refine ⟨hc, fun e he => ?_⟩
    rcases List.mem_append.1 he with h | h
    · exact p1 e h
    · exact p2 e h
  · intro ha
    obtain ⟨qa, na⟩ := q1 ha
    by_cases hb : b.g_overwrite_all = 0
    · obtain ⟨qb, nb⟩ := q2 hb
      refine ⟨quiet_append_no_all e1 e2 (na hb) qb, fun hc e he => ?_⟩
      rcases List.mem_append.1 he with h | h
      · exact na hb e h
      · exact nb hc e h
    · obtain ⟨hc, p2⟩ := s2 hb
      exact ⟨quiet_append_no_prompt e1 e2 qa p2, fun hc' => absurd hc' hc⟩

theorem Silent.policy {a b : World} (h : Silent a b) : Policy a b := by
  obtain ⟨evs, l, p, g⟩ := h
  refine ⟨evs, l, fun ha => ⟨by rw [g]; exact ha, p⟩, fun _ => ?_⟩
  exact ⟨quiet_of_no_all evs (fun e he => isAll_isPrompt e (p e he)),
    fun _ e he => isAll_isPrompt e (p e he)⟩

/-- The prompt step of `fops_copy_file` with the answer All: the policy is set. -/
theorem policy_prompt_all (name : List Nat) (w : World) (hg : w.g_overwrite_all = 0) :
    Policy w { (dlg_overwrite name w).2 with g_overwrite_all := 1 } := by
  refine ⟨[Ev.overwrite name (dlg_overwrite name w).1], rfl, fun h => absurd hg h, fun _ => ?_⟩
  refine ⟨⟨fun _ => by simp, trivial⟩, fun h => ?_⟩
  exact absurd h (show ¬ ((1 : Int) = 0) by decide)

/-- The prompt step of `fops_copy_file` with any other answer: the policy stays clear. -/
theorem policy_prompt_other (name : List Nat) (w : World) (hg : w.g_overwrite_all = 0)
    (ha : (dlg_overwrite name w).1 ≠ 65) : Policy w (dlg_overwrite name w).2 := by
  have hno : (Ev.overwrite name (dlg_overwrite name w).1).isAll = false := by
    simp [Ev.isAll, ha]
  refine ⟨[Ev.overwrite name (dlg_overwrite name w).1], rfl, fun h => absurd hg h, fun _ => ?_⟩
  refine ⟨⟨fun h => ?_, trivial⟩, fun _ e he => ?_⟩
  · rw [hno] at h; exact absurd h (by simp)
  · simp only [List.mem_singleton] at he
    rw [he]; exact hno

theorem policy_fops_copy_file (fuel : Nat) (src dst : List Nat) (w : World) :
    Policy w (fops_copy_file fuel src dst w).2 := by
  unfold fops_copy_file
  simp only
  have he := silent_dos_exists dst w
  have hge : (dos_exists dst w).2.g_overwrite_all = w.g_overwrite_all := rfl
  generalize dos_exists dst w = e at he hge
  split_ifs with h1 h2 h3 h4 h5
  · exact he.policy.trans (policy_prompt_other _ _ (hge.trans h2) (by rw [h3]; decide))
  · exact (he.policy.trans (policy_prompt_all _ _ (hge.trans h2))).trans
      ((silent_dos_delete _ _).seq (silent_copy_file_body _ _ _ _)).policy
  · exact he.policy.trans (policy_prompt_other _ _ (hge.trans h2) h4)
  · exact (he.policy.trans (policy_prompt_other _ _ (hge.trans h2) h4)).trans
      ((silent_dos_delete _ _).seq (silent_copy_file_body _ _ _ _)).policy
  · exact (he.seq ((silent_dos_delete _ _).seq (silent_copy_file_body _ _ _ _))).policy
  · exact (he.seq (silent_copy_file_body _ _ _ _)).policy

theorem policy_copy_dir_loop
    (copy_dir copy_file : List Nat → List Nat → World → Option Int × World)
    (hd : ∀ a b w, Policy w (copy_dir a b w).2) (hf : ∀ a b w, Policy w (copy_file a b w).2)
    (src dst : List Nat) : ∀ (entries : List DTA) (result : Int) (w : World),
      Policy w (copy_dir_loop copy_dir copy_file src dst entries result w).2 := by
  intro entries
  induction entries with
  | nil => intro result w; exact Policy.refl w
  | cons d rest ih =>
    intro result w
    simp only [copy_dir_loop]
    split_ifs with hdot hdir
    · exact ih result w
    · have hp := (silent_progress w Label.copying d.name w.g_file_count).policy
      generalize ({ w with g_file_current := u16add w.g_file_current 1 }.emit
        (Ev.progress Label.copying d.name (u16add w.g_file_current 1) w.g_file_count)) = w2
        at hp
      have hr := hd (path_append src d.name) (path_append dst d.name) w2
      generalize copy_dir (path_append src d.name) (path_append dst d.name) w2 = r at hr
      split
      · exact hp.trans hr
      · split_ifs <;> first | exact hp.trans hr | exact (hp.trans hr).trans (ih _ _)
    · have hp := (silent_progress w Label.copying d.name w.g_file_count).policy
      generalize ({ w with g_file_current := u16add w.g_file_current 1 }.emit
        (Ev.progress Label.copying d.name (u16add w.g_file_current 1) w.g_file_count)) = w2
        at hp
      have hr := hf (path_append src d.name) (path_append dst d.name) w2
      generalize copy_file (path_append src d.name) (path_append dst d.name) w2 = r at hr
      split
      · exact hp.trans hr
      · split_ifs <;> first | exact hp.trans hr | exact (hp.trans hr).trans (ih _ _)

theorem policy_fops_copy_dir : ∀ (fuel : Nat) (src dst : List Nat) (w : World),
    Policy w (fops_copy_dir fuel src dst w).2 := by
  intro fuel
  induction fuel with
  | zero => intro src dst w; exact Policy.refl w
  | succ fuel ih =>
    intro src dst w
    simp only [fops_copy_dir]
    have hm := silent_dos_mkdir dst w
    generalize dos_mkdir dst w = m at hm
    have he : Silent w (if m.1 ≠ 0 then dos_exists dst m.2 else (true, m.2)).2 := by
      split_ifs
      · exact hm.seq (silent_dos_exists _ _)
      · exact hm
    generalize (if m.1 ≠ 0 then dos_exists dst m.2 else (true, m.2)) = e at he
    split_ifs
    · exact (he.seq (silent_ui_error _ _)).policy
    · exact he.policy.trans (policy_copy_dir_loop _ _ ih (policy_fops_copy_file fuel) _ _ _ _ _)

theorem policy_copy_entry (fuel : Nat) (f : FileEntry) (a b : List Nat) (w : World) :
    Policy w (copy_entry fuel f a b w).2 := by
  unfold copy_entry
  split_ifs
  · exact policy_fops_copy_dir fuel a b w
  · exact policy_fops_copy_file fuel a b w

theorem policy_move_fallback (fuel : Nat) (f : FileEntry) (a b : List Nat) (w : World) :
    Policy w (move_fallback fuel f a b w).2 := by
  unfold move_fallback
  simp only
  have hc := policy_copy_entry fuel f a b w
  generalize copy_entry fuel f a b w = r at hc
  split
  · exact hc
  · split_ifs
    · have hd := (silent_delete_entry fuel f a r.2).policy
      generalize delete_entry fuel f a r.2 = d at hd
      split <;> exact hc.trans hd
    · exact hc

/-! ## C6 -/

/-- A chunk of 32768 bytes or more comes back from `dos_read` as a negative `int16_t`:
the copy stops with `FOPS_ERROR` and removes the destination. -/
theorem copy_file_wraps (fuel : Nat) (src dst : List Nat) (w : World) (attr : Nat)
    (data : List Nat) (hsrc : fs_find w.fs src = some (Node.file attr data))
    (hdst : fs_find w.fs dst = none) (hrf : ∀ b ∈ w.read_faults, b = false)
    (hbig : 32768 ≤ w.g_copy_buf_size ∧ w.g_copy_buf_size < 65536)
    (hlen : 32768 ≤ data.length) (hfuel : 1 ≤ fuel) :
    (fops_copy_file fuel src dst w).1 = some FOPS_ERROR ∧
    fs_find (fops_copy_file fuel src dst w).2.fs dst = none := by
  have hsd : src ≠ dst := by
    intro h; rw [h, hdst] at hsrc; exact absurd hsrc (by simp)
  obtain ⟨fuel, rfl⟩ : ∃ k, fuel = k + 1 := ⟨fuel - 1, by omega⟩
  unfold fops_copy_file
  have he : (dos_exists dst w).1 = false := by simp [dos_exists, hdst]
  simp only [he, Bool.false_eq_true, if_false]
  generalize hw0 : (dos_exists dst w).2 = w0
  have hw0' : w0 = w.emit (Ev.exist dst false) := by rw [← hw0]; simp [dos_exists, hdst]
  obtain ⟨ho1, ho2⟩ := dos_open_ok src w0 attr data (by rw [hw0']; exact hsrc)
  unfold copy_file_body
  simp only
  rw [ho1, ho2]
  have hs5 := fresh_handle_pos w0.handles
  simp only [show ¬ ((fresh_handle w0.handles : Int) < 0) from by omega, if_false]
  generalize hw1 : ({ w0 with handles := (fresh_handle w0.handles, src, 0) :: w0.handles }.emit
    (Ev.opened src (fresh_handle w0.handles))) = w1
  have hw1h : w1.handles = (fresh_handle w0.handles, src, 0) :: w0.handles := by rw [← hw1]; rfl
  have hw1f : w1.fs = w.fs := by rw [← hw1, hw0']; rfl
  obtain ⟨hc1, hc2⟩ := dos_create_ok dst 0 w1 (hw1f ▸ hdst)
  rw [hc1, hc2]
  have hd5 := fresh_handle_pos w1.handles
  simp only [show ¬ ((fresh_handle w1.handles : Int) < 0) from by omega, if_false]
  generalize hw2 : ({ w1 with
      fs := fs_put w1.fs dst (Node.file 0 []),
      handles := (fresh_handle w1.handles, dst, 0) :: w1.handles }.emit
    (Ev.create dst (fresh_handle w1.handles))) = w2
  have hw2h : w2.handles = (fresh_handle w1.handles, dst, 0) :: w1.handles := by
    rw [← hw2]; rfl
  have hw2f : w2.fs = fs_put w.fs dst (Node.file 0 []) := by rw [← hw2, ← hw1f]; rfl
  have hw2b : w2.g_copy_buf_size = w.g_copy_buf_size := by rw [← hw2, ← hw1, hw0']; rfl
  have hw2r : w2.read_faults = w.read_faults := by rw [← hw2, ← hw1, hw0']; rfl
  have hlt : fresh_handle w0.handles < fresh_handle w1.handles := by
    rw [hw1h]
    exact fresh_handle_gt _ (fresh_handle w0.handles, src, 0) (List.mem_cons_self _ _)
  clear hc1 hc2 ho1 ho2 hs5 hd5
  generalize fresh_handle w1.handles = hdn at *
  generalize fresh_handle w0.handles = hsn at *
  have hfind : handle_find w2.handles (hsn : Nat) = some (src, 0) := by
    rw [hw2h, hw1h]
    have : ¬ ((hdn : Int) = (hsn : Int)) := by
      exact_mod_cast (by omega : hdn ≠ hsn)
    simp only [handle_find, this, if_false, if_true]
  obtain ⟨r1, -, r3, -⟩ := dos_read_ok (hsn : Nat) w2.g_copy_buf_size w2 src
    0 attr data (hw2r ▸ hrf) hfind (by rw [hw2f, fs_find_put_other _ _ _ _ hsd]; exact hsrc)
  have hneg : (dos_read (hsn : Nat) w2.g_copy_buf_size w2).1 < 0 := by
    rw [r1, hw2b, Nat.mod_eq_of_lt hbig.2, List.drop_zero, List.length_take]
    unfold toInt16
    have h1 : min w.g_copy_buf_size data.length % 65536 = min w.g_copy_buf_size data.length :=
      Nat.mod_eq_of_lt (by omega)
    rw [h1, if_neg (by omega)]
    omega
  simp only [copy_loop, hneg, if_true]
  simp only [show ¬ (FOPS_ERROR = FOPS_OK) from by decide, ne_eq, not_false_eq_true, if_true]
  refine ⟨trivial, dos_delete_gone dst _ ?_⟩
  rw [dos_close_fs, dos_close_fs, r3, hw2f]
  exact Or.inr ⟨0, [], fs_find_put_same _ _ _, by decide⟩

/-- C6 (counterexample). With a copy buffer of 32768 bytes and a source of 32768 bytes, no
scripted fault and no key, the first `dos_read` returns 32768, which `fops_copy_file` stores in
an `int16_t` and reads as a negative count: the result is `FOPS_ERROR` and no destination is
left. -/
theorem copy_big_buffer_fails :
    1 ≤ world_big.g_copy_buf_size ∧ world_big.g_copy_buf_size < 65536 ∧
    world_big.read_faults = [] ∧ world_big.write_faults = [] ∧ world_big.keys = [] ∧
    fs_find world_big.fs path_F = some (Node.file 0x20 (List.replicate 32768 0)) ∧
    fs_find world_big.fs path_G = none ∧
    (fops_copy_file 32769 path_F path_G world_big).1 = some FOPS_ERROR ∧
    fs_find (fops_copy_file 32769 path_F path_G world_big).2.fs path_G = none := by
  have hF : fs_find world_big.fs path_F = some (Node.file 0x20 (List.replicate 32768 0)) := rfl
  have hG : fs_find world_big.fs path_G = none := by decide
  refine ⟨by decide, by decide, rfl, rfl, rfl, hF, hG, ?_⟩
  exact copy_file_wraps 32769 path_F path_G world_big 0x20 _ hF hG
    (fun b hb => absurd hb (List.not_mem_nil b)) ⟨by decide, by decide⟩
    (by rw [List.length_replicate]) (by decide)

/-- C6 (amended). Let the source be a file with content `data`, the destination another path
that is free or holds a file that is not read-only and may be overwritten (overwrite-all is set,
or the user answers Yes or All), no read or write fails, no poll delivers ESC, and the copy
buffer holds between 1 and 32767 bytes. Then `fops_copy_file`, given a budget of at least
`data.length + 1` loop rounds, returns `FOPS_OK`, the destination holds exactly `data`, every
other path, the source included, is as before, and both handles are closed. -/
theorem copy_file_content (fuel : Nat) (src dst : List Nat) (w : World) (attr : Nat)
    (data : List Nat) (hsrc : fs_find w.fs src = some (Node.file attr data))
    (hsd : src ≠ dst) (hdel : deletable w.fs dst)
    (hgrant : fs_find w.fs dst = none ∨ w.g_overwrite_all ≠ 0 ∨
      w.answers.headD 0 = DLG_YES ∨ w.answers.headD 0 = 65)
    (hcalm : Calm w) (hbuf : 1 ≤ w.g_copy_buf_size ∧ w.g_copy_buf_size < 32768)
    (hfuel : data.length + 1 ≤ fuel) :
    (fops_copy_file fuel src dst w).1 = some FOPS_OK ∧
    fs_find (fops_copy_file fuel src dst w).2.fs dst = some (Node.file 0 data) ∧
    (∀ q, q ≠ dst → fs_find (fops_copy_file fuel src dst w).2.fs q = fs_find w.fs q) ∧
    (fops_copy_file fuel src dst w).2.handles = w.handles := by
  unfold fops_copy_file
  simp only
  rcases hdel with hnone | ⟨a, d, hd, ha⟩
  · have he : (dos_exists dst w).1 = false := by simp [dos_exists, hnone]
    simp only [he, Bool.false_eq_true, if_false]
    exact copy_file_body_ok fuel src dst (dos_exists dst w).2 attr data hsrc hnone hcalm hbuf hfuel
  · have he : (dos_exists dst w).1 = true := by simp [dos_exists, hd]
    simp only [he, if_true]
    rcases hgrant with hg | hg | hg | hg
    · rw [hg] at hd; exact absurd hd (by simp)
    · simp only [hg, if_false]
      exact copy_after_delete fuel src dst w (dos_exists dst w).2 attr a data d rfl rfl rfl rfl
        rfl rfl hsrc hsd hd ha hcalm hbuf hfuel
    · by_cases hz : w.g_overwrite_all = 0
      · have hans : (dlg_overwrite (path_basename dst) (dos_exists dst w).2).1 = DLG_YES := hg
        simp only [hz, if_true, hans, show ¬ (DLG_YES = DLG_NO) from by decide,
          show ¬ (DLG_YES = 65) from by decide, ne_eq, not_true_eq_false, if_false]
        exact copy_after_delete fuel src dst w _ attr a data d rfl rfl rfl rfl
          rfl rfl hsrc hsd hd ha hcalm hbuf hfuel
      · simp only [hz, if_false]
        exact copy_after_delete fuel src dst w (dos_exists dst w).2 attr a data d rfl rfl rfl
          rfl rfl rfl hsrc hsd hd ha hcalm hbuf hfuel
    · by_cases hz : w.g_overwrite_all = 0
      · have hans : (dlg_overwrite (path_basename dst) (dos_exists dst w).2).1 = 65 := hg
        simp only [hz, if_true, hans, show ¬ ((65 : Int) = DLG_NO) from by decide, if_false]
        exact copy_after_delete fuel src dst w _ attr a data d rfl rfl rfl rfl
          rfl rfl hsrc hsd hd ha hcalm hbuf hfuel
      · simp only [hz, if_false]
        exact copy_after_delete fuel src dst w (dos_exists dst w).2 attr a data d rfl rfl rfl
          rfl rfl rfl hsrc hsd hd ha hcalm hbuf hfuel

theorem copy_file_content_witness :
    (fs_find world_FG.fs path_F = some (Node.file 0x20 [1, 2, 3, 4, 5]) ∧ path_F ≠ path_G ∧
      deletable world_FG.fs path_G ∧ Calm world_FG ∧
      (1 ≤ world_FG.g_copy_buf_size ∧ world_FG.g_copy_buf_size < 32768)) ∧
    ((fops_copy_file 8 path_F path_G world_FG).1 = some FOPS_OK ∧
      fs_find (fops_copy_file 8 path_F path_G world_FG).2.fs path_G =
        some (Node.file 0 [1, 2, 3, 4, 5]) ∧
      (∀ q, q ≠ path_G →
        fs_find (fops_copy_file 8 path_F path_G world_FG).2.fs q = fs_find world_FG.fs q) ∧
      (fops_copy_file 8 path_F path_G world_FG).2.handles = world_FG.handles) :=
  have hdel : deletable world_FG.fs path_G := Or.inr ⟨0x20, [9, 9], by decide, by decide⟩
  have hcalm : Calm world_FG := ⟨by decide, by decide, by decide⟩
  ⟨⟨by decide, by decide, hdel, hcalm, by decide⟩,
    copy_file_content 8 path_F path_G world_FG 0x20 [1, 2, 3, 4, 5] (by decide) (by decide)
      hdel (Or.inr (Or.inr (Or.inl (by decide)))) hcalm (by decide) (by decide)⟩

/-! ## C7 -/

/-- C7 (evaluation at two failing inputs). `fops_move` of the directory `A:\D` to drive B
falls back to copy-then-delete.

First job: `D` holds `X.TXT` and `Z.TXT`; the first write of `X.TXT` is cut short, so
`fops_copy_file` returns `FOPS_ERROR` for it and removes the partial destination; `Z.TXT` is
copied; `fops_copy_dir` returns the result of its last entry, `FOPS_OK`, and `fops_move`
deletes the whole source: `X.TXT` is left nowhere.

Second job: `B:\D\X.TXT` exists and the user answers the overwrite prompt with No;
`fops_copy_dir` turns `FOPS_SKIP` into `FOPS_OK`, and `fops_move` deletes the source although
`X.TXT` was not copied. -/
theorem move_deletes_uncopied_source :
    fs_find world_move_err.fs (cstr "A:\\D\\X.TXT") = some (Node.file 0x20 [1, 2, 3]) ∧
    Ev.write 6 [1, 2, 3] 1 ∈ (fops_move 8 panel_A_D panel_B world_move_err).2.2.2.log ∧
    (fops_move 8 panel_A_D panel_B world_move_err).1 = some FOPS_OK ∧
    (fops_move 8 panel_A_D panel_B world_move_err).2.2.2.fs =
      [(cstr "B:\\D", Node.dir), (cstr "B:\\D\\Z.TXT", Node.file 0 [7])] ∧
    fs_find world_move_skip.fs (cstr "A:\\D\\X.TXT") = some (Node.file 0x20 [1, 2, 3]) ∧
    Ev.overwrite (cstr "X.TXT") 0 ∈
      (fops_move 8 panel_A_D panel_B_D world_move_skip).2.2.2.log ∧
    (fops_move 8 panel_A_D panel_B_D world_move_skip).1 = some FOPS_OK ∧
    (fops_move 8 panel_A_D panel_B_D world_move_skip).2.2.2.fs =
      [(cstr "B:\\D", Node.dir), (cstr "B:\\D\\X.TXT", Node.file 0x20 [9])] := by
  decide

/-! ## C8 -/

/-- C8 (evaluation at the failing input). A move job from drive A to drive B over the selected
entries `D` (a directory with the files `X1`, `X2`) and `Y`. The copy of `D` succeeds; during
the deletion of the source, after `X1` is deleted, the keyboard poll of `fops_delete_dir`
delivers ESC and `fops_delete_dir` returns `FOPS_CANCEL` (`X2` and `D` stay). `fops_move` drops
that result: it goes on to copy and delete `Y` and returns `FOPS_OK`. The log is shown from
the deletion of `X1` on. -/
theorem move_ignores_cancel_of_delete :
    (fops_move 8 panel_A_DY panel_B world_move_esc).1 = some FOPS_OK ∧
    (fops_move 8 panel_A_DY panel_B world_move_esc).2.2.2.log.drop 17 =
      [ Ev.progress Label.deleting (cstr "X1") 4 2,
        Ev.getAttr (cstr "A:\\D\\X1") 32,
        Ev.delete (cstr "A:\\D\\X1") 0,
        Ev.kbd (some { kind := 1, code := 27 }),
        Ev.progress Label.moving (cstr "Y") 5 2,
        Ev.exist (cstr "B:\\Y") false,
        Ev.opened (cstr "A:\\Y") 5,
        Ev.create (cstr "B:\\Y") 6,
        Ev.read 5 0,
        Ev.close 5,
        Ev.close 6,
        Ev.getAttr (cstr "A:\\Y") 32,
        Ev.delete (cstr "A:\\Y") 0,
        Ev.hideProgress ] ∧
    (fops_move 8 panel_A_DY panel_B world_move_esc).2.2.2.fs =
      [ (cstr "A:\\D", Node.dir), (cstr "A:\\D\\X2", Node.file 0x20 []),
        (cstr "B:\\D", Node.dir), (cstr "B:\\D\\X1", Node.file 0 []),
        (cstr "B:\\D\\X2", Node.file 0 []), (cstr "B:\\Y", Node.file 0 []) ] := by
  decide
theorem policy_copy_batch (fuel : Nat) (sp dp : Panel) :
    ∀ (entries : List FileEntry) (result : Int) (w : World),
      Policy w (copy_batch fuel sp dp entries result w).2 := by
  intro entries
  induction entries with
  | nil => intro result w; exact Policy.refl w
  | cons f rest ih =>
    intro result w
    simp only [copy_batch]
    split_ifs
    · exact Policy.refl w
    · exact ih result w
    · have hp := (silent_progress w Label.copying f.name w.g_file_count).policy
      generalize ({ w with g_file_current := u16add w.g_file_current 1 }.emit
        (Ev.progress Label.copying f.name (u16add w.g_file_current 1) w.g_file_count)) = w2
        at hp
      have hr := policy_copy_entry fuel f (build_src_path sp f) (build_dst_path dp f.name) w2
      generalize copy_entry fuel f (build_src_path sp f) (build_dst_path dp f.name) w2 = r
        at hr
      split
      · exact hp.trans hr
      · exact (hp.trans hr).trans (ih _ _)

theorem policy_move_batch (fuel : Nat) (sp dp : Panel) :
    ∀ (entries : List FileEntry) (result : Int) (w : World),
      Policy w (move_batch fuel sp dp entries result w).2 := by
  intro entries
  induction entries with
  | nil => intro result w; exact Policy.refl w
  | cons f rest ih =>
    intro result w
    simp only [move_batch]
    by_cases h1 : result = FOPS_CANCEL
    · rw [if_pos h1]; exact Policy.refl w
    rw [if_neg h1]
    by_cases h2 : f.selected = 0
    · rw [if_pos h2]; exact ih result w
    rw [if_neg h2]
    have hp := (silent_progress w Label.moving f.name w.g_file_count).policy
    generalize ({ w with g_file_current := u16add w.g_file_current 1 }.emit
      (Ev.progress Label.moving f.name (u16add w.g_file_current 1) w.g_file_count)) = w2
      at hp
    have hrn : Policy w2 (if sp.drive = dp.drive then
        dos_rename (build_src_path sp f) (build_dst_path dp f.name) w2 else (-1, w2)).2 := by
      by_cases hd : sp.drive = dp.drive
      · rw [if_pos hd]; exact (silent_dos_rename _ _ _).policy
      · rw [if_neg hd]; exact Policy.refl _
    generalize (if sp.drive = dp.drive then
        dos_rename (build_src_path sp f) (build_dst_path dp f.name) w2 else (-1, w2)) = rn
      at hrn
    by_cases h3 : sp.drive = dp.drive ∧ rn.1 = 0
    · rw [if_pos h3]; exact (hp.trans hrn).trans (ih _ _)
    rw [if_neg h3]
    have hr := policy_move_fallback fuel f (build_src_path sp f) (build_dst_path dp f.name)
      rn.2
    generalize move_fallback fuel f (build_src_path sp f) (build_dst_path dp f.name) rn.2 = r
      at hr
    split
    · exact (hp.trans hrn).trans hr
    · exact ((hp.trans hrn).trans hr).trans (ih _ _)

theorem policy_hide {a : World} (r : Option Int × World) (h : Policy a r.2) :
    Policy a (r.2.emit Ev.hideProgress) :=
  h.trans (silent_emit r.2 Ev.hideProgress rfl).policy

theorem policy_fops_copy (fuel : Nat) (sp dp : Panel) (w : World) :
    Policy { w with g_overwrite_all := 0 } (fops_copy fuel sp dp w).2.2 := by
  have hstart : Policy { w with g_overwrite_all := 0 }
      { w with g_overwrite_all := 0, g_file_current := 0 } :=
    (silent_of_eq _ _ rfl rfl).policy
  simp only [fops_copy]
  generalize { w with g_overwrite_all := 0, g_file_current := 0 } = w0 at hstart
  by_cases hsel : count_selected_files sp = 0
  · rw [if_pos hsel]
    split
    · exact hstart
    · rename_i f _
      by_cases hdot : file_is_parent f ∨ (chr f.name 0 = 46 ∧ chr f.name 1 = 0)
      · rw [if_pos hdot]; exact hstart
      rw [if_neg hdot]
      have ha := hstart.trans (silent_dlg_ask f.name w0).policy
      generalize dlg_ask f.name w0 = a at ha
      by_cases hans : a.1 ≠ 67
      · rw [if_pos hans]; exact ha
      rw [if_neg hans]
      have h2 : Policy a.2 ({ a.2 with g_file_count := 1 }.emit
          (Ev.progress Label.copying f.name 0 1)) :=
        ((silent_of_eq a.2 { a.2 with g_file_count := 1 } rfl rfl).seq
          (silent_emit _ (Ev.progress Label.copying f.name 0 1) rfl)).policy
      exact policy_hide _ ((ha.trans h2).trans (policy_copy_entry fuel f _ _ _))
  · rw [if_neg hsel]
    have ha := hstart.trans (silent_dlg_ask [] w0).policy
    generalize dlg_ask [] w0 = a at ha
    by_cases hans : a.1 ≠ DLG_YES
    · rw [if_pos hans]; exact ha
    rw [if_neg hans]
    have h2 : Policy a.2 { a.2 with g_file_count := count_selected_files sp } :=
      (silent_of_eq a.2 _ rfl rfl).policy
    exact policy_hide _ ((ha.trans h2).trans (policy_copy_batch fuel sp dp _ _ _))

theorem policy_fops_move (fuel : Nat) (sp dp : Panel) (w : World) :
    Policy { w with g_overwrite_all := 0 } (fops_move fuel sp dp w).2.2.2 := by
  have hstart : Policy { w with g_overwrite_all := 0 }
      { w with g_overwrite_all := 0, g_file_current := 0 } :=
    (silent_of_eq _ _ rfl rfl).policy
  simp only [fops_move]
  generalize { w with g_overwrite_all := 0, g_file_current := 0 } = w0 at hstart
  by_cases hsel : count_selected_files sp = 0
  · rw [if_pos hsel]
    split
    · exact hstart
    · rename_i f _
      by_cases hdot : file_is_parent f ∨ (chr f.name 0 = 46 ∧ chr f.name 1 = 0)
      · rw [if_pos hdot]; exact hstart
      rw [if_neg hdot]
      have ha := hstart.trans (silent_dlg_ask f.name w0).policy
      generalize dlg_ask f.name w0 = a at ha
      by_cases hans : a.1 ≠ 77
      · rw [if_pos hans]; exact ha
      rw [if_neg hans]
      have h2 : Policy a.2 ({ a.2 with g_file_count := 1 }.emit
          (Ev.progress Label.moving f.name 0 1)) :=
        ((silent_of_eq a.2 { a.2 with g_file_count := 1 } rfl rfl).seq
          (silent_emit _ (Ev.progress Label.moving f.name 0 1) rfl)).policy
      generalize ({ a.2 with g_file_count := 1 }.emit
          (Ev.progress Label.moving f.name 0 1)) = w2 at h2
      refine policy_hide _ ((ha.trans h2).trans ?_)
      by_cases hd : sp.drive = dp.drive
      · rw [if_pos hd]
        have hrn := (silent_dos_rename (build_src_path sp f) (build_dst_path dp f.name)
          w2).policy
        generalize dos_rename (build_src_path sp f) (build_dst_path dp f.name) w2 = rn at hrn
        by_cases h0 : rn.1 = 0
        · rw [if_pos h0]; exact hrn
        · rw [if_neg h0]; exact hrn.trans (policy_move_fallback fuel f _ _ _)
      · rw [if_neg hd]; exact policy_move_fallback fuel f _ _ _
  · rw [if_neg hsel]
    have ha := hstart.trans (silent_dlg_ask [] w0).policy
    generalize dlg_ask [] w0 = a at ha
    by_cases hans : a.1 ≠ DLG_YES
    · rw [if_pos hans]; exact ha
    rw [if_neg hans]
    have h2 : Policy a.2 { a.2 with g_file_count := count_selected_files sp } :=
      (silent_of_eq a.2 _ rfl rfl).policy
    exact policy_hide _ ((ha.trans h2).trans (policy_move_batch fuel sp dp _ _ _))

/-- A job starts with the overwrite policy cleared and then respects it. -/
theorem policy_job (job : Job) (fuel : Nat) (sp dp : Panel) (w : World) :
    Policy { w with g_overwrite_all := 0 } (job.run fuel sp dp w).2 := by
  cases job with
  | copy => exact policy_fops_copy fuel sp dp w
  | move => exact policy_fops_move fuel sp dp w

/-- Behind an All answer no prompt follows. -/
theorem quiet_split : ∀ (pre post : List Ev) (e : Ev), quiet_after_all (pre ++ e :: post) →
    e.isAll = true → ∀ x ∈ post, x.isPrompt = false
  | [], _, _, h, he => h.1 he
  | _ :: pre, post, e, h, he => quiet_split pre post e h.2 he

/-- The value of `g_overwrite_all` before a job has no effect on the job. -/
theorem job_resets (job : Job) (fuel : Nat) (sp dp : Panel) (w : World) (v : Int) :
    job.run fuel sp dp { w with g_overwrite_all := v } = job.run fuel sp dp w := by
  cases job <;> rfl


/-! ## C9 -/

/-- C9. In every run of `fops_copy_file`: when a keyboard poll delivers ESC, the result is
`FOPS_CANCEL`; when a read fails or a write returns another count than it was given, the
result is `FOPS_ERROR`; in both cases the handle table is back to what it was before the call
(both handles are closed) and no node is left under the destination path. `evs` are the calls
that the run adds to the log. -/
theorem copy_file_abort (fuel : Nat) (src dst : List Nat) (w : World) (evs : List Ev)
    (hlog : (fops_copy_file fuel src dst w).2.log = w.log ++ evs) :
    ((∃ e ∈ evs, e.isEsc = true) →
      (fops_copy_file fuel src dst w).1 = some FOPS_CANCEL ∧
      (fops_copy_file fuel src dst w).2.handles = w.handles ∧
      fs_find (fops_copy_file fuel src dst w).2.fs dst = none) ∧
    ((∃ e ∈ evs, e.isReadFail = true ∨ e.isShortWrite = true) →
      (fops_copy_file fuel src dst w).1 = some FOPS_ERROR ∧
      (fops_copy_file fuel src dst w).2.handles = w.handles ∧
      fs_find (fops_copy_file fuel src dst w).2.fs dst = none) := by
  obtain ⟨evs', e1, e2, e3⟩ := fops_copy_file_abort fuel src dst w
  have : evs = evs' := List.append_cancel_left (hlog.symm.trans e1)
  subst this
  exact ⟨e2, e3⟩

theorem copy_file_abort_witness :
    (fops_copy_file 8 path_F path_G world_esc).2.log = world_esc.log ++ log_esc ∧
    ((fops_copy_file 8 path_F path_G world_esc).1 = some FOPS_CANCEL ∧
      (fops_copy_file 8 path_F path_G world_esc).2.handles = world_esc.handles ∧
      fs_find (fops_copy_file 8 path_F path_G world_esc).2.fs path_G = none) :=
  ⟨by decide,
    (copy_file_abort 8 path_F path_G world_esc log_esc (by decide)).1
      ⟨Ev.kbd (some { kind := 1, code := 27 }), by decide, by decide⟩⟩
/-! ## C10 -/

/-- C10 (counterexample). Batch copy of `P` and `Q` onto a drive that holds both; the first
overwrite prompt is answered All, and ESC is polled during the copy of `Q`. The destination
`B:\Q` existed before the job; behind the All answer it is deleted without a prompt, the copy is
cancelled, and the job ends with `FOPS_CANCEL` and no `B:\Q` at all: the existing destination was
deleted but not replaced by the source file. -/
theorem overwrite_all_cancel_not_replaced :
    Ev.overwrite (cstr "P") 65 ∈ (Job.copy.run 8 panel_A_PQ panel_B_PQ world_all_esc).2.log ∧
    fs_find world_all_esc.fs (cstr "A:\\Q") = some (Node.file 0x20 [2]) ∧
    fs_find world_all_esc.fs (cstr "B:\\Q") = some (Node.file 0x20 [9]) ∧
    (Job.copy.run 8 panel_A_PQ panel_B_PQ world_all_esc).1 = some FOPS_CANCEL ∧
    (Job.copy.run 8 panel_A_PQ panel_B_PQ world_all_esc).2.log.drop 14 =
      [ Ev.exist (cstr "B:\\Q") true, Ev.delete (cstr "B:\\Q") 0,
        Ev.opened (cstr "A:\\Q") 5, Ev.create (cstr "B:\\Q") 6, Ev.read 5 1,
        Ev.write 6 [2] 1, Ev.kbd (some { kind := 1, code := 27 }), Ev.close 5, Ev.close 6,
        Ev.delete (cstr "B:\\Q") 0, Ev.hideProgress ] ∧
    fs_find (Job.copy.run 8 panel_A_PQ panel_B_PQ world_all_esc).2.fs (cstr "B:\\Q") = none := by
  decide

/-- C10 (amended). In every copy or move job, for every sequence of answers, keys and faults:
if the log of the job shows an overwrite prompt answered All, then no overwrite prompt is shown
in the rest of the job, at any depth, and `g_overwrite_all` is still set when the job ends; the
value the variable had before the job has no effect on the job, which clears it on entry; while
it is set, `fops_copy_file` on an existing destination deletes the destination without asking
and goes on as for a new file, and the destination then holds the source content whenever that
copy runs to its end (source a file other than the destination, destination not read-only, no
read or write fault, no ESC, copy buffer of 1 to 32767 bytes, enough loop budget). -/
theorem overwrite_all_persists (job : Job) (fuel : Nat) (sp dp : Panel) (w : World)
    (pre post : List Ev) (name : List Nat)
    (hlog : (job.run fuel sp dp w).2.log = w.log ++ (pre ++ Ev.overwrite name 65 :: post)) :
    (∀ e ∈ post, e.isPrompt = false) ∧
    (job.run fuel sp dp w).2.g_overwrite_all ≠ 0 ∧
    (∀ v, job.run fuel sp dp { w with g_overwrite_all := v } = job.run fuel sp dp w) ∧
    (∀ f src dst w1, w1.g_overwrite_all ≠ 0 → fs_find w1.fs dst ≠ none →
      fops_copy_file f src dst w1 =
        copy_file_body f src dst (dos_delete dst (w1.emit (Ev.exist dst true))).2) ∧
    (∀ f src dst w1 attr a data d, w1.g_overwrite_all ≠ 0 →
      fs_find w1.fs src = some (Node.file attr data) → src ≠ dst →
      fs_find w1.fs dst = some (Node.file a d) → a &&& 1 = 0 → Calm w1 →
      1 ≤ w1.g_copy_buf_size ∧ w1.g_copy_buf_size < 32768 → data.length + 1 ≤ f →
      (fops_copy_file f src dst w1).1 = some FOPS_OK ∧
      fs_find (fops_copy_file f src dst w1).2.fs dst = some (Node.file 0 data) ∧
      (fops_copy_file f src dst w1).2.g_overwrite_all ≠ 0) := by
  have hall : (Ev.overwrite name 65).isAll = true := by simp [Ev.isAll]
  have hcall : ∀ f src dst w1, w1.g_overwrite_all ≠ 0 → fs_find w1.fs dst ≠ none →
      fops_copy_file f src dst w1 =
        copy_file_body f src dst (dos_delete dst (w1.emit (Ev.exist dst true))).2 := by
    intro f src dst w1 hg hd
    have he : dos_exists dst w1 = (true, w1.emit (Ev.exist dst true)) := by
      unfold dos_exists
      cases hfd : fs_find w1.fs dst with
      | none => exact absurd hfd hd
      | some n => simp
    unfold fops_copy_file
    simp only [he, if_true, hg, if_false]
  obtain ⟨evs, hl, -, hq⟩ := policy_job job fuel sp dp w
  have hevs : evs = pre ++ Ev.overwrite name 65 :: post :=
    List.append_cancel_left (hl.symm.trans hlog)
  obtain ⟨hquiet, hclear⟩ := hq rfl
  rw [hevs] at hquiet hclear
  refine ⟨quiet_split pre post _ hquiet hall, ?_, job_resets job fuel sp dp w, hcall, ?_⟩
  · intro hz
    have := hclear hz (Ev.overwrite name 65) (by simp)
    rw [hall] at this
    exact absurd this (by simp)
  · intro f src dst w1 attr a data d hg hsrc hsd hd ha hcalm hbuf hfuel
    have hp := policy_fops_copy_file f src dst w1
    rw [hcall f src dst w1 hg (by rw [hd]; simp)] at hp ⊢
    obtain ⟨h1, h2, -, -⟩ := copy_after_delete f src dst w1 (w1.emit (Ev.exist dst true)) attr a
      data d rfl rfl rfl rfl rfl rfl hsrc hsd hd ha hcalm hbuf hfuel
    obtain ⟨_, -, hs, -⟩ := hp
    exact ⟨h1, h2, (hs hg).1⟩

theorem overwrite_all_persists_witness :
    (Job.copy.run 8 panel_A_PQ panel_B_PQ world_all).2.log =
        world_all.log ++ (log_all_pre ++ Ev.overwrite (cstr "P") 65 :: log_all_post) ∧
      (∀ e ∈ log_all_post, e.isPrompt = false) ∧
      (Job.copy.run 8 panel_A_PQ panel_B_PQ world_all).2.g_overwrite_all ≠ 0 :=
  have hlog : (Job.copy.run 8 panel_A_PQ panel_B_PQ world_all).2.log =
      world_all.log ++ (log_all_pre ++ Ev.overwrite (cstr "P") 65 :: log_all_post) := by
    decide
  ⟨hlog, (overwrite_all_persists Job.copy 8 panel_A_PQ panel_B_PQ world_all log_all_pre
      log_all_post (cstr "P") hlog).1,
    (overwrite_all_persists Job.copy 8 panel_A_PQ panel_B_PQ world_all log_all_pre
      log_all_post (cstr "P") hlog).2.1⟩

/-! ## C11 -/

/-- The dialog `dlg_overwrite` returns `DLG_YES`, `DLG_NO` or `'A'` and nothing else: ESC, F7 and
F10 count as No. -/
theorem dlg_overwrite_keys_range (opened : Bool) : ∀ (keys : List KeyEvent) (r : Int),
    dlg_overwrite_keys opened keys = some r → r = DLG_YES ∨ r = DLG_NO ∨ r = 65 := by
  intro keys
  induction keys with
  | nil =>
    intro r h
    cases opened <;> simp [dlg_overwrite_keys] at h
    exact Or.inr (Or.inl h.symm)
  | cons key rest ih =>
    intro r h
    cases opened
    · simp [dlg_overwrite_keys] at h
      exact Or.inr (Or.inl h.symm)
    · simp only [dlg_overwrite_keys, if_true] at h
      cases hk : dlg_overwrite_key key with
      | none => rw [hk] at h; exact ih r h
      | some v =>
        rw [hk] at h
        simp only [Option.some.injEq] at h
        subst h
        unfold dlg_overwrite_key at hk
        split_ifs at hk <;> simp only [Option.some.injEq] at hk <;> subst hk <;> simp

/-- Behind `dos_open` the copy shows no prompt and leaves the policy alone. -/
theorem silent_after_open (fuel : Nat) (src dst : List Nat) (w : World) :
    Silent (dos_open src w).2 (copy_file_body fuel src dst w).2 := by
  unfold copy_file_body
  simp only
  generalize dos_open src w = o
  split_ifs
  · exact silent_ui_error _ _
  · have hc := silent_dos_create dst 0 o.2
    generalize dos_create dst 0 o.2 = c at hc
    exact hc.seq ((silent_dos_close _ _).seq (silent_ui_error _ _))
  · have hc := silent_dos_create dst 0 o.2
    generalize dos_create dst 0 o.2 = c at hc
    have hl := silent_copy_loop o.1 c.1 fuel c.2
    generalize copy_loop fuel o.1 c.1 c.2 = l at hl
    split
    · exact hc.seq hl
    · split_ifs
      · exact (hc.seq hl).seq
          (((silent_dos_close _ _).seq (silent_dos_close _ _)).seq (silent_dos_delete _ _))
      · exact (hc.seq hl).seq ((silent_dos_close _ _).seq (silent_dos_close _ _))

/-- The first call of the copy body is the `dos_open` of the source. -/
theorem copy_file_body_opens (fuel : Nat) (src dst : List Nat) (w : World) :
    ∃ h rest, (copy_file_body fuel src dst w).2.log = w.log ++ Ev.opened src h :: rest := by
  obtain ⟨evs, hl, -, -⟩ := silent_after_open fuel src dst w
  have ho : (dos_open src w).2.log = w.log ++ [Ev.opened src (dos_open src w).1] := by
    rcases dos_open_cases src w with ⟨h1, h2⟩ | ⟨h1, h2, -⟩ <;> rw [h2, h1] <;> rfl
  exact ⟨_, evs, by rw [hl, ho, List.append_assoc]; rfl⟩

/-- The result of `dos_delete` depends on the file system only. -/
theorem dos_delete_result (p : List Nat) (w w1 : World) (h : w1.fs = w.fs) :
    (dos_delete p w1).1 = (dos_delete p w).1 := by
  unfold dos_delete
  rw [h]
  split
  · split_ifs <;> rfl
  · rfl

/-- C11. Let the destination exist and `g_overwrite_all` be clear, and let `ans` be the answer
of the overwrite prompt. `fops_copy_file` asks once, right after the existence test, and the
file system is then still as it was. On No it returns `FOPS_SKIP`, and on any answer other than
Yes, No and All it returns `FOPS_CANCEL`, in both cases at once, in the state behind the prompt.
On All it sets `g_overwrite_all`, which is still set when the function returns. On Yes and on
All it calls `dos_delete` on the destination and only then opens the source and copies; when the
old destination is a file that is not read-only, that deletion succeeds and the copy starts
with the destination path free. -/
theorem overwrite_prompt_decides (fuel : Nat) (src dst : List Nat) (w : World) (ans : Int)
    (hex : fs_find w.fs dst ≠ none) (hpol : w.g_overwrite_all = 0)
    (hans : w.answers.headD 0 = ans) :
    (after_prompt dst w).log =
      w.log ++ [Ev.exist dst true, Ev.overwrite (path_basename dst) ans] ∧
    (after_prompt dst w).fs = w.fs ∧
    (ans = DLG_NO → fops_copy_file fuel src dst w = (some FOPS_SKIP, after_prompt dst w)) ∧
    (ans ≠ DLG_YES → ans ≠ DLG_NO → ans ≠ 65 →
      fops_copy_file fuel src dst w = (some FOPS_CANCEL, after_prompt dst w)) ∧
    (ans = 65 →
      fops_copy_file fuel src dst w = copy_file_body fuel src dst
        (dos_delete dst { after_prompt dst w with g_overwrite_all := 1 }).2 ∧
      (fops_copy_file fuel src dst w).2.g_overwrite_all = 1) ∧
    (ans = DLG_YES →
      fops_copy_file fuel src dst w =
        copy_file_body fuel src dst (dos_delete dst (after_prompt dst w)).2) ∧
    (ans = DLG_YES ∨ ans = 65 →
      (∃ h rest, (fops_copy_file fuel src dst w).2.log =
        w.log ++ [Ev.exist dst true, Ev.overwrite (path_basename dst) ans,
          Ev.delete dst (dos_delete dst w).1, Ev.opened src h] ++ rest) ∧
      (∀ a d, fs_find w.fs dst = some (Node.file a d) → a &&& 1 = 0 →
        (dos_delete dst w).1 = 0 ∧
        ∀ g, fs_find
          (dos_delete dst { after_prompt dst w with g_overwrite_all := g }).2.fs dst = none)) := by
  have he : dos_exists dst w = (true, w.emit (Ev.exist dst true)) := by
    unfold dos_exists
    cases hfd : fs_find w.fs dst with
    | none => exact absurd hfd hex
    | some n => simp
  have hlog : (after_prompt dst w).log =
      w.log ++ [Ev.exist dst true, Ev.overwrite (path_basename dst) ans] := by
    unfold after_prompt
    rw [he, ← hans]
    simp [dlg_overwrite, World.emit]
  have hfs : (after_prompt dst w).fs = w.fs := by
    unfold after_prompt; rw [he]; rfl
  have hval : (dlg_overwrite (path_basename dst) (dos_exists dst w).2).1 = ans := by
    rw [he, ← hans]; rfl
  have hrun : fops_copy_file fuel src dst w =
      if ans = DLG_NO then (some FOPS_SKIP, after_prompt dst w)
      else if ans = 65 then
        copy_file_body fuel src dst
          (dos_delete dst { after_prompt dst w with g_overwrite_all := 1 }).2
      else if ans ≠ DLG_YES then (some FOPS_CANCEL, after_prompt dst w)
      else copy_file_body fuel src dst (dos_delete dst (after_prompt dst w)).2 := by
    unfold fops_copy_file after_prompt
    simp only [hval]
    rw [he]
    simp only [if_true, hpol]
  have hall : ans = 65 → fops_copy_file fuel src dst w = copy_file_body fuel src dst
      (dos_delete dst { after_prompt dst w with g_overwrite_all := 1 }).2 := by
    intro h
    rw [hrun, if_neg (by rw [h]; decide), if_pos h]
  have hyes : ans = DLG_YES → fops_copy_file fuel src dst w =
      copy_file_body fuel src dst (dos_delete dst (after_prompt dst w)).2 := by
    intro h
    rw [hrun, if_neg (by rw [h]; decide), if_neg (by rw [h]; decide), if_neg (by simp [h])]
  refine ⟨hlog, hfs, ?_, ?_, ?_, hyes, ?_⟩
  · intro h; rw [hrun, if_pos h]
  · intro h1 h2 h3; rw [hrun, if_neg h2, if_neg h3, if_pos h1]
  · intro h
    refine ⟨hall h, ?_⟩
    rw [hall h]
    obtain ⟨-, -, -, g1⟩ := silent_copy_file_body fuel src dst
      (dos_delete dst { after_prompt dst w with g_overwrite_all := 1 }).2
    obtain ⟨-, -, -, g2⟩ := silent_dos_delete dst
      { after_prompt dst w with g_overwrite_all := 1 }
    rw [g1, g2]
  · intro h
    constructor
    · rcases h with h | h
      · rw [hyes h]
        obtain ⟨hd, rest, hl⟩ := copy_file_body_opens fuel src dst
          (dos_delete dst (after_prompt dst w)).2
        refine ⟨hd, rest, ?_⟩
        rw [hl, dos_delete_log, hlog, dos_delete_result dst w (after_prompt dst w) hfs]
        simp
      · rw [hall h]
        obtain ⟨hd, rest, hl⟩ := copy_file_body_opens fuel src dst
          (dos_delete dst { after_prompt dst w with g_overwrite_all := 1 }).2
        refine ⟨hd, rest, ?_⟩
        rw [hl, dos_delete_log, dos_delete_result dst w
          { after_prompt dst w with g_overwrite_all := 1 } hfs]
        show (after_prompt dst w).log ++ _ ++ _ = _
        rw [hlog]
        simp
    · intro a d hd ha
      refine ⟨?_, fun g => dos_delete_gone dst _ (Or.inr ⟨a, d, ?_, ha⟩)⟩
      · unfold dos_delete
        rw [hd]
        simp only [ha, if_true]
      · show fs_find (after_prompt dst w).fs dst = _
        rw [hfs]; exact hd

theorem overwrite_prompt_decides_witness :
    (fs_find world_FG.fs path_G ≠ none ∧ world_FG.g_overwrite_all = 0 ∧
      world_FG.answers.headD 0 = DLG_YES) ∧
    fops_copy_file 8 path_F path_G world_FG =
      copy_file_body 8 path_F path_G (dos_delete path_G (after_prompt path_G world_FG)).2 :=
  ⟨⟨by decide, by decide, by decide⟩,
    (overwrite_prompt_decides 8 path_F path_G world_FG DLG_YES (by decide) (by decide)
      (by decide)).2.2.2.2.2.1 rfl⟩

/-! ## C20 -/

theorem sort_files_count (fl : FileList) : (sort_files fl).count = fl.count := by
  unfold sort_files
  split_ifs <;> rfl

theorem panel_read_dir_count (p : Panel) (raw : List DTA) :
    (panel_read_dir p raw).files.count =
      (read_entries p.files.capacity raw
        (if path_is_root p.path then [] else [parent_entry])).1.length := by
  unfold panel_read_dir
  simp only [sort_files_count]

/-- C20 (counterexample). A panel below the root with the cursor on slot 2 and first row 1 is
populated with a listing of four entries: cursor and first row stay where they were. -/
theorem read_dir_keeps_cursor :
    scrolled_panel.cursor = 2 ∧ scrolled_panel.top = 1 ∧
    (panel_read_dir scrolled_panel sample_raw).files.count = 4 ∧
    (panel_read_dir scrolled_panel sample_raw).cursor = 2 ∧
    (panel_read_dir scrolled_panel sample_raw).top = 1 ∧
    ¬ ((panel_read_dir scrolled_panel sample_raw).cursor = 0 ∧
       (panel_read_dir scrolled_panel sample_raw).top = 0 ∧
       (panel_read_dir scrolled_panel sample_raw).sel_count = 0) := by
  decide

/-- C20 (amended). For every prior panel state, `panel_read_dir` keeps the cursor when it
still points at an entry of the new listing and otherwise puts it on the last entry (on 0 when
the listing is empty), and it lowers the first visible row to the cursor when it was above it.
The callers that enter another directory (`panel_change_dir`, `panel_go_parent` below the
root, `panel_set_drive`) set cursor and first row to 0 before they populate, and populating
then leaves both at 0. -/
theorem read_dir_clamps_cursor (p : Panel) (raw : List DTA) (dirname : List Nat)
    (drive : Nat) :
    (panel_read_dir p raw).cursor =
      (if p.cursor < (panel_read_dir p raw).files.count then p.cursor
       else (panel_read_dir p raw).files.count - 1) ∧
    (panel_read_dir p raw).top = min p.top (panel_read_dir p raw).cursor ∧
    (panel_change_dir p dirname raw).cursor = 0 ∧ (panel_change_dir p dirname raw).top = 0 ∧
    (panel_go_parent p raw).cursor = (if path_is_root p.path then p.cursor else 0) ∧
    (panel_go_parent p raw).top = (if path_is_root p.path then p.top else 0) ∧
    (panel_set_drive p drive raw).cursor = 0 ∧ (panel_set_drive p drive raw).top = 0 := by
  have hcur : ∀ q : Panel, (panel_read_dir q raw).cursor =
      (if q.cursor < (panel_read_dir q raw).files.count then q.cursor
       else (panel_read_dir q raw).files.count - 1) := by
    intro q
    rw [panel_read_dir_count]
    unfold panel_read_dir
    simp only
    split_ifs <;> omega
  have htop : ∀ q : Panel, (panel_read_dir q raw).top = min q.top (panel_read_dir q raw).cursor := by
    intro q
    unfold panel_read_dir
    simp only
    split_ifs <;> omega
  have hzero : ∀ q : Panel, q.cursor = 0 → q.top = 0 →
      (panel_read_dir q raw).cursor = 0 ∧ (panel_read_dir q raw).top = 0 := by
    intro q h1 h2
    have hc : (panel_read_dir q raw).cursor = 0 := by
      rw [hcur q, h1]; split_ifs <;> omega
    exact ⟨hc, by rw [htop q, h2]; simp⟩
  refine ⟨hcur p, htop p, ?_, ?_, ?_, ?_, ?_, ?_⟩
  · exact (hzero _ rfl rfl).1
  · exact (hzero _ rfl rfl).2
  · unfold panel_go_parent
    split_ifs
    · rfl
    · exact (hzero _ rfl rfl).1
  · unfold panel_go_parent
    split_ifs
    · rfl
    · exact (hzero _ rfl rfl).2
  · exact (hzero _ rfl rfl).1
  · exact (hzero _ rfl rfl).2

/-! ## C18, C19 -/

theorem is_dot_entry_iff (d : DTA) :
    is_dot_entry d = true ↔ (chr d.name 0 = 46 ∧ chr d.name 1 = 0) ∨
      (chr d.name 0 = 46 ∧ chr d.name 1 = 46 ∧ chr d.name 2 = 0) := by
  unfold is_dot_entry
  simp only [decide_eq_true_eq]
  tauto

theorem str_copy_n_id (s : List Nat) (h0 : 0 ∉ s) (hlen : s.length ≤ 12) :
    str_copy_n s 13 = s := by
  unfold str_copy_n
  have h1 : s.takeWhile (fun c => c != 0) = s := by
    rw [List.takeWhile_eq_self_iff]
    intro c hc
    have : c ≠ 0 := fun h => h0 (h ▸ hc)
    simpa using this
  rw [h1]
  exact List.take_of_length_le (by omega)

/-- The find loop with room for every entry that is not `.` or `..`: all of them are stored, in
the order of the enumeration. -/
theorem read_entries_fit (capacity : Nat) : ∀ (raw : List DTA) (acc : List FileEntry),
    (∀ d ∈ raw, 0 ∉ d.name ∧ d.name.length ≤ 12) →
    acc.length + (raw.filter (fun d => !is_dot_entry d)).length ≤ capacity →
    (read_entries capacity raw acc).1 =
      acc ++ (raw.filter (fun d => !is_dot_entry d)).map plain_entry
  | [], acc, _, _ => by simp [read_entries]
  | d :: rest, acc, hn, hfit => by
    have hn' : ∀ x ∈ rest, 0 ∉ x.name ∧ x.name.length ≤ 12 :=
      fun x hx => hn x (List.mem_cons_of_mem _ hx)
    simp only [read_entries]
    by_cases hcap : acc.length < capacity
    · rw [if_pos hcap]
      by_cases hdot : is_dot_entry d = true
      · have hf : (d :: rest).filter (fun d => !is_dot_entry d) =
            rest.filter (fun d => !is_dot_entry d) := by
          rw [List.filter_cons_of_neg (by simp [hdot])]
        rw [hf] at hfit ⊢
        have ih := read_entries_fit capacity rest acc hn' hfit
        rcases (is_dot_entry_iff d).1 hdot with h | h
        · rw [if_pos h]; exact ih
        · split_ifs <;> exact ih
      · have hf : (d :: rest).filter (fun d => !is_dot_entry d) =
            d :: rest.filter (fun d => !is_dot_entry d) := by
          rw [List.filter_cons_of_pos (by simp [hdot])]
        rw [hf] at hfit ⊢
        have h1 : ¬ (chr d.name 0 = 46 ∧ chr d.name 1 = 0) :=
          fun h => hdot ((is_dot_entry_iff d).2 (Or.inl h))
        have h2 : ¬ (chr d.name 0 = 46 ∧ chr d.name 1 = 46 ∧ chr d.name 2 = 0) :=
          fun h => hdot ((is_dot_entry_iff d).2 (Or.inr h))
        rw [if_neg h1, if_neg h2]
        obtain ⟨hz, hl⟩ := hn d (List.mem_cons_self _ _)
        rw [str_copy_n_id d.name hz hl]
        have ih := read_entries_fit capacity rest (acc ++ [plain_entry d]) hn'
          (by simp only [List.length_append, List.length_cons, List.length_nil] at hfit ⊢
              omega)
        rw [show ({ attr := d.attr, time := d.time, date := d.date, size := d.size,
                    name := d.name, selected := 0 } : FileEntry) = plain_entry d from rfl, ih]
        simp
    · rw [if_neg hcap]
      have hlen : ((d :: rest).filter (fun d => !is_dot_entry d)).length = 0 := by omega
      rw [List.length_eq_zero.1 hlen]
      simp

theorem sort_files_truncated (fl : FileList) : (sort_files fl).truncated = fl.truncated := by
  unfold sort_files
  split_ifs <;> rfl

/-- C18 (counterexample). A directory below the root with three entries besides `.` and `..`,
read into a panel with three slots: the three entries fit in the capacity, but the synthetic
`".."` takes the first slot and the find loop stops when the slots are full, so the entry
enumerated last (`A.TXT`) is not in the list. -/
theorem read_dir_drops_last :
    small_panel.files.capacity = 3 ∧
    (sample_raw.filter (fun d => !is_dot_entry d)).length = 3 ∧
    (panel_read_dir small_panel sample_raw).files.entries =
      [ parent_entry,
        { attr := 0x10, time := 3, date := 4, size := 0, name := [90, 69, 68], selected := 0 },
        { attr := 0x20, time := 1, date := 2, size := 10, name := [98, 46, 116, 120, 116],
          selected := 0 } ] ∧
    ¬ (panel_read_dir small_panel sample_raw).files.entries.Perm
        (listing small_panel sample_raw) := by
  refine ⟨rfl, by decide, by decide, ?_⟩
  intro h
  have := h.length_eq
  revert this
  decide

/-- C18 (amended). For every panel and every raw listing (names as a search record holds them:
at most 12 bytes, none of them NUL) such that the synthetic `".."` entry, when the path is not
the root, and the entries other than `.` and `..` together fit in the capacity: after
`panel_read_dir` the entry list is a permutation of the synthetic `".."` entry, present if and
only if the path is not the root, followed by every raw entry not named `.` or `..`, each once,
with its attribute, time, date, size and name and with `selected = 0`; `count` is the number of
these entries. -/
theorem read_dir_entries (p : Panel) (raw : List DTA)
    (hname : ∀ d ∈ raw, 0 ∉ d.name ∧ d.name.length ≤ 12)
    (hfit : (listing p raw).length ≤ p.files.capacity) :
    (panel_read_dir p raw).files.entries.Perm (listing p raw) ∧
    (panel_read_dir p raw).files.count = (listing p raw).length := by
  have hre : (read_entries p.files.capacity raw
      (if path_is_root p.path then [] else [parent_entry])).1 = listing p raw := by
    unfold listing
    apply read_entries_fit p.files.capacity raw _ hname
    unfold listing at hfit
    simpa using hfit
  obtain ⟨-, hperm, hcount⟩ := sort_files_sorted
    { entries := (read_entries p.files.capacity raw
        (if path_is_root p.path then [] else [parent_entry])).1,
      capacity := p.files.capacity,
      count := (read_entries p.files.capacity raw
        (if path_is_root p.path then [] else [parent_entry])).1.length,
      truncated := (read_entries p.files.capacity raw
        (if path_is_root p.path then [] else [parent_entry])).2 } rfl
  simp only [] at hperm hcount
  rw [← hre]
  exact ⟨hperm, hcount⟩

theorem read_dir_entries_witness :
    ((∀ d ∈ sample_raw, 0 ∉ d.name ∧ d.name.length ≤ 12) ∧
      (listing sample_panel sample_raw).length ≤ sample_panel.files.capacity) ∧
    ((panel_read_dir sample_panel sample_raw).files.entries.Perm
        (listing sample_panel sample_raw) ∧
      (panel_read_dir sample_panel sample_raw).files.count =
        (listing sample_panel sample_raw).length) :=
  ⟨⟨by decide, by decide⟩, read_dir_entries sample_panel sample_raw (by decide) (by decide)⟩

/-! ## C19 -/

theorem read_entries_skip_dots (capacity : Nat) : ∀ (dots rest : List DTA)
    (acc : List FileEntry), (∀ d ∈ dots, is_dot_entry d = true) → acc.length < capacity →
    read_entries capacity (dots ++ rest) acc = read_entries capacity rest acc
  | [], _, _, _, _ => rfl
  | d :: dots, rest, acc, hd, hcap => by
    have ih := read_entries_skip_dots capacity dots rest acc
      (fun x hx => hd x (List.mem_cons_of_mem _ hx)) hcap
    simp only [List.cons_append, read_entries]
    rw [if_pos hcap]
    rcases (is_dot_entry_iff d).1 (hd d (List.mem_cons_self _ _)) with h | h
    · rw [if_pos h]; exact ih
    · split_ifs <;> exact ih

theorem read_entries_flag (capacity : Nat) : ∀ (rest : List DTA) (acc : List FileEntry),
    (∀ d ∈ rest, is_dot_entry d = false) → acc.length ≤ capacity →
    ((read_entries capacity rest acc).2 = true ↔ capacity < acc.length + rest.length)
  | [], acc, _, hcap => by simp [read_entries]; omega
  | d :: rest, acc, hd, hcap => by
    have hdot : ¬ (is_dot_entry d = true) := by
      rw [hd d (List.mem_cons_self _ _)]; simp
    have h1 : ¬ (chr d.name 0 = 46 ∧ chr d.name 1 = 0) :=
      fun h => hdot ((is_dot_entry_iff d).2 (Or.inl h))
    have h2 : ¬ (chr d.name 0 = 46 ∧ chr d.name 1 = 46 ∧ chr d.name 2 = 0) :=
      fun h => hdot ((is_dot_entry_iff d).2 (Or.inr h))
    simp only [read_entries]
    by_cases hlt : acc.length < capacity
    · rw [if_pos hlt, if_neg h1, if_neg h2]
      rw [read_entries_flag capacity rest _
        (fun x hx => hd x (List.mem_cons_of_mem _ hx))
        (by simp only [List.length_append, List.length_cons, List.length_nil]; omega)]
      simp only [List.length_append, List.length_cons, List.length_nil]
      omega
    · rw [if_neg hlt]
      simp only [List.length_cons, true_iff]
      omega

/-- C19 (counterexample). The same directory (the files `b.txt` and `A.TXT` below the root) is
read into a panel with three slots in two enumeration orders. With `.` and `..` first the flag
is clear; with `.` and `..` last the find loop stops on a pending `.` when the third slot is
filled, and the flag is set, although both runs list the same three entries. The flag is
therefore not a function of the number of entries in the directory. -/
theorem truncated_depends_on_order :
    raw_two_dots_last.Perm raw_two ∧
    (panel_read_dir small_panel raw_two).files.truncated = false ∧
    (panel_read_dir small_panel raw_two_dots_last).files.truncated = true ∧
    (panel_read_dir small_panel raw_two).files.entries =
      (panel_read_dir small_panel raw_two_dots_last).files.entries ∧
    (panel_read_dir small_panel raw_two).files.count = 3 := by
  refine ⟨?_, by decide, by decide, by decide, by decide⟩
  decide

/-- C19 (amended). For every panel whose capacity leaves a slot beyond the synthetic `".."`
entry, every path, and every raw listing in which `.` and `..` come before all other entries
(the order in which DOS enumerates a directory): after `panel_read_dir` the flag `truncated` is
set if and only if the entries to list, that is the synthetic `".."` below the root and the raw
entries other than `.` and `..`, are more than `capacity`. -/
theorem truncated_iff (p : Panel) (dots rest : List DTA)
    (hroom : (if path_is_root p.path then 0 else 1) < p.files.capacity)
    (hdots : ∀ d ∈ dots, is_dot_entry d = true)
    (hrest : ∀ d ∈ rest, is_dot_entry d = false) :
    (panel_read_dir p (dots ++ rest)).files.truncated = true ↔
      p.files.capacity < (listing p (dots ++ rest)).length := by
  have hlen : (listing p (dots ++ rest)).length =
      (if path_is_root p.path then 0 else 1) + rest.length := by
    unfold listing
    have h1 : dots.filter (fun d => !is_dot_entry d) = [] := by
      rw [List.filter_eq_nil_iff]
      intro d hd
      simp [hdots d hd]
    have h2 : rest.filter (fun d => !is_dot_entry d) = rest := by
      rw [List.filter_eq_self]
      intro d hd
      simp [hrest d hd]
    rw [List.filter_append, h1, h2]
    split_ifs <;> simp [Nat.add_comm]
  have hfl : (panel_read_dir p (dots ++ rest)).files.truncated =
      (read_entries p.files.capacity (dots ++ rest)
        (if path_is_root p.path then [] else [parent_entry])).2 := by
    unfold panel_read_dir
    simp only [sort_files_truncated]
  rw [hfl, hlen]
  by_cases hroot : path_is_root p.path = true
  · simp only [hroot, if_true] at hroom ⊢
    rw [read_entries_skip_dots _ _ _ _ hdots (by simpa using hroom),
      read_entries_flag _ _ _ hrest (by simp)]
    simp
  · simp only [hroot] at hroom ⊢
    simp only [Bool.false_eq_true, if_false] at hroom ⊢
    rw [read_entries_skip_dots _ _ _ _ hdots (by simpa using hroom),
      read_entries_flag _ _ _ hrest (by simp; omega)]
    simp

theorem truncated_iff_witness :
    ((if path_is_root small_panel.path then 0 else 1) < small_panel.files.capacity ∧
      (∀ d ∈ raw_two.take 2, is_dot_entry d = true) ∧
      (∀ d ∈ sample_raw.drop 2, is_dot_entry d = false)) ∧
    ((panel_read_dir small_panel (raw_two.take 2 ++ sample_raw.drop 2)).files.truncated = true ↔
      small_panel.files.capacity <
        (listing small_panel (raw_two.take 2 ++ sample_raw.drop 2)).length) :=
  ⟨⟨by decide, by decide, by decide⟩,
    truncated_iff small_panel (raw_two.take 2) (sample_raw.drop 2) (by decide) (by decide)
      (by decide)⟩

/-! ## C12 -/

theorem for_each_target_cancel (step : FileEntry → Int → World → Option Int × World)
    (l : List FileEntry) (w : World) :
    for_each_target step l FOPS_CANCEL w = (some FOPS_CANCEL, w) := by
  cases l <;> simp [for_each_target]

theorem filter_selected_cons_of_neg (f : FileEntry) (rest : List FileEntry)
    (h : f.selected = 0) :
    (f :: rest).filter (fun f => f.selected != 0) = rest.filter (fun f => f.selected != 0) :=
  List.filter_cons_of_neg (by simp [h])

theorem filter_selected_cons_of_pos (f : FileEntry) (rest : List FileEntry)
    (h : ¬ f.selected = 0) :
    (f :: rest).filter (fun f => f.selected != 0) =
      f :: rest.filter (fun f => f.selected != 0) :=
  List.filter_cons_of_pos (by simp [h])

/-- The `for` loop of a job works through the selected slots, in order, and passes over the
others. -/
theorem batch_on_selected (op : Op) (fuel : Nat) (sp dp : Panel) :
    ∀ (entries : List FileEntry) (result : Int) (w : World),
      op.batch fuel sp dp entries result w =
        for_each_target (op.step fuel sp dp) (entries.filter (fun f => f.selected != 0))
          result w := by
  intro entries
  induction entries with
  | nil => intro result w; cases op <;> rfl
  | cons f rest ih =>
    intro result w
    by_cases hc : result = FOPS_CANCEL
    · subst hc
      rw [for_each_target_cancel]
      cases op <;> simp [Op.batch, copy_batch, move_batch, delete_batch]
    by_cases hs : f.selected = 0
    · rw [filter_selected_cons_of_neg f rest hs, ← ih result w]
      cases op <;> simp [Op.batch, copy_batch, move_batch, delete_batch, hc, hs]
    · rw [filter_selected_cons_of_pos f rest hs]
      simp only [for_each_target, if_neg hc]
      cases op
      · simp only [Op.batch, copy_batch, if_neg hc, if_neg hs, Op.step]
        cases hr : (copy_entry fuel f (build_src_path sp f) (build_dst_path dp f.name)
          ({ w with g_file_current := u16add w.g_file_current 1 }.emit
            (Ev.progress Label.copying f.name (u16add w.g_file_current 1) w.g_file_count))).1 with
        | none => simp
        | some res =>
          simp only [Option.map_some']
          exact ih _ _
      · simp only [Op.batch, move_batch, if_neg hc, if_neg hs, Op.step]
        generalize ({ w with g_file_current := u16add w.g_file_current 1 }.emit
            (Ev.progress Label.moving f.name (u16add w.g_file_current 1) w.g_file_count)) = w2
        generalize (if sp.drive = dp.drive then
            dos_rename (build_src_path sp f) (build_dst_path dp f.name) w2 else (-1, w2)) = rn
        by_cases hrn : sp.drive = dp.drive ∧ rn.1 = 0
        · simp only [if_pos hrn]
          exact ih _ _
        · simp only [if_neg hrn]
          cases hr : (move_fallback fuel f (build_src_path sp f) (build_dst_path dp f.name)
            rn.2).1 with
          | none => simp
          | some res =>
            simp only [Option.map_some']
            exact ih _ _
      · simp only [Op.batch, delete_batch, if_neg hc, if_neg hs, Op.step]
        cases hr : (delete_entry fuel f (build_src_path sp f)
          ({ w with g_file_current := u16add w.g_file_current 1 }.emit
            (Ev.progress Label.deleting f.name (u16add w.g_file_current 1)
              w.g_file_count))).1 with
        | none => simp
        | some res => exact ih _ _

/-- C16 (evaluation at the failing input). Batch delete of the selected files `F1` and `F2`
with ESC waiting in the keyboard buffer: `fops_delete` never polls the keyboard between the
two entries, so both files are deleted, the key is still unread, and the result is
`FOPS_OK`. -/
theorem delete_batch_never_polls :
    world_del_esc.keys = [some { kind := 1, code := 27 }] ∧
    (fops_delete 8 panel_A_F12 world_del_esc).1 = some FOPS_OK ∧
    (fops_delete 8 panel_A_F12 world_del_esc).2.2.log =
      [ Ev.ask [] 1,
        Ev.progress Label.deleting (cstr "F1") 1 2,
        Ev.getAttr (cstr "A:\\F1") 32, Ev.delete (cstr "A:\\F1") 0,
        Ev.progress Label.deleting (cstr "F2") 2 2,
        Ev.getAttr (cstr "A:\\F2") 32, Ev.delete (cstr "A:\\F2") 0,
        Ev.hideProgress ] ∧
    (fops_delete 8 panel_A_F12 world_del_esc).2.2.fs = [] ∧
    (fops_delete 8 panel_A_F12 world_del_esc).2.2.keys = [some { kind := 1, code := 27 }] := by
  decide

/-! ## C17 -/

theorem grows_refl (w : World) : Grows w w := ⟨[], by simp⟩

theorem Grows.andThen {a b c : World} (h1 : Grows a b) (h2 : Grows b c) : Grows a c := by
  obtain ⟨e1, l1⟩ := h1
  obtain ⟨e2, l2⟩ := h2
  exact ⟨e1 ++ e2, by rw [l2, l1, List.append_assoc]⟩

theorem Silent.grows {a b : World} (h : Silent a b) : Grows a b := by
  obtain ⟨evs, l, -, -⟩ := h
  exact ⟨evs, l⟩

theorem Policy.logGrows {a b : World} (h : Policy a b) : Grows a b := by
  obtain ⟨evs, l, -, -⟩ := h
  exact ⟨evs, l⟩

/-- A round of a job loop starts with the progress call for its entry. -/
theorem step_starts (op : Op) (fuel : Nat) (sp dp : Panel) (f : FileEntry) (r : Int)
    (w : World) :
    ∃ rest, (op.step fuel sp dp f r w).2.log =
      w.log ++ Ev.progress op.label f.name (u16add w.g_file_current 1) w.g_file_count :: rest := by
  have key : ∀ (w2 w3 : World) (e : Ev), w2.log = w.log ++ [e] → Grows w2 w3 →
      ∃ rest, w3.log = w.log ++ e :: rest := by
    intro w2 w3 e h2 h3
    obtain ⟨evs, l⟩ := h3
    exact ⟨evs, by rw [l, h2, List.append_assoc]; rfl⟩
  cases op
  · exact key _ _ _ rfl (policy_copy_entry fuel f _ _ _).logGrows
  · simp only [Op.step, Op.label]
    generalize hw2 : ({ w with g_file_current := u16add w.g_file_current 1 }.emit
        (Ev.progress Label.moving f.name (u16add w.g_file_current 1) w.g_file_count)) = w2
    have hl2 : w2.log = w.log ++
        [Ev.progress Label.moving f.name (u16add w.g_file_current 1) w.g_file_count] := by
      rw [← hw2]; rfl
    have hrn : Grows w2 (if sp.drive = dp.drive then
        dos_rename (build_src_path sp f) (build_dst_path dp f.name) w2 else (-1, w2)).2 := by
      split_ifs
      · exact (silent_dos_rename _ _ _).grows
      · exact grows_refl _
    generalize (if sp.drive = dp.drive then
        dos_rename (build_src_path sp f) (build_dst_path dp f.name) w2 else (-1, w2)) = rn
      at hrn
    split_ifs
    · exact key _ _ _ hl2 hrn
    · exact key _ _ _ hl2 (hrn.andThen (policy_move_fallback fuel f _ _ _).logGrows)
  · exact key _ _ _ rfl (silent_delete_entry fuel f _ _).grows

theorem step_grows (op : Op) (fuel : Nat) (sp dp : Panel) (f : FileEntry) (r : Int)
    (w : World) : Grows w (op.step fuel sp dp f r w).2 := by
  obtain ⟨rest, h⟩ := step_starts op fuel sp dp f r w
  exact ⟨_, h⟩

theorem for_each_target_grows (step : FileEntry → Int → World → Option Int × World)
    (hs : ∀ f r w, Grows w (step f r w).2) :
    ∀ (l : List FileEntry) (r : Int) (w : World), Grows w (for_each_target step l r w).2 := by
  intro l
  induction l with
  | nil => intro r w; exact grows_refl w
  | cons f rest ih =>
    intro r w
    simp only [for_each_target]
    split_ifs
    · exact grows_refl w
    · split
      · exact hs f r w
      · exact (hs f r w).andThen (ih _ _)

theorem batch_grows (op : Op) (fuel : Nat) (sp dp : Panel) (l : List FileEntry) (r : Int)
    (w : World) : Grows w (op.batch fuel sp dp l r w).2 := by
  rw [batch_on_selected]
  exact for_each_target_grows _ (step_grows op fuel sp dp) _ _ _

theorem fs_del_put (fs : List (List Nat × Node)) (p : List Nat) (n : Node)
    (h : fs_find fs p ≠ none) : fs_del (fs_put fs p n) p = fs_del fs p := by
  induction fs with
  | nil => simp [fs_find] at h
  | cons e rest ih =>
    by_cases he : e.1 = p
    · simp [fs_put, fs_del, he]
    · have h' : fs_find rest p ≠ none := by simpa [fs_find, he] using h
      simp only [fs_put, if_neg he]
      unfold fs_del at ih ⊢
      simp only [List.filter_cons, he, ne_eq, not_false_eq_true, decide_True, if_true]
      rw [ih h']

theorem toInt16_byte (a : Nat) (h : a < 256) : toInt16 a = (a : Int) := by
  unfold toInt16
  have h1 : a % 65536 = a := Nat.mod_eq_of_lt (by omega)
  rw [h1, if_pos (by omega)]

theorem and_fffe_even (a : Nat) : ((a &&& 0xFFFE) % 256) &&& 1 = 0 := by
  rw [Nat.and_one_is_mod, Nat.mod_mod_of_dvd _ (by decide : 2 ∣ 256)]
  have h : (a &&& 0xFFFE).testBit 0 = false := by
    rw [Nat.testBit_and]
    have : Nat.testBit 0xFFFE 0 = false := by decide
    rw [this, Bool.and_false]
  rw [Nat.testBit_zero, decide_eq_false_iff_not] at h
  omega

theorem dos_delete_ok_result (p : List Nat) (w : World) (a : Nat) (d : List Nat)
    (h : fs_find w.fs p = some (Node.file a d)) (ha : a &&& 1 = 0) :
    (dos_delete p w).1 = 0 := by
  unfold dos_delete
  rw [h]
  simp only [ha, if_true]

/-- Deleting a file through `fops_delete_file`: a read-only attribute is cleared first, so the
file goes in either case; nothing else changes. -/
theorem fops_delete_file_ok (p : List Nat) (w : World) (a : Nat) (d : List Nat)
    (h : fs_find w.fs p = some (Node.file a d)) (ha : a < 256) :
    (fops_delete_file p w).1 = FOPS_OK ∧
    (fops_delete_file p w).2.fs = fs_del w.fs p ∧
    (fops_delete_file p w).2.handles = w.handles ∧
    (fops_delete_file p w).2.keys = w.keys ∧
    (fops_delete_file p w).2.read_faults = w.read_faults ∧
    (fops_delete_file p w).2.write_faults = w.write_faults ∧
    (fops_delete_file p w).2.g_copy_buf_size = w.g_copy_buf_size := by
  have hget : dos_get_attr p w = (toInt16 a, w.emit (Ev.getAttr p (toInt16 a))) := by
    unfold dos_get_attr; rw [h]
  have hpre : ∃ (w1 : World) (a1 : Nat),
      (if (dos_get_attr p w).1 ≥ 0 ∧ (dos_get_attr p w).1.toNat &&& 1 ≠ 0 then
        (dos_set_attr p ((dos_get_attr p w).1.toNat &&& 0xFFFE) (dos_get_attr p w).2).2
       else (dos_get_attr p w).2) = w1 ∧
      fs_find w1.fs p = some (Node.file a1 d) ∧ a1 &&& 1 = 0 ∧
      fs_del w1.fs p = fs_del w.fs p ∧ w1.handles = w.handles ∧ w1.keys = w.keys ∧
      w1.read_faults = w.read_faults ∧ w1.write_faults = w.write_faults ∧
      w1.g_copy_buf_size = w.g_copy_buf_size := by
    rw [hget]
    simp only [toInt16_byte a ha, Int.toNat_ofNat]
    by_cases hro : a &&& 1 = 0
    · have hc : ¬ ((a : Int) ≥ 0 ∧ a &&& 1 ≠ 0) := fun hh => hh.2 hro
      rw [if_neg hc]
      exact ⟨_, a, rfl, h, hro, rfl, rfl, rfl, rfl, rfl, rfl⟩
    · have hc : ((a : Int) ≥ 0 ∧ a &&& 1 ≠ 0) := ⟨Int.ofNat_nonneg a, hro⟩
      rw [if_pos hc]
      have hs : (dos_set_attr p (a &&& 0xFFFE) (w.emit (Ev.getAttr p a))).2 =
          { (w.emit (Ev.getAttr p a)) with
              fs := fs_put w.fs p (Node.file ((a &&& 0xFFFE) % 256) d) }.emit
            (Ev.setAttr p ((a &&& 0xFFFE) % 256) 0) := by
        unfold dos_set_attr
        rw [show (w.emit (Ev.getAttr p ↑a)).fs = w.fs from rfl, h]
      rw [hs]
      refine ⟨_, (a &&& 0xFFFE) % 256, rfl, fs_find_put_same _ _ _, and_fffe_even a, ?_,
        rfl, rfl, rfl, rfl, rfl⟩
      exact fs_del_put _ _ _ (by rw [h]; simp)
  obtain ⟨w1, a1, hw1, hf1, he1, hdel, hh, hk, hr, hwf, hb⟩ := hpre
  unfold fops_delete_file
  simp only [hw1]
  rw [dos_delete_ok_result p w1 a1 d hf1 he1, dos_delete_ok p w1 a1 d hf1 he1]
  simp only [ne_eq, not_true_eq_false, if_false]
  exact ⟨trivial, hdel, hh, hk, hr, hwf, hb⟩

/-- A copy onto an existing file that may be overwritten and is not read-only. -/
theorem copy_file_granted (fuel : Nat) (src dst : List Nat) (w : World) (attr a : Nat)
    (data d : List Nat) (hsrc : fs_find w.fs src = some (Node.file attr data))
    (hsd : src ≠ dst) (hd : fs_find w.fs dst = some (Node.file a d)) (ha : a &&& 1 = 0)
    (hgrant : w.g_overwrite_all ≠ 0 ∨ w.answers.headD 0 = DLG_YES ∨ w.answers.headD 0 = 65)
    (hcalm : Calm w) (hbuf : 1 ≤ w.g_copy_buf_size ∧ w.g_copy_buf_size < 32768)
    (hfuel : data.length + 1 ≤ fuel) :
    (fops_copy_file fuel src dst w).1 = some FOPS_OK ∧
    fs_find (fops_copy_file fuel src dst w).2.fs dst = some (Node.file 0 data) ∧
    (∀ q, q ≠ dst → fs_find (fops_copy_file fuel src dst w).2.fs q = fs_find w.fs q) ∧
    (fops_copy_file fuel src dst w).2.handles = w.handles := by
  unfold fops_copy_file
  simp only
  have he : (dos_exists dst w).1 = true := by simp [dos_exists, hd]
  simp only [he, if_true]
  by_cases hz : w.g_overwrite_all = 0
  · rcases hgrant with hg | hg | hg
    · exact absurd hz hg
    · have hans : (dlg_overwrite (path_basename dst) (dos_exists dst w).2).1 = DLG_YES := hg
      simp only [hz, if_true, hans, show ¬ (DLG_YES = DLG_NO) from by decide,
        show ¬ (DLG_YES = 65) from by decide, ne_eq, not_true_eq_false, if_false]
      exact copy_after_delete fuel src dst w _ attr a data d rfl rfl rfl rfl
        rfl rfl hsrc hsd hd ha hcalm hbuf hfuel
    · have hans : (dlg_overwrite (path_basename dst) (dos_exists dst w).2).1 = 65 := hg
      simp only [hz, if_true, hans, show ¬ ((65 : Int) = DLG_NO) from by decide, if_false]
      exact copy_after_delete fuel src dst w _ attr a data d rfl rfl rfl rfl
        rfl rfl hsrc hsd hd ha hcalm hbuf hfuel
  · simp only [hz, if_false]
    exact copy_after_delete fuel src dst w (dos_exists dst w).2 attr a data d rfl rfl rfl
      rfl rfl rfl hsrc hsd hd ha hcalm hbuf hfuel

theorem chr_append_left (a b : List Nat) (i : Nat) (h : i < a.length) :
    chr (a ++ b) i = chr a i := by
  unfold chr
  rw [List.getD_eq_getElem?_getD, List.getD_eq_getElem?_getD, List.getElem?_append_left h]

theorem build_path_drive (p : Panel) (name : List Nat) :
    chr (path_append (panel_base p) name) 0 = (65 + p.drive) % 256 := by
  have hlen : 0 < (panel_base p).length := by simp [panel_base]
  have h0 : chr (panel_base p) 0 = (65 + p.drive) % 256 := by simp [panel_base, chr]
  unfold path_append
  split_ifs
  · rw [List.append_assoc, chr_append_left _ _ _ hlen, h0]
  · rw [chr_append_left _ _ _ hlen, h0]

/-- The `dos_rename` of a file onto a free path of the same drive. -/
theorem dos_rename_ok (p q : List Nat) (w : World) (a : Nat) (d : List Nat)
    (hp : fs_find w.fs p = some (Node.file a d)) (hq : fs_find w.fs q = none)
    (hdrive : chr p 0 = chr q 0) :
    (dos_rename p q w).1 = 0 ∧
    fs_find (dos_rename p q w).2.fs q = some (Node.file a d) ∧
    fs_find (dos_rename p q w).2.fs p = none := by
  have hpq : p ≠ q := by
    intro h; rw [h, hq] at hp; exact absurd hp (by simp)
  unfold dos_rename
  rw [hp, hq]
  simp only [hdrive, if_true]
  refine ⟨trivial, fs_find_put_same _ _ _, ?_⟩
  show fs_find (fs_put (fs_del w.fs p) q _) p = none
  rw [fs_find_put_other _ _ _ _ hpq]
  exact fs_find_del_same _ _

/-- A rename that fails leaves the file system as it was. -/
theorem dos_rename_fail (p q : List Nat) (w : World) (h : (dos_rename p q w).1 ≠ 0) :
    (dos_rename p q w).2 = w.emit (Ev.rename p q (-1)) := by
  unfold dos_rename at h ⊢
  split
  · split_ifs with hc
    · rename_i a d hp hq
      rw [hp, hq] at h
      simp [hc] at h
    · rfl
  · rfl

/-- The copy-then-delete fallback on a file whose destination holds an older file that may be
overwritten. -/
theorem move_fallback_ok (fuel : Nat) (f : FileEntry) (src dst : List Nat) (w : World)
    (attr a : Nat) (data d : List Nat) (hfile : file_is_dir f = false)
    (hsrc : fs_find w.fs src = some (Node.file attr data)) (hattr : attr < 256)
    (hsd : src ≠ dst) (hd : fs_find w.fs dst = some (Node.file a d)) (ha : a &&& 1 = 0)
    (hgrant : w.g_overwrite_all ≠ 0 ∨ w.answers.headD 0 = DLG_YES ∨ w.answers.headD 0 = 65)
    (hcalm : Calm w) (hbuf : 1 ≤ w.g_copy_buf_size ∧ w.g_copy_buf_size < 32768)
    (hfuel : data.length + 1 ≤ fuel) :
    (move_fallback fuel f src dst w).1 = some FOPS_OK ∧
    fs_find (move_fallback fuel f src dst w).2.fs dst = some (Node.file 0 data) ∧
    fs_find (move_fallback fuel f src dst w).2.fs src = none := by
  obtain ⟨c1, c2, c3, -⟩ := copy_file_granted fuel src dst w attr a data d hsrc hsd hd ha
    hgrant hcalm hbuf hfuel
  have hdir : ¬ (file_is_dir f = true) := by rw [hfile]; simp
  unfold move_fallback
  simp only [copy_entry, if_neg hdir, c1, if_true, delete_entry]
  obtain ⟨-, d2, -⟩ := fops_delete_file_ok src (fops_copy_file fuel src dst w).2 attr data
    (by rw [c3 src hsd]; exact hsrc) hattr
  refine ⟨trivial, ?_, ?_⟩
  · show fs_find (fops_delete_file src (fops_copy_file fuel src dst w).2).2.fs dst = _
    rw [d2, fs_find_del_other _ _ _ (Ne.symm hsd), c2]
  · show fs_find (fops_delete_file src (fops_copy_file fuel src dst w).2).2.fs src = _
    rw [d2]; exact fs_find_del_same _ _

/-- The move of one file between different paths. Let `f` be a file entry of the source panel,
both panels on the same drive, the source path hold a file with content `data`, and the destination path be another path that is free, or
holds a file that is not read-only and that the user lets the job overwrite (Yes or All, or
overwrite-all already set) while no read or write fails and no ESC is polled. Then each of the
two places of `fops_move` that move one entry, the branch for the entry under the cursor and the
round of the loop over the selection, ends with the destination path holding a file with exactly
`data` and with the source path gone, whether `dos_rename` did it (free destination) or failed
and the copy-and-delete fallback did it; the branch returns `FOPS_OK`, the round leaves a result
other than `FOPS_CANCEL`. -/
theorem move_file_same_drive (fuel : Nat) (sp dp : Panel) (f : FileEntry) (w : World)
    (attr : Nat) (data : List Nat) (r : Int)
    (hdrive : sp.drive = dp.drive) (hfile : file_is_dir f = false)
    (hsd : build_src_path sp f ≠ build_dst_path dp f.name)
    (hsrc : fs_find w.fs (build_src_path sp f) = some (Node.file attr data))
    (hattr : attr < 256)
    (hdst : fs_find w.fs (build_dst_path dp f.name) = none ∨
      ((∃ a d, fs_find w.fs (build_dst_path dp f.name) = some (Node.file a d) ∧ a &&& 1 = 0) ∧
        (w.g_overwrite_all ≠ 0 ∨ w.answers.headD 0 = DLG_YES ∨ w.answers.headD 0 = 65) ∧
        Calm w ∧ (1 ≤ w.g_copy_buf_size ∧ w.g_copy_buf_size < 32768) ∧
        data.length + 1 ≤ fuel))
    (hr : r ≠ FOPS_CANCEL) :
    ((Op.single Op.move fuel sp dp f w).1 = some FOPS_OK ∧
      (∃ a1, fs_find (Op.single Op.move fuel sp dp f w).2.fs (build_dst_path dp f.name) =
        some (Node.file a1 data)) ∧
      fs_find (Op.single Op.move fuel sp dp f w).2.fs (build_src_path sp f) = none) ∧
    ((∃ r1, (Op.step Op.move fuel sp dp f r w).1 = some r1 ∧ r1 ≠ FOPS_CANCEL) ∧
      (∃ a1, fs_find (Op.step Op.move fuel sp dp f r w).2.fs (build_dst_path dp f.name) =
        some (Node.file a1 data)) ∧
      fs_find (Op.step Op.move fuel sp dp f r w).2.fs (build_src_path sp f) = none) := by
  have hdr : chr (build_src_path sp f) 0 = chr (build_dst_path dp f.name) 0 := by
    unfold build_src_path build_dst_path
    rw [build_path_drive, build_path_drive, hdrive]
  have hok : FOPS_OK ≠ FOPS_CANCEL := by decide
  -- the round works on the state behind the progress call
  have core : ∀ w2 : World, w2.fs = w.fs → w2.handles = w.handles →
      w2.read_faults = w.read_faults → w2.write_faults = w.write_faults →
      w2.keys = w.keys → w2.answers = w.answers → w2.g_overwrite_all = w.g_overwrite_all →
      w2.g_copy_buf_size = w.g_copy_buf_size →
      ((dos_rename (build_src_path sp f) (build_dst_path dp f.name) w2).1 = 0 ∧
        (∃ a1, fs_find (dos_rename (build_src_path sp f) (build_dst_path dp f.name) w2).2.fs
          (build_dst_path dp f.name) = some (Node.file a1 data)) ∧
        fs_find (dos_rename (build_src_path sp f) (build_dst_path dp f.name) w2).2.fs
          (build_src_path sp f) = none) ∨
      ((dos_rename (build_src_path sp f) (build_dst_path dp f.name) w2).1 ≠ 0 ∧
        (move_fallback fuel f (build_src_path sp f) (build_dst_path dp f.name)
          (dos_rename (build_src_path sp f) (build_dst_path dp f.name) w2).2).1 =
            some FOPS_OK ∧
        (∃ a1, fs_find (move_fallback fuel f (build_src_path sp f) (build_dst_path dp f.name)
          (dos_rename (build_src_path sp f) (build_dst_path dp f.name) w2).2).2.fs
          (build_dst_path dp f.name) = some (Node.file a1 data)) ∧
        fs_find (move_fallback fuel f (build_src_path sp f) (build_dst_path dp f.name)
          (dos_rename (build_src_path sp f) (build_dst_path dp f.name) w2).2).2.fs
          (build_src_path sp f) = none) := by
    intro w2 e1 e2 e3 e4 e5 e6 e7 e8
    rcases hdst with hfree | ⟨⟨a, d, hd, ha⟩, hgrant, hcalm, hbuf, hfuel⟩
    · obtain ⟨r1, r2, r3⟩ := dos_rename_ok (build_src_path sp f) (build_dst_path dp f.name) w2
        attr data (e1 ▸ hsrc) (e1 ▸ hfree) hdr
      exact Or.inl ⟨r1, ⟨attr, r2⟩, r3⟩
    · have hfail : (dos_rename (build_src_path sp f) (build_dst_path dp f.name) w2).1 ≠ 0 := by
        unfold dos_rename
        rw [e1, hsrc, hd]
        simp
      rw [dos_rename_fail _ _ _ hfail]
      obtain ⟨m1, m2, m3⟩ := move_fallback_ok fuel f (build_src_path sp f)
        (build_dst_path dp f.name)
        (w2.emit (Ev.rename (build_src_path sp f) (build_dst_path dp f.name) (-1)))
        attr a data d hfile (e1 ▸ hsrc) hattr hsd (e1 ▸ hd) ha
        (by show w2.g_overwrite_all ≠ 0 ∨ w2.answers.headD 0 = _ ∨ w2.answers.headD 0 = _
            rw [e6, e7]; exact hgrant)
        (by refine ⟨?_, ?_, ?_⟩
            · show ∀ b ∈ w2.read_faults, b = false
              rw [e3]; exact hcalm.1
            · show ∀ o ∈ w2.write_faults, o = WriteOutcome.full
              rw [e4]; exact hcalm.2.1
            · show ∀ k ∈ w2.keys, (Ev.kbd k).isEsc = false
              rw [e5]; exact hcalm.2.2)
        (by show 1 ≤ w2.g_copy_buf_size ∧ w2.g_copy_buf_size < 32768
            rw [e8]; exact hbuf)
        hfuel
      exact Or.inr ⟨hfail, m1, ⟨0, m2⟩, m3⟩
  constructor
  · simp only [Op.single, if_pos hdrive]
    rcases core w rfl rfl rfl rfl rfl rfl rfl rfl with ⟨h1, h2, h3⟩ | ⟨h1, h2, h3, h4⟩
    · simp only [h1, if_true]
      exact ⟨trivial, h2, h3⟩
    · simp only [if_neg h1]
      exact ⟨h2, h3, h4⟩
  · simp only [Op.step, if_pos hdrive]
    rcases core ({ w with g_file_current := u16add w.g_file_current 1 }.emit
        (Ev.progress Label.moving f.name (u16add w.g_file_current 1) w.g_file_count))
        rfl rfl rfl rfl rfl rfl rfl rfl with ⟨h1, h2, h3⟩ | ⟨h1, h2, h3, h4⟩
    · rw [if_pos ⟨hdrive, h1⟩]
      exact ⟨⟨r, rfl, hr⟩, h2, h3⟩
    · have hc : ¬ (sp.drive = dp.drive ∧ (dos_rename (build_src_path sp f)
          (build_dst_path dp f.name)
          ({ w with g_file_current := u16add w.g_file_current 1 }.emit
            (Ev.progress Label.moving f.name (u16add w.g_file_current 1)
              w.g_file_count))).1 = 0) := fun hh => h1 hh.2
      rw [if_neg hc]
      simp only [h2, Option.map_some']
      exact ⟨⟨FOPS_OK, by simp [FOPS_OK, FOPS_SKIP], hok⟩, h3, h4⟩

theorem move_file_same_drive_witness :
    (root_panel_F.drive = panel_A_sub.drive ∧ file_is_dir entry_F = false ∧
      build_src_path root_panel_F entry_F ≠ build_dst_path panel_A_sub entry_F.name ∧
      fs_find world_F_D.fs (build_src_path root_panel_F entry_F) =
        some (Node.file 0x20 [1, 2, 3, 4, 5]) ∧
      fs_find world_F_D.fs (build_dst_path panel_A_sub entry_F.name) = none) ∧
    ((Op.single Op.move 8 root_panel_F panel_A_sub entry_F world_F_D).1 = some FOPS_OK ∧
      (∃ a1, fs_find (Op.single Op.move 8 root_panel_F panel_A_sub entry_F world_F_D).2.fs
        (build_dst_path panel_A_sub entry_F.name) = some (Node.file a1 [1, 2, 3, 4, 5])) ∧
      fs_find (Op.single Op.move 8 root_panel_F panel_A_sub entry_F world_F_D).2.fs
        (build_src_path root_panel_F entry_F) = none) :=
  ⟨⟨by decide, by decide, by decide, by decide, by decide⟩,
    (move_file_same_drive 8 root_panel_F panel_A_sub entry_F world_F_D 0x20 [1, 2, 3, 4, 5]
      FOPS_OK (by decide) (by decide) (by decide) (by decide) (by decide)
      (Or.inl (by decide)) (by decide)).1⟩

/-! ## C14 -/

/-- C14 (evaluation at the failing input). Both panels show the root of drive A, as after
`panels_init`, and the cursor is on `F.TXT`: the move is between two panels on the same drive,
and source and destination are the same path. `dos_rename` fails because the destination
exists; the fallback `fops_copy_file` asks, and on Yes deletes the "existing destination",
which is the source; `dos_open` then fails. `fops_move` returns `FOPS_ERROR` and the path
holds nothing any more: no destination with the bytes of the source exists. The round of the
loop over the selection (`F.TXT` selected, batch confirmed) ends the same way. -/
theorem move_same_dir_destroys_file :
    build_src_path root_panel_F
        { attr := 0x20, time := 0, date := 0, size := 5, name := name_F, selected := 0 } =
      path_F ∧
    build_dst_path root_panel_F name_F = path_F ∧
    fs_find world_F_move.fs path_F = some (Node.file 0x20 [1, 2, 3, 4, 5]) ∧
    (fops_move 10 root_panel_F root_panel_F world_F_move).1 = some FOPS_ERROR ∧
    (fops_move 10 root_panel_F root_panel_F world_F_move).2.2.2.log =
      [Ev.ask name_F 77, Ev.progress Label.moving name_F 0 1, Ev.rename path_F path_F (-1),
       Ev.exist path_F true, Ev.overwrite name_F 1, Ev.delete path_F 0, Ev.opened path_F (-1),
       Ev.uiError ErrMsg.cannotOpenSource, Ev.hideProgress] ∧
    fs_find (fops_move 10 root_panel_F root_panel_F world_F_move).2.2.2.fs path_F = none ∧
    (fops_move 10 root_panel_F_sel root_panel_F_sel world_F_batch).1 = some FOPS_ERROR ∧
    fs_find (fops_move 10 root_panel_F_sel root_panel_F_sel world_F_batch).2.2.2.fs path_F =
      none := by
  decide

/-! ## Theorems: paths and directory trees -/

theorem inside_iff (p q : List Nat) : inside p q ↔ ∃ rel, q = p ++ 92 :: rel := by
  unfold inside
  constructor
  · rintro ⟨t, ht⟩
    exact ⟨t, by rw [← ht, List.append_assoc]; rfl⟩
  · rintro ⟨rel, rfl⟩
    exact ⟨rel, by rw [List.append_assoc]; rfl⟩

theorem inside_child (p rel : List Nat) : inside p (p ++ 92 :: rel) :=
  (inside_iff _ _).2 ⟨rel, rfl⟩

theorem below_self (p : List Nat) : below p p := Or.inl rfl

theorem below_child (p rel : List Nat) : below p (p ++ 92 :: rel) := Or.inr (inside_child p rel)

theorem not_inside_self (p : List Nat) : ¬ inside p p := by
  intro h
  have := h.length_le
  simp at this

theorem inside_trans {a b c : List Nat} (h1 : inside a b) (h2 : inside b c) : inside a c := by
  obtain ⟨r1, rfl⟩ := (inside_iff _ _).1 h1
  obtain ⟨r2, rfl⟩ := (inside_iff _ _).1 h2
  exact (inside_iff _ _).2 ⟨r1 ++ 92 :: r2, by simp⟩

theorem below_trans {a b c : List Nat} (h1 : below a b) (h2 : below b c) : below a c := by
  rcases h1 with rfl | h1
  · exact h2
  · rcases h2 with rfl | h2
    · exact Or.inr h1
    · exact Or.inr (inside_trans h1 h2)

theorem inside_of_below_inside {a b c : List Nat} (h1 : below a b) (h2 : inside b c) :
    inside a c := by
  rcases h1 with rfl | h1
  · exact h2
  · exact inside_trans h1 h2

theorem below_of_start {a b : List Nat} (h : (a ++ [92]) <+: (b ++ [92])) : below a b := by
  obtain ⟨t, ht⟩ := h
  rcases List.eq_nil_or_concat t with rfl | ⟨t1, x, rfl⟩
  · rw [List.append_nil] at ht
    exact Or.inl ((List.append_inj' ht rfl).1.symm)
  · right
    have h2 : a ++ [92] ++ t1 ++ [x] = b ++ [92] := by rw [← ht]; simp
    have h3 := (List.append_inj' h2 rfl).1
    exact ⟨t1, h3⟩

/-- Two directories that hold the same path are nested. -/
theorem inside_comparable {a b q : List Nat} (ha : inside a q) (hb : inside b q) :
    below a b ∨ below b a := by
  unfold inside at ha hb
  rcases List.prefix_or_prefix_of_prefix ha hb with h | h
  · exact Or.inl (below_of_start h)
  · exact Or.inr (below_of_start h)

theorem below_comparable {a b q : List Nat} (ha : below a q) (hb : below b q) :
    below a b ∨ below b a := by
  rcases ha with rfl | ha
  · exact Or.inr hb
  · rcases hb with rfl | hb
    · exact Or.inl (Or.inr ha)
    · exact inside_comparable ha hb

/-- A directory that holds `par\name` holds `par` or is `par`. -/
theorem below_parent {p par name : List Nat} (hn : 92 ∉ name)
    (h : inside p (par ++ 92 :: name)) : below p par := by
  obtain ⟨t, ht⟩ := h
  -- p ++ [92] ++ t = par ++ 92 :: name
  have hpre : (par ++ [92]) <+: (p ++ [92] ++ t) := ⟨name, by rw [ht]; simp⟩
  rcases List.prefix_or_prefix_of_prefix (List.prefix_append (p ++ [92]) t) hpre with h1 | h1
  · exact below_of_start h1
  · -- par ++ [92] <+: p ++ [92], so below par p; then 92 would be in name unless equal
    rcases below_of_start h1 with h2 | h2
    · exact Or.inl h2.symm
    · exfalso
      obtain ⟨r, hr⟩ := (inside_iff _ _).1 h2
      rw [hr] at ht
      have : par ++ 92 :: (r ++ [92] ++ t) = par ++ 92 :: name := by rw [← ht]; simp
      have h3 := List.append_cancel_left this
      simp only [List.cons.injEq, true_and] at h3
      apply hn
      rw [← h3]
      simp

theorem last_component_unique {p1 p2 n1 n2 : List Nat} (h1 : 92 ∉ n1) (h2 : 92 ∉ n2)
    (h : p1 ++ 92 :: n1 = p2 ++ 92 :: n2) : p1 = p2 ∧ n1 = n2 := by
  have a1 : below p2 p1 := below_parent h1 (by rw [h]; exact inside_child p2 n2)
  have a2 : below p1 p2 := below_parent h2 (by rw [← h]; exact inside_child p1 n1)
  have hp : p1 = p2 := by
    rcases a1 with e | i1
    · exact e
    · rcases a2 with e | i2
      · exact e.symm
      · exact absurd (inside_trans i1 i2) (not_inside_self _)
  subst hp
  have := List.append_cancel_left h
  simp only [List.cons.injEq, true_and] at this
  exact ⟨rfl, this⟩

theorem path_append_plain (p name : List Nat) (hp : plain_path p) :
    path_append p name = p ++ 92 :: name := by
  obtain ⟨hlen, hlast⟩ := hp
  have hne : p ≠ [] := by intro h; rw [h] at hlen; simp at hlen
  have hc : chr p (p.length - 1) ≠ 92 := by
    unfold chr
    rw [List.getD_eq_getElem?_getD, ← List.getLast?_eq_getElem?]
    cases hl : p.getLast? with
    | none => simp
    | some x =>
      rw [hl] at hlast
      simpa using hlast
  unfold path_append
  rw [if_pos ⟨by omega, hc⟩]
  simp

theorem plain_path_child (p name : List Nat) (hp : plain_path p) (hn : valid_name name) :
    plain_path (p ++ 92 :: name) := by
  obtain ⟨hne, h92, -⟩ := hn
  refine ⟨by have := hp.1; simp; omega, ?_⟩
  rw [List.getLast?_append_of_ne_nil _ (by simp)]
  cases name with
  | nil => exact absurd rfl hne
  | cons x rest =>
    rw [List.getLast?_cons_cons]
    intro h
    exact h92 (List.mem_of_getLast?_eq_some h)

theorem head_comp_no_sep (rel : List Nat) : 92 ∉ head_comp rel := by
  intro h
  have := List.mem_takeWhile_imp h
  simp at this

theorem head_comp_split (rel : List Nat) :
    rel = head_comp rel ∨ ∃ rest, rel = head_comp rel ++ 92 :: rest := by
  have h := List.takeWhile_append_dropWhile (fun c => c != 92) rel
  cases hd : rel.dropWhile (fun c => c != 92) with
  | nil =>
    left
    rw [hd, List.append_nil] at h
    exact h.symm
  | cons x rest =>
    right
    have hx : x = 92 := by
      have := List.head_dropWhile_not (fun c => c != 92) rel (by rw [hd]; simp)
      simp only [hd, List.head_cons] at this
      simpa using this
    subst hx
    exact ⟨rest, by rw [← hd]; exact h.symm⟩

theorem head_comp_name (c : List Nat) (h : 92 ∉ c) : head_comp c = c := by
  unfold head_comp
  rw [List.takeWhile_eq_self_iff]
  intro x hx
  have : x ≠ 92 := fun e => h (e ▸ hx)
  simpa using this

theorem head_comp_append (c rest : List Nat) (h : 92 ∉ c) :
    head_comp (c ++ 92 :: rest) = c := by
  unfold head_comp
  induction c with
  | nil => simp [List.takeWhile]
  | cons x xs ih =>
    have hx : x ≠ 92 := fun e => h (by rw [e]; exact List.mem_cons_self _ _)
    have hxs : 92 ∉ xs := fun e => h (List.mem_cons_of_mem _ e)
    have hb : (x != 92) = true := by simpa using hx
    rw [List.cons_append, List.takeWhile_cons, hb]
    simp only [if_true]
    rw [ih hxs]

/-- A path inside `p` lies at or under the child `c` of `p` exactly when its first component
behind `p` is `c`. -/
theorem below_child_iff (p c rel : List Nat) (hc : 92 ∉ c) :
    below (p ++ 92 :: c) (p ++ 92 :: rel) ↔ head_comp rel = c := by
  constructor
  · rintro (h | h)
    · have := List.append_cancel_left h
      simp only [List.cons.injEq, true_and] at this
      rw [this]; exact head_comp_name c hc
    · obtain ⟨t, ht⟩ := (inside_iff _ _).1 h
      have h2 : p ++ 92 :: rel = p ++ 92 :: (c ++ 92 :: t) := by rw [ht]; simp
      have := List.append_cancel_left h2
      simp only [List.cons.injEq, true_and] at this
      rw [this]; exact head_comp_append c t hc
  · intro h
    rcases head_comp_split rel with e | ⟨rest, e⟩
    · left; rw [e, h]
    · right
      rw [e, h]
      exact (inside_iff _ _).2 ⟨rest, by simp⟩

theorem fs_find_mem : ∀ (fs : List (List Nat × Node)) (q : List Nat) (n : Node),
    fs_find fs q = some n → (q, n) ∈ fs
  | [], _, _, h => by simp [fs_find] at h
  | e :: rest, q, n, h => by
    simp only [fs_find] at h
    split_ifs at h with he
    · simp only [Option.some.injEq] at h
      rw [← he, ← h]
      exact List.mem_cons_self _ _
    · exact List.mem_cons_of_mem _ (fs_find_mem rest q n h)

theorem fs_find_of_mem : ∀ (fs : List (List Nat × Node)) (q : List Nat) (n : Node),
    (fs.map Prod.fst).Nodup → (q, n) ∈ fs → fs_find fs q = some n
  | [], _, _, _, h => by simp at h
  | e :: rest, q, n, hnd, h => by
    simp only [List.map_cons, List.nodup_cons] at hnd
    simp only [fs_find]
    rcases List.mem_cons.1 h with h1 | h1
    · rw [← h1]; simp
    · have hne : ¬ e.1 = q := by
        intro he
        apply hnd.1
        rw [he]
        exact List.mem_map.2 ⟨(q, n), h1, rfl⟩
      rw [if_neg hne]
      exact fs_find_of_mem rest q n hnd.2 h1

theorem fs_find_none_of_not_mem : ∀ (fs : List (List Nat × Node)) (q : List Nat),
    q ∉ fs.map Prod.fst → fs_find fs q = none
  | [], _, _ => rfl
  | e :: rest, q, h => by
    simp only [List.map_cons, List.mem_cons, not_or] at h
    simp only [fs_find]
    rw [if_neg (fun he => h.1 he.symm)]
    exact fs_find_none_of_not_mem rest q h.2

theorem fs_put_keys (fs : List (List Nat × Node)) (p : List Nat) (n : Node) :
    (fs_put fs p n).map Prod.fst =
      if p ∈ fs.map Prod.fst then fs.map Prod.fst else fs.map Prod.fst ++ [p] := by
  induction fs with
  | nil => simp [fs_put]
  | cons e rest ih =>
    simp only [fs_put]
    by_cases he : e.1 = p
    · simp [he]
    · rw [if_neg he]
      simp only [List.map_cons, List.mem_cons, ih]
      have : ¬ p = e.1 := fun h => he h.symm
      simp only [this, false_or]
      split_ifs <;> simp

theorem nodup_fs_put (fs : List (List Nat × Node)) (p : List Nat) (n : Node)
    (h : (fs.map Prod.fst).Nodup) : ((fs_put fs p n).map Prod.fst).Nodup := by
  rw [fs_put_keys]
  split_ifs with hm
  · exact h
  · rw [List.nodup_append]
    refine ⟨h, by simp, ?_⟩
    intro a ha hb
    simp only [List.mem_singleton] at hb
    exact hm (hb ▸ ha)

theorem nodup_fs_del (fs : List (List Nat × Node)) (p : List Nat)
    (h : (fs.map Prod.fst).Nodup) : ((fs_del fs p).map Prod.fst).Nodup := by
  unfold fs_del
  exact h.sublist ((List.filter_sublist fs).map _)

theorem dta_of_name (n : List Nat) (node : Node) : (dta_of n node).name = n := by
  cases node <;> rfl

theorem is_dot_entry_dta (n : List Nat) (node : Node) :
    is_dot_entry (dta_of n node) = dot_name n := by
  unfold is_dot_entry dot_name
  rw [dta_of_name]

/-- The records that DOS enumerates inside a directory are the nodes stored directly in it. -/
theorem mem_fs_children (fs : List (List Nat × Node)) (p : List Nat) (x : DTA) :
    x ∈ fs_children fs (p ++ [92]) ↔
      ∃ name node, (p ++ 92 :: name, node) ∈ fs ∧ name ≠ [] ∧ 92 ∉ name ∧
        x = dta_of name node := by
  unfold fs_children
  rw [List.mem_filterMap]
  constructor
  · rintro ⟨e, he, hx⟩
    split_ifs at hx with hc
    obtain ⟨h1, h2, h3⟩ := hc
    rw [ List.isPrefixOf_iff_prefix] at h1
    obtain ⟨t, ht⟩ := h1
    have hd : e.1.drop (p ++ [92]).length = t := by
      rw [← ht, List.drop_left]
    rw [hd] at h3 hx
    simp only [Option.some.injEq] at hx
    refine ⟨t, e.2, ?_, ?_, h3, hx.symm⟩
    · have : (p ++ 92 :: t, e.2) = e := by
        rw [show p ++ 92 :: t = e.1 by rw [← ht]; simp]
      rw [this]; exact he
    · intro h
      rw [← ht, h] at h2
      simp at h2
  · rintro ⟨name, node, hm, hne, h92, rfl⟩
    refine ⟨(p ++ 92 :: name, node), hm, ?_⟩
    have hpre : ((p ++ [92]).isPrefixOf (p ++ 92 :: name)) = true := by
      rw [ List.isPrefixOf_iff_prefix]
      exact ⟨name, by simp⟩
    have hd : (p ++ 92 :: name).drop (p ++ [92]).length = name := by
      rw [show p ++ 92 :: name = (p ++ [92]) ++ name by simp, List.drop_left]
    have hl : (p ++ 92 :: name).length > (p ++ [92]).length := by
      have := List.length_pos.2 hne
      simp; omega
    simp only [hd]
    rw [if_pos ⟨hpre, hl, h92⟩]

theorem fs_children_names_nodup : ∀ (fs : List (List Nat × Node)) (p : List Nat),
    (fs.map Prod.fst).Nodup → ((fs_children fs (p ++ [92])).map DTA.name).Nodup
  | [], _, _ => by simp [fs_children]
  | e :: rest, p, hnd => by
    simp only [List.map_cons, List.nodup_cons] at hnd
    have ih := fs_children_names_nodup rest p hnd.2
    by_cases hc : (p ++ [92]).isPrefixOf e.1 = true ∧ e.1.length > (p ++ [92]).length ∧
        92 ∉ e.1.drop (p ++ [92]).length
    · have hcons : fs_children (e :: rest) (p ++ [92]) =
          dta_of (e.1.drop (p ++ [92]).length) e.2 :: fs_children rest (p ++ [92]) := by
        unfold fs_children
        exact List.filterMap_cons_some (by rw [if_pos hc])
      rw [hcons]
      simp only [List.map_cons, List.nodup_cons]
      refine ⟨?_, ih⟩
      intro hmem
      obtain ⟨x, hx, hxn⟩ := List.mem_map.1 hmem
      obtain ⟨name, node, hm, -, -, rfl⟩ := (mem_fs_children rest p x).1 hx
      rw [dta_of_name, dta_of_name] at hxn
      obtain ⟨h1, -, -⟩ := hc
      rw [ List.isPrefixOf_iff_prefix] at h1
      obtain ⟨t, ht⟩ := h1
      have hd : e.1.drop (p ++ [92]).length = t := by
        rw [← ht, List.drop_left]
      rw [hd] at hxn
      apply hnd.1
      have : e.1 = p ++ 92 :: name := by rw [← ht, ← hxn]; simp
      rw [this]
      exact List.mem_map.2 ⟨_, hm, rfl⟩
    · have hcons : fs_children (e :: rest) (p ++ [92]) = fs_children rest (p ++ [92]) := by
        unfold fs_children
        exact List.filterMap_cons_none (by rw [if_neg hc])
      rw [hcons]
      exact ih

theorem tree_ok_of_check (fs : List (List Nat × Node)) (p : List Nat)
    (h : tree_check fs p = true) : tree_ok fs p := by
  unfold tree_check at h
  simp only [Bool.and_eq_true, decide_eq_true_eq, List.all_eq_true] at h
  obtain ⟨⟨⟨h1, h2⟩, h3⟩, h4⟩ := h
  refine ⟨h1, h2, h3, ?_⟩
  intro q node hq hin
  have := h4 (q, node) (fs_find_mem fs q node hq)
  simp only [hin, if_true, Bool.and_eq_true, decide_eq_true_eq] at this
  obtain ⟨⟨⟨⟨e1, e2⟩, e3⟩, e4⟩, e5⟩ := this
  exact ⟨⟨_, _, e1, e2, e3, e4⟩, e5⟩

theorem le_foldr_max_map {α : Type} (f : α → Nat) : ∀ (l : List α) (x : α), x ∈ l →
    f x ≤ (l.map f).foldr max 1
  | [], _, h => by simp at h
  | y :: rest, x, h => by
    simp only [List.map_cons, List.foldr_cons]
    rcases List.mem_cons.1 h with rfl | h1
    · exact le_max_left _ _
    · exact le_trans (le_foldr_max_map f rest x h1) (le_max_right _ _)

theorem one_le_tree_need (weight : Node → Nat) (fs : List (List Nat × Node)) (p : List Nat) :
    1 ≤ tree_need weight fs p := by
  unfold tree_need
  induction fs with
  | nil => simp
  | cons e rest ih =>
    simp only [List.map_cons, List.foldr_cons]
    exact le_trans ih (le_max_right _ _)

theorem tree_need_bound (weight : Node → Nat) (fs : List (List Nat × Node))
    (p q : List Nat) (node : Node) (hq : fs_find fs q = some node) (hin : inside p q) :
    depth_below p q + weight node + 2 ≤ tree_need weight fs p := by
  have := le_foldr_max_map
    (fun e : List Nat × Node => if inside p e.1 then depth_below p e.1 + weight e.2 + 2 else 1)
    fs (q, node) (fs_find_mem fs q node hq)
  simp only [hin, if_true] at this
  exact this

theorem depth_below_child (p c rel : List Nat) (hc : 92 ∉ c) :
    depth_below p (p ++ 92 :: (c ++ 92 :: rel)) =
      depth_below (p ++ 92 :: c) (p ++ 92 :: (c ++ 92 :: rel)) + 1 := by
  unfold depth_below
  have h1 : (p ++ 92 :: (c ++ 92 :: rel)).drop (p.length + 1) = c ++ 92 :: rel := by
    rw [show p ++ 92 :: (c ++ 92 :: rel) = (p ++ [92]) ++ (c ++ 92 :: rel) by simp]
    rw [show p.length + 1 = (p ++ [92]).length by simp, List.drop_left]
  have h2 : (p ++ 92 :: (c ++ 92 :: rel)).drop ((p ++ 92 :: c).length + 1) = rel := by
    rw [show p ++ 92 :: (c ++ 92 :: rel) = (p ++ 92 :: c ++ [92]) ++ rel by simp]
    rw [show (p ++ 92 :: c).length + 1 = (p ++ 92 :: c ++ [92]).length by simp; omega,
      List.drop_left]
  rw [h1, h2, List.count_append, List.count_cons_self, List.count_eq_zero_of_not_mem hc]
  omega

/-- In a tree every node between the root of the tree and an existing node is a directory. -/
theorem tree_ancestors (fs : List (List Nat × Node)) (p : List Nat) (ht : tree_ok fs p) :
    ∀ (n : Nat) (r : List Nat) (node : Node), r.length ≤ n → fs_find fs r = some node →
      inside p r → ∀ q, below p q → inside q r → fs_find fs q = some Node.dir := by
  intro n
  induction n with
  | zero =>
    intro r node hlen hr hin
    have := hin.length_le
    simp at this
    omega
  | succ n ih =>
    intro r node hlen hr hin q hpq hqr
    obtain ⟨⟨par, name, e, hv, hpar, hfpar⟩, -⟩ := ht.2.2.2 r node hr hin
    subst e
    have hb : below q par := below_parent hv.2.1 hqr
    rcases hb with rfl | hqpar
    · exact hfpar
    · rcases hpar with rfl | hppar
      · -- par = p: q inside ... impossible
        rcases hpq with rfl | hpq2
        · exact absurd hqpar (not_inside_self _)
        · exact absurd (inside_trans hqpar hpq2) (not_inside_self _)
      · exact ih par Node.dir (by simp at hlen; omega) hfpar hppar q hpq hqpar

theorem tree_no_node_in_file (fs : List (List Nat × Node)) (p q : List Nat) (a : Nat)
    (d : List Nat) (ht : tree_ok fs p) (hq : fs_find fs q = some (Node.file a d))
    (hpq : below p q) (r : List Nat) (hr : inside q r) : fs_find fs r = none := by
  cases hf : fs_find fs r with
  | none => rfl
  | some node =>
    have := tree_ancestors fs p ht r.length r node (le_refl _) hf
      (inside_of_below_inside hpq hr) q hpq hr
    rw [hq] at this
    simp at this

theorem tree_find_all (fs : List (List Nat × Node)) (p : List Nat) (ht : tree_ok fs p) :
    dos_find_all fs (path_append p [42, 46, 42]) =
      dta_of [46] Node.dir :: dta_of [46, 46] Node.dir :: fs_children fs (p ++ [92]) := by
  obtain ⟨-, hdir, hp, -⟩ := ht
  have hpat : pattern_dir (path_append p [42, 46, 42]) = p ++ [92] := by
    rw [path_append_plain p _ hp]
    unfold pattern_dir
    rw [show p ++ [92, 42, 46, 42] = (p ++ [92]) ++ [42, 46, 42] by simp]
    have hl : ((p ++ [92]) ++ [42, 46, 42]).length - 3 = (p ++ [92]).length := by simp
    rw [hl]
    exact List.take_left _ _
  unfold dos_find_all
  simp only [hpat]
  have hlen : ¬ ((p ++ [92]).length ≤ 3) := by
    have := hp.1
    simp; omega
  rw [if_neg hlen]
  have htake : (p ++ [92]).take ((p ++ [92]).length - 1) = p := by
    have hl : (p ++ [92]).length - 1 = p.length := by simp
    rw [hl]
    exact List.take_left _ _
  rw [htake, if_pos hdir]

theorem tree_child_valid (fs : List (List Nat × Node)) (p name : List Nat) (node : Node)
    (ht : tree_ok fs p) (h92 : 92 ∉ name)
    (hf : fs_find fs (p ++ 92 :: name) = some node) : valid_name name ∧ node.attr_ok := by
  obtain ⟨⟨par, n2, e, hv, -, -⟩, ha⟩ := ht.2.2.2 _ node hf (inside_child p name)
  obtain ⟨-, e2⟩ := last_component_unique h92 hv.2.1 e
  rw [e2]
  exact ⟨hv, ha⟩

theorem tree_children (fs : List (List Nat × Node)) (p : List Nat) (ht : tree_ok fs p)
    (x : DTA) (hx : x ∈ fs_children fs (p ++ [92])) :
    ∃ name node, x = dta_of name node ∧ valid_name name ∧
      fs_find fs (p ++ 92 :: name) = some node ∧ node.attr_ok := by
  obtain ⟨name, node, hm, -, h92, rfl⟩ := (mem_fs_children fs p x).1 hx
  have hf := fs_find_of_mem fs _ node ht.1 hm
  obtain ⟨hv, ha⟩ := tree_child_valid fs p name node ht h92 hf
  exact ⟨name, node, rfl, hv, hf, ha⟩

theorem tree_child_listed (fs : List (List Nat × Node)) (p name : List Nat) (node : Node)
    (ht : tree_ok fs p) (h92 : 92 ∉ name)
    (hf : fs_find fs (p ++ 92 :: name) = some node) :
    name ∈ (fs_children fs (p ++ [92])).map DTA.name := by
  obtain ⟨hv, -⟩ := tree_child_valid fs p name node ht h92 hf
  refine List.mem_map.2 ⟨dta_of name node, ?_, dta_of_name _ _⟩
  exact (mem_fs_children fs p _).2 ⟨name, node, fs_find_mem _ _ _ hf, hv.1, h92, rfl⟩

/-- Whatever exists inside a tree directory lies at or under one of the listed children. -/
theorem tree_head_listed (fs : List (List Nat × Node)) (p rel : List Nat) (node : Node)
    (ht : tree_ok fs p) (hf : fs_find fs (p ++ 92 :: rel) = some node) :
    head_comp rel ∈ (fs_children fs (p ++ [92])).map DTA.name := by
  rcases head_comp_split rel with e | ⟨rest, e⟩
  · apply tree_child_listed fs p _ node ht (head_comp_no_sep rel)
    rw [← e]; exact hf
  · have hin : inside (p ++ 92 :: head_comp rel) (p ++ 92 :: rel) := by
      rw [inside_iff]
      refine ⟨rest, ?_⟩
      conv_lhs => rw [e]
      simp
    have hanc := tree_ancestors fs p ht _ _ node (le_refl _) hf (inside_child p rel)
      (p ++ 92 :: head_comp rel) (below_child p _) hin
    exact tree_child_listed fs p _ Node.dir ht (head_comp_no_sep rel) hanc

/-- A subdirectory of a tree is a tree. -/
theorem tree_ok_child (fs : List (List Nat × Node)) (p name : List Nat) (ht : tree_ok fs p)
    (hv : valid_name name) (hf : fs_find fs (p ++ 92 :: name) = some Node.dir) :
    tree_ok fs (p ++ 92 :: name) := by
  refine ⟨ht.1, hf, plain_path_child p name ht.2.2.1 hv, ?_⟩
  intro q node hq hin
  have hin2 : inside p q := inside_trans (inside_child p name) hin
  obtain ⟨⟨par, n2, e, hv2, -, hfp⟩, ha⟩ := ht.2.2.2 q node hq hin2
  refine ⟨⟨par, n2, e, hv2, ?_, hfp⟩, ha⟩
  subst e
  exact below_parent hv2.2.1 hin

/-- A table that agrees with a tree on all paths at and under its root holds the same tree. -/
theorem tree_ok_transfer (fs fs1 : List (List Nat × Node)) (p : List Nat) (ht : tree_ok fs p)
    (hnd : (fs1.map Prod.fst).Nodup)
    (hsame : ∀ q, below p q → fs_find fs1 q = fs_find fs q) : tree_ok fs1 p := by
  refine ⟨hnd, by rw [hsame p (below_self p)]; exact ht.2.1, ht.2.2.1, ?_⟩
  intro q node hq hin
  rw [hsame q (Or.inr hin)] at hq
  obtain ⟨⟨par, n2, e, hv2, hb, hfp⟩, ha⟩ := ht.2.2.2 q node hq hin
  exact ⟨⟨par, n2, e, hv2, hb, by rw [hsame par hb]; exact hfp⟩, ha⟩

theorem fs_children_transfer (fs fs1 : List (List Nat × Node)) (p : List Nat)
    (ht : tree_ok fs p) (ht1 : tree_ok fs1 p)
    (hsame : ∀ q, below p q → fs_find fs1 q = fs_find fs q) :
    ∀ n, n ∈ (fs_children fs1 (p ++ [92])).map DTA.name ↔
      n ∈ (fs_children fs (p ++ [92])).map DTA.name := by
  intro n
  constructor
  · intro h
    obtain ⟨x, hx, rfl⟩ := List.mem_map.1 h
    obtain ⟨name, node, rfl, hv, hf, -⟩ := tree_children fs1 p ht1 x hx
    rw [dta_of_name]
    rw [hsame _ (below_child p name)] at hf
    exact tree_child_listed fs p name node ht hv.2.1 hf
  · intro h
    obtain ⟨x, hx, rfl⟩ := List.mem_map.1 h
    obtain ⟨name, node, rfl, hv, hf, -⟩ := tree_children fs p ht x hx
    rw [dta_of_name]
    rw [← hsame _ (below_child p name)] at hf
    exact tree_child_listed fs1 p name node ht1 hv.2.1 hf

/-! ## Theorems: what every step of the engine keeps -/

theorem tame_refl (w : World) : Tame w w :=
  ⟨id, List.suffix_refl _, List.suffix_refl _, List.suffix_refl _, rfl⟩

theorem Tame.join {a b c : World} (h1 : Tame a b) (h2 : Tame b c) : Tame a c :=
  ⟨fun h => h2.1 (h1.1 h), h2.2.1.trans h1.2.1, h2.2.2.1.trans h1.2.2.1,
    h2.2.2.2.1.trans h1.2.2.2.1, h2.2.2.2.2.trans h1.2.2.2.2⟩

theorem tame_same (w w1 : World) (hfs : w1.fs = w.fs) (hk : w1.keys = w.keys)
    (hr : w1.read_faults = w.read_faults) (hw : w1.write_faults = w.write_faults)
    (hb : w1.g_copy_buf_size = w.g_copy_buf_size) : Tame w w1 :=
  ⟨fun h => by rw [hfs]; exact h, by rw [hk],
    by rw [hr], by rw [hw], hb⟩

theorem tame_put (w w1 : World) (p : List Nat) (n : Node) (hfs : w1.fs = fs_put w.fs p n)
    (hk : w1.keys = w.keys) (hr : w1.read_faults = w.read_faults)
    (hw : w1.write_faults = w.write_faults)
    (hb : w1.g_copy_buf_size = w.g_copy_buf_size) : Tame w w1 :=
  ⟨fun h => by rw [hfs]; exact nodup_fs_put _ _ _ h, by rw [hk],
    by rw [hr], by rw [hw], hb⟩

theorem tame_del (w w1 : World) (p : List Nat) (hfs : w1.fs = fs_del w.fs p)
    (hk : w1.keys = w.keys) (hr : w1.read_faults = w.read_faults)
    (hw : w1.write_faults = w.write_faults)
    (hb : w1.g_copy_buf_size = w.g_copy_buf_size) : Tame w w1 :=
  ⟨fun h => by rw [hfs]; exact nodup_fs_del _ _ h, by rw [hk],
    by rw [hr], by rw [hw], hb⟩

theorem tame_emit (w : World) (e : Ev) : Tame w (w.emit e) := tame_same _ _ rfl rfl rfl rfl rfl

theorem tame_dos_exists (p : List Nat) (w : World) : Tame w (dos_exists p w).2 :=
  tame_emit _ _

theorem tame_dos_delete (p : List Nat) (w : World) : Tame w (dos_delete p w).2 := by
  unfold dos_delete
  split
  · split_ifs
    · exact tame_del _ _ p rfl rfl rfl rfl rfl
    · exact tame_emit _ _
  · exact tame_emit _ _

theorem tame_dos_open (p : List Nat) (w : World) : Tame w (dos_open p w).2 := by
  unfold dos_open
  split
  · exact tame_same _ _ rfl rfl rfl rfl rfl
  · exact tame_emit _ _

theorem tame_dos_create (p : List Nat) (a : Nat) (w : World) :
    Tame w (dos_create p a w).2 := by
  unfold dos_create
  simp only
  split_ifs
  · exact tame_put _ _ p _ rfl rfl rfl rfl rfl
  · exact tame_emit _ _

theorem tame_dos_close (h : Int) (w : World) : Tame w (dos_close h w) :=
  tame_same _ _ rfl rfl rfl rfl rfl

theorem tame_tail_reads (w w1 : World) (hfs : w1.fs = w.fs) (hk : w1.keys = w.keys)
    (hr : w1.read_faults = w.read_faults.tail) (hw : w1.write_faults = w.write_faults)
    (hb : w1.g_copy_buf_size = w.g_copy_buf_size) : Tame w w1 :=
  ⟨fun h => by rw [hfs]; exact h, by rw [hk],
    by rw [hr]; exact List.tail_suffix _, by rw [hw], hb⟩

theorem tame_dos_read (h : Int) (c : Nat) (w : World) : Tame w (dos_read h c w).2.2 := by
  unfold dos_read
  simp only
  split_ifs
  · exact tame_tail_reads _ _ rfl rfl rfl rfl rfl
  · split
    · exact tame_tail_reads _ _ rfl rfl rfl rfl rfl
    · split
      · exact tame_tail_reads _ _ rfl rfl rfl rfl rfl
      · exact tame_tail_reads _ _ rfl rfl rfl rfl rfl

theorem tame_tail_writes (w w1 : World)
    (hfs : w1.fs = w.fs ∨ ∃ p n, w1.fs = fs_put w.fs p n) (hk : w1.keys = w.keys)
    (hr : w1.read_faults = w.read_faults) (hw : w1.write_faults = w.write_faults.tail)
    (hb : w1.g_copy_buf_size = w.g_copy_buf_size) : Tame w w1 := by
  refine ⟨fun h => ?_, by rw [hk],
    by rw [hr], by rw [hw]; exact List.tail_suffix _, hb⟩
  rcases hfs with e | ⟨p, n, e⟩
  · rw [e]; exact h
  · rw [e]; exact nodup_fs_put _ _ _ h

theorem tame_dos_write (h : Int) (b : List Nat) (w : World) :
    Tame w (dos_write h b w).2 := by
  unfold dos_write
  simp only
  split
  · exact tame_tail_writes _ _ (Or.inl rfl) rfl rfl rfl rfl
  · exact tame_tail_writes _ _ (Or.inl rfl) rfl rfl rfl rfl
  · split
    · exact tame_tail_writes _ _ (Or.inr ⟨_, _, rfl⟩) rfl rfl rfl rfl
    · exact tame_tail_writes _ _ (Or.inl rfl) rfl rfl rfl rfl

theorem tame_dos_mkdir (p : List Nat) (w : World) : Tame w (dos_mkdir p w).2 := by
  unfold dos_mkdir
  split
  · exact tame_put _ _ p _ rfl rfl rfl rfl rfl
  · exact tame_emit _ _

theorem tame_dos_rmdir (p : List Nat) (w : World) : Tame w (dos_rmdir p w).2 := by
  unfold dos_rmdir
  split_ifs
  · exact tame_del _ _ p rfl rfl rfl rfl rfl
  · exact tame_emit _ _

theorem tame_dos_get_attr (p : List Nat) (w : World) : Tame w (dos_get_attr p w).2 := by
  unfold dos_get_attr
  split <;> exact tame_emit _ _

theorem tame_dos_set_attr (p : List Nat) (a : Nat) (w : World) :
    Tame w (dos_set_attr p a w).2 := by
  unfold dos_set_attr
  split
  · exact tame_put _ _ p _ rfl rfl rfl rfl rfl
  · exact tame_emit _ _

theorem tame_kbd_poll (w : World) : Tame w (kbd_poll w).2 :=
  ⟨id, List.tail_suffix _, List.suffix_refl _, List.suffix_refl _, rfl⟩

theorem tame_dlg_overwrite (n : List Nat) (w : World) : Tame w (dlg_overwrite n w).2 :=
  tame_same _ _ rfl rfl rfl rfl rfl

theorem tame_ui_error (m : ErrMsg) (w : World) : Tame w (ui_error m w) := tame_emit _ _

theorem tame_progress (w : World) (l : Label) (n : List Nat) (t : Nat) :
    Tame w ({ w with g_file_current := u16add w.g_file_current 1 }.emit
      (Ev.progress l n (u16add w.g_file_current 1) t)) :=
  tame_same _ _ rfl rfl rfl rfl rfl

theorem calm_of_tame {w w1 : World} (h : Tame w w1) (hc : Calm w) : Calm w1 :=
  ⟨fun b hb => hc.1 b (h.2.2.1.subset hb), fun o ho => hc.2.1 o (h.2.2.2.1.subset ho),
    fun k hk => hc.2.2 k (h.2.1.subset hk)⟩

theorem tame_copy_loop (hs hd : Int) : ∀ (fuel : Nat) (w : World),
    Tame w (copy_loop fuel hs hd w).2 := by
  intro fuel
  induction fuel with
  | zero => intro w; exact tame_refl w
  | succ fuel ih =>
    intro w
    simp only [copy_loop]
    have hr := tame_dos_read hs w.g_copy_buf_size w
    generalize dos_read hs w.g_copy_buf_size w = rd at hr
    split_ifs
    · exact hr
    · exact hr
    · have hw := tame_dos_write hd (rd.2.1.take (rd.1.toNat % 65536)) rd.2.2
      generalize dos_write hd (rd.2.1.take (rd.1.toNat % 65536)) rd.2.2 = wr at hw
      exact hr.join hw
    · have hw := tame_dos_write hd (rd.2.1.take (rd.1.toNat % 65536)) rd.2.2
      generalize dos_write hd (rd.2.1.take (rd.1.toNat % 65536)) rd.2.2 = wr at hw
      have hk := tame_kbd_poll wr.2
      have hrec := ih (kbd_poll wr.2).2
      generalize kbd_poll wr.2 = kp at hk hrec
      split
      · split_ifs
        · exact (hr.join hw).join hk
        · exact ((hr.join hw).join hk).join hrec
      · exact ((hr.join hw).join hk).join hrec

theorem tame_copy_file_body (fuel : Nat) (src dst : List Nat) (w : World) :
    Tame w (copy_file_body fuel src dst w).2 := by
  unfold copy_file_body
  simp only
  have ho := tame_dos_open src w
  generalize dos_open src w = o at ho
  split_ifs
  · exact ho.join (tame_ui_error _ _)
  · have hc := tame_dos_create dst 0 o.2
    generalize dos_create dst 0 o.2 = c at hc
    exact (ho.join hc).join ((tame_dos_close _ _).join (tame_ui_error _ _))
  · have hc := tame_dos_create dst 0 o.2
    generalize dos_create dst 0 o.2 = c at hc
    have hl := tame_copy_loop o.1 c.1 fuel c.2
    generalize copy_loop fuel o.1 c.1 c.2 = l at hl
    split
    · exact (ho.join hc).join hl
    · split_ifs
      · exact ((ho.join hc).join hl).join
          (((tame_dos_close _ _).join (tame_dos_close _ _)).join (tame_dos_delete _ _))
      · exact ((ho.join hc).join hl).join
          ((tame_dos_close _ _).join (tame_dos_close _ _))

theorem tame_fops_delete_file (path : List Nat) (w : World) :
    Tame w (fops_delete_file path w).2 := by
  unfold fops_delete_file
  simp only
  have ha := tame_dos_get_attr path w
  generalize dos_get_attr path w = a at ha
  have h1 : Tame w (if a.1 ≥ 0 ∧ a.1.toNat &&& 1 ≠ 0 then
      (dos_set_attr path (a.1.toNat &&& 0xFFFE) a.2).2 else a.2) := by
    split_ifs
    · exact ha.join (tame_dos_set_attr _ _ _)
    · exact ha
  generalize (if a.1 ≥ 0 ∧ a.1.toNat &&& 1 ≠ 0 then
      (dos_set_attr path (a.1.toNat &&& 0xFFFE) a.2).2 else a.2) = w1 at h1
  have hd := tame_dos_delete path w1
  generalize dos_delete path w1 = d at hd
  split_ifs
  · exact (h1.join hd).join (tame_ui_error _ _)
  · exact h1.join hd

theorem tame_delete_dir_loop (delete_dir : List Nat → World → Option Int × World)
    (hrec : ∀ p w, Tame w (delete_dir p w).2) (path : List Nat) :
    ∀ (entries : List DTA) (result : Int) (w : World),
      Tame w (delete_dir_loop delete_dir path entries result w).2 := by
  intro entries
  induction entries with
  | nil => intro result w; exact tame_refl w
  | cons d rest ih =>
    intro result w
    simp only [delete_dir_loop]
    split_ifs with hdot hdir
    · exact ih result w
    · have hp := tame_progress w Label.deleting d.name w.g_file_count
      generalize ({ w with g_file_current := u16add w.g_file_current 1 }.emit
        (Ev.progress Label.deleting d.name (u16add w.g_file_current 1) w.g_file_count)) = w2
        at hp
      have hr := hrec (path_append path d.name) w2
      generalize delete_dir (path_append path d.name) w2 = r at hr
      split
      · exact hp.join hr
      · split_ifs
        · exact hp.join hr
        · have hk := tame_kbd_poll r.2
          generalize kbd_poll r.2 = kp at hk
          split
          · split_ifs
            · exact (hp.join hr).join hk
            · exact ((hp.join hr).join hk).join (ih _ _)
          · exact ((hp.join hr).join hk).join (ih _ _)
    · have hp := tame_progress w Label.deleting d.name w.g_file_count
      generalize ({ w with g_file_current := u16add w.g_file_current 1 }.emit
        (Ev.progress Label.deleting d.name (u16add w.g_file_current 1) w.g_file_count)) = w2
        at hp
      have hr := tame_fops_delete_file (path_append path d.name) w2
      generalize fops_delete_file (path_append path d.name) w2 = r at hr
      simp only
      split_ifs
      · exact hp.join hr
      · have hk := tame_kbd_poll r.2
        generalize kbd_poll r.2 = kp at hk
        split
        · split_ifs
          · exact (hp.join hr).join hk
          · exact ((hp.join hr).join hk).join (ih _ _)
        · exact ((hp.join hr).join hk).join (ih _ _)

theorem tame_fops_delete_dir : ∀ (fuel : Nat) (path : List Nat) (w : World),
    Tame w (fops_delete_dir fuel path w).2 := by
  intro fuel
  induction fuel with
  | zero => intro path w; exact tame_refl w
  | succ fuel ih =>
    intro path w
    simp only [fops_delete_dir]
    have hl := tame_delete_dir_loop (fops_delete_dir fuel) ih path
      (dos_find_all w.fs (path_append path [42, 46, 42])) FOPS_OK w
    generalize delete_dir_loop (fops_delete_dir fuel) path
      (dos_find_all w.fs (path_append path [42, 46, 42])) FOPS_OK w = l at hl
    split
    · exact hl
    · split_ifs
      · exact (hl.join (tame_dos_rmdir _ _)).join (tame_ui_error _ _)
      · exact hl.join (tame_dos_rmdir _ _)
      · exact hl

theorem tame_fops_copy_file (fuel : Nat) (src dst : List Nat) (w : World) :
    Tame w (fops_copy_file fuel src dst w).2 := by
  unfold fops_copy_file
  simp only
  have he := tame_dos_exists dst w
  generalize dos_exists dst w = e at he
  have ho := tame_dlg_overwrite (path_basename dst) e.2
  generalize dlg_overwrite (path_basename dst) e.2 = ow at ho
  have hset : Tame ow.2 { ow.2 with g_overwrite_all := 1 } := tame_same _ _ rfl rfl rfl rfl rfl
  split_ifs
  · exact he.join ho
  · exact (((he.join ho).join hset).join (tame_dos_delete _ _)).join
      (tame_copy_file_body _ _ _ _)
  · exact he.join ho
  · exact ((he.join ho).join (tame_dos_delete _ _)).join (tame_copy_file_body _ _ _ _)
  · exact (he.join (tame_dos_delete _ _)).join (tame_copy_file_body _ _ _ _)
  · exact he.join (tame_copy_file_body _ _ _ _)

theorem tame_copy_dir_loop
    (copy_dir copy_file : List Nat → List Nat → World → Option Int × World)
    (hd : ∀ a b w, Tame w (copy_dir a b w).2) (hf : ∀ a b w, Tame w (copy_file a b w).2)
    (src dst : List Nat) : ∀ (entries : List DTA) (result : Int) (w : World),
      Tame w (copy_dir_loop copy_dir copy_file src dst entries result w).2 := by
  intro entries
  induction entries with
  | nil => intro result w; exact tame_refl w
  | cons d rest ih =>
    intro result w
    simp only [copy_dir_loop]
    split_ifs with hdot hdir
    · exact ih result w
    · have hp := tame_progress w Label.copying d.name w.g_file_count
      generalize ({ w with g_file_current := u16add w.g_file_current 1 }.emit
        (Ev.progress Label.copying d.name (u16add w.g_file_current 1) w.g_file_count)) = w2
        at hp
      have hr := hd (path_append src d.name) (path_append dst d.name) w2
      generalize copy_dir (path_append src d.name) (path_append dst d.name) w2 = r at hr
      split
      · exact hp.join hr
      · split_ifs <;> first | exact hp.join hr | exact (hp.join hr).join (ih _ _)
    · have hp := tame_progress w Label.copying d.name w.g_file_count
      generalize ({ w with g_file_current := u16add w.g_file_current 1 }.emit
        (Ev.progress Label.copying d.name (u16add w.g_file_current 1) w.g_file_count)) = w2
        at hp
      have hr := hf (path_append src d.name) (path_append dst d.name) w2
      generalize copy_file (path_append src d.name) (path_append dst d.name) w2 = r at hr
      split
      · exact hp.join hr
      · split_ifs <;> first | exact hp.join hr | exact (hp.join hr).join (ih _ _)

theorem tame_fops_copy_dir : ∀ (fuel : Nat) (src dst : List Nat) (w : World),
    Tame w (fops_copy_dir fuel src dst w).2 := by
  intro fuel
  induction fuel with
  | zero => intro src dst w; exact tame_refl w
  | succ fuel ih =>
    intro src dst w
    simp only [fops_copy_dir]
    have hm := tame_dos_mkdir dst w
    generalize dos_mkdir dst w = m at hm
    have he : Tame w (if m.1 ≠ 0 then dos_exists dst m.2 else (true, m.2)).2 := by
      split_ifs
      · exact hm.join (tame_dos_exists _ _)
      · exact hm
    generalize (if m.1 ≠ 0 then dos_exists dst m.2 else (true, m.2)) = e at he
    split_ifs
    · exact he.join (tame_ui_error _ _)
    · exact he.join (tame_copy_dir_loop _ _ ih (tame_fops_copy_file fuel) _ _ _ _ _)

/-! ## Theorems: copying a directory tree -/

/-- A copy onto a free path. -/
theorem copy_file_free (fuel : Nat) (src dst : List Nat) (w : World) (attr : Nat)
    (data : List Nat) (hsrc : fs_find w.fs src = some (Node.file attr data))
    (hdst : fs_find w.fs dst = none) (hcalm : Calm w)
    (hbuf : 1 ≤ w.g_copy_buf_size ∧ w.g_copy_buf_size < 32768)
    (hfuel : data.length + 1 ≤ fuel) :
    (fops_copy_file fuel src dst w).1 = some FOPS_OK ∧
    fs_find (fops_copy_file fuel src dst w).2.fs dst = some (Node.file 0 data) ∧
    (∀ q, q ≠ dst → fs_find (fops_copy_file fuel src dst w).2.fs q = fs_find w.fs q) := by
  unfold fops_copy_file
  simp only
  have he : (dos_exists dst w).1 = false := by simp [dos_exists, hdst]
  simp only [he, Bool.false_eq_true, if_false]
  obtain ⟨h1, h2, h3, -⟩ := copy_file_body_ok fuel src dst (dos_exists dst w).2 attr data hsrc
    hdst hcalm hbuf hfuel
  exact ⟨h1, h2, h3⟩

/-- Nothing of the source tree lies at or under the destination. -/
theorem src_not_below_dst (src dst : List Nat) (w : World) (fuel : Nat)
    (h : copy_ready src dst w fuel) (q : List Nat) (hq : below src q) : ¬ below dst q := by
  intro hd
  obtain ⟨ht, -, hfree, hnb, -⟩ := h
  rcases below_comparable hq hd with h1 | h1
  · exact hnb h1
  · have := hfree src h1
    rw [ht.2.1] at this
    simp at this

theorem child_not_below (src dst name : List Nat) (hn : 92 ∉ name) (h : ¬ below src dst) :
    ¬ below (src ++ 92 :: name) (dst ++ 92 :: name) := by
  rintro (e | hin)
  · exact h (Or.inl (last_component_unique hn hn e).1)
  · have h1 : below (src ++ 92 :: name) dst := below_parent hn hin
    exact h (below_trans (below_child src name) h1)

theorem not_below_child (dst name q : List Nat) (h : ¬ below dst q) :
    ¬ below (dst ++ 92 :: name) q :=
  fun hb => h (below_trans (below_child dst name) hb)

theorem below_child_form (dst name q : List Nat) (h : below (dst ++ 92 :: name) q) :
    ∃ rel, q = dst ++ 92 :: rel := by
  rcases h with rfl | hin
  · exact ⟨name, rfl⟩
  · obtain ⟨t, rfl⟩ := (inside_iff _ _).1 hin
    exact ⟨name ++ 92 :: t, by simp⟩

/-- One child is in place: the invariant for the remaining entries. -/
theorem copy_inv_next (src dst : List Nat) (w : World) (x : DTA) (l : List DTA)
    (wi w1 : World) (hn : 92 ∉ x.name) (hnd : ((x :: l).map DTA.name).Nodup)
    (hinv : copy_inv src dst w (x :: l) wi) (h1 : (w1.fs.map Prod.fst).Nodup)
    (h2 : Calm w1) (h3 : 1 ≤ w1.g_copy_buf_size ∧ w1.g_copy_buf_size < 32768)
    (hout : ∀ q, ¬ below (dst ++ 92 :: x.name) q → fs_find w1.fs q = fs_find wi.fs q)
    (hin : ∀ rel, head_comp rel = x.name →
      fs_find w1.fs (dst ++ 92 :: rel) = (fs_find w.fs (src ++ 92 :: rel)).map Node.copied) :
    copy_inv src dst w l w1 := by
  obtain ⟨-, -, -, i1, i2, i3⟩ := hinv
  simp only [List.map_cons, List.nodup_cons] at hnd
  refine ⟨h1, h2, h3, ?_, ?_, ?_⟩
  · intro q hq
    rw [hout q (not_below_child dst x.name q hq)]
    exact i1 q hq
  · rw [hout dst]
    · exact i2
    · rintro (e | hi)
      · have := congrArg List.length e
        simp at this
      · exact absurd (inside_trans (inside_child dst x.name) hi) (not_inside_self _)
  · intro rel
    by_cases hh : head_comp rel = x.name
    · rw [hin rel hh, hh, if_neg hnd.1]
    · have hnb : ¬ below (dst ++ 92 :: x.name) (dst ++ 92 :: rel) := by
        rw [below_child_iff dst x.name rel hn]; exact hh
      rw [hout _ hnb, i3 rel]
      simp only [List.map_cons, List.mem_cons, hh, false_or]

theorem dta_of_attr_file (n : List Nat) (a : Nat) (d : List Nat)
    (h : (Node.file a d).attr_ok) : ¬ ((dta_of n (Node.file a d)).attr &&& DOS_ATTR_DIRECTORY ≠ 0) := by
  have : (dta_of n (Node.file a d)).attr = a := rfl
  rw [this]
  exact fun hh => hh h.2

theorem dta_of_attr_dir (n : List Nat) :
    (dta_of n Node.dir).attr &&& DOS_ATTR_DIRECTORY ≠ 0 := by
  have : (dta_of n Node.dir).attr = DOS_ATTR_DIRECTORY := rfl
  rw [this]
  decide

theorem depth_below_direct (p name : List Nat) (hn : 92 ∉ name) :
    depth_below p (p ++ 92 :: name) = 0 := by
  unfold depth_below
  have h1 : (p ++ 92 :: name).drop (p.length + 1) = name := by
    rw [show p ++ 92 :: name = (p ++ [92]) ++ name by simp]
    have hl : p.length + 1 = (p ++ [92]).length := by simp
    rw [hl, List.drop_left]
  rw [h1]
  exact List.count_eq_zero_of_not_mem hn

/-- The loop of `fops_copy_dir` over the children that are still to come. -/
theorem copy_dir_loop_tree (f : Nat) (src dst : List Nat) (w : World)
    (ih : ∀ s d w2, copy_ready s d w2 f → copied_tree s d w2 (fops_copy_dir f s d w2))
    (hready : copy_ready src dst w (f + 1)) :
    ∀ (l : List DTA) (wi : World),
      (∀ x ∈ l, ∃ name node, x = dta_of name node ∧ valid_name name ∧
        fs_find w.fs (src ++ 92 :: name) = some node ∧ node.attr_ok) →
      (l.map DTA.name).Nodup → copy_inv src dst w l wi →
      (copy_dir_loop (fops_copy_dir f) (fops_copy_file f) src dst l FOPS_OK wi).1 =
        some FOPS_OK ∧
      copy_inv src dst w []
        (copy_dir_loop (fops_copy_dir f) (fops_copy_file f) src dst l FOPS_OK wi).2 := by
  intro l
  induction l with
  | nil => intro wi _ _ hinv; exact ⟨rfl, hinv⟩
  | cons x l ihl =>
    intro wi hch hnd hinv
    obtain ⟨name, node, rfl, hv, hsrc, hattr⟩ := hch _ (List.mem_cons_self _ _)
    have hch' : ∀ y ∈ l, ∃ name node, y = dta_of name node ∧ valid_name name ∧
        fs_find w.fs (src ++ 92 :: name) = some node ∧ node.attr_ok :=
      fun y hy => hch y (List.mem_cons_of_mem _ hy)
    have hnd' : (l.map DTA.name).Nodup := by
      simp only [List.map_cons, List.nodup_cons] at hnd; exact hnd.2
    obtain ⟨ht, hpd, hfree, hnb, -, -, -, hfuel⟩ := id hready
    have hps := ht.2.2.1
    have hdot : is_dot_entry (dta_of name node) = false := by
      rw [is_dot_entry_dta]; exact hv.2.2
    have hxn : (dta_of name node).name = name := dta_of_name _ _
    obtain ⟨j1, j2, j3, j4, j5, j6⟩ := id hinv
    simp only [copy_dir_loop, hdot, Bool.false_eq_true, if_false, hxn,
      path_append_plain src name hps, path_append_plain dst name hpd]
    generalize hw2 : ({ wi with g_file_current := u16add wi.g_file_current 1 }.emit
      (Ev.progress Label.copying name (u16add wi.g_file_current 1) wi.g_file_count)) = w2
    have e1 : w2.fs = wi.fs := by rw [← hw2]; rfl
    have hc2 : Calm w2 := by rw [← hw2]; exact j2
    have hb2 : 1 ≤ w2.g_copy_buf_size ∧ w2.g_copy_buf_size < 32768 := by rw [← hw2]; exact j3
    have hsnb : ∀ q, below src q → fs_find w2.fs q = fs_find w.fs q := by
      intro q hq
      rw [e1]
      exact j4 q (src_not_below_dst src dst w _ hready q hq)
    have hdfree : ∀ rel, head_comp rel = name → fs_find w2.fs (dst ++ 92 :: rel) = none := by
      intro rel hh
      rw [e1, j6 rel, hh, if_pos (by simp [hxn])]
    cases node with
    | file a data =>
      rw [if_neg (dta_of_attr_file name a data hattr)]
      have hlen : data.length + 1 ≤ f := by
        have := hfuel _ _ hsrc (inside_child src name)
        rw [depth_below_direct src name hv.2.1] at this
        simp only [Node.size] at this
        omega
      obtain ⟨c1, c2, c3⟩ := copy_file_free f (src ++ 92 :: name) (dst ++ 92 :: name) w2 a data
        (by rw [hsnb _ (below_child src name)]; exact hsrc)
        (hdfree name (head_comp_name name hv.2.1)) hc2 hb2 hlen
      have htame := tame_fops_copy_file f (src ++ 92 :: name) (dst ++ 92 :: name) w2
      generalize fops_copy_file f (src ++ 92 :: name) (dst ++ 92 :: name) w2 = r
        at c1 c2 c3 htame
      simp only [c1, show ¬ (FOPS_OK = FOPS_CANCEL) from by decide,
        show ¬ (FOPS_OK = FOPS_SKIP) from by decide, if_false]
      apply ihl r.2 hch' hnd'
      refine copy_inv_next src dst w (dta_of name (Node.file a data)) l wi r.2
        (by rw [hxn]; exact hv.2.1) hnd hinv (htame.1 (by rw [e1]; exact j1))
        (calm_of_tame htame hc2) (by rw [htame.2.2.2.2]; exact hb2) ?_ ?_
      · intro q hq
        rw [hxn] at hq
        rw [c3 q (fun e => hq (Or.inl e)), e1]
      · intro rel hh
        rw [hxn] at hh
        rcases head_comp_split rel with e | ⟨rest, e⟩
        · have hrel : rel = name := by rw [e, hh]
          subst hrel
          rw [c2, hsrc]; rfl
        · rw [hh] at e
          have hne : dst ++ 92 :: rel ≠ dst ++ 92 :: name := by
            intro he
            have := congrArg List.length he
            rw [e] at this
            simp at this
          rw [c3 _ hne, hdfree rel hh]
          have hnone := tree_no_node_in_file w.fs src (src ++ 92 :: name) a data ht hsrc
            (below_child src name) (src ++ 92 :: rel)
            (by rw [inside_iff]; exact ⟨rest, by rw [e]; simp⟩)
          rw [hnone]; rfl
    | dir =>
      rw [if_pos (dta_of_attr_dir name)]
      have hready2 : copy_ready (src ++ 92 :: name) (dst ++ 92 :: name) w2 f := by
        refine ⟨?_, plain_path_child dst name hpd hv, ?_,
          child_not_below src dst name hv.2.1 hnb, hc2, hb2, ?_, ?_⟩
        · apply tree_ok_transfer w.fs w2.fs _ (tree_ok_child w.fs src name ht hv hsrc)
            (by rw [e1]; exact j1)
          intro q hq
          exact hsnb q (below_trans (below_child src name) hq)
        · intro q hq
          obtain ⟨rel, rfl⟩ := below_child_form dst name q hq
          exact hdfree rel ((below_child_iff dst name rel hv.2.1).1 hq)
        · have := hfuel _ _ hsrc (inside_child src name)
          omega
        · intro q nd hq hin
          obtain ⟨t, rfl⟩ := (inside_iff _ _).1 hin
          have hq2 : fs_find w.fs (src ++ 92 :: name ++ 92 :: t) = some nd := by
            rw [← hsnb _ (below_trans (below_child src name) (Or.inr hin))]; exact hq
          have hb := hfuel _ nd hq2 (inside_trans (inside_child src name) hin)
          have hd := depth_below_child src name t hv.2.1
          have heq : src ++ 92 :: (name ++ 92 :: t) = src ++ 92 :: name ++ 92 :: t := by simp
          rw [heq] at hd
          omega
      obtain ⟨c1, c2, c3, c4⟩ := ih _ _ w2 hready2
      have htame := tame_fops_copy_dir f (src ++ 92 :: name) (dst ++ 92 :: name) w2
      generalize fops_copy_dir f (src ++ 92 :: name) (dst ++ 92 :: name) w2 = r
        at c1 c2 c3 c4 htame
      simp only [c1, show ¬ (FOPS_OK = FOPS_CANCEL) from by decide,
        show ¬ (FOPS_OK = FOPS_SKIP) from by decide, if_false]
      apply ihl r.2 hch' hnd'
      refine copy_inv_next src dst w (dta_of name Node.dir) l wi r.2
        (by rw [hxn]; exact hv.2.1) hnd hinv (htame.1 (by rw [e1]; exact j1))
        (calm_of_tame htame hc2) (by rw [htame.2.2.2.2]; exact hb2) ?_ ?_
      · intro q hq
        rw [hxn] at hq
        rw [c4 q hq, e1]
      · intro rel hh
        rw [hxn] at hh
        rcases head_comp_split rel with e | ⟨rest, e⟩
        · have hrel : rel = name := by rw [e, hh]
          subst hrel
          rw [c2, hsrc]; rfl
        · rw [hh] at e
          have h1 : dst ++ 92 :: rel = dst ++ 92 :: name ++ 92 :: rest := by rw [e]; simp
          have h2 : src ++ 92 :: rel = src ++ 92 :: name ++ 92 :: rest := by rw [e]; simp
          rw [h1, c3 rest, h2, hsnb]
          exact below_trans (below_child src name) (below_child _ rest)

/-- A faultless `fops_copy_dir` copies the whole tree. -/
theorem fops_copy_dir_tree : ∀ (fuel : Nat) (src dst : List Nat) (w : World),
    copy_ready src dst w fuel → copied_tree src dst w (fops_copy_dir fuel src dst w) := by
  intro fuel
  induction fuel with
  | zero =>
    intro src dst w h
    have := h.2.2.2.2.2.2.1
    omega
  | succ f ih =>
    intro src dst w hready
    obtain ⟨ht, hpd, hfree, hnb, hcalm, hbuf, -, hfuel⟩ := id hready
    have hdnone : fs_find w.fs dst = none := hfree dst (below_self dst)
    have hm : dos_mkdir dst w =
        (0, { w with fs := fs_put w.fs dst Node.dir }.emit (Ev.mkdir dst 0)) := by
      unfold dos_mkdir; rw [hdnone]
    simp only [fops_copy_dir, hm, ne_eq, not_true_eq_false, if_false, Bool.true_eq_false]
    generalize hw0 : ({ w with fs := fs_put w.fs dst Node.dir }.emit (Ev.mkdir dst 0)) = w0
    have e0 : w0.fs = fs_put w.fs dst Node.dir := by rw [← hw0]; rfl
    have hnd0 : (w0.fs.map Prod.fst).Nodup := by rw [e0]; exact nodup_fs_put _ _ _ ht.1
    have hother : ∀ q, q ≠ dst → fs_find w0.fs q = fs_find w.fs q := by
      intro q hq; rw [e0]; exact fs_find_put_other _ _ _ _ hq
    have hsrcside : ∀ q, below src q → fs_find w0.fs q = fs_find w.fs q := by
      intro q hq
      apply hother
      rintro rfl
      exact hnb hq
    have ht0 : tree_ok w0.fs src := tree_ok_transfer w.fs w0.fs src ht hnd0 hsrcside
    rw [tree_find_all w0.fs src ht0]
    have hd1 : is_dot_entry (dta_of [46] Node.dir) = true := by decide
    have hd2 : is_dot_entry (dta_of [46, 46] Node.dir) = true := by decide
    simp only [copy_dir_loop, hd1, hd2, if_true]
    have hinv : copy_inv src dst w (fs_children w0.fs (src ++ [92])) w0 := by
      refine ⟨hnd0, by rw [← hw0]; exact hcalm, by rw [← hw0]; exact hbuf, ?_, ?_, ?_⟩
      · intro q hq
        apply hother
        rintro rfl
        exact hq (below_self _)
      · rw [e0]; exact fs_find_put_same _ _ _
      · intro rel
        have hne : dst ++ 92 :: rel ≠ dst := by
          intro he
          have := congrArg List.length he
          simp at this
        rw [hother _ hne, hfree _ (below_child dst rel)]
        split_ifs with hmem
        · rfl
        · cases hs : fs_find w.fs (src ++ 92 :: rel) with
          | none => rfl
          | some node =>
            exfalso
            apply hmem
            rw [fs_children_transfer w.fs w0.fs src ht ht0 hsrcside]
            exact tree_head_listed w.fs src rel node ht hs
    have hch : ∀ x ∈ fs_children w0.fs (src ++ [92]), ∃ name node, x = dta_of name node ∧
        valid_name name ∧ fs_find w.fs (src ++ 92 :: name) = some node ∧ node.attr_ok := by
      intro x hx
      obtain ⟨name, node, e, hv, hf, ha⟩ := tree_children w0.fs src ht0 x hx
      exact ⟨name, node, e, hv, by rw [← hsrcside _ (below_child src name)]; exact hf, ha⟩
    obtain ⟨r1, -, -, -, r4, r5, r6⟩ := copy_dir_loop_tree f src dst w ih hready
      (fs_children w0.fs (src ++ [92])) w0 hch (fs_children_names_nodup w0.fs src hnd0) hinv
    refine ⟨r1, r5, ?_, r4⟩
    intro rel
    rw [r6 rel]
    simp

theorem free_of_entries (fs : List (List Nat × Node)) (dst : List Nat)
    (h : ∀ e ∈ fs, ¬ below dst e.1) (q : List Nat) (hq : below dst q) : fs_find fs q = none := by
  cases hf : fs_find fs q with
  | none => rfl
  | some node => exact absurd hq (h (q, node) (fs_find_mem fs q node hf))

theorem fuel_of_tree_need (weight : Node → Nat) (fs : List (List Nat × Node)) (p : List Nat)
    (fuel : Nat) (h : tree_need weight fs p ≤ fuel) :
    1 ≤ fuel ∧ ∀ q node, fs_find fs q = some node → inside p q →
      depth_below p q + weight node + 2 ≤ fuel :=
  ⟨le_trans (one_le_tree_need weight fs p) h,
    fun q node hq hin => le_trans (tree_need_bound weight fs p q node hq hin) h⟩

/-! ## C13 -/

/-- C13. Let the table hold a well-formed tree under the directory `src`, let `dst` be a path
outside that tree that does not exist and has nothing stored under it, let no read or write
fail and no keyboard poll deliver ESC, and let the copy buffer hold 1 to 32767 bytes. Then
`fops_copy_dir`, with any step budget of at least `tree_need` (depth of the tree and length of
its files), returns `FOPS_OK`; afterwards `dst` is a directory; for every relative path the
node at `dst\rel` is the copy of the node that `src\rel` held (a directory for a directory, a
file with the same bytes for a file) and is absent where the source holds nothing; and every
path that is not `dst` or under it, in particular the whole source tree, holds what it held
before. -/
theorem copy_dir_tree (fuel : Nat) (src dst : List Nat) (w : World)
    (htree : tree_ok w.fs src) (hdst : plain_path dst)
    (hfree : ∀ e ∈ w.fs, ¬ below dst e.1) (hout : ¬ below src dst)
    (hcalm : Calm w) (hbuf : 1 ≤ w.g_copy_buf_size ∧ w.g_copy_buf_size < 32768)
    (hfuel : tree_need Node.size w.fs src ≤ fuel) :
    (fops_copy_dir fuel src dst w).1 = some FOPS_OK ∧
    fs_find (fops_copy_dir fuel src dst w).2.fs dst = some Node.dir ∧
    (∀ rel, fs_find (fops_copy_dir fuel src dst w).2.fs (dst ++ 92 :: rel) =
      (fs_find w.fs (src ++ 92 :: rel)).map Node.copied) ∧
    (∀ q, ¬ below dst q → fs_find (fops_copy_dir fuel src dst w).2.fs q = fs_find w.fs q) ∧
    (∀ q, below src q → fs_find (fops_copy_dir fuel src dst w).2.fs q = fs_find w.fs q) := by
  have hready : copy_ready src dst w fuel :=
    ⟨htree, hdst, free_of_entries w.fs dst hfree, hout, hcalm, hbuf,
      (fuel_of_tree_need Node.size w.fs src fuel hfuel).1,
      (fuel_of_tree_need Node.size w.fs src fuel hfuel).2⟩
  obtain ⟨h1, h2, h3, h4⟩ := fops_copy_dir_tree fuel src dst w hready
  exact ⟨h1, h2, h3, h4, fun q hq => h4 q (src_not_below_dst src dst w fuel hready q hq)⟩

theorem copy_dir_tree_witness :
    (tree_ok world_tree.fs (cstr "A:\\S") ∧ plain_path (cstr "A:\\D") ∧
      (∀ e ∈ world_tree.fs, ¬ below (cstr "A:\\D") e.1) ∧
      ¬ below (cstr "A:\\S") (cstr "A:\\D") ∧ Calm world_tree ∧
      tree_need Node.size world_tree.fs (cstr "A:\\S") ≤ 7) ∧
    ((fops_copy_dir 7 (cstr "A:\\S") (cstr "A:\\D") world_tree).1 = some FOPS_OK ∧
      fs_find (fops_copy_dir 7 (cstr "A:\\S") (cstr "A:\\D") world_tree).2.fs
        (cstr "A:\\D" ++ 92 :: cstr "T\\G") =
        (fs_find world_tree.fs (cstr "A:\\S" ++ 92 :: cstr "T\\G")).map Node.copied) :=
  have ht : tree_ok world_tree.fs (cstr "A:\\S") := tree_ok_of_check _ _ (by decide)
  have hc : Calm world_tree := ⟨by decide, by decide, by decide⟩
  have hf : ∀ e ∈ world_tree.fs, ¬ below (cstr "A:\\D") e.1 := by decide
  ⟨⟨ht, by decide, hf, by decide, hc, by decide⟩,
    (copy_dir_tree 7 (cstr "A:\\S") (cstr "A:\\D") world_tree ht (by decide) hf (by decide)
      hc (by decide) (by decide)).1,
    (copy_dir_tree 7 (cstr "A:\\S") (cstr "A:\\D") world_tree ht (by decide) hf (by decide)
      hc (by decide) (by decide)).2.2.1 (cstr "T\\G")⟩

/-! ## Theorems: deleting a directory tree -/

theorem removed_in_append (a b : List Ev) (q : List Nat) :
    removed_in (a ++ b) q ↔ removed_in a q ∨ removed_in b q := by
  unfold removed_in
  simp only [List.mem_append]
  tauto

theorem fs_find_del (fs : List (List Nat × Node)) (p q : List Nat) :
    fs_find (fs_del fs p) q = if q = p then none else fs_find fs q := by
  split_ifs with h
  · rw [h]; exact fs_find_del_same _ _
  · exact fs_find_del_other _ _ _ h

/-- The calls of `fops_delete_file` on a file: the attribute query, the reset of a read-only
attribute, and the `dos_delete`, which succeeds. -/
theorem fops_delete_file_log (p : List Nat) (w : World) (a : Nat) (d : List Nat)
    (h : fs_find w.fs p = some (Node.file a d)) (ha : a < 256) :
    (fops_delete_file p w).2.log = w.log ++ [Ev.getAttr p a, Ev.delete p 0] ∨
    (fops_delete_file p w).2.log =
      w.log ++ [Ev.getAttr p a, Ev.setAttr p ((a &&& 0xFFFE) % 256) 0, Ev.delete p 0] := by
  have hget : dos_get_attr p w = (toInt16 a, w.emit (Ev.getAttr p (toInt16 a))) := by
    unfold dos_get_attr; rw [h]
  unfold fops_delete_file
  simp only [hget, toInt16_byte a ha, Int.toNat_ofNat]
  by_cases hro : a &&& 1 = 0
  · left
    have hc : ¬ ((a : Int) ≥ 0 ∧ a &&& 1 ≠ 0) := fun hh => hh.2 hro
    rw [if_neg hc]
    rw [dos_delete_ok_result p (w.emit (Ev.getAttr p a)) a d h hro,
      dos_delete_ok p (w.emit (Ev.getAttr p a)) a d h hro]
    simp [World.emit]
  · right
    have hc : ((a : Int) ≥ 0 ∧ a &&& 1 ≠ 0) := ⟨Int.ofNat_nonneg a, hro⟩
    rw [if_pos hc]
    have hs : (dos_set_attr p (a &&& 0xFFFE) (w.emit (Ev.getAttr p a))).2 =
        { (w.emit (Ev.getAttr p a)) with
            fs := fs_put w.fs p (Node.file ((a &&& 0xFFFE) % 256) d) }.emit
          (Ev.setAttr p ((a &&& 0xFFFE) % 256) 0) := by
      unfold dos_set_attr
      rw [show (w.emit (Ev.getAttr p ↑a)).fs = w.fs from rfl, h]
    rw [hs]
    have hf1 : fs_find ({ (w.emit (Ev.getAttr p a)) with
            fs := fs_put w.fs p (Node.file ((a &&& 0xFFFE) % 256) d) }.emit
          (Ev.setAttr p ((a &&& 0xFFFE) % 256) 0)).fs p =
        some (Node.file ((a &&& 0xFFFE) % 256) d) := fs_find_put_same _ _ _
    rw [dos_delete_ok_result p _ _ d hf1 (and_fffe_even a),
      dos_delete_ok p _ _ d hf1 (and_fffe_even a)]
    simp [World.emit]

/-- Deleting a file of a tree, in the form of the outcome of a subtree. -/
theorem fops_delete_file_done (p : List Nat) (w : World) (a : Nat) (d : List Nat)
    (h : fs_find w.fs p = some (Node.file a d)) (ha : a < 256)
    (hleaf : ∀ q, inside p q → fs_find w.fs q = none) :
    deleted_tree p w (some (fops_delete_file p w).1, (fops_delete_file p w).2) := by
  obtain ⟨r1, r2, -⟩ := fops_delete_file_ok p w a d h ha
  have key : ∀ evs, (fops_delete_file p w).2.log = w.log ++ evs →
      (∀ e ∈ evs, e.isEsc = false) → (∀ q, removed_in evs q ↔ q = p) →
      deleted_tree p w (some (fops_delete_file p w).1, (fops_delete_file p w).2) := by
    intro evs hl hesc hrem
    refine ⟨FOPS_OK, evs, by rw [r1], hl, ?_, ?_, ?_, ?_, ?_⟩
    · intro q
      show fs_find (fops_delete_file p w).2.fs q = _
      rw [r2, fs_find_del]
      by_cases hq : q = p
      · rw [if_pos hq, if_pos ((hrem q).2 hq)]
      · rw [if_neg hq, if_neg (fun hh => hq ((hrem q).1 hh))]
    · intro q hq
      exact Or.inl ((hrem q).1 hq)
    · intro e he hh
      rw [hesc e he] at hh
      exact absurd hh (by simp)
    · intro _
      refine ⟨rfl, ?_⟩
      intro q hq
      show fs_find (fops_delete_file p w).2.fs q = _
      rw [r2, fs_find_del]
      rcases hq with e | hin
      · rw [if_pos e]
      · split_ifs
        · rfl
        · exact hleaf q hin
    · rintro ⟨e, he, hh⟩
      rw [hesc e he] at hh
      exact absurd hh (by simp)
  rcases fops_delete_file_log p w a d h ha with hl | hl
  · apply key _ hl
    · intro e he
      simp only [List.mem_cons, List.mem_singleton, List.not_mem_nil, or_false] at he
      rcases he with rfl | rfl <;> rfl
    · intro q
      unfold removed_in
      simp
  · apply key _ hl
    · intro e he
      simp only [List.mem_cons, List.mem_singleton, List.not_mem_nil, or_false] at he
      rcases he with rfl | rfl | rfl <;> rfl
    · intro q
      unfold removed_in
      simp

theorem removed_in_single (e : Ev) (q : List Nat)
    (h : ∀ p, e ≠ Ev.delete p 0 ∧ e ≠ Ev.rmdir p 0) : ¬ removed_in [e] q := by
  unfold removed_in
  simp only [List.mem_singleton]
  rintro (hh | hh)
  · exact (h q).1 hh.symm
  · exact (h q).2 hh.symm

theorem trace_join (fs0 fs1 fs2 : List (List Nat × Node)) (a b : List Ev)
    (h1 : ∀ q, fs_find fs1 q = if removed_in a q then none else fs_find fs0 q)
    (h2 : ∀ q, fs_find fs2 q = if removed_in b q then none else fs_find fs1 q) (q : List Nat) :
    fs_find fs2 q = if removed_in (a ++ b) q then none else fs_find fs0 q := by
  rw [h2 q, h1 q]
  by_cases ha : removed_in a q <;> by_cases hb : removed_in b q <;>
    simp [removed_in_append, ha, hb]

/-- The state behind one child of the directory and the keyboard poll that follows it. The
calls so far are `evs`, the child `x` was handled from the state `w2` with the calls `evc`
(no ESC among them, so nothing is left at or under it), and the poll read `k`. -/
theorem delete_facts_next (path : List Nat) (w : World) (x : DTA) (l : List DTA)
    (wi w2 : World) (r : Option Int × World) (evs evc : List Ev) (e0 : Ev)
    (hn : 92 ∉ x.name) (hnd : ((x :: l).map DTA.name).Nodup)
    (hinv : delete_inv path w (x :: l) wi evs)
    (h2l : w2.log = wi.log ++ [e0]) (h2f : w2.fs = wi.fs) (h2k : w2.keys = wi.keys)
    (he0r : ∀ p, e0 ≠ Ev.delete p 0 ∧ e0 ≠ Ev.rmdir p 0)
    (htame : Tame w2 r.2) (hlog : r.2.log = w2.log ++ evc)
    (htrace : ∀ q, fs_find r.2.fs q = if removed_in evc q then none else fs_find w2.fs q)
    (hrem : ∀ q, removed_in evc q → below (path ++ 92 :: x.name) q)
    (hgone : ∀ q, below (path ++ 92 :: x.name) q → fs_find r.2.fs q = none) :
    (kbd_poll r.2).2.log = w.log ++ (evs ++ ([e0] ++ evc ++ [Ev.kbd (kbd_poll r.2).1])) ∧
    ((kbd_poll r.2).2.fs.map Prod.fst).Nodup ∧ (kbd_poll r.2).2.keys <:+ w.keys ∧
    (∀ q, removed_in (evs ++ ([e0] ++ evc ++ [Ev.kbd (kbd_poll r.2).1])) q → inside path q) ∧
    (∀ q, fs_find (kbd_poll r.2).2.fs q =
      if removed_in (evs ++ ([e0] ++ evc ++ [Ev.kbd (kbd_poll r.2).1])) q then none
      else fs_find w.fs q) ∧
    (∀ rel, head_comp rel ∈ l.map DTA.name →
      fs_find (kbd_poll r.2).2.fs (path ++ 92 :: rel) = fs_find w.fs (path ++ 92 :: rel)) ∧
    (∀ rel, head_comp rel ∉ l.map DTA.name →
      fs_find (kbd_poll r.2).2.fs (path ++ 92 :: rel) = none) ∧
    ((Ev.kbd (kbd_poll r.2).1).isEsc = true → ∃ k ∈ w.keys, (Ev.kbd k).isEsc = true) := by
  obtain ⟨i1, i2, i3, i4, i5, i6, i7, i8⟩ := hinv
  simp only [List.map_cons, List.nodup_cons] at hnd
  have hkr : ∀ p, Ev.kbd (kbd_poll r.2).1 ≠ Ev.delete p 0 ∧
      Ev.kbd (kbd_poll r.2).1 ≠ Ev.rmdir p 0 := fun p => ⟨by simp, by simp⟩
  have hmid : ∀ q, removed_in ([e0] ++ evc ++ [Ev.kbd (kbd_poll r.2).1]) q ↔
      removed_in evc q := by
    intro q
    rw [removed_in_append, removed_in_append]
    have a1 := removed_in_single e0 q he0r
    have a2 := removed_in_single (Ev.kbd (kbd_poll r.2).1) q hkr
    constructor
    · rintro ((h | h) | h)
      · exact absurd h a1
      · exact h
      · exact absurd h a2
    · intro h
      exact Or.inl (Or.inr h)
  have hfs : (kbd_poll r.2).2.fs = r.2.fs := rfl
  have hmidtrace : ∀ q, fs_find r.2.fs q =
      if removed_in ([e0] ++ evc ++ [Ev.kbd (kbd_poll r.2).1]) q then none
      else fs_find wi.fs q := by
    intro q
    rw [htrace q, h2f]
    by_cases hq : removed_in evc q
    · rw [if_pos hq, if_pos ((hmid q).2 hq)]
    · rw [if_neg hq, if_neg (fun hh => hq ((hmid q).1 hh))]
  refine ⟨?_, ?_, ?_, ?_, ?_, ?_, ?_, ?_⟩
  · rw [kbd_poll_log, hlog, h2l, i1]
    simp
  · rw [hfs]
    exact htame.1 (by rw [h2f]; exact i2)
  · exact (List.tail_suffix _).trans ((htame.2.1.trans (by rw [h2k])).trans i3)
  · intro q hq
    rw [removed_in_append] at hq
    rcases hq with hq | hq
    · exact i5 q hq
    · exact inside_of_below_inside (below_self path)
        (by
          rcases hrem q ((hmid q).1 hq) with e | hin
          · rw [e]; exact inside_child path x.name
          · exact inside_trans (inside_child path x.name) hin)
  · intro q
    rw [hfs]
    exact trace_join w.fs wi.fs r.2.fs evs _ i6 hmidtrace q
  · intro rel hrel
    have hne : head_comp rel ≠ x.name := fun e => hnd.1 (e ▸ hrel)
    have hnb : ¬ below (path ++ 92 :: x.name) (path ++ 92 :: rel) := by
      rw [below_child_iff path x.name rel hn]; exact hne
    rw [hfs, htrace, if_neg (fun hh => hnb (hrem _ hh)), h2f]
    exact i7 rel (by simp [hrel])
  · intro rel hrel
    rw [hfs]
    by_cases hh : head_comp rel = x.name
    · exact hgone _ ((below_child_iff path x.name rel hn).2 hh)
    · rw [htrace]
      split_ifs
      · rfl
      · rw [h2f]
        exact i8 rel (by simp [hh, hrel])
  · intro hesc
    have hk : (kbd_poll r.2).1 = r.2.keys.headD none := rfl
    rw [hk] at hesc
    cases hks : r.2.keys with
    | nil => rw [hks] at hesc; simp [Ev.isEsc] at hesc
    | cons k rest =>
      rw [hks] at hesc
      refine ⟨k, ?_, hesc⟩
      apply i3.subset
      rw [← h2k]
      apply htame.2.1.subset
      rw [hks]
      exact List.mem_cons_self _ _

/-- The loop of `fops_delete_dir` over the children that are still to come. -/
theorem delete_dir_loop_tree (f : Nat) (path : List Nat) (w : World)
    (ih : ∀ p w2, delete_ready p w2 f → deleted_tree p w2 (fops_delete_dir f p w2))
    (ht : tree_ok w.fs path)
    (hfuel : ∀ q node, fs_find w.fs q = some node → inside path q →
      depth_below path q + 2 ≤ f + 1) :
    ∀ (l : List DTA) (wi : World) (evs : List Ev),
      (∀ x ∈ l, ∃ name node, x = dta_of name node ∧ valid_name name ∧
        fs_find w.fs (path ++ 92 :: name) = some node ∧ node.attr_ok) →
      (l.map DTA.name).Nodup → delete_inv path w l wi evs →
      ∃ res evs1,
        (delete_dir_loop (fops_delete_dir f) path l FOPS_OK wi).1 = some res ∧
        (delete_dir_loop (fops_delete_dir f) path l FOPS_OK wi).2.log = w.log ++ evs1 ∧
        ((delete_dir_loop (fops_delete_dir f) path l FOPS_OK wi).2.fs.map Prod.fst).Nodup ∧
        (∀ q, removed_in evs1 q → inside path q) ∧
        (∀ q, fs_find (delete_dir_loop (fops_delete_dir f) path l FOPS_OK wi).2.fs q =
          if removed_in evs1 q then none else fs_find w.fs q) ∧
        (∀ e ∈ evs1, e.isEsc = true → ∃ k ∈ w.keys, (Ev.kbd k).isEsc = true) ∧
        ((∀ e ∈ evs1, e.isEsc = false) → res = FOPS_OK ∧
          ∀ rel, fs_find (delete_dir_loop (fops_delete_dir f) path l FOPS_OK wi).2.fs
            (path ++ 92 :: rel) = none) ∧
        ((∃ e ∈ evs1, e.isEsc = true) → res = FOPS_CANCEL) := by
  intro l
  induction l with
  | nil =>
    intro wi evs _ _ hinv
    obtain ⟨i1, i2, -, i4, i5, i6, -, i8⟩ := hinv
    refine ⟨FOPS_OK, evs, rfl, i1, i2, i5, i6, ?_, ?_, ?_⟩
    · intro e he hc
      rw [i4 e he] at hc
      exact absurd hc (by decide)
    · intro _
      exact ⟨rfl, fun rel => i8 rel (by simp)⟩
    · rintro ⟨e, he, hc⟩
      rw [i4 e he] at hc
      exact absurd hc (by decide)
  | cons x l ihl =>
    intro wi evs hch hnd hinv
    obtain ⟨name, node, rfl, hv, hsrc, hattr⟩ := hch _ (List.mem_cons_self _ _)
    have hch' : ∀ y ∈ l, ∃ name node, y = dta_of name node ∧ valid_name name ∧
        fs_find w.fs (path ++ 92 :: name) = some node ∧ node.attr_ok :=
      fun y hy => hch y (List.mem_cons_of_mem _ hy)
    have hnd' : (l.map DTA.name).Nodup := by
      simp only [List.map_cons, List.nodup_cons] at hnd; exact hnd.2
    have hps := ht.2.2.1
    have hdot : is_dot_entry (dta_of name node) = false := by
      rw [is_dot_entry_dta]; exact hv.2.2
    have hxn : (dta_of name node).name = name := dta_of_name _ _
    obtain ⟨i1, i2, i3, i4, i5, i6, i7, i8⟩ := id hinv
    simp only [delete_dir_loop, hdot, Bool.false_eq_true, if_false, hxn,
      path_append_plain path name hps]
    generalize hw2 : ({ wi with g_file_current := u16add wi.g_file_current 1 }.emit
      (Ev.progress Label.deleting name (u16add wi.g_file_current 1) wi.g_file_count)) = w2
    have e1 : w2.fs = wi.fs := by rw [← hw2]; rfl
    have e2 : w2.keys = wi.keys := by rw [← hw2]; rfl
    have e3 : w2.log = wi.log ++
        [Ev.progress Label.deleting name (u16add wi.g_file_current 1) wi.g_file_count] := by
      rw [← hw2]; rfl
    have he0r : ∀ p, Ev.progress Label.deleting name (u16add wi.g_file_current 1)
          wi.g_file_count ≠ Ev.delete p 0 ∧
        Ev.progress Label.deleting name (u16add wi.g_file_current 1) wi.g_file_count ≠
          Ev.rmdir p 0 := fun p => ⟨by simp, by simp⟩
    have hsame : ∀ q, below (path ++ 92 :: name) q → fs_find w2.fs q = fs_find w.fs q := by
      intro q hq
      obtain ⟨rel, rfl⟩ := below_child_form path name q hq
      rw [e1]
      apply i7
      rw [(below_child_iff path name rel hv.2.1).1 hq]
      simp [hxn]
    have hchild : deleted_tree (path ++ 92 :: name) w2
        (if (dta_of name node).attr &&& DOS_ATTR_DIRECTORY ≠ 0 then
          fops_delete_dir f (path ++ 92 :: name) w2
        else (some (fops_delete_file (path ++ 92 :: name) w2).1,
          (fops_delete_file (path ++ 92 :: name) w2).2)) ∧
        Tame w2 (if (dta_of name node).attr &&& DOS_ATTR_DIRECTORY ≠ 0 then
          fops_delete_dir f (path ++ 92 :: name) w2
        else (some (fops_delete_file (path ++ 92 :: name) w2).1,
          (fops_delete_file (path ++ 92 :: name) w2).2)).2 := by
      cases node with
      | file a data =>
        rw [if_neg (dta_of_attr_file name a data hattr)]
        refine ⟨fops_delete_file_done _ w2 a data
          (by rw [hsame _ (below_self _)]; exact hsrc) hattr.1 ?_, tame_fops_delete_file _ w2⟩
        intro q hq
        rw [hsame q (Or.inr hq)]
        exact tree_no_node_in_file w.fs path (path ++ 92 :: name) a data ht hsrc
          (below_child path name) q hq
      | dir =>
        rw [if_pos (dta_of_attr_dir name)]
        refine ⟨ih _ w2 ⟨?_, ?_, ?_⟩, tame_fops_delete_dir f _ w2⟩
        · exact tree_ok_transfer w.fs w2.fs _ (tree_ok_child w.fs path name ht hv hsrc)
            (by rw [e1]; exact i2) hsame
        · have := hfuel _ _ hsrc (inside_child path name)
          omega
        · intro q nd hq hin
          obtain ⟨t, rfl⟩ := (inside_iff _ _).1 hin
          have hq2 : fs_find w.fs (path ++ 92 :: name ++ 92 :: t) = some nd := by
            rw [← hsame _ (Or.inr hin)]; exact hq
          have hb := hfuel _ nd hq2 (inside_trans (inside_child path name) hin)
          have hd := depth_below_child path name t hv.2.1
          have heq : path ++ 92 :: (name ++ 92 :: t) = path ++ 92 :: name ++ 92 :: t := by simp
          rw [heq] at hd
          omega
    generalize (if (dta_of name node).attr &&& DOS_ATTR_DIRECTORY ≠ 0 then
          fops_delete_dir f (path ++ 92 :: name) w2
        else (some (fops_delete_file (path ++ 92 :: name) w2).1,
          (fops_delete_file (path ++ 92 :: name) w2).2)) = r at hchild
    obtain ⟨⟨res0, evc, hr1, hlog, htrace, hrem, hkeys, hokc, hcanc⟩, htame⟩ := hchild
    simp only [hr1]
    by_cases hesc : ∃ e ∈ evc, e.isEsc = true
    · obtain ⟨hres, -⟩ := hcanc hesc
      subst hres
      rw [if_pos rfl]
      refine ⟨FOPS_CANCEL,
        evs ++ ([Ev.progress Label.deleting name (u16add wi.g_file_current 1)
          wi.g_file_count] ++ evc), rfl, ?_, ?_, ?_, ?_, ?_, ?_, fun _ => rfl⟩
      · show r.2.log = _
        rw [hlog, e3, i1]; simp
      · exact htame.1 (by rw [e1]; exact i2)
      · intro q hq
        rw [removed_in_append, removed_in_append] at hq
        rcases hq with hq | hq | hq
        · exact i5 q hq
        · exact absurd hq (removed_in_single _ q he0r)
        · rcases hrem q hq with e | hin
          · rw [e]; exact inside_child path name
          · exact inside_trans (inside_child path name) hin
      · intro q
        refine trace_join w.fs wi.fs r.2.fs evs _ i6 ?_ q
        intro q
        show fs_find r.2.fs q = _
        rw [htrace q, e1]
        by_cases hq : removed_in evc q
        · rw [if_pos hq, if_pos ((removed_in_append _ _ q).2 (Or.inr hq))]
        · rw [if_neg hq, if_neg]
          rw [removed_in_append]
          rintro (hh | hh)
          · exact removed_in_single _ q he0r hh
          · exact hq hh
      · intro e he hc
        obtain ⟨e5, he5, hc5⟩ := hesc
        obtain ⟨k, hk, hkesc⟩ := hkeys e5 he5 hc5
        exact ⟨k, i3.subset (by rw [← e2]; exact hk), hkesc⟩
      · intro hall
        obtain ⟨e5, he5, hc5⟩ := hesc
        have := hall e5 (by simp [he5])
        rw [hc5] at this
        exact absurd this (by decide)
    · have hno : ∀ e ∈ evc, e.isEsc = false := by
        intro e he
        cases hc : e.isEsc with
        | false => rfl
        | true => exact absurd ⟨e, he, hc⟩ hesc
      obtain ⟨hres, hgone⟩ := hokc hno
      subst hres
      rw [if_neg (by decide)]
      have facts := delete_facts_next path w (dta_of name node) l wi w2 r evs evc _
        (by rw [hxn]; exact hv.2.1) hnd hinv e3 e1 e2 he0r htame hlog htrace
        (by rw [hxn]; exact hrem) (by rw [hxn]; exact hgone)
      obtain ⟨f1, f2, f3, f4, f5, f6, f7, f8⟩ := facts
      have hstep : (Ev.kbd (kbd_poll r.2).1).isEsc = false →
          delete_inv path w l (kbd_poll r.2).2
            (evs ++ ([Ev.progress Label.deleting name (u16add wi.g_file_current 1)
              wi.g_file_count] ++ evc ++ [Ev.kbd (kbd_poll r.2).1])) := by
        intro hk
        refine ⟨f1, f2, f3, ?_, f4, f5, f6, f7⟩
        intro e he
        simp only [List.mem_append, List.mem_singleton] at he
        rcases he with he | (he | he) | he
        · exact i4 e he
        · rw [he]; rfl
        · exact hno e he
        · rw [he]; exact hk
      cases hk : (kbd_poll r.2).1 with
      | none =>
        simp only
        exact ihl _ _ hch' hnd' (hstep (by rw [hk]; rfl))
      | some key =>
        simp only
        by_cases hkey : key.code = KEY_ESC
        · rw [if_pos hkey]
          have hkesc : (Ev.kbd (kbd_poll r.2).1).isEsc = true := by
            rw [hk]; simp [Ev.isEsc, hkey]
          refine ⟨FOPS_CANCEL, _, rfl, f1, f2, f4, f5, fun _ _ _ => f8 hkesc, ?_, fun _ => rfl⟩
          intro hall
          have := hall (Ev.kbd (kbd_poll r.2).1) (by simp)
          rw [hkesc] at this
          exact absurd this (by decide)
        · rw [if_neg hkey]
          exact ihl _ _ hch' hnd' (hstep (by rw [hk]; simp [Ev.isEsc, hkey]))

theorem fops_delete_dir_tree : ∀ (fuel : Nat) (path : List Nat) (w : World),
    delete_ready path w fuel → deleted_tree path w (fops_delete_dir fuel path w) := by
  intro fuel
  induction fuel with
  | zero =>
    intro path w h
    have := h.2.1
    omega
  | succ f ih =>
    intro path w hready
    obtain ⟨ht, -, hfuel⟩ := id hready
    simp only [fops_delete_dir]
    rw [tree_find_all w.fs path ht]
    have hd1 : is_dot_entry (dta_of [46] Node.dir) = true := by decide
    have hd2 : is_dot_entry (dta_of [46, 46] Node.dir) = true := by decide
    simp only [delete_dir_loop, hd1, hd2, if_true]
    have hinv : delete_inv path w (fs_children w.fs (path ++ [92])) w [] := by
      refine ⟨by simp, ht.1, List.suffix_refl _, by simp, ?_, ?_, fun _ _ => rfl, ?_⟩
      · intro q hq
        simp [removed_in] at hq
      · intro q
        simp [removed_in]
      · intro rel hrel
        cases hs : fs_find w.fs (path ++ 92 :: rel) with
        | none => rfl
        | some node => exact absurd (tree_head_listed w.fs path rel node ht hs) hrel
    obtain ⟨res, evs1, l1, l2, l3, l4, l5, l6, l7, l8⟩ :=
      delete_dir_loop_tree f path w ih ht hfuel (fs_children w.fs (path ++ [92])) w []
        (fun x hx => tree_children w.fs path ht x hx)
        (fs_children_names_nodup w.fs path ht.1) hinv
    generalize delete_dir_loop (fops_delete_dir f) path (fs_children w.fs (path ++ [92]))
      FOPS_OK w = r at l1 l2 l3 l5 l7
    simp only [l1]
    have hrem1 : ∀ q, removed_in evs1 q → below path q := fun q hq => Or.inr (l4 q hq)
    by_cases hesc : ∃ e ∈ evs1, e.isEsc = true
    · have hres := l8 hesc
      subst hres
      rw [if_neg (by decide)]
      refine ⟨FOPS_CANCEL, evs1, rfl, l2, l5, hrem1, l6, ?_, ?_⟩
      · intro hall
        obtain ⟨e, he, hc⟩ := hesc
        rw [hall e he] at hc
        exact absurd hc (by decide)
      · intro _
        exact ⟨rfl, fun h => not_inside_self path (l4 path h)⟩
    · have hno : ∀ e ∈ evs1, e.isEsc = false := by
        intro e he
        cases hc : e.isEsc with
        | false => rfl
        | true => exact absurd ⟨e, he, hc⟩ hesc
      obtain ⟨hres, hgone⟩ := l7 hno
      subst hres
      rw [if_pos rfl]
      have hdir : fs_find r.2.fs path = some Node.dir := by
        rw [l5 path, if_neg (fun h => not_inside_self path (l4 path h))]
        exact ht.2.1
      have hempty : fs_children r.2.fs (path ++ [92]) = [] := by
        apply List.eq_nil_iff_forall_not_mem.2
        intro x hx
        obtain ⟨name, node, hm, -, -, -⟩ := (mem_fs_children r.2.fs path x).1 hx
        have := fs_find_of_mem r.2.fs _ node l3 hm
        rw [hgone name] at this
        exact absurd this (by simp)
      have hrm : dos_rmdir path r.2 =
          (0, { r.2 with fs := fs_del r.2.fs path }.emit (Ev.rmdir path 0)) := by
        unfold dos_rmdir
        rw [if_pos ⟨hdir, hempty⟩]
      simp only [hrm, ne_eq, not_true_eq_false, if_false]
      have hlast : ∀ q, removed_in [Ev.rmdir path 0] q ↔ q = path := by
        intro q
        simp [removed_in, eq_comm]
      refine ⟨FOPS_OK, evs1 ++ [Ev.rmdir path 0], rfl, ?_, ?_, ?_, ?_, ?_, ?_⟩
      · show r.2.log ++ [Ev.rmdir path 0] = _
        rw [l2]; simp
      · intro q
        refine trace_join w.fs r.2.fs _ evs1 [Ev.rmdir path 0] l5 ?_ q
        intro q
        show fs_find (fs_del r.2.fs path) q = _
        rw [fs_find_del]
        by_cases hq : q = path
        · rw [if_pos hq, if_pos ((hlast q).2 hq)]
        · rw [if_neg hq, if_neg (fun h => hq ((hlast q).1 h))]
      · intro q hq
        rw [removed_in_append] at hq
        rcases hq with hq | hq
        · exact hrem1 q hq
        · exact Or.inl ((hlast q).1 hq)
      · intro e he hc
        simp only [List.mem_append, List.mem_singleton] at he
        rcases he with he | he
        · exact l6 e he hc
        · rw [he] at hc
          simp [Ev.isEsc] at hc
      · intro _
        refine ⟨rfl, ?_⟩
        intro q hq
        show fs_find (fs_del r.2.fs path) q = none
        rw [fs_find_del]
        split_ifs with h
        · rfl
        · rcases hq with e | hin
          · exact absurd e h
          · obtain ⟨rel, rfl⟩ := (inside_iff _ _).1 hin
            exact hgone rel
      · rintro ⟨e, he, hc⟩
        simp only [List.mem_append, List.mem_singleton] at he
        rcases he with he | he
        · rw [hno e he] at hc
          exact absurd hc (by decide)
        · rw [he] at hc
          simp [Ev.isEsc] at hc

theorem esc_last_of_none (evs : List Ev) (h : ∀ e ∈ evs, e.isEsc = false) : esc_last evs := by
  intro pre e post he hesc
  have : e ∈ evs := by rw [he]; simp
  rw [h e this] at hesc
  exact absurd hesc (by decide)

theorem esc_last_append (a b : List Ev) (ha : ∀ e ∈ a, e.isEsc = false) (hb : esc_last b) :
    esc_last (a ++ b) := by
  intro pre e post he hesc
  rcases List.append_eq_append_iff.1 he with ⟨a', rfl, hb'⟩ | ⟨c', rfl, hc'⟩
  · exact hb a' e post hb' hesc
  · cases c' with
    | nil =>
      simp only [List.nil_append] at hc'
      exact hb [] e post hc'.symm hesc
    | cons x c'' =>
      simp only [List.cons_append, List.cons.injEq] at hc'
      have hx : e ∈ pre ++ x :: c'' := by rw [hc'.1]; simp
      rw [ha e hx] at hesc
      exact absurd hesc (by decide)

theorem esc_last_snoc (a : List Ev) (e : Ev) (ha : ∀ x ∈ a, x.isEsc = false) :
    esc_last (a ++ [e]) := by
  apply esc_last_append a [e] ha
  intro pre x post hx _
  cases pre with
  | nil => simp at hx; exact hx.2.symm ▸ rfl
  | cons y pre' => simp at hx

/-- The calls of `fops_delete_file` hold no keyboard poll. -/
theorem delete_file_no_esc (p : List Nat) (w : World) :
    ∃ evs, (fops_delete_file p w).2.log = w.log ++ evs ∧ ∀ e ∈ evs, e.isEsc = false := by
  have hget : ∃ e1, (dos_get_attr p w).2.log = w.log ++ [e1] ∧ e1.isEsc = false := by
    unfold dos_get_attr
    split <;> exact ⟨_, rfl, rfl⟩
  have hset : ∀ (a : Nat) (w1 : World), ∃ e2, (dos_set_attr p a w1).2.log = w1.log ++ [e2] ∧
      e2.isEsc = false := by
    intro a w1
    unfold dos_set_attr
    split <;> exact ⟨_, rfl, rfl⟩
  have hdel : ∀ w1 : World, ∃ e3, (dos_delete p w1).2.log = w1.log ++ [e3] ∧
      e3.isEsc = false := by
    intro w1
    unfold dos_delete
    split
    · split_ifs <;> exact ⟨_, rfl, rfl⟩
    · exact ⟨_, rfl, rfl⟩
  unfold fops_delete_file
  simp only
  obtain ⟨e1, h1, x1⟩ := hget
  generalize dos_get_attr p w = g at h1
  have hmid : ∃ evs1, (if g.1 ≥ 0 ∧ g.1.toNat &&& 1 ≠ 0 then
      (dos_set_attr p (g.1.toNat &&& 0xFFFE) g.2).2 else g.2).log = w.log ++ evs1 ∧
      ∀ e ∈ evs1, e.isEsc = false := by
    split_ifs
    · obtain ⟨e2, h2, x2⟩ := hset (g.1.toNat &&& 0xFFFE) g.2
      refine ⟨[e1, e2], by rw [h2, h1]; simp, ?_⟩
      intro e he
      simp only [List.mem_cons, List.mem_singleton, List.not_mem_nil, or_false] at he
      rcases he with rfl | rfl <;> assumption
    · refine ⟨[e1], h1, ?_⟩
      intro e he
      simp only [List.mem_singleton] at he
      rw [he]; exact x1
  obtain ⟨evs1, hm, xm⟩ := hmid
  generalize (if g.1 ≥ 0 ∧ g.1.toNat &&& 1 ≠ 0 then
      (dos_set_attr p (g.1.toNat &&& 0xFFFE) g.2).2 else g.2) = w1 at hm
  obtain ⟨e3, h3, x3⟩ := hdel w1
  generalize dos_delete p w1 = d at h3
  split_ifs
  · refine ⟨evs1 ++ [e3, Ev.uiError ErrMsg.cannotDeleteFile], ?_, ?_⟩
    · show (ui_error ErrMsg.cannotDeleteFile d.2).log = _
      simp [ui_error, World.emit, h3, hm]
    · intro e he
      simp only [List.mem_append, List.mem_cons, List.mem_singleton, List.not_mem_nil,
        or_false] at he
      rcases he with he | rfl | rfl
      · exact xm e he
      · exact x3
      · rfl
  · refine ⟨evs1 ++ [e3], by show d.2.log = _; rw [h3, hm]; simp, ?_⟩
    intro e he
    simp only [List.mem_append, List.mem_singleton] at he
    rcases he with he | rfl
    · exact xm e he
    · exact x3

theorem stops_of_no_esc (w : World) (r : Option Int × World)
    (h : ∃ evs, r.2.log = w.log ++ evs ∧ ∀ e ∈ evs, e.isEsc = false) : stops_at_esc w r := by
  obtain ⟨evs, hl, hn⟩ := h
  refine ⟨evs, hl, esc_last_of_none evs hn, ?_⟩
  rintro ⟨e, he, hc⟩
  rw [hn e he] at hc
  exact absurd hc (by decide)

/-- A step that makes calls without ESC, followed by a run that stops at the first ESC. -/
theorem stops_after (w w1 : World) (r : Option Int × World) (a : List Ev)
    (h1 : w1.log = w.log ++ a) (ha : ∀ e ∈ a, e.isEsc = false) (h : stops_at_esc w1 r) :
    stops_at_esc w r := by
  obtain ⟨evs, hl, hlast, hres⟩ := h
  refine ⟨a ++ evs, by rw [hl, h1, List.append_assoc], esc_last_append a evs ha hlast, ?_⟩
  rintro ⟨e, he, hc⟩
  rcases List.mem_append.1 he with he | he
  · rw [ha e he] at hc
    exact absurd hc (by decide)
  · exact hres ⟨e, he, hc⟩

/-- The loop of `fops_delete_dir` stops at the first ESC. -/
theorem delete_dir_loop_stops (delete_dir : List Nat → World → Option Int × World)
    (hrec : ∀ p w, stops_at_esc w (delete_dir p w)) (path : List Nat) :
    ∀ (l : List DTA) (result : Int) (w : World),
      stops_at_esc w (delete_dir_loop delete_dir path l result w) := by
  intro l
  induction l with
  | nil =>
    intro result w
    exact stops_of_no_esc w _ ⟨[], by simp [delete_dir_loop], by simp⟩
  | cons d rest ih =>
    intro result w
    simp only [delete_dir_loop]
    by_cases hdot : is_dot_entry d = true
    · rw [if_pos hdot]; exact ih result w
    · rw [if_neg hdot]
      generalize hw2 : ({ w with g_file_current := u16add w.g_file_current 1 }.emit
        (Ev.progress Label.deleting d.name (u16add w.g_file_current 1) w.g_file_count)) = w2
      have h2 : w2.log = w.log ++ [Ev.progress Label.deleting d.name
          (u16add w.g_file_current 1) w.g_file_count] := by rw [← hw2]; rfl
      apply stops_after w w2 _ _ h2 (by intro e he; simp at he; rw [he]; rfl)
      have hchild : stops_at_esc w2
          (if d.attr &&& DOS_ATTR_DIRECTORY ≠ 0 then delete_dir (path_append path d.name) w2
           else (some (fops_delete_file (path_append path d.name) w2).1,
             (fops_delete_file (path_append path d.name) w2).2)) := by
        split_ifs
        · exact hrec _ _
        · exact stops_of_no_esc w2 _ (delete_file_no_esc _ w2)
      generalize (if d.attr &&& DOS_ATTR_DIRECTORY ≠ 0 then
          delete_dir (path_append path d.name) w2
        else (some (fops_delete_file (path_append path d.name) w2).1,
          (fops_delete_file (path_append path d.name) w2).2)) = r at hchild
      obtain ⟨evc, hl, hlast, hres⟩ := hchild
      cases hr1 : r.1 with
      | none =>
        simp only
        refine ⟨evc, hl, hlast, ?_⟩
        intro hesc
        rw [hres hesc] at hr1
        exact absurd hr1 (by simp)
      | some res =>
        simp only
        by_cases hcan : res = FOPS_CANCEL
        · rw [if_pos hcan]
          exact ⟨evc, hl, hlast, fun _ => by rw [hcan]⟩
        · rw [if_neg hcan]
          have hno : ∀ e ∈ evc, e.isEsc = false := by
            intro e he
            cases hc : e.isEsc with
            | false => rfl
            | true =>
              have := hres ⟨e, he, hc⟩
              rw [hr1] at this
              exact absurd (Option.some.inj this) hcan
          have hk : (kbd_poll r.2).2.log = w2.log ++ (evc ++ [Ev.kbd (kbd_poll r.2).1]) := by
            rw [kbd_poll_log, hl, List.append_assoc]
          cases hkey : (kbd_poll r.2).1 with
          | none =>
            simp only
            rw [hkey] at hk
            apply stops_after w2 (kbd_poll r.2).2 _ _ hk ?_ (ih res _)
            intro e he
            simp only [List.mem_append, List.mem_singleton] at he
            rcases he with he | rfl
            · exact hno e he
            · rfl
          | some key =>
            simp only
            rw [hkey] at hk
            by_cases hesc : key.code = KEY_ESC
            · rw [if_pos hesc]
              exact ⟨_, hk, esc_last_snoc evc _ hno, fun _ => rfl⟩
            · rw [if_neg hesc]
              apply stops_after w2 (kbd_poll r.2).2 _ _ hk ?_ (ih res _)
              intro e he
              simp only [List.mem_append, List.mem_singleton] at he
              rcases he with he | rfl
              · exact hno e he
              · simp [Ev.isEsc, hesc]

/-- The function `fops_delete_dir` stops at the first ESC, on every file system and with
every step budget: an ESC that a poll delivers is the last call it makes. -/
theorem fops_delete_dir_stops : ∀ (fuel : Nat) (path : List Nat) (w : World),
    stops_at_esc w (fops_delete_dir fuel path w) := by
  intro fuel
  induction fuel with
  | zero =>
    intro path w
    exact stops_of_no_esc w _ ⟨[], by simp [fops_delete_dir], by simp⟩
  | succ f ih =>
    intro path w
    simp only [fops_delete_dir]
    have hloop := delete_dir_loop_stops (fops_delete_dir f) ih path
      (dos_find_all w.fs (path_append path [42, 46, 42])) FOPS_OK w
    generalize delete_dir_loop (fops_delete_dir f) path
      (dos_find_all w.fs (path_append path [42, 46, 42])) FOPS_OK w = l at hloop
    obtain ⟨evs, hl, hlast, hres⟩ := hloop
    cases hl1 : l.1 with
    | none =>
      simp only
      refine ⟨evs, hl, hlast, ?_⟩
      intro hesc
      rw [hres hesc] at hl1
      exact absurd hl1 (by simp)
    | some result =>
      simp only
      by_cases hok : result = FOPS_OK
      · rw [if_pos hok]
        have hno : ∀ e ∈ evs, e.isEsc = false := by
          intro e he
          cases hc : e.isEsc with
          | false => rfl
          | true =>
            have := hres ⟨e, he, hc⟩
            rw [hl1, hok] at this
            exact absurd this (by decide)
        apply stops_of_no_esc
        have hrm : ∃ e, (dos_rmdir path l.2).2.log = l.2.log ++ [e] ∧ e.isEsc = false := by
          unfold dos_rmdir
          split_ifs <;> exact ⟨_, rfl, rfl⟩
        obtain ⟨e3, h3, x3⟩ := hrm
        generalize dos_rmdir path l.2 = rm at h3
        split_ifs
        · refine ⟨evs ++ [e3, Ev.uiError ErrMsg.cannotRemoveDir], ?_, ?_⟩
          · show (ui_error ErrMsg.cannotRemoveDir rm.2).log = _
            simp [ui_error, World.emit, h3, hl]
          · intro e he
            simp only [List.mem_append, List.mem_cons, List.mem_singleton, List.not_mem_nil,
              or_false] at he
            rcases he with he | rfl | rfl
            · exact hno e he
            · exact x3
            · rfl
        · refine ⟨evs ++ [e3], by show rm.2.log = _; rw [h3, hl]; simp, ?_⟩
          intro e he
          simp only [List.mem_append, List.mem_singleton] at he
          rcases he with he | rfl
          · exact hno e he
          · exact x3
      · rw [if_neg hok]
        exact ⟨evs, hl, hlast, fun h => by rw [← hl1]; exact hres h⟩

theorem calls_since_append (w w1 : World) (evs : List Ev) (h : w1.log = w.log ++ evs) :
    calls_since w w1 = evs := by
  unfold calls_since
  rw [h, List.drop_left]

/-- On `world_tree_late` the cancelled delete has removed the file `G` and the emptied
directory `T`; the file `F` and the directory `S` are still there. -/
theorem delete_dir_cancel_late :
    (fops_delete_dir 3 (cstr "A:\\S") world_tree_late).1 = some FOPS_CANCEL ∧
    (fops_delete_dir 3 (cstr "A:\\S") world_tree_late).2.fs =
      [(cstr "A:\\S", Node.dir), (cstr "A:\\S\\F", Node.file 0x21 [1, 2])] := by
  decide

/-! ## C15 -/

/-- C15. Let the table hold a well-formed tree under the directory `path` and let the step
budget be at least `tree_need` (the depth of the tree). Then `fops_delete_dir` returns, and with
`calls_since` for the calls it made: if no keyboard poll of the run delivered ESC (as is the case
when the keyboard script holds no ESC), the result is `FOPS_OK`, `path` and everything under it
(files and nested directories) are gone and every other path holds what it held. If a poll
delivered ESC, the result is `FOPS_CANCEL` and the directory `path` is still there; the poll
that delivered the ESC is the last call of the run, so no `dos_delete` and no `dos_rmdir`
follows it; the calls `pre` in front of it hold no other ESC and remove only nodes inside
`path`; and the table at the end is the table at the start without the nodes that a successful
`dos_delete` or `dos_rmdir` of `pre` removed: these are gone, every other node holds what it
held. -/
theorem delete_dir_tree (fuel : Nat) (path : List Nat) (w : World)
    (htree : tree_ok w.fs path) (hfuel : tree_need (fun _ => 0) w.fs path ≤ fuel) :
    ((∀ k ∈ w.keys, (Ev.kbd k).isEsc = false) →
      ∀ e ∈ calls_since w (fops_delete_dir fuel path w).2, e.isEsc = false) ∧
    ((∀ e ∈ calls_since w (fops_delete_dir fuel path w).2, e.isEsc = false) →
      (fops_delete_dir fuel path w).1 = some FOPS_OK ∧
      ∀ q, fs_find (fops_delete_dir fuel path w).2.fs q =
        if below path q then none else fs_find w.fs q) ∧
    ((∃ e ∈ calls_since w (fops_delete_dir fuel path w).2, e.isEsc = true) →
      (fops_delete_dir fuel path w).1 = some FOPS_CANCEL ∧
      fs_find (fops_delete_dir fuel path w).2.fs path = some Node.dir ∧
      ∃ pre key,
        calls_since w (fops_delete_dir fuel path w).2 = pre ++ [Ev.kbd (some key)] ∧
        key.code = KEY_ESC ∧ (∀ e ∈ pre, e.isEsc = false) ∧
        (∀ q, removed_in pre q → inside path q) ∧
        ∀ q, fs_find (fops_delete_dir fuel path w).2.fs q =
          if removed_in pre q then none else fs_find w.fs q) := by
  have hready : delete_ready path w fuel :=
    ⟨htree, (fuel_of_tree_need (fun _ => 0) w.fs path fuel hfuel).1,
      (fuel_of_tree_need (fun _ => 0) w.fs path fuel hfuel).2⟩
  obtain ⟨res, evs, h1, h2, h3, h4, h5, h6, h7⟩ := fops_delete_dir_tree fuel path w hready
  obtain ⟨evs2, g2, hlast, -⟩ := fops_delete_dir_stops fuel path w
  have hsame : evs2 = evs := by
    rw [h2] at g2
    exact (List.append_cancel_left g2).symm
  rw [hsame] at hlast
  rw [calls_since_append w _ evs h2]
  refine ⟨?_, ?_, ?_⟩
  · intro hk e he
    cases hc : e.isEsc with
    | false => rfl
    | true =>
      obtain ⟨k, hkm, hkesc⟩ := h5 e he hc
      rw [hk k hkm] at hkesc
      exact absurd hkesc (by decide)
  · intro hno
    obtain ⟨hres, hgone⟩ := h6 hno
    refine ⟨by rw [h1, hres], ?_⟩
    intro q
    by_cases hq : below path q
    · rw [if_pos hq]; exact hgone q hq
    · rw [if_neg hq, h3 q, if_neg (fun h => hq (h4 q h))]
  · intro hesc
    obtain ⟨hres, hkeep⟩ := h7 hesc
    refine ⟨by rw [h1, hres], by rw [h3 path, if_neg hkeep]; exact htree.2.1, ?_⟩
    obtain ⟨e, he, hc⟩ := hesc
    obtain ⟨pre, post, hsplit⟩ := List.append_of_mem he
    have hpost : post = [] := hlast pre e post hsplit hc
    subst hpost
    obtain ⟨key, rfl, hkey⟩ : ∃ key, e = Ev.kbd (some key) ∧ key.code = KEY_ESC := by
      cases e with
      | kbd k =>
        cases k with
        | none => simp [Ev.isEsc] at hc
        | some key => exact ⟨key, rfl, by simpa [Ev.isEsc] using hc⟩
      | _ => simp [Ev.isEsc] at hc
    have hpre : ∀ x ∈ pre, x.isEsc = false := by
      intro x hx
      cases hxc : x.isEsc with
      | false => rfl
      | true =>
        obtain ⟨a, b, hab⟩ := List.append_of_mem hx
        have := hlast a x (b ++ [Ev.kbd (some key)])
          (by rw [hsplit, hab, List.append_assoc, List.cons_append]) hxc
        simp at this
    have hrem : ∀ q, removed_in evs q ↔ removed_in pre q := by
      intro q
      rw [hsplit, removed_in_append]
      constructor
      · rintro (h | h)
        · exact h
        · exact absurd h (removed_in_single _ q (fun p => ⟨by simp, by simp⟩))
      · exact Or.inl
    refine ⟨pre, key, hsplit, hkey, hpre, ?_, ?_⟩
    · intro q hq
      rcases h4 q ((hrem q).2 hq) with e | hin
      · rw [e] at hq; exact absurd ((hrem path).2 hq) hkeep
      · exact hin
    · intro q
      rw [h3 q]
      by_cases hq : removed_in pre q
      · rw [if_pos hq, if_pos ((hrem q).2 hq)]
      · rw [if_neg hq, if_neg (fun h => hq ((hrem q).1 h))]

theorem delete_dir_tree_witness :
    (tree_ok world_tree_esc.fs (cstr "A:\\S") ∧
      tree_need (fun _ => 0) world_tree_esc.fs (cstr "A:\\S") ≤ 3 ∧
      ∃ e ∈ calls_since world_tree_esc (fops_delete_dir 3 (cstr "A:\\S") world_tree_esc).2,
        e.isEsc = true) ∧
    ((fops_delete_dir 3 (cstr "A:\\S") world_tree_esc).1 = some FOPS_CANCEL ∧
      fs_find (fops_delete_dir 3 (cstr "A:\\S") world_tree_esc).2.fs (cstr "A:\\S") =
        some Node.dir) ∧
    (calls_since world_tree_esc (fops_delete_dir 3 (cstr "A:\\S") world_tree_esc).2 =
        [Ev.progress Label.deleting (cstr "F") 1 0, Ev.getAttr (cstr "A:\\S\\F") 0x20,
         Ev.delete (cstr "A:\\S\\F") 0, Ev.kbd (some { kind := 1, code := 27 })] ∧
      fs_find (fops_delete_dir 3 (cstr "A:\\S") world_tree_esc).2.fs (cstr "A:\\S\\F") = none ∧
      fs_find (fops_delete_dir 3 (cstr "A:\\S") world_tree_esc).2.fs (cstr "A:\\S\\T\\G") =
        some (Node.file 0x22 [7])) ∧
    (tree_ok world_tree.fs (cstr "A:\\S") ∧
      tree_need (fun _ => 0) world_tree.fs (cstr "A:\\S") ≤ 3 ∧
      ∀ k ∈ world_tree.keys, (Ev.kbd k).isEsc = false) ∧
    (fops_delete_dir 3 (cstr "A:\\S") world_tree).1 = some FOPS_OK :=
  have ht : tree_ok world_tree_esc.fs (cstr "A:\\S") := tree_ok_of_check _ _ (by decide)
  have ht2 : tree_ok world_tree.fs (cstr "A:\\S") := tree_ok_of_check _ _ (by decide)
  have hesc : ∃ e ∈ calls_since world_tree_esc
      (fops_delete_dir 3 (cstr "A:\\S") world_tree_esc).2, e.isEsc = true := by decide
  have hk : ∀ k ∈ world_tree.keys, (Ev.kbd k).isEsc = false := by decide
  ⟨⟨ht, by decide, hesc⟩,
    ⟨((delete_dir_tree 3 (cstr "A:\\S") world_tree_esc ht (by decide)).2.2 hesc).1,
      ((delete_dir_tree 3 (cstr "A:\\S") world_tree_esc ht (by decide)).2.2 hesc).2.1⟩,
    by decide,
    ⟨ht2, by decide, hk⟩,
    ((delete_dir_tree 3 (cstr "A:\\S") world_tree ht2 (by decide)).2.1
      ((delete_dir_tree 3 (cstr "A:\\S") world_tree ht2 (by decide)).1 hk)).1⟩

/-! ## Theorems: panel operations -/

/-! ## C21 -/

/-- C21 (counterexample). The panel `root_panel_F` lists one file. When the enumeration
fails at once (find-first reports an error, no record is delivered), `panel_read_dir` leaves
an empty listing with `count = 0`: the previous entry is gone. -/
theorem read_dir_failure_empties :
    root_panel_F.files.count = 1 ∧
    (panel_read_dir root_panel_F []).files.count = 0 ∧
    (panel_read_dir root_panel_F []).files.entries = [] ∧
    (panel_read_dir root_panel_F []).files ≠ root_panel_F.files := by
  decide

/-- C21 (amended). When find-first reports an error, `panel_read_dir` replaces the listing of
any panel by the one that holds only the synthetic `..` entry (below the root) or nothing (at
the root), with `count` 1 resp. 0 and `truncated` cleared; capacity, drive and path stay. -/
theorem read_dir_failure_listing (p : Panel) :
    (panel_read_dir p []).files.entries =
      (if path_is_root p.path then [] else [parent_entry]) ∧
    (panel_read_dir p []).files.count = (if path_is_root p.path then 0 else 1) ∧
    (panel_read_dir p []).files.truncated = false ∧
    (panel_read_dir p []).files.capacity = p.files.capacity ∧
    (panel_read_dir p []).drive = p.drive ∧ (panel_read_dir p []).path = p.path := by
  by_cases h : path_is_root p.path = true <;>
    simp [panel_read_dir, read_entries, sort_files, h]

/-! ## C22 -/

/-- C22 (counterexample). In `drift_panel` the cursor entry is selected and `sel_count` is 0.
The first `panel_toggle_selection` clears the flag and leaves `sel_count` at 0 (the decrement
is guarded by `sel_count > 0`), the second sets the flag and counts up: `sel_count` ends at 1,
not at its prior value 0. -/
theorem toggle_twice_count_drifts :
    drift_panel.sel_count = 0 ∧
    (panel_toggle_selection drift_panel).sel_count = 0 ∧
    (panel_toggle_selection (panel_toggle_selection drift_panel)).sel_count = 1 ∧
    (panel_toggle_selection (panel_toggle_selection drift_panel)).files = drift_panel.files := by
  decide

theorem cursor_file_spec (p : Panel) (f : FileEntry) (hf : panel_get_cursor_file p = some f) :
    p.cursor < p.files.count ∧ p.files.entries[p.cursor]? = some f := by
  unfold panel_get_cursor_file at hf
  split_ifs at hf with h
  exact ⟨by omega, hf⟩

theorem cursor_file_set (p : Panel) (f g : FileEntry) (s : Nat)
    (hf : panel_get_cursor_file p = some f) :
    panel_get_cursor_file
      { p with files := { p.files with entries := p.files.entries.set p.cursor g },
               sel_count := s } = some g := by
  obtain ⟨h1, h2⟩ := cursor_file_spec p f hf
  have hlen : p.cursor < p.files.entries.length := by
    by_contra hc
    rw [List.getElem?_eq_none (by omega)] at h2
    exact absurd h2 (by simp)
  unfold panel_get_cursor_file
  simp only [ge_iff_le, if_neg (not_le.2 h1)]
  rw [List.getElem?_set_self hlen]

/-- The panel with the cursor slot replaced and `sel_count` set. -/
theorem toggle_on (p : Panel) (f : FileEntry) (hf : panel_get_cursor_file p = some f)
    (hp : file_is_parent f = false) (hs : f.selected = 0) :
    panel_toggle_selection p =
      { p with
        files := { p.files with
          entries := p.files.entries.set p.cursor ({ f with selected := 1 }) },
        sel_count := u16add p.sel_count 1 } := by
  unfold panel_toggle_selection
  rw [hf]
  simp only [hp, Bool.false_eq_true, if_false, hs, ne_eq, not_true_eq_false]

theorem toggle_off (p : Panel) (f : FileEntry) (hf : panel_get_cursor_file p = some f)
    (hp : file_is_parent f = false) (hs : f.selected ≠ 0) :
    panel_toggle_selection p =
      { p with
        files := { p.files with
          entries := p.files.entries.set p.cursor ({ f with selected := 0 }) },
        sel_count := if p.sel_count > 0 then u16sub p.sel_count 1 else p.sel_count } := by
  unfold panel_toggle_selection
  rw [hf]
  simp only [hp, Bool.false_eq_true, if_false, hs, ne_eq, not_false_eq_true, if_true]

theorem set_cursor_same (p : Panel) (f : FileEntry) (hf : panel_get_cursor_file p = some f) :
    p.files.entries.set p.cursor f = p.files.entries := by
  obtain ⟨-, hc2⟩ := cursor_file_spec p f hf
  apply List.ext_getElem?
  intro i
  by_cases hi : i = p.cursor
  · subst hi
    rw [List.getElem?_set_self', hc2]
    simp
  · rw [List.getElem?_set_ne (Ne.symm hi)]

/-! ## C22 -/

/-- C22 (amended). Let the cursor be on an entry `f`, and let `sel_count` (a `uint16_t`) be
above 0 when `f` is selected and below 65535 when it is not, as is the case when `sel_count`
counts the selected entries. Then two calls of `panel_toggle_selection` restore `sel_count`
and leave at the cursor an entry that differs from `f` at most in the value of `selected`,
which is again zero or again non-zero; when `selected` was 0 or 1 the whole panel is as
before. When `f` is the entry `..`, one call changes nothing. -/
theorem toggle_twice_restores (p : Panel) (f : FileEntry)
    (hf : panel_get_cursor_file p = some f) (hw : p.sel_count < 65536)
    (hsel : f.selected ≠ 0 → 0 < p.sel_count) (hun : f.selected = 0 → p.sel_count < 65535) :
    (panel_toggle_selection (panel_toggle_selection p)).sel_count = p.sel_count ∧
    (∃ g, panel_get_cursor_file (panel_toggle_selection (panel_toggle_selection p)) = some g ∧
      (g.selected = 0 ↔ f.selected = 0) ∧ { g with selected := f.selected } = f) ∧
    (f.selected ≤ 1 → panel_toggle_selection (panel_toggle_selection p) = p) ∧
    (file_is_parent f = true → panel_toggle_selection p = p) := by
  have hlast : file_is_parent f = true → panel_toggle_selection p = p := by
    intro hp
    unfold panel_toggle_selection
    rw [hf]
    simp [hp]
  cases hp : file_is_parent f with
  | true =>
    rw [hlast hp, hlast hp]
    exact ⟨rfl, ⟨f, hf, Iff.rfl, rfl⟩, fun _ => rfl, fun _ => rfl⟩
  | false =>
    have hsame := set_cursor_same p f hf
    by_cases hs : f.selected = 0
    · have hlt := hun hs
      have e1 : u16sub (u16add p.sel_count 1) 1 = p.sel_count := by
        simp [u16add, u16sub]; omega
      have e0 : u16add p.sel_count 1 > 0 := by simp [u16add]; omega
      have hf1 := cursor_file_set p f { f with selected := 1 } (u16add p.sel_count 1) hf
      have hff : ({ f with selected := 0 } : FileEntry) = f := by cases f; simp_all
      rw [toggle_on p f hf hp hs,
        toggle_off _ _ hf1 (by simpa [file_is_parent] using hp) (by simp)]
      simp only [List.set_set, if_pos e0, e1, hff, hsame]
      exact ⟨trivial, ⟨f, hf, Iff.rfl, rfl⟩, fun _ => trivial, fun h => by simp at h⟩
    · have hpos := hsel hs
      have e1 : u16add (u16sub p.sel_count 1) 1 = p.sel_count := by
        simp [u16add, u16sub]; omega
      have hf1 := cursor_file_set p f { f with selected := 0 }
        (if p.sel_count > 0 then u16sub p.sel_count 1 else p.sel_count) hf
      rw [toggle_off p f hf hp hs,
        toggle_on _ _ hf1 (by simpa [file_is_parent] using hp) rfl]
      simp only [List.set_set, if_pos hpos, e1]
      refine ⟨trivial, ⟨{ f with selected := 1 }, cursor_file_set p f _ _ hf, by simp [hs], rfl⟩,
        ?_, fun h => by simp at h⟩
      intro h1
      have hs1 : f.selected = 1 := by omega
      have hff : ({ f with selected := 1 } : FileEntry) = f := by cases f; simp_all
      rw [hff, hsame]

theorem toggle_twice_restores_witness :
    (panel_get_cursor_file root_panel_F =
        some { attr := 0x20, time := 0, date := 0, size := 5, name := name_F, selected := 0 } ∧
      root_panel_F.sel_count < 65535) ∧
    (panel_toggle_selection root_panel_F).sel_count = 1 ∧
    panel_toggle_selection (panel_toggle_selection root_panel_F) = root_panel_F :=
  ⟨by decide, by decide,
    (toggle_twice_restores root_panel_F
      { attr := 0x20, time := 0, date := 0, size := 5, name := name_F, selected := 0 }
      (by decide) (by decide) (by decide) (by decide)).2.2.1 (by decide)⟩

/-! ## C24 -/

/-- C24 (counterexample). In `shrunk_panel` (thirty entries, first row 15, cursor 20) the
claim's premises hold. `panel_cursor_end` puts the cursor on slot 29, which the viewport 15..33
shown before contains, and still moves the first row to 11; `panel_page_down` does the same.
In `wrap_view_panel` (first row 65517) the sum `top + PANEL_HEIGHT` of `panel_cursor_down`
wraps in 16 bits: the cursor goes to the visible slot 65521 and the first row to 65503. -/
theorem cursor_end_moves_top :
    0 < shrunk_panel.files.count ∧ shrunk_panel.cursor < shrunk_panel.files.count ∧
    shrunk_panel.top ≤ shrunk_panel.cursor ∧
    shrunk_panel.cursor ≤ shrunk_panel.top + PANEL_HEIGHT - 1 ∧
    shrunk_panel.top ≤ (panel_cursor_end shrunk_panel).cursor ∧
    (panel_cursor_end shrunk_panel).cursor ≤ shrunk_panel.top + PANEL_HEIGHT - 1 ∧
    (panel_cursor_end shrunk_panel).top = 11 ∧ shrunk_panel.top = 15 ∧
    shrunk_panel.top ≤ (panel_page_down shrunk_panel).cursor ∧
    (panel_page_down shrunk_panel).cursor ≤ shrunk_panel.top + PANEL_HEIGHT - 1 ∧
    (panel_page_down shrunk_panel).top = 11 ∧
    wrap_view_panel.cursor < wrap_view_panel.files.count ∧
    wrap_view_panel.top ≤ wrap_view_panel.cursor ∧
    wrap_view_panel.cursor ≤ wrap_view_panel.top + PANEL_HEIGHT - 1 ∧
    wrap_view_panel.top ≤ (panel_cursor_down wrap_view_panel).cursor ∧
    (panel_cursor_down wrap_view_panel).cursor ≤ wrap_view_panel.top + PANEL_HEIGHT - 1 ∧
    (panel_cursor_down wrap_view_panel).top = 65503 ∧ wrap_view_panel.top = 65517 := by
  decide

/-- C24 (amended). From a state with `0 < count`, `cursor < count` and
`top <= cursor <= top + PANEL_HEIGHT - 1`, a navigation operation whose new cursor lies in the
viewport shown before leaves `top` unchanged; for `panel_cursor_end` and `panel_page_down`
this needs that the viewport shown before does not reach past the end of the listing
(`top = 0` or `top + PANEL_HEIGHT <= count`), and for `panel_cursor_down` and
`panel_page_down` that their 16-bit sums `top + PANEL_HEIGHT` resp. `top + 2 * PANEL_HEIGHT`
do not wrap. -/
theorem nav_keeps_top (op : NavOp) (p : Panel) (hcount : 0 < p.files.count)
    (hw : p.files.count < 65536) (hcur : p.cursor < p.files.count) (htop : p.top ≤ p.cursor)
    (hbot : p.cursor ≤ p.top + PANEL_HEIGHT - 1)
    (hend : op = NavOp.last ∨ op = NavOp.pageDown →
      p.top = 0 ∨ p.top + PANEL_HEIGHT ≤ p.files.count)
    (hdown : op = NavOp.down → p.top + PANEL_HEIGHT < 65536)
    (hpd : op = NavOp.pageDown → p.top + 2 * PANEL_HEIGHT < 65536)
    (hnew : p.top ≤ (op.run p).cursor ∧ (op.run p).cursor ≤ p.top + PANEL_HEIGHT - 1) :
    (op.run p).top = p.top := by
  cases op <;>
    simp only [NavOp.run, panel_cursor_up, panel_cursor_down, panel_cursor_home,
      panel_cursor_end, panel_page_up, panel_page_down, u16add, u16sub, PANEL_HEIGHT] at * <;>
    (try simp only [forall_true_left, reduceCtorEq, false_implies, or_true, true_or,
      or_self] at hpd hend hdown) <;>
    (try split_ifs at hnew ⊢) <;> (try simp only [] at hnew ⊢) <;> omega

theorem nav_keeps_top_witness :
    (0 < last_page_panel.files.count ∧ last_page_panel.cursor < last_page_panel.files.count ∧
      last_page_panel.top ≤ last_page_panel.cursor ∧
      last_page_panel.cursor ≤ last_page_panel.top + PANEL_HEIGHT - 1 ∧
      last_page_panel.top + PANEL_HEIGHT ≤ last_page_panel.files.count ∧
      last_page_panel.top ≤ (NavOp.last.run last_page_panel).cursor ∧
      (NavOp.last.run last_page_panel).cursor ≤ last_page_panel.top + PANEL_HEIGHT - 1) ∧
    (NavOp.last.run last_page_panel).top = last_page_panel.top :=
  ⟨by decide, nav_keeps_top NavOp.last last_page_panel (by decide) (by decide) (by decide)
    (by decide) (by decide) (fun _ => Or.inr (by decide)) (by decide) (by decide) (by decide)⟩

theorem read_entries_unselected (capacity : Nat) : ∀ (raw : List DTA) (acc : List FileEntry),
    (∀ e ∈ acc, e.selected = 0) → ∀ e ∈ (read_entries capacity raw acc).1, e.selected = 0
  | [], acc, h => by simpa [read_entries] using h
  | d :: rest, acc, h => by
    simp only [read_entries]
    split_ifs with h1 h2 h3
    · exact read_entries_unselected capacity rest acc h
    · exact read_entries_unselected capacity rest acc h
    · apply read_entries_unselected capacity rest
      intro e he
      simp only [List.mem_append, List.mem_singleton] at he
      rcases he with he | rfl
      · exact h e he
      · rfl
    · exact h

/-- Every entry of the listing that `panel_read_dir` builds is unselected. -/
theorem read_dir_unselected (p : Panel) (raw : List DTA) :
    ∀ e ∈ (panel_read_dir p raw).files.entries, e.selected = 0 := by
  intro e he
  have hstart : ∀ x ∈ (if path_is_root p.path then [] else [parent_entry]), x.selected = 0 := by
    intro x hx
    split_ifs at hx
    · simp at hx
    · simp only [List.mem_singleton] at hx
      rw [hx]; rfl
  have hperm := (sort_files_sorted
    { entries := (read_entries p.files.capacity raw
        (if path_is_root p.path then [] else [parent_entry])).1,
      capacity := p.files.capacity,
      count := (read_entries p.files.capacity raw
        (if path_is_root p.path then [] else [parent_entry])).1.length,
      truncated := (read_entries p.files.capacity raw
        (if path_is_root p.path then [] else [parent_entry])).2 } rfl).2.1
  exact read_entries_unselected p.files.capacity raw _ hstart e (hperm.subset he)

theorem nav_files (op : NavOp) (p : Panel) : (op.run p).files = p.files := by
  cases op <;>
    simp only [NavOp.run, panel_cursor_up, panel_cursor_down, panel_cursor_home,
      panel_cursor_end, panel_page_up, panel_page_down] <;>
    (try split_ifs) <;> rfl

/-- One panel operation keeps the entries named `..` unselected. -/
theorem op_keeps_parent_unselected (op : PanelOp) (p : Panel)
    (h : ∀ e ∈ p.files.entries, file_is_parent e = true → e.selected = 0) :
    ∀ e ∈ (op.run p).files.entries, file_is_parent e = true → e.selected = 0 := by
  cases op with
  | readDir raw => exact fun e he _ => read_dir_unselected p raw e he
  | refresh raw =>
    intro e he _
    simp only [PanelOp.run, panel_refresh] at he
    split_ifs at he <;> exact read_dir_unselected p raw e he
  | changeDir dirname raw =>
    exact fun e he _ => read_dir_unselected _ raw e he
  | goParent raw =>
    intro e he hp
    simp only [PanelOp.run, panel_go_parent] at he
    split_ifs at he
    · exact h e he hp
    · exact read_dir_unselected _ raw e he
  | setDrive drive raw => exact fun e he _ => read_dir_unselected _ raw e he
  | nav op =>
    intro e he hp
    simp only [PanelOp.run, nav_files] at he
    exact h e he hp
  | toggle =>
    intro e he hp
    simp only [PanelOp.run, panel_toggle_selection] at he
    cases hf : panel_get_cursor_file p with
    | none => rw [hf] at he; exact h e he hp
    | some f =>
      rw [hf] at he
      simp only at he
      by_cases h1 : file_is_parent f = true
      · rw [if_pos h1] at he
        exact h e he hp
      · rw [if_neg h1] at he
        have hnp : ∀ s, file_is_parent { f with selected := s } = true → False := by
          intro s hs
          exact h1 (by simpa [file_is_parent] using hs)
        by_cases h2 : f.selected ≠ 0
        · rw [if_pos h2] at he
          rcases List.mem_or_eq_of_mem_set he with he | rfl
          · exact h e he hp
          · rfl
        · rw [if_neg h2] at he
          rcases List.mem_or_eq_of_mem_set he with he | rfl
          · exact h e he hp
          · exact absurd hp (fun hh => hnp 1 hh)
  | clear =>
    intro e he hp
    simp only [PanelOp.run, panel_clear_selection, List.mem_append, List.mem_map] at he
    rcases he with ⟨x, -, rfl⟩ | he
    · rfl
    · exact h e (List.mem_of_mem_drop he) hp

theorem run_ops_keeps_parent_unselected : ∀ (ops : List PanelOp) (p : Panel),
    (∀ e ∈ p.files.entries, file_is_parent e = true → e.selected = 0) →
    ∀ e ∈ (run_ops ops p).files.entries, file_is_parent e = true → e.selected = 0
  | [], _, h => h
  | op :: ops, p, h =>
    run_ops_keeps_parent_unselected ops (op.run p) (op_keeps_parent_unselected op p h)

/-! ## C23 -/

/-- C23. In every panel state that a sequence of panel operations (populate, re-read,
directory change, parent, drive change, the six navigation operations, toggle and clear
selection) reaches from `panel_init`, every entry named `..` that `panel_get_file` delivers
has `selected = 0`. -/
theorem parent_never_selected (capacity : Nat) (ops : List PanelOp) (i : Nat) (e : FileEntry)
    (he : panel_get_file (run_ops ops (panel_init capacity)) i = some e)
    (hp : file_is_parent e = true) : e.selected = 0 := by
  apply run_ops_keeps_parent_unselected ops (panel_init capacity) (by simp [panel_init]) e _ hp
  unfold panel_get_file at he
  split_ifs at he
  exact List.getElem?_mem he

theorem parent_never_selected_witness :
    (panel_get_file (run_ops [PanelOp.changeDir (cstr "SUB") sample_raw, PanelOp.toggle]
        (panel_init 8)) 0 = some parent_entry ∧ file_is_parent parent_entry = true) ∧
    parent_entry.selected = 0 :=
  ⟨⟨by decide, by decide⟩,
    parent_never_selected 8 [PanelOp.changeDir (cstr "SUB") sample_raw, PanelOp.toggle] 0
      parent_entry (by decide) (by decide)⟩

/-! ## Theorems: mkdir and rename -/

theorem str_cmp_self : ∀ s : List Nat, str_cmp s s = 0
  | [] => rfl
  | c :: s => by
    unfold str_cmp
    split_ifs
    · exact str_cmp_self s
    · simp

/-! ## C25 -/

/-- C25 (counterexample). On the root of drive A the user enters `..` and confirms.
`fops_mkdir` hands `A:\..` to `dos_mkdir`, and `fops_rename` (cursor on `F.TXT`) hands it to
`dos_rename`: an adapter call is issued in both. -/
theorem mkdir_dotdot_calls_dos :
    (calls_since world_F (fops_mkdir root_panel_F (DLG_OK, cstr "..") world_F).2.2).any
      (fun e => decide (e = Ev.mkdir (cstr "A:\\..") 0 ∨ e = Ev.mkdir (cstr "A:\\..") (-1)))
      = true ∧
    (calls_since world_F (fops_rename root_panel_F (DLG_OK, cstr "..") world_F).2.2).any
      (fun e => decide (e = Ev.rename path_F (cstr "A:\\..") 0 ∨
        e = Ev.rename path_F (cstr "A:\\..") (-1))) = true := by
  decide

/-- C25 (amended). `fops_mkdir` and `fops_rename` make no call and return `FOPS_CANCEL`
when the dialog is cancelled or the name is empty, and `fops_rename` does so too when the new
name is the current name of the cursor entry. Every other name, the literal `..` included, is
handed on: `fops_mkdir` calls `dos_mkdir` with the panel directory and the name, `fops_rename`
(on an entry other than `.` and `..`) calls `dos_rename`, and each returns `FOPS_OK` exactly
when that call reports success. -/
theorem mkdir_rename_reject (panel : Panel) (inp : Int × List Nat) (w : World) :
    (inp.1 ≠ DLG_OK ∨ inp.2 = [] →
      fops_mkdir panel inp w = (FOPS_CANCEL, panel, w) ∧
      fops_rename panel inp w = (FOPS_CANCEL, panel, w)) ∧
    (∀ f, panel_get_cursor_file panel = some f → inp.2 = f.name →
      fops_rename panel inp w = (FOPS_CANCEL, panel, w)) ∧
    (inp.1 = DLG_OK → chr inp.2 0 ≠ 0 →
      ∃ r rest, (fops_mkdir panel inp w).2.2.log =
          w.log ++ Ev.mkdir (path_append (panel_base panel) inp.2) r :: rest ∧
        ((fops_mkdir panel inp w).1 = FOPS_OK ↔ r = 0)) ∧
    (∀ f, panel_get_cursor_file panel = some f → file_is_parent f = false →
      ¬ (chr f.name 0 = 46 ∧ chr f.name 1 = 0) → inp.1 = DLG_OK → chr inp.2 0 ≠ 0 →
      str_cmp f.name inp.2 ≠ 0 →
      ∃ r rest, (fops_rename panel inp w).2.2.log =
          w.log ++ Ev.rename (path_append (panel_base panel) f.name)
            (path_append (panel_base panel) inp.2) r :: rest ∧
        ((fops_rename panel inp w).1 = FOPS_OK ↔ r = 0)) := by
  refine ⟨?_, ?_, ?_, ?_⟩
  · intro h
    constructor
    · unfold fops_mkdir
      rcases h with h | h
      · rw [if_pos h]
      · split_ifs <;> first | rfl | simp_all [chr]
    · unfold fops_rename
      cases panel_get_cursor_file panel with
      | none => rfl
      | some f =>
        simp only
        rcases h with h | h
        · split_ifs <;> rfl
        · split_ifs <;> first | rfl | simp_all [chr]
  · intro f hf hname
    unfold fops_rename
    rw [hf]
    simp only
    have : str_cmp f.name inp.2 = 0 := by rw [hname]; exact str_cmp_self _
    split_ifs <;> first | rfl | simp_all
  · intro hok hne
    unfold fops_mkdir
    rw [if_neg (by simp [hok]), if_neg hne]
    simp only
    unfold dos_mkdir
    cases fs_find w.fs (path_append (panel_base panel) inp.2) with
    | none =>
      refine ⟨0, [], ?_, ?_⟩
      · simp [World.emit]
      · simp
    | some n =>
      refine ⟨-1, [Ev.uiError ErrMsg.cannotCreateDir], ?_, ?_⟩
      · simp [World.emit, ui_error]
      · simp [FOPS_ERROR, FOPS_OK]
  · intro f hf hp hdot hok hne hcmp
    unfold fops_rename
    rw [hf]
    simp only [hp, Bool.false_eq_true, false_or, if_neg hdot, if_neg (show ¬ inp.1 ≠ DLG_OK by simp [hok]),
      if_neg (show ¬ (chr inp.2 0 = 0 ∨ str_cmp f.name inp.2 = 0) by simp [hne, hcmp])]
    generalize path_append (panel_base panel) f.name = po
    generalize path_append (panel_base panel) inp.2 = pn
    have key : ∀ r : Int × World, (∃ x, r.2.log = w.log ++ [Ev.rename po pn x] ∧ r.1 = x ∧
        (x = 0 ∨ x = -1)) →
        ∃ x rest, (if r.1 ≠ 0 then (FOPS_ERROR, panel, ui_error ErrMsg.cannotRename r.2)
          else (FOPS_OK, panel_read_dir_dos panel r.2, r.2)).2.2.log =
            w.log ++ Ev.rename po pn x :: rest ∧
          ((if r.1 ≠ 0 then (FOPS_ERROR, panel, ui_error ErrMsg.cannotRename r.2)
            else (FOPS_OK, panel_read_dir_dos panel r.2, r.2)).1 = FOPS_OK ↔ x = 0) := by
      rintro r ⟨x, hl, hx, hx2⟩
      rcases hx2 with rfl | rfl
      · exact ⟨0, [], by simp [hx, hl], by simp [hx]⟩
      · exact ⟨-1, [Ev.uiError ErrMsg.cannotRename],
          by simp [hx, hl, ui_error, World.emit], by simp [hx, FOPS_ERROR, FOPS_OK]⟩
    apply key
    unfold dos_rename
    split
    · split_ifs
      · exact ⟨0, by simp [World.emit], rfl, Or.inl rfl⟩
      · exact ⟨-1, by simp [World.emit], rfl, Or.inr rfl⟩
    · exact ⟨-1, by simp [World.emit], rfl, Or.inr rfl⟩

theorem mkdir_rename_reject_witness :
    fops_mkdir root_panel_F (DLG_OK, []) world_F = (FOPS_CANCEL, root_panel_F, world_F) ∧
    fops_rename root_panel_F (DLG_OK, []) world_F = (FOPS_CANCEL, root_panel_F, world_F) ∧
    fops_rename root_panel_F (DLG_OK, name_F) world_F = (FOPS_CANCEL, root_panel_F, world_F) :=
  ⟨((mkdir_rename_reject root_panel_F (DLG_OK, []) world_F).1 (Or.inr rfl)).1,
    ((mkdir_rename_reject root_panel_F (DLG_OK, []) world_F).1 (Or.inr rfl)).2,
    (mkdir_rename_reject root_panel_F (DLG_OK, name_F) world_F).2.1
      { attr := 0x20, time := 0, date := 0, size := 5, name := name_F, selected := 0 }
      (by decide) rfl⟩

/-! ## Theorems: results and progress of the jobs -/

theorem copy_batch_no_skip (fuel : Nat) (s d : Panel) : ∀ (l : List FileEntry) (result : Int)
    (w : World), result ≠ FOPS_SKIP → (copy_batch fuel s d l result w).1 ≠ some FOPS_SKIP
  | [], result, w, h => by simpa [copy_batch] using h
  | f :: rest, result, w, h => by
    simp only [copy_batch]
    split_ifs with h1 h2
    · simpa using h
    · exact copy_batch_no_skip fuel s d rest result w h
    · split
      · simp
      · rename_i res _
        apply copy_batch_no_skip fuel s d rest
        split_ifs with h3
        · decide
        · exact h3

theorem move_batch_no_skip (fuel : Nat) (s d : Panel) : ∀ (l : List FileEntry) (result : Int)
    (w : World), result ≠ FOPS_SKIP → (move_batch fuel s d l result w).1 ≠ some FOPS_SKIP
  | [], result, w, h => by simpa [move_batch] using h
  | f :: rest, result, w, h => by
    simp only [move_batch]
    by_cases h1 : result = FOPS_CANCEL
    · rw [if_pos h1]; simpa using h
    · rw [if_neg h1]
      by_cases h2 : f.selected = 0
      · rw [if_pos h2]; exact move_batch_no_skip fuel s d rest result w h
      · rw [if_neg h2]
        generalize (if s.drive = d.drive then
          dos_rename (build_src_path s f) (build_dst_path d f.name)
            ({ w with g_file_current := u16add w.g_file_current 1 }.emit
              (Ev.progress Label.moving f.name (u16add w.g_file_current 1) w.g_file_count))
          else (-1, { w with g_file_current := u16add w.g_file_current 1 }.emit
              (Ev.progress Label.moving f.name (u16add w.g_file_current 1) w.g_file_count))) = rn
        split_ifs
        · exact move_batch_no_skip fuel s d rest result _ h
        · split
          · simp
          · rename_i res _
            apply move_batch_no_skip fuel s d rest
            split_ifs with h4
            · decide
            · exact h4

/-- With at least one entry selected, `fops_copy` and `fops_move` do not return
`FOPS_SKIP`: their loops turn it into `FOPS_OK`. -/
theorem batch_job_no_skip (fuel : Nat) (s d : Panel) (w : World)
    (hsel : count_selected_files s ≠ 0) :
    (fops_copy fuel s d w).1 ≠ some FOPS_SKIP ∧ (fops_move fuel s d w).1 ≠ some FOPS_SKIP := by
  constructor
  · unfold fops_copy
    simp only [if_neg hsel]
    split_ifs
    · simp [FOPS_CANCEL, FOPS_SKIP]
    · exact copy_batch_no_skip fuel s d _ _ _ (by decide)
  · unfold fops_move
    simp only [if_neg hsel]
    split_ifs
    · simp [FOPS_CANCEL, FOPS_SKIP]
    · exact move_batch_no_skip fuel s d _ _ _ (by decide)

/-! ## C26 -/

/-- C26 (evaluation at the failing input). Drives A and B both hold `F.TXT`; nothing is
selected and the cursor of the source panel is on `F.TXT`. The user picks Copy (resp. Move)
and answers the overwrite prompt with No: `fops_copy_file` returns `FOPS_SKIP`, and the
single-entry branch of `fops_copy` (resp. `fops_move`) returns that value as it is. -/
theorem copy_single_returns_skip :
    count_selected_files root_panel_F = 0 ∧
    (fops_copy 10 root_panel_F panel_B_F (world_conflict 67)).1 = some FOPS_SKIP ∧
    (fops_move 10 root_panel_F panel_B_F (world_conflict 77)).1 = some FOPS_SKIP := by
  decide

/-! ## C29 -/

/-- C29 (evaluation at the failing input). Nothing is selected, the cursor is on the
directory `D`, which holds `X.TXT` and `Z.TXT`, and the user picks Copy. The job has one
top-level target (`g_file_count = 1`); its progress reports are `D` 0 of 1, then from
`fops_copy_dir` `X.TXT` 1 of 1 and `Z.TXT` 2 of 1. -/
theorem progress_exceeds_total :
    (fops_copy 10 panel_A_D panel_B world_dir2).1 = some FOPS_OK ∧
    (fops_copy 10 panel_A_D panel_B world_dir2).2.2.log.filter
        Ev.isProgress =
      [Ev.progress Label.copying (cstr "D") 0 1, Ev.progress Label.copying (cstr "X.TXT") 1 1,
       Ev.progress Label.copying (cstr "Z.TXT") 2 1] := by
  decide

/-! ## Theorems: number formatting -/

theorem rev_digits_no_comma : ∀ (fuel num : Nat), ∀ c ∈ rev_digits fuel num, c ≠ 44
  | 0, _, c, h => by simp [rev_digits] at h
  | fuel + 1, num, c, h => by
    simp only [rev_digits] at h
    split_ifs at h
    · simp only [List.mem_cons] at h
      rcases h with rfl | h
      · omega
      · exact rev_digits_no_comma fuel _ c h
    · simp at h

theorem comma_loop_filter (temp : List Nat) (digits : Nat) (h : ∀ c ∈ temp, c ≠ 44) :
    ∀ i, i ≤ temp.length →
      (comma_loop temp digits i).filter (fun c => c != 44) = (temp.take i).reverse
  | 0, _ => by simp [comma_loop]
  | i + 1, hi => by
    have hlt : i < temp.length := hi
    have hc : chr temp i = temp[i] := by simp [chr, hlt]
    have hne : (chr temp i != 44) = true := by
      rw [hc]
      simpa using h _ (List.getElem_mem hlt)
    simp only [comma_loop, List.filter_cons, hne, if_true, List.filter_append]
    rw [comma_loop_filter temp digits h i (by omega), List.take_succ]
    have hget : temp[i]? = some temp[i] := List.getElem?_eq_getElem hlt
    rw [hget]
    simp only [Option.toList, List.reverse_append, List.reverse_cons, List.reverse_nil,
      List.nil_append, List.singleton_append, hc]
    split_ifs <;> simp

/-- Taking the commas out of the output of `num_format` gives the output of
`num_format_simple`. -/
theorem num_format_digits (n : Nat) :
    (num_format n).filter (fun c => c != 44) = num_format_simple n := by
  unfold num_format num_format_simple
  split_ifs
  · rfl
  · rw [comma_loop_filter _ _ (rev_digits_no_comma 10 n) _ (le_refl _), List.take_length]

/-! ## C27 -/

/-- C27 (evaluation at the failing input). `num_format` puts a comma behind every third
digit counted from the left: 1234567 comes out as `123,456,7`, not as the `1,234,567` of the
claim and of `util.h`, and 1000 comes out as `100,0`. Numbers with three or six digits come
out right. -/
theorem num_format_groups_from_left :
    num_format 1234567 = cstr "123,456,7" ∧ num_format 1234567 ≠ cstr "1,234,567" ∧
    num_format 1000 = cstr "100,0" ∧ num_format 123456 = cstr "123,456" ∧
    num_format_simple 1234567 = cstr "1234567" := by
  decide

/-! ## Theorems: configuration file -/

theorem char_upper_eq_61 (c : Nat) (h : char_upper c = 61) : c = 61 := by
  unfold char_upper at h
  split_ifs at h <;> omega

/-- A string that `str_cmp_i` finds equal to a key word holds no `=` sign. -/
theorem after_eq_of_cmp : ∀ (k l : List Nat), (∀ c ∈ k, c ≠ 0 ∧ char_upper c ≠ 61) →
    str_cmp_i l k = 0 → after_eq l = none
  | [], [], _, _ => rfl
  | [], c1 :: l, _, h => by
    simp only [str_cmp_i, char_upper_zero] at h
    have : char_upper c1 = 0 := by omega
    rw [char_upper_eq_zero] at this
    simp [after_eq, this]
  | c2 :: k, [], hk, h => by
    simp only [str_cmp_i, char_upper_zero] at h
    have h2 : char_upper c2 = 0 := by omega
    rw [char_upper_eq_zero] at h2
    exact absurd h2 (hk c2 (List.mem_cons_self _ _)).1
  | c2 :: k, c1 :: l, hk, h => by
    have hc2 := hk c2 (List.mem_cons_self _ _)
    simp only [str_cmp_i] at h
    by_cases h1 : c1 = 0
    · simp [after_eq, h1]
    · simp only [ne_eq, h1, not_false_eq_true, hc2.1, and_self, if_true] at h
      split_ifs at h with hu
      · have h61 : c1 ≠ 61 := by
          rintro rfl
          exact hc2.2 (by rw [← hu]; decide)
        simp only [after_eq, h1, h61, if_false]
        split_ifs
        · rfl
        · exact after_eq_of_cmp k l (fun c hc => hk c (List.mem_cons_of_mem _ hc)) h
      · omega

/-- The two branches of `parse_line` that store a path are never taken: `parse_line` leaves
`left_path` and `right_path` of every record as they are, whatever the line. -/
theorem parse_line_keeps_paths (cfg : Config) (line : List Nat) :
    (parse_line cfg line).left_path = cfg.left_path ∧
    (parse_line cfg line).right_path = cfg.right_path := by
  unfold parse_line
  simp only
  generalize skip_whitespace line = l
  by_cases h1 : chr l 0 = 59 ∨ chr l 0 = 35 ∨ chr l 0 = 0 ∨ chr l 0 = 10 ∨ chr l 0 = 13
  · rw [if_pos h1]; exact ⟨rfl, rfl⟩
  rw [if_neg h1]
  by_cases h2 : chr l 0 = 91
  · rw [if_pos h2]; exact ⟨rfl, rfl⟩
  rw [if_neg h2]
  · cases hae : after_eq l with
    | none => exact ⟨rfl, rfl⟩
    | some rest =>
      have hLP : str_cmp_i l (cstr "LeftPath") ≠ 0 := by
        intro h
        have := after_eq_of_cmp (cstr "LeftPath") l (by decide) h
        rw [hae] at this
        exact absurd this (by simp)
      have hRP : str_cmp_i l (cstr "RightPath") ≠ 0 := by
        intro h
        have := after_eq_of_cmp (cstr "RightPath") l (by decide) h
        rw [hae] at this
        exact absurd this (by simp)
      simp only
      split_ifs <;> first | exact ⟨rfl, rfl⟩ | (exfalso; simp_all)

theorem split_lines_keeps_paths : ∀ (buf line : List Nat) (cfg : Config),
    (split_lines buf line cfg).left_path = cfg.left_path ∧
    (split_lines buf line cfg).right_path = cfg.right_path
  | [], _, _ => ⟨rfl, rfl⟩
  | c :: rest, line, cfg => by
    simp only [split_lines]
    split_ifs
    · have h1 := split_lines_keeps_paths rest [] (parse_line cfg line)
      have h2 := parse_line_keeps_paths cfg line
      exact ⟨h1.1.trans h2.1, h1.2.trans h2.2⟩
    · exact split_lines_keeps_paths rest _ cfg
    · exact split_lines_keeps_paths rest _ cfg
    · exact split_lines_keeps_paths rest _ cfg

/-- Whatever `IGC.INI` holds, `config_load` delivers the default path `\` for both panels. -/
theorem config_load_paths (drive : Nat) (text : List Nat) :
    (config_load drive text).2.left_path = [92] ∧ (config_load drive text).2.right_path = [92] := by
  unfold config_load
  simp only
  split_ifs
  · exact ⟨rfl, rfl⟩
  · exact split_lines_keeps_paths _ _ _

/-! ## C28 -/

set_option maxRecDepth 100000 in
/-- C28 (evaluation at the failing input). `sample_config` has the left panel on `C:\SUB`.
`config_save` writes the line `LeftPath=\SUB`; on loading, `parse_line` takes every line that
starts with `L` for the `LeftDrive` line, so the path is never stored: the record that
`config_load` fills has the default path `\` on the left, while drives and active panel come
back as saved. -/
theorem config_roundtrip_loses_path :
    sample_config.left_path = cstr "\\SUB" ∧
    config_load 0 (config_text sample_config) =
      (true, { left_drive := 2, left_path := [92], right_drive := 3, right_path := [92],
               active_panel := 1 }) ∧
    (config_load 0 (config_text sample_config)).2.left_path ≠ sample_config.left_path := by
  decide

/-! ## Theorems: path round trip -/

theorem find_last_absent (c : Nat) : ∀ (s : List Nat) (i : Nat) (last : Option Nat),
    c ∉ s → str_find_last_from c s i last = last
  | [], _, _, _ => rfl
  | x :: s, i, last, h => by
    have hx : x ≠ c := fun e => h (by rw [e]; exact List.mem_cons_self _ _)
    simp only [str_find_last_from, if_neg hx]
    exact find_last_absent c s (i + 1) last (fun hm => h (List.mem_cons_of_mem _ hm))

theorem find_last_split (c : Nat) (b : List Nat) (hb : c ∉ b) :
    ∀ (a : List Nat) (i : Nat) (last : Option Nat),
      str_find_last_from c (a ++ c :: b) i last = some (i + a.length)
  | [], i, last => by
    simp only [List.nil_append, str_find_last_from, if_true, List.length_nil, Nat.add_zero]
    exact find_last_absent c b (i + 1) (some i) hb
  | x :: a, i, last => by
    have ih := find_last_split c b hb a (i + 1) (if x = c then some i else last)
    simp only [List.cons_append, str_find_last_from, List.length_cons]
    rw [show i + (a.length + 1) = i + 1 + a.length by omega]
    exact ih

/-- A C string that `path_is_root` accepts is empty or a single backslash. -/
theorem root_cases (p : List Nat) (h0 : 0 ∉ p) (h : path_is_root p = true) :
    p = [] ∨ p = [92] := by
  unfold path_is_root at h
  match p, h0, h with
  | [], _, _ => exact Or.inl rfl
  | [a], h0, h =>
    right
    have ha : a ≠ 0 := fun e => h0 (by simp [e])
    simp [chr, ha] at h
    rw [h]
  | a :: b :: rest, h0, h =>
    exfalso
    have ha : a ≠ 0 := fun e => h0 (by simp [e])
    have hb : b ≠ 0 := fun e => h0 (by simp [e])
    simp [chr, ha, hb] at h

theorem path_append_sep (p name : List Nat) (hne : p ≠ []) (hlast : p.getLast? ≠ some 92) :
    path_append p name = p ++ 92 :: name := by
  have hlen : 0 < p.length := List.length_pos.2 hne
  have hc : chr p (p.length - 1) ≠ 92 := by
    unfold chr
    rw [List.getD_eq_getElem?_getD, ← List.getLast?_eq_getElem?]
    cases hl : p.getLast? with
    | none => simp
    | some x =>
      rw [hl] at hlast
      simpa using hlast
  unfold path_append
  rw [if_pos ⟨hlen, hc⟩]
  simp

theorem not_root_child (p name : List Nat) (h0 : 0 ∉ p) (hp : path_is_root p = false)
    (hlast : p.getLast? ≠ some 92) : path_is_root (p ++ 92 :: name) = false := by
  unfold path_is_root at hp ⊢
  match p, h0, hp, hlast with
  | [], _, hp, _ => simp [chr] at hp
  | [a], h0, _, hlast =>
    have ha : a ≠ 0 := fun e => h0 (by simp [e])
    have h92 : a ≠ 92 := by simpa using hlast
    simp [chr, ha, h92]
  | a :: b :: rest, h0, _, _ =>
    have ha : a ≠ 0 := fun e => h0 (by simp [e])
    have hb : b ≠ 0 := fun e => h0 (by simp [e])
    simp [chr, ha, hb]

/-- Parent and base name of a path that `path_append` has built. -/
theorem path_parent_of_append (p name : List Nat) (hn92 : 92 ∉ name) (h0 : 0 ∉ p)
    (hp : path_is_root p = true ∨ p.getLast? ≠ some 92) :
    path_get_parent (path_append p name) = p ∧ path_basename (path_append p name) = name := by
  have hplain : ∀ q : List Nat, q ≠ [] → q.getLast? ≠ some 92 →
      path_get_parent (path_append q name) = q ∧ path_basename (path_append q name) = name := by
    intro q hne hlast
    rw [path_append_sep q name hne hlast]
    have hf : str_find_last (q ++ 92 :: name) 92 = some q.length := by
      unfold str_find_last
      rw [find_last_split 92 name hn92 q 0 none]
      simp
    obtain ⟨n, hn⟩ : ∃ n, q.length = n + 1 :=
      ⟨q.length - 1, by have := List.length_pos.2 hne; omega⟩
    constructor
    · unfold path_get_parent
      rw [hf, hn]
      simp only
      rw [← hn, List.take_left]
    · unfold path_basename path_get_filename
      rw [hf]
      simp only
      rw [show q ++ 92 :: name = (q ++ [92]) ++ name by simp,
        show q.length + 1 = (q ++ [92]).length by simp, List.drop_left]
  by_cases hroot : path_is_root p = true
  · rcases root_cases p h0 hroot with rfl | rfl
    · have hf : str_find_last name 92 = none := find_last_absent 92 name 0 none hn92
      have ha : path_append [] name = name := by simp [path_append]
      rw [ha]
      constructor
      · unfold path_get_parent
        rw [hf]
      · unfold path_basename path_get_filename
        rw [hf]
    · have ha : path_append [92] name = 92 :: name := by simp [path_append, chr]
      have hf : str_find_last (92 :: name) 92 = some 0 := by
        unfold str_find_last
        have := find_last_split 92 name hn92 [] 0 none
        simpa using this
      rw [ha]
      constructor
      · unfold path_get_parent
        rw [hf]
        rfl
      · unfold path_basename path_get_filename
        rw [hf]
        rfl
  · rcases hp with hp | hp
    · exact absurd hp hroot
    · have hne : p ≠ [] := by
        rintro rfl
        exact hroot (by decide)
      exact hplain p hne hp

theorem read_dir_path (p : Panel) (raw : List DTA) : (panel_read_dir p raw).path = p.path := rfl

/-! ## C30 -/

/-- C30. Let the panel path `p` be a root path or end in a character other than the
backslash, and let `name` be a non-empty name without a backslash (both C strings, so without
a NUL). After `panel_change_dir(name)` and `panel_go_parent` the path is `p` again when `p` is
not a root path, and a root path when `p` is one; and `path_get_parent` and `path_basename`
take `path_append(p, name)` apart into `p` and `name`. -/
theorem change_dir_go_parent (p : Panel) (name : List Nat) (raw1 raw2 : List DTA)
    (hname : name ≠ [] ∧ 92 ∉ name ∧ 0 ∉ name) (h0 : 0 ∉ p.path)
    (hp : path_is_root p.path = true ∨ p.path.getLast? ≠ some 92) :
    (path_is_root p.path = false →
      (panel_go_parent (panel_change_dir p name raw1) raw2).path = p.path) ∧
    (path_is_root p.path = true →
      path_is_root (panel_go_parent (panel_change_dir p name raw1) raw2).path = true) ∧
    path_get_parent (path_append p.path name) = p.path ∧
    path_basename (path_append p.path name) = name := by
  obtain ⟨hne, hn92, hn0⟩ := hname
  obtain ⟨hpar, hbase⟩ := path_parent_of_append p.path name hn92 h0 hp
  refine ⟨?_, ?_, hpar, hbase⟩
  · intro hroot
    have hlast : p.path.getLast? ≠ some 92 := by
      rcases hp with hp | hp
      · rw [hroot] at hp; exact absurd hp (by decide)
      · exact hp
    have hpne : p.path ≠ [] := by
      intro e
      rw [e] at hroot
      exact absurd hroot (by decide)
    have hcond : ¬ (chr p.path 0 = 0 ∨ (chr p.path 0 = 92 ∧ chr p.path 1 = 0)) := by
      intro hc
      have : path_is_root p.path = true := by
        unfold path_is_root
        rcases hc with hc | hc
        · rw [if_pos hc]
        · split_ifs <;> rfl
      rw [hroot] at this
      exact absurd this (by decide)
    have hcd : (panel_change_dir p name raw1).path = path_append p.path name := by
      unfold panel_change_dir
      rw [read_dir_path]
      simp only [if_neg hcond]
    have hnr : path_is_root (panel_change_dir p name raw1).path = false := by
      rw [hcd, path_append_sep p.path name hpne hlast]
      exact not_root_child p.path name h0 hroot hlast
    unfold panel_go_parent
    rw [hnr]
    simp only [Bool.false_eq_true, if_false]
    rw [read_dir_path]
    simp only
    rw [hcd, hpar]
  · intro hroot
    have hcond : chr p.path 0 = 0 ∨ (chr p.path 0 = 92 ∧ chr p.path 1 = 0) := by
      rcases root_cases p.path h0 hroot with e | e <;> rw [e] <;> simp [chr]
    have hcd : (panel_change_dir p name raw1).path = 92 :: name := by
      unfold panel_change_dir
      rw [read_dir_path]
      simp only [if_pos hcond]
    obtain ⟨c, rest, rfl⟩ : ∃ c rest, name = c :: rest := by
      cases name with
      | nil => exact absurd rfl hne
      | cons c rest => exact ⟨c, rest, rfl⟩
    have hc0 : c ≠ 0 := fun e => hn0 (by simp [e])
    have hnr : path_is_root (panel_change_dir p (c :: rest) raw1).path = false := by
      rw [hcd]
      simp [path_is_root, chr, hc0]
    unfold panel_go_parent
    rw [hnr]
    simp only [Bool.false_eq_true, if_false]
    rw [read_dir_path]
    simp only
    rw [hcd]
    have hf : str_find_last (92 :: c :: rest) 92 = some 0 := by
      unfold str_find_last
      have := find_last_split 92 (c :: rest) hn92 [] 0 none
      simpa using this
    unfold path_get_parent
    rw [hf]
    rfl

theorem change_dir_go_parent_witness :
    (sample_panel.path = cstr "\\SUB" ∧ sample_panel.path.getLast? ≠ some 92) ∧
    (panel_go_parent (panel_change_dir sample_panel (cstr "X") sample_raw) sample_raw).path =
      sample_panel.path ∧
    path_get_parent (path_append sample_panel.path (cstr "X")) = sample_panel.path ∧
    path_basename (path_append sample_panel.path (cstr "X")) = cstr "X" :=
  ⟨by decide,
    (change_dir_go_parent sample_panel (cstr "X") sample_raw sample_raw (by decide) (by decide)
      (Or.inr (by decide))).1 (by decide),
    (change_dir_go_parent sample_panel (cstr "X") sample_raw sample_raw (by decide) (by decide)
      (Or.inr (by decide))).2.2⟩

end IGC
